import Mathlib

/-!
# DSP guitar pedal: a shallow embedding of the effect engines

The engines of `lib/BigMuffEffect`, `lib/LeslieEffect`, `lib/OctaveEffect`,
`lib/OrchestraEffect` and `lib/SimpleEffects` are embedded as pure functions.

Modelling conventions

* `float` arithmetic is idealised as exact arithmetic in a linear ordered field `α`
  with a floor function (`ℚ` evaluates, `ℝ` is the exact reading); no rounding, no NaN.
* `int16_t`, `int32_t` and `int` values are mathematical integers (`Int`); the casts
  `(int)x`, `(int32_t)x`, `(int16_t)x` of a float truncate toward zero.
* the C math library (`atanf`, `sinf`, `cosf`, `expf`, `tanhf` and the constant `M_PI`;
  `fabsf` is the absolute value) is a parameter `Libm α`: the engines are defined for
  any such functions, and the theorems state which of their properties they use.
* a sample block is a `List Int`; an internal delay buffer is a map `Nat → α`
  (or `Nat → Int`) from cell index to content.
* member functions take the instance state as an argument and return the next state.
-/

namespace Pedal

/-- The C math library functions the engines call, over the carrier `α`. -/
structure Libm (α : Type) where
  atanf : α → α
  sinf : α → α
  cosf : α → α
  expf : α → α
  tanhf : α → α
  M_PI : α

/-- The math library over the reals, with the real functions. -/
noncomputable def realLibm : Libm ℝ :=
  { atanf := Real.arctan, sinf := Real.sin, cosf := Real.cos,
    expf := Real.exp, tanhf := Real.tanh, M_PI := Real.pi }

section Core

variable {α : Type} [LinearOrderedField α] [FloorRing α]

/-- The C conversion of a float to an integer type: truncation toward zero. -/
def truncToInt (x : α) : Int := if 0 ≤ x then ⌊x⌋ else ⌈x⌉

end Core

/-- The per-sample loop `for (i = 0; i < n; i++)` over a block: the body `step` reads
sample `i`, updates the instance state and yields the sample written at index `i`. -/
def runBlock {σ ι ο : Type} (step : σ → ι → σ × ο) : σ → List ι → σ × List ο
  | st, [] => (st, [])
  | st, x :: xs =>
    let r := step st x
    let rest := runBlock step r.1 xs
    (rest.1, r.2 :: rest.2)

end Pedal

/-! ## BigMuffEffect (distortion engine) -/

namespace BigMuffEffect

variable {α : Type} [LinearOrderedField α] [FloorRing α]

/-- `BigMuffEffect::clamp01`. -/
def clamp01 (x : α) : α :=
  if x < 0 then 0 else if x > 1 then 1 else x

/-- `BigMuffEffect::lerp`. -/
def lerp (a b t : α) : α := a + (b - a) * t

/-- `BigMuffEffect::clamp16`. -/
def clamp16 (x : Int) : Int :=
  if x > 32767 then 32767 else if x < -32768 then -32768 else x

/-- `BigMuffEffect::Params`. -/
structure Params (α : Type) where
  drive : α
  tone : α
  shape : α
  pres : α

/-- The private state of a `BigMuffEffect` instance. -/
structure State (α : Type) where
  dc_x1 : α
  dc_y1 : α
  hp1_lp : α
  hp2_lp : α
  hp3_lp : α
  preLP : α
  postLP : α
  toneLP : α
  osLP : α
  xPrev : α

/-- `BigMuffEffect::reset`: every field is assigned. -/
def reset (_st : State α) : State α :=
  { dc_x1 := 0, dc_y1 := 0, hp1_lp := 0, hp2_lp := 0, hp3_lp := 0,
    preLP := 0, postLP := 0, toneLP := 0, osLP := 0, xPrev := 0 }

/-- The constructor `BigMuffEffect::BigMuffEffect() { reset(); }` applied to the
member initialisers of the header. -/
def construct : State α :=
  reset { dc_x1 := 0, dc_y1 := 0, hp1_lp := 0, hp2_lp := 0, hp3_lp := 0,
          preLP := 0, postLP := 0, toneLP := 0, osLP := 0, xPrev := 0 }

/-- `BigMuffEffect::dcBlock`: the returned `y`, with the new `x1` and `y1`. -/
def dcBlock (x x1 y1 R : α) : α × α × α :=
  let y := x - x1 + R * y1
  (y, x, y)

/-- `BigMuffEffect::onePoleLP`: the returned value, which is also the new `y`. -/
def onePoleLP (x y a : α) : α := y + a * (x - y)

/-- `BigMuffEffect::onePoleHP_viaLP`: the returned value and the new `lpState`. -/
def onePoleHP_viaLP (x lpState a : α) : α × α :=
  let lpState := lpState + a * (x - lpState)
  (x - lpState, lpState)

/-- `BigMuffEffect::satAtan`: `(2.0f / 3.14159265f) * atanf(k * x)`. The divisor is the
float32 value that the literal `3.14159265f` denotes, 13176795 / 2^22 =
3.14159274101257324..., because the range of the function depends on how the divisor
compares with pi (the float is above pi, the decimal 3.14159265 is below). -/
def satAtan (L : Pedal.Libm α) (x k : α) : α :=
  (2 / (13176795 / 4194304)) * L.atanf (k * x)

/-- `BigMuffEffect::softLimit`. -/
def softLimit (x : α) : α :=
  let x := if x > 1.2 then 1.2 else x
  let x := if x < -1.2 then -1.2 else x
  x

/-- The clamp `if (a < 0.001f) a = 0.001f; if (a > 0.45f) a = 0.45f;`. -/
def clampCoef (a : α) : α :=
  let a := if a < 0.001 then 0.001 else a
  let a := if a > 0.45 then 0.45 else a
  a

/-- The per-block values `processMonoWet` derives from the knobs before its loop. -/
structure Coeffs (α : Type) where
  tone : α
  g1 : α
  g2 : α
  g3 : α
  inPad : α
  k1 : α
  k2 : α
  k3 : α
  bias : α
  hpA1 : α
  hpA2 : α
  hpA3 : α
  preA : α
  toneA : α
  postA : α
  osA : α
  outScale : α

/-- The head of `processMonoWet`, up to the sample loop. -/
def coeffs (fs : α) (pIn : Params α) : Coeffs α :=
  let drive := clamp01 pIn.drive
  let tone := clamp01 pIn.tone
  let shape := clamp01 pIn.shape
  let pres := clamp01 pIn.pres
  let fs2 := fs * 2
  let g1 := lerp 1.4 5.5 drive
  let g2 := lerp 1.4 6.5 drive
  let g3 := lerp 1.2 4.8 drive
  let inPad := lerp 0.55 0.22 drive
  let kBase := lerp 2.0 6.0 drive
  let kHard := lerp 1.8 2.8 shape
  let k1 := kBase * kHard
  let k2 := (kBase * 1.1) * kHard
  let k3 := (kBase * 0.9) * kHard
  let bias := lerp 0.00 0.04 shape
  let hpA1 := lerp 0.0045 0.012 drive
  let hpA2 := lerp 0.0040 0.010 drive
  let hpA3 := lerp 0.0035 0.009 drive
  let preHz := lerp 2600 900 drive
  let preHz := lerp preHz 700 pres
  let preA := clampCoef (preHz / fs2)
  let toneHz := lerp 650 2200 pres
  let toneA := clampCoef (toneHz / fs2)
  let postHz := lerp 1600 4200 pres
  let postA := clampCoef (postHz / fs2)
  let osCutHz : α := 12000
  let osA := clampCoef (osCutHz / fs2)
  let outScale : α := 0.55
  { tone := tone, g1 := g1, g2 := g2, g3 := g3, inPad := inPad, k1 := k1, k2 := k2,
    k3 := k3, bias := bias, hpA1 := hpA1, hpA2 := hpA2, hpA3 := hpA3, preA := preA,
    toneA := toneA, postA := postA, osA := osA, outScale := outScale }

/-- One pass of the 2x oversampling loop body on the sub-sample `x`: the new state and
the anti-aliased value `ytAA`. -/
def osStep (L : Pedal.Libm α) (c : Coeffs α) (st : State α) (x : α) : State α × α :=
  let x := x * c.inPad
  let d := dcBlock x st.dc_x1 st.dc_y1 0.995
  let x := d.1
  let preLP := onePoleLP x st.preLP c.preA
  let x := preLP
  let s1 := x * c.g1 + c.bias
  let h1 := onePoleHP_viaLP (satAtan L s1 c.k1) st.hp1_lp c.hpA1
  let y1 := h1.1
  let s2 := y1 * c.g2
  let h2 := onePoleHP_viaLP (satAtan L s2 c.k2) st.hp2_lp c.hpA2
  let y2 := h2.1
  let s3 := y2 * c.g3
  let h3 := onePoleHP_viaLP (satAtan L s3 c.k3) st.hp3_lp c.hpA3
  let y3 := h3.1
  let toneLP := onePoleLP y3 st.toneLP c.toneA
  let lp := toneLP
  let hp := y3 - lp
  let yt := (1 - c.tone) * lp + c.tone * hp
  let postLP := onePoleLP yt st.postLP c.postA
  let yt := softLimit postLP
  let osLP := onePoleLP yt st.osLP c.osA
  ({ dc_x1 := d.2.1, dc_y1 := d.2.2, hp1_lp := h1.2, hp2_lp := h2.2, hp3_lp := h3.2,
     preLP := preLP, postLP := postLP, toneLP := toneLP, osLP := osLP,
     xPrev := st.xPrev }, osLP)

/-- The body of the sample loop of `processMonoWet` on the sample `mono[i]`: the new
state and the sample written back. -/
def sampleStep (L : Pedal.Libm α) (c : Coeffs α) (st : State α) (s : Int) :
    State α × Int :=
  let x1 : α := (s : α) / 32768
  let x0 := st.xPrev
  let xHalf := 0.5 * (x0 + x1)
  let r0 := osStep L c st xHalf
  let r1 := osStep L c r0.1 x1
  let yOut := r1.2 * c.outScale
  let out := Pedal.truncToInt (yOut * 32767)
  ({ r1.1 with xPrev := x1 }, clamp16 out)

/-- `BigMuffEffect::processMonoWet` on the block `mono` (its `n` samples) at rate `fs`:
the new state and the block as rewritten in place. -/
def processMonoWet (L : Pedal.Libm α) (st : State α) (mono : List Int) (fs : α)
    (pIn : Params α) : State α × List Int :=
  Pedal.runBlock (sampleStep L (coeffs fs pIn)) st mono

end BigMuffEffect

/-! ## SimpleFX: helpers -/

namespace SimpleFX

open Pedal

variable {α : Type} [LinearOrderedField α] [FloorRing α]

/-- `SimpleFX::clampf`. -/
def clampf (x lo hi : α) : α :=
  if x < lo then lo else if x > hi then hi else x

/-- `SimpleFX::int16ToFloat`. -/
def int16ToFloat (s : Int) : α :=
  if s ≥ 0 then (s : α) / 32767 else (s : α) / 32768

/-- `SimpleFX::floatToInt16`. -/
def floatToInt16 (x : α) : Int :=
  let x := clampf x (-1) 1
  if x ≥ 0 then truncToInt (x * 32767) else truncToInt (x * 32768)

end SimpleFX

/-! ## OctaveEffect (octave engine) -/

namespace OctaveEffect

variable {α : Type} [LinearOrderedField α] [FloorRing α]

/-- `OctaveEffect::clamp01`. -/
def clamp01 (x : α) : α :=
  if x < 0 then 0 else if x > 1 then 1 else x

/-- `OctaveEffect::clamp16`. -/
def clamp16 (x : Int) : Int :=
  if x > 32767 then 32767 else if x < -32768 then -32768 else x

/-- `OctaveEffect::lerp`. -/
def lerp (a b t : α) : α := a + (b - a) * t

/-- `OctaveEffect::onePoleLP`: the returned value, which is also the new `y`. -/
def onePoleLP (x y a : α) : α := y + a * (x - y)

/-- `OctaveEffect::satAtan`: `(2.0f / 3.14159265f) * atanf(k * x)`, with the divisor
read as in `BigMuffEffect.satAtan`: the float32 value 13176795 / 2^22 of the literal. -/
def satAtan (L : Pedal.Libm α) (x k : α) : α :=
  (2 / (13176795 / 4194304)) * L.atanf (k * x)

/-- `OctaveEffect::Params`. -/
structure Params (α : Type) where
  blend : α
  mix : α
  tracking : α
  character : α

/-- The private state of an `OctaveEffect` instance. The counters are `int` in the
source; they are unbounded integers here. -/
structure State (α : Type) where
  env : α
  samplesSinceCross : Int
  freqSmoothed : α
  phase : α
  sign : Int
  trackingActive : Bool
  hangSamples : Int
  preLP : α
  upLP : α
  upDC : α
  oscLP : α
  postLP : α

/-- `OctaveEffect::reset`: every field is assigned. -/
def reset (_st : State α) : State α :=
  { env := 0, samplesSinceCross := 0, freqSmoothed := 200, phase := 0, sign := 0,
    trackingActive := false, hangSamples := 0,
    preLP := 0, upLP := 0, upDC := 0, oscLP := 0, postLP := 0 }

/-- The constructor `OctaveEffect::OctaveEffect() { reset(); }` applied to the member
initialisers of the header. -/
def construct : State α :=
  reset { env := 0, samplesSinceCross := 0, freqSmoothed := 200, phase := 0, sign := 0,
          trackingActive := false, hangSamples := 0,
          preLP := 0, upLP := 0, upDC := 0, oscLP := 0, postLP := 0 }

/-- The clamp `if (a < 0.001f) a = 0.001f; if (a > 0.45f) a = 0.45f;`. -/
def clampCoef (a : α) : α :=
  let a := if a < 0.001 then 0.001 else a
  let a := if a > 0.45 then 0.45 else a
  a

/-- The constant `fMin` of `processMono`. -/
def fMin : α := 55

/-- The constant `fMax` of `processMono`. -/
def fMax : α := 800

/-- The per-block values `processMono` derives from the knobs before its loop. -/
structure Tuning (α : Type) where
  blend : α
  wDown : α
  wUp : α
  wScale : α
  gateOn : α
  gateOff : α
  hangMax : Int
  freqSmooth : α
  maxJump : α
  hyst : α
  preA : α
  upA : α
  upDCA : α
  upDrive : α
  upGain : α
  sqMix : α
  oscLPA : α
  postA : α

/-- The head of `processMono`, up to the sample loop. -/
def tuning (fs : α) (pIn : Params α) : Tuning α :=
  let blend := clamp01 pIn.blend
  let mix := clamp01 pIn.mix
  let tracking := clamp01 pIn.tracking
  let character := clamp01 pIn.character
  let wDown : α := if mix ≤ 0.5 then 1 else 2 * (1 - mix)
  let wUp : α := if mix ≤ 0.5 then 2 * mix else 1
  let wScale := 0.5 * (wDown + wUp)
  let wScale := if wScale < 0.5 then 0.5 else wScale
  let gateBase := lerp 0.030 0.006 tracking
  let gateOn := gateBase * 1.25
  let gateOff := gateBase * 0.75
  let hangMax := Pedal.truncToInt (fs * lerp 0.15 0.20 tracking)
  let freqSmooth := lerp 0.03 0.22 tracking
  let maxJump := lerp 0.18 0.55 tracking
  let hyst := lerp 0.004 0.012 tracking
  let preHz : α := 900
  let preA := clampCoef (preHz / fs)
  let upHz := lerp 2500 7500 character
  let upA := clampCoef (upHz / fs)
  let upDCHz : α := 40
  let upDCA := upDCHz / fs
  let upDCA := if upDCA < 0.0005 then 0.0005 else upDCA
  let upDrive := lerp 2.0 7.0 character
  let upGain := lerp 2.8 4.2 character
  let sqMix := character
  let oscLPHz : α := 5000
  let oscLPA := clampCoef (oscLPHz / fs)
  let postHz := lerp 1800 5200 character
  let postA := clampCoef (postHz / fs)
  { blend := blend, wDown := wDown, wUp := wUp, wScale := wScale, gateOn := gateOn,
    gateOff := gateOff, hangMax := hangMax, freqSmooth := freqSmooth, maxJump := maxJump,
    hyst := hyst, preA := preA, upA := upA, upDCA := upDCA, upDrive := upDrive,
    upGain := upGain, sqMix := sqMix, oscLPA := oscLPA, postA := postA }

/-- The envelope follower line of the loop: the new `_env` for the rectified sample `ax`. -/
def envFollow (env ax : α) : α :=
  let envA : α := 0.015
  let envR : α := 0.0030
  env + (if ax > env then envA else envR) * (ax - env)

/-- The "gate + hang" block of the loop: the new `_trackingActive` and `_hangSamples`
for the updated envelope `env`. -/
def gateStep (c : Tuning α) (env : α) (trackingActive : Bool) (hangSamples : Int) :
    Bool × Int :=
  if !trackingActive then
    if env > c.gateOn then (true, c.hangMax) else (trackingActive, hangSamples)
  else
    if env < c.gateOff then
      if hangSamples > 0 then (trackingActive, hangSamples - 1) else (false, hangSamples)
    else (trackingActive, c.hangMax)

/-- The tracker update guarded by `if (_trackingActive && period > 10)`, run on a
detected crossing: the new `_freqSmoothed` for the candidate `period`. -/
def trackUpdate (fs : α) (c : Tuning α) (freqSmoothed : α) (period : Int) : α :=
  let f := fs / (period : α)
  if f ≥ fMin ∧ f ≤ fMax then
    let fCand := f
    let fCand :=
      if fCand > 1.80 * freqSmoothed ∧ fCand < 2.20 * freqSmoothed then fCand * 0.5
      else fCand
    let fCand :=
      if fCand > 0.45 * freqSmoothed ∧ fCand < 0.55 * freqSmoothed then fCand * 2.0
      else fCand
    let lo := freqSmoothed * (1 - c.maxJump)
    let hi := freqSmoothed * (1 + c.maxJump)
    let fCand := if fCand < lo then lo else fCand
    let fCand := if fCand > hi then hi else fCand
    freqSmoothed + c.freqSmooth * (fCand - freqSmoothed)
  else freqSmoothed

/-- The envelope gate of the down voice: `(_env - gateOff) * 30` clamped to [0, 1] and
quartered when the tracker is not locked. -/
def envGateOf (c : Tuning α) (env : α) (trackingActive : Bool) : α :=
  let envGate := (env - c.gateOff) * 30
  let envGate := if envGate < 0 then 0 else envGate
  let envGate := if envGate > 1 then 1 else envGate
  if !trackingActive then envGate * 0.25 else envGate

/-- The body of the sample loop of `processMono` on the sample `monoIn[i]`: the new
state and the sample written to `monoOut[i]`. -/
def sampleStep (L : Pedal.Libm α) (fs : α) (c : Tuning α) (st : State α) (s : Int) :
    State α × Int :=
  let x : α := (s : α) / 32768
  let ax := |x|
  let env := envFollow st.env ax
  let gate := gateStep c env st.trackingActive st.hangSamples
  let trackingActive := gate.1
  let hangSamples := gate.2
  let up := |x|
  let upLP := onePoleLP up st.upLP c.upA
  let up := satAtan L (upLP * c.upDrive) 2.5
  let upDC := onePoleLP up st.upDC c.upDCA
  let dc := upDC
  let up := (up - dc) * c.upGain
  let preLP := onePoleLP x st.preLP c.preA
  let xt := preLP
  let samplesSinceCross := st.samplesSinceCross + 1
  let newSign := st.sign
  let newSign := if xt > c.hyst then 1 else newSign
  let newSign := if xt < -c.hyst then -1 else newSign
  let crossing : Bool := decide (newSign > 0 ∧ st.sign ≤ 0)
  let sign := newSign
  let period := samplesSinceCross
  let samplesSinceCross := if crossing then 0 else samplesSinceCross
  let freqSmoothed :=
    if crossing ∧ trackingActive ∧ period > 10 then
      trackUpdate fs c st.freqSmoothed period
    else st.freqSmoothed
  let freqSmoothed :=
    if !trackingActive then freqSmoothed + 0.01 * (120 - freqSmoothed) else freqSmoothed
  let fDown := 0.5 * freqSmoothed
  let fDown := if fDown < 20 then 20 else fDown
  let phase := st.phase + fDown / fs
  let phase := if phase ≥ 1 then phase - 1 else phase
  let sn := L.sinf (2 * 3.14159265 * phase)
  let q : α := if sn ≥ 0 then 1 else -1
  let osc := (1 - c.sqMix) * sn + c.sqMix * q
  let oscLP := onePoleLP osc st.oscLP c.oscLPA
  let envGate := envGateOf c env trackingActive
  let down := oscLP * envGate
  let wet := (c.wDown * down + c.wUp * up) / c.wScale
  let postLP := onePoleLP wet st.postLP c.postA
  let y := (1 - c.blend) * x + c.blend * postLP
  let out := Pedal.truncToInt (y * 32767)
  ({ env := env, samplesSinceCross := samplesSinceCross, freqSmoothed := freqSmoothed,
     phase := phase, sign := sign, trackingActive := trackingActive,
     hangSamples := hangSamples, preLP := preLP, upLP := upLP, upDC := upDC,
     oscLP := oscLP, postLP := postLP }, clamp16 out)

/-- The fields on which the output of a silent sample depends are at rest. -/
def Silent (st : State α) : Prop :=
  st.env = 0 ∧ st.trackingActive = false ∧ st.preLP = 0 ∧ st.upLP = 0 ∧ st.upDC = 0 ∧
    st.postLP = 0

/-- `OctaveEffect::processMono` on the block `monoIn` (its `n` samples) at rate `fs`:
the new state and the block written to `monoOut`. -/
def processMono (L : Pedal.Libm α) (st : State α) (monoIn : List Int) (fs : α)
    (pIn : Params α) : State α × List Int :=
  Pedal.runBlock (sampleStep L fs (tuning fs pIn)) st monoIn

end OctaveEffect

/-! ## Ring buffers: the wrap loops and the fractional read -/

namespace Pedal

variable {α : Type} [LinearOrderedField α] [FloorRing α]

/-- The loop `while (r < 0) r += m;` with a bound on the number of iterations. -/
def addWhileNeg (m : α) : Nat → α → α
  | 0, r => r
  | k + 1, r => if r < 0 then addWhileNeg m k (r + m) else r

/-- The loop `while (r >= m) r -= m;` with a bound on the number of iterations. -/
def subWhileGe (m : α) : Nat → α → α
  | 0, r => r
  | k + 1, r => if r ≥ m then subWhileGe m k (r - m) else r

/-- The pair of loops `while (r < 0) r += m; while (r >= m) r -= m;`. For `m > 0` the
first loop runs `⌈-r / m⌉` times and the second `⌊r / m⌋` times, which is the bound
given to each. -/
def wrapLoops (m r : α) : α :=
  let r := addWhileNeg m (⌈-r / m⌉).toNat r
  subWhileGe m (⌊r / m⌋).toNat r

/-- Rounding to the nearest integer, ties to the even one. -/
def roundHalfEven (q : α) : Int :=
  let f := ⌊q⌋
  let r := q - (f : α)
  if r < 1 / 2 then f else if 1 / 2 < r then f + 1 else if f % 2 = 0 then f else f + 1

/-- The float32 value nearest to `x`, ties to even: with `2 ^ e <= |x| < 2 ^ (e + 1)`,
the multiple of `2 ^ (e - 23)` nearest to `x` (a 24-bit significand). The exponent range
of the format (overflow, subnormals) is not modelled. -/
def roundF32 (x : α) : α :=
  if x = 0 then 0
  else
    let e := Int.log 2 |x|
    let ulp : α := 2 ^ (e - 23)
    if 0 < x then (roundHalfEven (x / ulp) : α) * ulp
    else -((roundHalfEven (-x / ulp) : α) * ulp)

/-- The loop `while (r < 0.0f) r += m;` on floats, with a bound on the number of
iterations: each sum is rounded to float32. -/
def addWhileNegF32 (m : α) : Nat → α → α
  | 0, r => r
  | k + 1, r => if r < 0 then addWhileNegF32 m k (roundF32 (r + m)) else r

/-- The fractional read shared by the delay lines: `buf` read `d` samples behind the
write index `w` of a ring of `cap` cells, with linear interpolation. -/
def ringReadFrac (buf : Nat → α) (cap : Nat) (w : Nat) (d : α) : α :=
  let r := wrapLoops (cap : α) ((w : α) - d)
  let i0 := truncToInt r
  let i1 := if i0 + 1 ≥ (cap : Int) then 0 else i0 + 1
  let f := r - (i0 : α)
  buf i0.toNat + f * (buf i1.toNat - buf i0.toNat)

end Pedal

/-! ## OrchestraEffect (shimmer-reverb engine) -/

namespace OrchestraEffect

variable {α : Type} [LinearOrderedField α] [FloorRing α]

/-- `OrchestraEffect::clamp01`. -/
def clamp01 (x : α) : α :=
  if x < 0 then 0 else if x > 1 then 1 else x

/-- `OrchestraEffect::lerp`. -/
def lerp (a b t : α) : α := a + (b - a) * t

/-- `OrchestraEffect::clamp16`. -/
def clamp16 (x : Int) : Int :=
  if x > 32767 then 32767 else if x < -32768 then -32768 else x

/-- `OrchestraEffect::onePoleLP`: the returned value, which is also the new `y`. -/
def onePoleLP (x y a : α) : α := y + a * (x - y)

/-- `OrchestraEffect::onePoleHP_viaLP`: the returned value and the new `lpState`. -/
def onePoleHP_viaLP (x lpState a : α) : α × α :=
  let lpState := lpState + a * (x - lpState)
  (x - lpState, lpState)

/-- `OrchestraEffect::softSat`. -/
def softSat (L : Pedal.Libm α) (x drive : α) : α :=
  let z := x * drive
  let y := L.tanhf z
  let n := L.tanhf drive
  y / (if n > 1e-6 then n else 1)

/-- `OrchestraEffect::DelayLine`: the ring `buf` of `MAX` cells and the write index. -/
structure DelayLine (α : Type) where
  buf : Nat → α
  w : Nat

namespace DelayLine

variable {α : Type} [LinearOrderedField α] [FloorRing α]

/-- `DelayLine::MAX`. -/
def MAX : Nat := 8192

/-- `DelayLine::reset`. -/
def reset (_d : DelayLine α) : DelayLine α :=
  { buf := fun _ => 0, w := 0 }

/-- `DelayLine::push`. -/
def push (d : DelayLine α) (x : α) : DelayLine α :=
  let buf := Function.update d.buf d.w x
  let w := d.w + 1
  let w := if w ≥ MAX then 0 else w
  { buf := buf, w := w }

/-- `DelayLine::readFrac`. -/
def readFrac (d : DelayLine α) (dSamp : α) : α :=
  Pedal.ringReadFrac d.buf MAX d.w dSamp

end DelayLine

/-- `OrchestraEffect::PitchShift`: the ring `buf` of `BUF` cells, the write index and the
four grain phases `ph[0..3]`. -/
structure PitchShift (α : Type) where
  buf : Nat → α
  w : Nat
  ph0 : α
  ph1 : α
  ph2 : α
  ph3 : α

namespace PitchShift

variable {α : Type} [LinearOrderedField α] [FloorRing α]

/-- `PitchShift::BUF`. -/
def BUF : Nat := 8192

/-- `PitchShift::reset`. -/
def reset (_p : PitchShift α) : PitchShift α :=
  { buf := fun _ => 0, w := 0, ph0 := 0.00, ph1 := 0.25, ph2 := 0.50, ph3 := 0.75 }

/-- `PitchShift::hann`. -/
def hann (L : Pedal.Libm α) (p01 : α) : α :=
  0.5 - 0.5 * L.cosf (2 * 3.14159265 * p01)

/-- `PitchShift::readFrac`. -/
def readFrac (p : PitchShift α) (delaySamp : α) : α :=
  Pedal.ringReadFrac p.buf BUF p.w delaySamp

/-- The phase update of one grain: `ph[k] += step` followed by the two wrap loops
`while (ph[k] < 0) ph[k] += 1; while (ph[k] >= 1) ph[k] -= 1;`. -/
def advance (ph step : α) : α := Pedal.wrapLoops 1 (ph + step)

/-- `PitchShift::process`: the new state and the returned value. -/
def process (L : Pedal.Libm α) (p : PitchShift α) (x ratio fs grainMs : α) :
    PitchShift α × α :=
  let buf := Function.update p.buf p.w x
  let w := p.w + 1
  let w := if w ≥ BUF then 0 else w
  let grain := (grainMs / 1000) * fs
  let grain := if grain < 256 then 256 else grain
  let grain := if grain > ((BUF - 16 : Nat) : α) then ((BUF - 16 : Nat) : α) else grain
  let step := (1 - ratio) / grain
  let cur : PitchShift α := { p with buf := buf, w := w }
  let y : α := 0
  let wsum : α := 0
  let ph0 := advance p.ph0 step
  let win0 := hann L ph0
  let y := y + readFrac cur (ph0 * grain) * win0
  let wsum := wsum + win0
  let ph1 := advance p.ph1 step
  let win1 := hann L ph1
  let y := y + readFrac cur (ph1 * grain) * win1
  let wsum := wsum + win1
  let ph2 := advance p.ph2 step
  let win2 := hann L ph2
  let y := y + readFrac cur (ph2 * grain) * win2
  let wsum := wsum + win2
  let ph3 := advance p.ph3 step
  let win3 := hann L ph3
  let y := y + readFrac cur (ph3 * grain) * win3
  let wsum := wsum + win3
  let y := if wsum > 1e-6 then y / wsum else y
  ({ buf := buf, w := w, ph0 := ph0, ph1 := ph1, ph2 := ph2, ph3 := ph3 }, y)

end PitchShift

/-- `for (i = 0; i < len; i++) buf[i] = 0`: the first `len` cells are zeroed, the others
keep their content. -/
def zeroPrefix (len : Nat) (buf : Nat → α) : Nat → α :=
  fun i => if i < len then 0 else buf i

/-- `OrchestraEffect::Comb`. -/
structure Comb (α : Type) where
  buf : Nat → α
  len : Nat
  idx : Nat
  lp : α

namespace Comb

variable {α : Type} [LinearOrderedField α] [FloorRing α]

/-- `Comb::MAX`. -/
def MAX : Nat := 4096

/-- `Comb::reset`. -/
def reset (c : Comb α) : Comb α :=
  { buf := zeroPrefix c.len c.buf, len := c.len, idx := 0, lp := 0 }

/-- `Comb::init`. -/
def init (c : Comb α) (delay : Int) : Comb α :=
  let delay := if delay < 1 then 1 else delay
  let delay := if delay > (MAX : Int) then (MAX : Int) else delay
  reset { c with len := delay.toNat }

/-- `Comb::process`: the new state and the returned value. -/
def process (c : Comb α) (x fb damp : α) : Comb α × α :=
  let y := c.buf c.idx
  let lp := c.lp + damp * (y - c.lp)
  let buf := Function.update c.buf c.idx (x + fb * lp)
  let idx := c.idx + 1
  let idx := if idx ≥ c.len then 0 else idx
  ({ buf := buf, len := c.len, idx := idx, lp := lp }, y)

end Comb

/-- `OrchestraEffect::Allpass`. -/
structure Allpass (α : Type) where
  buf : Nat → α
  len : Nat
  idx : Nat

namespace Allpass

variable {α : Type} [LinearOrderedField α] [FloorRing α]

/-- `Allpass::MAX`. -/
def MAX : Nat := 2048

/-- `Allpass::reset`. -/
def reset (a : Allpass α) : Allpass α :=
  { buf := zeroPrefix a.len a.buf, len := a.len, idx := 0 }

/-- `Allpass::init`. -/
def init (a : Allpass α) (delay : Int) : Allpass α :=
  let delay := if delay < 1 then 1 else delay
  let delay := if delay > (MAX : Int) then (MAX : Int) else delay
  reset { a with len := delay.toNat }

/-- `Allpass::process`: the new state and the returned value. -/
def process (a : Allpass α) (x g : α) : Allpass α × α :=
  let b := a.buf a.idx
  let y := -g * x + b
  let buf := Function.update a.buf a.idx (x + g * y)
  let idx := a.idx + 1
  let idx := if idx ≥ a.len then 0 else idx
  ({ buf := buf, len := a.len, idx := idx }, y)

end Allpass

/-- `OrchestraEffect::ShimmerStage`: the combs `c[0..3]`, the allpasses `ap[0..1]`, the
pitch shifter and the three filter states. -/
structure ShimmerStage (α : Type) where
  c0 : Comb α
  c1 : Comb α
  c2 : Comb α
  c3 : Comb α
  ap0 : Allpass α
  ap1 : Allpass α
  ps : PitchShift α
  fbLP : α
  wetLP : α
  dcLP : α

namespace ShimmerStage

variable {α : Type} [LinearOrderedField α] [FloorRing α]

/-- `ShimmerStage::reset`. -/
def reset (s : ShimmerStage α) : ShimmerStage α :=
  { c0 := s.c0.reset, c1 := s.c1.reset, c2 := s.c2.reset, c3 := s.c3.reset,
    ap0 := s.ap0.reset, ap1 := s.ap1.reset, ps := s.ps.reset,
    fbLP := 0, wetLP := 0, dcLP := 0 }

/-- `ShimmerStage::init`. -/
def init (s : ShimmerStage α) : ShimmerStage α :=
  reset { s with c0 := s.c0.init 1557, c1 := s.c1.init 1617, c2 := s.c2.init 1491,
                 c3 := s.c3.init 1422, ap0 := s.ap0.init 225, ap1 := s.ap1.init 556 }

/-- `ShimmerStage::process`: the new state and the returned value. -/
def process (L : Pedal.Libm α) (s : ShimmerStage α)
    (x fs size tone shimmerAmt ratio grainMs : α) : ShimmerStage α × α :=
  let fb := lerp 0.82 0.965 size
  let damp := lerp 0.08 0.42 size
  let apg := lerp 0.68 0.78 size
  let fbLPHz := lerp 5200 1500 tone
  let fbA := fbLPHz / fs
  let fbA := if fbA < 0.002 then 0.002 else fbA
  let fbA := if fbA > 0.45 then 0.45 else fbA
  let sh := clamp01 shimmerAmt
  let sh := if sh > 0.95 then 0.95 else sh
  let r := s.ps.process L x ratio fs grainMs
  let fbLP := onePoleLP r.2 s.fbLP fbA
  let fbShift := fbLP
  let inp := x + sh * 0.78 * fbShift
  let csum : α := 0
  let r0 := s.c0.process inp fb damp
  let csum := csum + r0.2
  let r1 := s.c1.process inp (fb * 0.997) damp
  let csum := csum + r1.2
  let r2 := s.c2.process inp (fb * 1.003) damp
  let csum := csum + r2.2
  let r3 := s.c3.process inp (fb * 0.991) damp
  let csum := csum + r3.2
  let csum := csum * 0.25
  let a0 := s.ap0.process csum apg
  let a1 := s.ap1.process a0.2 apg
  let h := onePoleHP_viaLP a1.2 s.dcLP 0.0008
  let wetLP := onePoleLP h.1 s.wetLP 0.10
  ({ c0 := r0.1, c1 := r1.1, c2 := r2.1, c3 := r3.1, ap0 := a0.1, ap1 := a1.1,
     ps := r.1, fbLP := fbLP, wetLP := wetLP, dcLP := h.2 }, wetLP)

end ShimmerStage

/-- `OrchestraEffect::Params`. -/
structure Params (α : Type) where
  mix : α
  size : α
  swell : α
  up : α
  down : α
  tone : α

/-- The private state of an `OrchestraEffect` instance. -/
structure State (α : Type) where
  pre : DelayLine α
  env : α
  duck : α
  swellLP : α
  up : ShimmerStage α
  down : ShimmerStage α
  outLP : α
  outDC : α

/-- `OrchestraEffect::reset`. -/
def reset (st : State α) : State α :=
  { pre := st.pre.reset, env := 0, duck := 1, swellLP := 0,
    up := st.up.reset, down := st.down.reset, outLP := 0, outDC := 0 }

/-- The storage of a comb before its constructor runs: the instance is a `static`
object, so the buffer is zero-initialised, and the header gives `len = 1`, `idx = 0`,
`lp = 0`. -/
def Comb.raw : Comb α := { buf := fun _ => 0, len := 1, idx := 0, lp := 0 }

/-- The storage of an allpass before its constructor runs (see `Comb.raw`). -/
def Allpass.raw : Allpass α := { buf := fun _ => 0, len := 1, idx := 0 }

/-- The storage of a shimmer stage before its constructor runs (see `Comb.raw`). -/
def ShimmerStage.raw : ShimmerStage α :=
  { c0 := Comb.raw, c1 := Comb.raw, c2 := Comb.raw, c3 := Comb.raw,
    ap0 := Allpass.raw, ap1 := Allpass.raw,
    ps := { buf := fun _ => 0, w := 0, ph0 := 0, ph1 := 0, ph2 := 0, ph3 := 0 },
    fbLP := 0, wetLP := 0, dcLP := 0 }

/-- The storage of an engine before its constructor runs (see `Comb.raw`), with the
member initialisers of the header. -/
def raw : State α :=
  { pre := { buf := fun _ => 0, w := 0 }, env := 0, duck := 1, swellLP := 0,
    up := ShimmerStage.raw, down := ShimmerStage.raw, outLP := 0, outDC := 0 }

/-- The constructor `OrchestraEffect::OrchestraEffect()`:
`_pre.reset(); _up.init(); _down.init(); reset();`. -/
def construct : State α :=
  let st : State α := raw
  let st := { st with pre := st.pre.reset }
  let st := { st with up := st.up.init }
  let st := { st with down := st.down.init }
  reset st

/-- The body of the sample loop of `processMono` on the sample `inMono[i]`, for the
clamped knobs: the new state and the sample written to `outMono[i]`. -/
def sampleStep (L : Pedal.Libm α) (fs mix size swell upAmt dnAmt tone : α)
    (st : State α) (s : Int) : State α × Int :=
  let preMs := lerp 10 32 size
  let preS := (preMs / 1000) * fs
  let envA : α := 0.03
  let envR : α := 0.0010
  let duckAtk := lerp 0.05 0.12 swell
  let duckRel := lerp 0.0012 0.00018 swell
  let openTh : α := 0.030
  let grainMsUp := lerp 50 86 size
  let grainMsDn := lerp 56 96 size
  let wetGain := lerp 2.4 4.2 upAmt
  let x : α := (s : α) / 32768
  let dry := x
  let ax := |x|
  let env := st.env + (if ax > st.env then envA else envR) * (ax - st.env)
  let playing : α := if env > openTh then 1 else 0
  let wetFloor := lerp 1.0 0.22 swell
  let targetDuck := if playing ≠ 0 then wetFloor else 1
  let a := if targetDuck > st.duck then duckRel else duckAtk
  let duck := st.duck + a * (targetDuck - st.duck)
  let swellGain := duck
  let swellGain := swellGain * swellGain
  let swellLP := onePoleLP swellGain st.swellLP 0.02
  let swellGain := swellLP
  let pre := st.pre.push x
  let preOut := pre.readFrac preS
  let inWet := preOut * swellGain
  let u := st.up.process L inWet fs size tone upAmt 2.0 grainMsUp
  let yUp := u.2
  let d := st.down.process L yUp fs size tone dnAmt 0.5 grainMsDn
  let yDn := d.2
  let wet := yDn * wetGain
  let wet := softSat L wet 0.78
  let h := onePoleHP_viaLP wet st.outDC 0.0008
  let outLP := onePoleLP h.1 st.outLP 0.08
  let wet := outLP
  let out := (1 - mix) * dry + mix * wet
  ({ pre := pre, env := env, duck := duck, swellLP := swellLP, up := u.1, down := d.1,
     outLP := outLP, outDC := h.2 }, clamp16 (Pedal.truncToInt (out * 32767)))

/-- `OrchestraEffect::processMono` on the block `inMono` (its `n` samples) at rate `fs`:
the new state and the block written to `outMono`. -/
def processMono (L : Pedal.Libm α) (st : State α) (inMono : List Int) (fs : α)
    (pIn : Params α) : State α × List Int :=
  let mix := clamp01 pIn.mix
  let size := clamp01 pIn.size
  let swell := clamp01 pIn.swell
  let upAmt := clamp01 pIn.up
  let dnAmt := clamp01 pIn.down
  let tone := clamp01 pIn.tone
  Pedal.runBlock (sampleStep L fs mix size swell upAmt dnAmt tone) st inMono

end OrchestraEffect

/-! ## LeslieEffect (rotary-speaker engine) -/

namespace LeslieEffect

variable {α : Type} [LinearOrderedField α] [FloorRing α]

/-- `LeslieEffect::clamp01`. -/
def clamp01 (x : α) : α :=
  if x < 0 then 0 else if x > 1 then 1 else x

/-- `LeslieEffect::clamp16`. -/
def clamp16 (x : Int) : Int :=
  if x > 32767 then 32767 else if x < -32768 then -32768 else x

/-- `LeslieEffect::lerp`. -/
def lerp (a b t : α) : α := a + (b - a) * t

/-- `LeslieEffect::wrap01`. -/
def wrap01 (x : α) : α :=
  let x := if x ≥ 1 then x - 1 else x
  let x := if x < 0 then x + 1 else x
  x

/-- `LeslieEffect::cosine01`. -/
def cosine01 (L : Pedal.Libm α) (phase01 : α) : α :=
  let c := L.cosf (2 * 3.14159265 * phase01)
  0.5 + 0.5 * c

/-- `LeslieEffect::BUF_LEN`. -/
def BUF_LEN : Nat := 4096

/-- `LeslieEffect::fracDelayRead`. -/
def fracDelayRead (buf : Nat → Int) (bufLen : Nat) (writeIdx : Nat) (delaySamps : α) : α :=
  let rp := Pedal.wrapLoops (bufLen : α) ((writeIdx : α) - delaySamps)
  let i0 := Pedal.truncToInt rp
  let i1 := if i0 + 1 ≥ (bufLen : Int) then 0 else i0 + 1
  let t := rp - (i0 : α)
  (1 - t) * ((buf i0.toNat : Int) : α) + t * ((buf i1.toNat : Int) : α)

/-- `LeslieEffect::Params`. -/
structure Params (α : Type) where
  volume : α
  blend : α
  speed : α
  depth : α
  ramp : α

/-- The private state of a `LeslieEffect` instance. -/
structure State (α : Type) where
  lowL : α
  lowR : α
  phHorn : α
  phDrum : α
  hornHz : α
  drumHz : α
  hornBufL : Nat → Int
  hornBufR : Nat → Int
  drumBufL : Nat → Int
  drumBufR : Nat → Int
  idxHorn : Nat
  idxDrum : Nat

/-- `LeslieEffect::reset`: every field is assigned and the four buffers are wiped. -/
def reset (_st : State α) : State α :=
  { lowL := 0, lowR := 0, phHorn := 0, phDrum := 0, hornHz := 0.8, drumHz := 0.6,
    hornBufL := fun _ => 0, hornBufR := fun _ => 0, drumBufL := fun _ => 0,
    drumBufR := fun _ => 0, idxHorn := 0, idxDrum := 0 }

/-- The constructor `LeslieEffect::LeslieEffect() { reset(); }` applied to the member
initialisers of the header (the instance is a `static` object: zeroed buffers). -/
def construct : State α :=
  reset { lowL := 0, lowR := 0, phHorn := 0, phDrum := 0, hornHz := 0.8, drumHz := 0.6,
          hornBufL := fun _ => 0, hornBufR := fun _ => 0, drumBufL := fun _ => 0,
          drumBufR := fun _ => 0, idxHorn := 0, idxDrum := 0 }

/-- The per-block values `processWet` derives before its sample loop. -/
structure Setup (α : Type) where
  a : α
  baseHorn : α
  baseDrum : α
  dopHorn : α
  dopDrum : α
  amHorn : α
  amDrum : α
  micL : α
  micR : α
  dPhHorn : α
  dPhDrum : α

/-- The rotor speeds after the once-per-block inertia update of `processWet`, for a
block of `n` samples: the new `_hornHz` and `_drumHz`. -/
def rotorUpdate (L : Pedal.Libm α) (st : State α) (n : Nat) (fs : α) (pIn : Params α) :
    α × α :=
  let speed := clamp01 pIn.speed
  let ramp := clamp01 pIn.ramp
  let hornSlow : α := 0.8
  let hornFast : α := 6.0
  let drumSlow : α := 0.6
  let drumFast : α := 4.5
  let hornTarget := lerp hornSlow hornFast speed
  let drumTarget := lerp drumSlow drumFast speed
  let dt := (n : α) / fs
  let hornTau := lerp 0.20 1.20 ramp
  let drumTau := lerp 0.35 1.80 ramp
  let hornA := 1 - L.expf (-dt / hornTau)
  let drumA := 1 - L.expf (-dt / drumTau)
  (st.hornHz + (hornTarget - st.hornHz) * hornA, st.drumHz + (drumTarget - st.drumHz) * drumA)

/-- The crossover, Doppler and directionality values of `processWet`, for the rotor
speeds `hornHz` and `drumHz` as updated for this block. -/
def setup (fs : α) (pIn : Params α) (hornHz drumHz : α) : Setup α :=
  let depth := clamp01 pIn.depth
  let x := 850 / fs
  let x := if x < 0.001 then 0.001 else x
  let x := if x > 0.45 then 0.45 else x
  let a := x
  let baseHorn : α := 140
  let baseDrum : α := 200
  let dopHorn := lerp 3.0 26.0 depth
  let dopDrum := lerp 2.0 18.0 depth
  let amHorn := lerp 0.15 0.98 depth
  let amDrum := lerp 0.05 0.75 depth
  let micL : α := 0.00
  let micR : α := 0.25
  { a := a, baseHorn := baseHorn, baseDrum := baseDrum, dopHorn := dopHorn,
    dopDrum := dopDrum, amHorn := amHorn, amDrum := amDrum, micL := micL, micR := micR,
    dPhHorn := hornHz / fs, dPhDrum := drumHz / fs }

/-- The delay, in samples, with which the loop reads a band buffer for one virtual
microphone: `base + dop * cosf(2 * 3.14159265 * (ph + mic))`, raised to 1 if below. -/
def dopplerDelay (L : Pedal.Libm α) (base dop ph mic : α) : α :=
  let m := L.cosf (2 * 3.14159265 * (ph + mic))
  let d := base + dop * m
  if d < 1 then 1 else d

/-- The body of the sample loop of `processWet` on the samples `left[i]`, `right[i]`:
the new state and the pair written back. -/
def sampleStep (L : Pedal.Libm α) (c : Setup α) (st : State α) (s : Int × Int) :
    State α × (Int × Int) :=
  let inL : α := (s.1 : α)
  let inR : α := (s.2 : α)
  let lowL := st.lowL + c.a * (inL - st.lowL)
  let lowR := st.lowR + c.a * (inR - st.lowR)
  let highL := inL - lowL
  let highR := inR - lowR
  let hornBufL := Function.update st.hornBufL st.idxHorn (clamp16 (Pedal.truncToInt highL))
  let hornBufR := Function.update st.hornBufR st.idxHorn (clamp16 (Pedal.truncToInt highR))
  let drumBufL := Function.update st.drumBufL st.idxDrum (clamp16 (Pedal.truncToInt lowL))
  let drumBufR := Function.update st.drumBufR st.idxDrum (clamp16 (Pedal.truncToInt lowR))
  let phHorn := wrap01 (st.phHorn + c.dPhHorn)
  let phDrum := wrap01 (st.phDrum + c.dPhDrum)
  let dHornL := dopplerDelay L c.baseHorn c.dopHorn phHorn c.micL
  let dHornR := dopplerDelay L c.baseHorn c.dopHorn phHorn c.micR
  let dDrumL := dopplerDelay L c.baseDrum c.dopDrum phDrum c.micL
  let dDrumR := dopplerDelay L c.baseDrum c.dopDrum phDrum c.micR
  let hornWetL := fracDelayRead hornBufL BUF_LEN st.idxHorn dHornL
  let hornWetR := fracDelayRead hornBufR BUF_LEN st.idxHorn dHornR
  let drumWetL := fracDelayRead drumBufL BUF_LEN st.idxDrum dDrumL
  let drumWetR := fracDelayRead drumBufR BUF_LEN st.idxDrum dDrumR
  let gHornL := (1 - c.amHorn) + c.amHorn * cosine01 L (phHorn + c.micL)
  let gHornR := (1 - c.amHorn) + c.amHorn * cosine01 L (phHorn + c.micR)
  let gDrumL := (1 - c.amDrum) + c.amDrum * cosine01 L (phDrum + c.micL)
  let gDrumR := (1 - c.amDrum) + c.amDrum * cosine01 L (phDrum + c.micR)
  let outL := (1.10 * hornWetL * gHornL + 0.90 * drumWetL * gDrumL) * 0.80
  let outR := (1.10 * hornWetR * gHornR + 0.90 * drumWetR * gDrumR) * 0.80
  let idxHorn := st.idxHorn + 1
  let idxHorn := if idxHorn ≥ BUF_LEN then 0 else idxHorn
  let idxDrum := st.idxDrum + 1
  let idxDrum := if idxDrum ≥ BUF_LEN then 0 else idxDrum
  ({ lowL := lowL, lowR := lowR, phHorn := phHorn, phDrum := phDrum,
     hornHz := st.hornHz, drumHz := st.drumHz,
     hornBufL := hornBufL, hornBufR := hornBufR, drumBufL := drumBufL,
     drumBufR := drumBufR, idxHorn := idxHorn, idxDrum := idxDrum },
   (clamp16 (Pedal.truncToInt outL), clamp16 (Pedal.truncToInt outR)))

/-- `LeslieEffect::processWet` on the stereo block `left`, `right` (`n` samples each,
`n` being the length of `left`) at rate `fs`: the new state and the two blocks as
rewritten in place. -/
def processWet (L : Pedal.Libm α) (st : State α) (left right : List Int) (fs : α)
    (pIn : Params α) : State α × (List Int × List Int) :=
  let n := left.length
  let hz := rotorUpdate L st n fs pIn
  let st : State α := { st with hornHz := hz.1, drumHz := hz.2 }
  let r := Pedal.runBlock (sampleStep L (setup fs pIn hz.1 hz.2)) st (List.zip left right)
  (r.1, List.unzip r.2)

end LeslieEffect

/-! ## SimpleFX: the small effects -/

namespace SimpleFX

open Pedal

variable {α : Type} [LinearOrderedField α] [FloorRing α]

/-- The shape shared by every `processBlock(int16_t* data, int n)` of the library:
`if (!data || n <= 0) return;` followed by the sample loop over `data[0..n)`. A null
pointer is `none`; the samples past `n` keep their content. -/
def guardedBlock {σ : Type} (step : σ → Int → σ × Int) (st : σ) (data : Option (List Int))
    (n : Int) : σ × Option (List Int) :=
  match data with
  | none => (st, none)
  | some blk =>
    if n ≤ 0 then (st, some blk)
    else
      let r := runBlock step st (blk.take n.toNat)
      (r.1, some (r.2 ++ blk.drop n.toNat))

/-- The state of a `SimpleFX::BitCrusher`. -/
structure BitCrusher (α : Type) where
  sr : α
  bits : Int
  down : Int
  mix : α
  holdCount : Int
  held : α

namespace BitCrusher

variable {α : Type} [LinearOrderedField α] [FloorRing α]

/-- The member initialisers of `BitCrusher`. -/
def construct : BitCrusher α :=
  { sr := 44100, bits := 12, down := 1, mix := 1, holdCount := 0, held := 0 }

/-- `BitCrusher::setParams`. -/
def setParams (st : BitCrusher α) (bits downsampleFactor : Int) (mix : α) : BitCrusher α :=
  { st with
    bits := if bits < 1 then 1 else (if bits > 16 then 16 else bits),
    down := if downsampleFactor < 1 then 1
            else (if downsampleFactor > 128 then 128 else downsampleFactor),
    mix := clampf mix 0 1 }

/-- `BitCrusher::reset`. -/
def reset (st : BitCrusher α) : BitCrusher α :=
  { st with holdCount := 0, held := 0 }

/-- The "quantize" lines of the loop: the held value `crushed` mapped to one of
`levels` buckets and back. -/
def quantize (levels : Int) (crushed : α) : α :=
  let invLevels : α := 1 / (levels : α)
  let u := 0.5 * (crushed + 1)
  let q := truncToInt (u * (levels : α))
  let q := if q < 0 then 0 else (if q > levels - 1 then levels - 1 else q)
  let uq := (q : α) * invLevels
  2 * uq - 1

/-- The body of the sample loop of `BitCrusher::processBlock`; `levels` is `1 << _bits`. -/
def sampleStep (st : BitCrusher α) (s : Int) : BitCrusher α × Int :=
  let levels : Int := 2 ^ st.bits.toNat
  let x : α := int16ToFloat s
  let resample : Bool := decide (st.holdCount ≤ 0)
  let held := if resample then x else st.held
  let holdCount := if resample then st.down else st.holdCount
  let holdCount := holdCount - 1
  let crushed := quantize levels held
  let y := (1 - st.mix) * x + st.mix * crushed
  ({ st with holdCount := holdCount, held := held }, floatToInt16 y)

/-- `BitCrusher::processBlock`. -/
def processBlock (st : BitCrusher α) (data : Option (List Int)) (n : Int) :
    BitCrusher α × Option (List Int) :=
  guardedBlock sampleStep st data n

end BitCrusher

/-- The state of a `SimpleFX::Tremolo`. -/
structure Tremolo (α : Type) where
  sr : α
  rate : α
  depth : α
  mix : α
  phase : α

namespace Tremolo

variable {α : Type} [LinearOrderedField α] [FloorRing α]

/-- The member initialisers of `Tremolo`. -/
def construct : Tremolo α :=
  { sr := 44100, rate := 4.0, depth := 0.6, mix := 1.0, phase := 0 }

/-- `Tremolo::setParams`. -/
def setParams (st : Tremolo α) (rateHz depth mix : α) : Tremolo α :=
  { st with rate := clampf rateHz 0.01 30, depth := clampf depth 0 1,
            mix := clampf mix 0 1 }

/-- `Tremolo::reset`. -/
def reset (st : Tremolo α) : Tremolo α := { st with phase := 0 }

/-- The body of the sample loop of `Tremolo::processBlock`. -/
def sampleStep (L : Libm α) (st : Tremolo α) (s : Int) : Tremolo α × Int :=
  let phaseInc := (2 * L.M_PI) * (st.rate / st.sr)
  let x : α := int16ToFloat s
  let lfo := 0.5 * (L.sinf st.phase + 1)
  let g := (1 - st.depth) + st.depth * lfo
  let wet := x * g
  let y := (1 - st.mix) * x + st.mix * wet
  let phase := st.phase + phaseInc
  let phase := if phase > 2 * L.M_PI then phase - 2 * L.M_PI else phase
  ({ st with phase := phase }, floatToInt16 y)

/-- `Tremolo::processBlock`. -/
def processBlock (L : Libm α) (st : Tremolo α) (data : Option (List Int)) (n : Int) :
    Tremolo α × Option (List Int) :=
  guardedBlock (sampleStep L) st data n

end Tremolo

/-- The state of a `SimpleFX::Flanger`. -/
structure Flanger (α : Type) where
  buf : Nat → α
  sr : α
  w : Nat
  baseMs : α
  depthMs : α
  rate : α
  fb : α
  mix : α
  phase : α

namespace Flanger

variable {α : Type} [LinearOrderedField α] [FloorRing α]

/-- `Flanger::MAX_DELAY_SAMPLES`. -/
def MAX_DELAY_SAMPLES : Nat := 2048

/-- The member initialisers of `Flanger`. -/
def construct : Flanger α :=
  { buf := fun _ => 0, sr := 44100, w := 0, baseMs := 2.0, depthMs := 1.5, rate := 0.25,
    fb := 0.2, mix := 0.6, phase := 0 }

/-- `Flanger::setSampleRate`. -/
def setSampleRate (st : Flanger α) (sr : α) : Flanger α :=
  { st with sr := if sr ≤ 8000 then 44100 else sr }

/-- `Flanger::setParams`. -/
def setParams (st : Flanger α) (baseDelayMs depthMs rateHz feedback mix : α) : Flanger α :=
  { st with baseMs := clampf baseDelayMs 0 15, depthMs := clampf depthMs 0 15,
            rate := clampf rateHz 0.01 10, fb := clampf feedback (-0.95) 0.95,
            mix := clampf mix 0 1 }

/-- `Flanger::reset`. -/
def reset (st : Flanger α) : Flanger α :=
  { st with buf := fun _ => 0, w := 0, phase := 0 }

/-- The modulated delay of the loop, in samples, clamped to `[0, MAX_DELAY_SAMPLES - 2]`. -/
def delaySamples (L : Libm α) (st : Flanger α) : α :=
  let msToSamples := st.sr / 1000
  let lfo := 0.5 * (L.sinf st.phase + 1)
  let delaySamp := (st.baseMs + st.depthMs * lfo) * msToSamples
  let delaySamp := if delaySamp < 0 then 0 else delaySamp
  if delaySamp > ((MAX_DELAY_SAMPLES - 2 : Nat) : α) then ((MAX_DELAY_SAMPLES - 2 : Nat) : α)
  else delaySamp

/-- The fractional read of the loop for the clamped delay `delaySamp`. The two float
operations that decide which cells are read are rounded to float32: the difference
`(float)_w - delaySamp` and each sum `readIndex += MAX_DELAY_SAMPLES` of the loop
`while (readIndex < 0.0f)`; a sum just below 2048 rounds to `2048.0f`, and this loop
has no `while (readIndex >= MAX)` after it. The other operations are exact. The delay is
at most `MAX_DELAY_SAMPLES - 2`, so the loop runs at most once, which is what the bound
`⌈-readIndex / MAX⌉` allows. `buf` is the array `_buf[MAX_DELAY_SAMPLES]`: a read at
an index of 2048 is past its end. -/
def readDelayed (st : Flanger α) (delaySamp : α) : α :=
  let readIndex := roundF32 ((st.w : α) - delaySamp)
  let readIndex :=
    addWhileNegF32 (MAX_DELAY_SAMPLES : α) (⌈-readIndex / (MAX_DELAY_SAMPLES : α)⌉).toNat
      readIndex
  let idx0 := truncToInt readIndex
  let idx1 := idx0 + 1
  let idx1 := if idx1 ≥ (MAX_DELAY_SAMPLES : Int) then idx1 - (MAX_DELAY_SAMPLES : Int) else idx1
  let frac := readIndex - (idx0 : α)
  let d0 := st.buf idx0.toNat
  let d1 := st.buf idx1.toNat
  d0 + frac * (d1 - d0)

/-- The body of the sample loop of `Flanger::processBlock`. -/
def sampleStep (L : Libm α) (st : Flanger α) (s : Int) : Flanger α × Int :=
  let phaseInc := (2 * L.M_PI) * (st.rate / st.sr)
  let x : α := int16ToFloat s
  let delayed := readDelayed st (delaySamples L st)
  let writeVal := x + delayed * st.fb
  let buf := Function.update st.buf st.w (clampf writeVal (-1) 1)
  let w := st.w + 1
  let w := if w ≥ MAX_DELAY_SAMPLES then 0 else w
  let y := (1 - st.mix) * x + st.mix * delayed
  let phase := st.phase + phaseInc
  let phase := if phase > 2 * L.M_PI then phase - 2 * L.M_PI else phase
  ({ st with buf := buf, w := w, phase := phase }, floatToInt16 y)

/-- `Flanger::processBlock`. -/
def processBlock (L : Libm α) (st : Flanger α) (data : Option (List Int)) (n : Int) :
    Flanger α × Option (List Int) :=
  guardedBlock (sampleStep L) st data n

end Flanger

/-- The state of a `SimpleFX::SoftClip`. -/
structure SoftClip (α : Type) where
  drive : α
  mix : α

namespace SoftClip

variable {α : Type} [LinearOrderedField α] [FloorRing α]

/-- The member initialisers of `SoftClip`. -/
def construct : SoftClip α := { drive := 1.5, mix := 1.0 }

/-- `SoftClip::setParams`. -/
def setParams (_st : SoftClip α) (drive mix : α) : SoftClip α :=
  { drive := clampf drive 0.1 20, mix := clampf mix 0 1 }

/-- The body of the sample loop of `SoftClip::processBlock`. -/
def sampleStep (st : SoftClip α) (s : Int) : SoftClip α × Int :=
  let x : α := int16ToFloat s
  let xd := x * st.drive
  let wet := xd / (1 + |xd|)
  let y := (1 - st.mix) * x + st.mix * wet
  (st, floatToInt16 y)

/-- `SoftClip::processBlock`. -/
def processBlock (st : SoftClip α) (data : Option (List Int)) (n : Int) :
    SoftClip α × Option (List Int) :=
  guardedBlock sampleStep st data n

end SoftClip

/-- The state of a `SimpleFX::OnePoleLPF`. -/
structure OnePoleLPF (α : Type) where
  sr : α
  a : α
  y : α

namespace OnePoleLPF

variable {α : Type} [LinearOrderedField α] [FloorRing α]

/-- The member initialisers of `OnePoleLPF`. -/
def construct : OnePoleLPF α := { sr := 44100, a := 0, y := 0 }

/-- `OnePoleLPF::setCutoffHz`. -/
def setCutoffHz (L : Libm α) (st : OnePoleLPF α) (fc : α) : OnePoleLPF α :=
  let fc := clampf fc 5 (0.45 * st.sr)
  let x := L.expf (-2 * L.M_PI * fc / st.sr)
  { st with a := x }

/-- `OnePoleLPF::reset`. -/
def reset (st : OnePoleLPF α) (y : α) : OnePoleLPF α := { st with y := y }

/-- The body of the sample loop of `OnePoleLPF::processBlock`; the local `y` is the
field `_y`, written back after the loop. -/
def sampleStep (st : OnePoleLPF α) (s : Int) : OnePoleLPF α × Int :=
  let a := st.a
  let b := 1 - a
  let x : α := int16ToFloat s
  let y := b * x + a * st.y
  ({ st with y := y }, floatToInt16 y)

/-- `OnePoleLPF::processBlock`. -/
def processBlock (st : OnePoleLPF α) (data : Option (List Int)) (n : Int) :
    OnePoleLPF α × Option (List Int) :=
  guardedBlock sampleStep st data n

end OnePoleLPF

/-- The state of a `SimpleFX::OnePoleHPF`. -/
structure OnePoleHPF (α : Type) where
  sr : α
  a : α
  x1 : α
  y1 : α

namespace OnePoleHPF

variable {α : Type} [LinearOrderedField α] [FloorRing α]

/-- The member initialisers of `OnePoleHPF`. -/
def construct : OnePoleHPF α := { sr := 44100, a := 0, x1 := 0, y1 := 0 }

/-- `OnePoleHPF::setCutoffHz`. -/
def setCutoffHz (L : Libm α) (st : OnePoleHPF α) (fc : α) : OnePoleHPF α :=
  let fc := clampf fc 5 (0.45 * st.sr)
  let rc := 1 / (2 * L.M_PI * fc)
  let dt := 1 / st.sr
  { st with a := rc / (rc + dt) }

/-- `OnePoleHPF::reset`. -/
def reset (st : OnePoleHPF α) (x y : α) : OnePoleHPF α := { st with x1 := x, y1 := y }

/-- The body of the sample loop of `OnePoleHPF::processBlock`; the locals `x1`, `y1` are
the fields `_x1`, `_y1`, written back after the loop. -/
def sampleStep (st : OnePoleHPF α) (s : Int) : OnePoleHPF α × Int :=
  let x : α := int16ToFloat s
  let y := st.a * (st.y1 + x - st.x1)
  ({ st with x1 := x, y1 := y }, floatToInt16 y)

/-- `OnePoleHPF::processBlock`. -/
def processBlock (st : OnePoleHPF α) (data : Option (List Int)) (n : Int) :
    OnePoleHPF α × Option (List Int) :=
  guardedBlock sampleStep st data n

end OnePoleHPF

end SimpleFX

/-! ## Processing histories of the shimmer engine -/

namespace OrchestraEffect

variable {α : Type} [LinearOrderedField α] [FloorRing α]

/-- The states an `OrchestraEffect` instance can be in: the constructed state, and any
state obtained from one of them by `processMono` or `reset`. -/
inductive Reachable (L : Pedal.Libm α) : State α → Prop
  | construct : Reachable L construct
  | processMono (st : State α) (inMono : List Int) (fs : α) (p : Params α) :
      Reachable L st → Reachable L (processMono L st inMono fs p).1
  | reset (st : State α) : Reachable L st → Reachable L (reset st)

/-- A comb of length `len0` in a processing history: its length is the one set by
`init`, its index is inside it, and the cells past it still hold the zeros of the
storage. -/
def Comb.Wf (c : Comb α) (len0 : Nat) : Prop :=
  c.len = len0 ∧ c.idx < len0 ∧ ∀ i, len0 ≤ i → c.buf i = 0

/-- An allpass of length `len0` in a processing history (see `Comb.Wf`). -/
def Allpass.Wf (a : Allpass α) (len0 : Nat) : Prop :=
  a.len = len0 ∧ a.idx < len0 ∧ ∀ i, len0 ≤ i → a.buf i = 0

/-- A shimmer stage in a processing history: its combs and allpasses have the lengths
given by `ShimmerStage::init`. -/
def ShimmerStage.Wf (s : ShimmerStage α) : Prop :=
  s.c0.Wf 1557 ∧ s.c1.Wf 1617 ∧ s.c2.Wf 1491 ∧ s.c3.Wf 1422 ∧ s.ap0.Wf 225 ∧ s.ap1.Wf 556

/-- An engine state in a processing history: both stages are well formed. -/
def State.Wf (st : State α) : Prop := st.up.Wf ∧ st.down.Wf

end OrchestraEffect

/-! ## Distortion engine: cutoffs and processing histories -/

namespace BigMuffEffect

variable {α : Type} [LinearOrderedField α] [FloorRing α]

/-- The pre-filter cutoff of `processMonoWet`, in Hz, for the clamped knobs:
`preHz = lerp(2600, 900, drive); preHz = lerp(preHz, 700, pres);`. -/
def preHz (drive pres : α) : α :=
  let preHz := lerp 2600 900 drive
  lerp preHz 700 pres

/-- The post-filter cutoff of `processMonoWet`, in Hz, for the clamped knob:
`postHz = lerp(1600, 4200, pres)`. -/
def postHz (pres : α) : α := lerp 1600 4200 pres

/-- A history of `processMonoWet` calls on one instance: each call gives its block,
its sample rate and its knobs; the result is the final state and the blocks as
rewritten, in order. -/
def processCalls (L : Pedal.Libm α) (st : State α)
    (calls : List (List Int × α × Params α)) : State α × List (List Int) :=
  Pedal.runBlock (fun st call => processMonoWet L st call.1 call.2.1 call.2.2) st calls

/-- The bounds the states keep while the tone knob is at 0.5: the third coupling state
within 1.00001, the post filter and the anti-alias filter within 0.9966. -/
def Headroom (st : State α) : Prop :=
  |st.hp3_lp| ≤ 1.00001 ∧ |st.postLP| ≤ 0.9966 ∧ |st.osLP| ≤ 0.9966

end BigMuffEffect

/-! ## Octave engine: the steps of the tracker update -/

namespace OctaveEffect

variable {α : Type} [LinearOrderedField α] [FloorRing α]

/-- The "octave error snap" lines of the tracker update: the candidate `f` is halved if
it lies strictly between 1.80 and 2.20 times the estimate `F`, and the result is doubled
if it lies strictly between 0.45 and 0.55 times `F`. -/
def octaveSnap (F f : α) : α :=
  let fCand := f
  let fCand := if fCand > 1.80 * F ∧ fCand < 2.20 * F then fCand * 0.5 else fCand
  let fCand := if fCand > 0.45 * F ∧ fCand < 0.55 * F then fCand * 2.0 else fCand
  fCand

/-- The "limit jump per update" lines of the tracker update: the candidate is brought
into `[F * (1 - maxJump), F * (1 + maxJump)]`. -/
def jumpLimit (c : Tuning α) (F fCand : α) : α :=
  let lo := F * (1 - c.maxJump)
  let hi := F * (1 + c.maxJump)
  let fCand := if fCand < lo then lo else fCand
  let fCand := if fCand > hi then hi else fCand
  fCand

end OctaveEffect

/-! ## Rotary engine: processing histories -/

namespace LeslieEffect

variable {α : Type} [LinearOrderedField α] [FloorRing α]

/-- A history of `processWet` calls on one instance: each call gives its two blocks,
its sample rate and its knobs; the result is the final state and the pairs of blocks as
rewritten, in order. -/
def processCalls (L : Pedal.Libm α) (st : State α)
    (calls : List (List Int × List Int × α × Params α)) :
    State α × List (List Int × List Int) :=
  Pedal.runBlock
    (fun st call => processWet L st call.1 call.2.1 call.2.2.1 call.2.2.2) st calls

/-- The rotor speeds are inside their slow-to-fast ranges (0.8 to 6.0 Hz for the horn,
0.6 to 4.5 Hz for the drum) and the two phase accumulators are in [0, 1). -/
def RotorOk (st : State α) : Prop :=
  (0 ≤ st.phHorn ∧ st.phHorn < 1) ∧ (0 ≤ st.phDrum ∧ st.phDrum < 1) ∧
    (0.8 ≤ st.hornHz ∧ st.hornHz ≤ 6) ∧ (0.6 ≤ st.drumHz ∧ st.drumHz ≤ 4.5)

end LeslieEffect

/-! ## Flanger: processing histories and the read position -/

namespace SimpleFX

namespace Flanger

variable {α : Type} [LinearOrderedField α] [FloorRing α]

/-- The states a `Flanger` instance can be in: the one given by the member initialisers,
and any state obtained from one of them by `reset`, `setSampleRate`, `setParams` or
`processBlock`. -/
inductive Reachable (L : Pedal.Libm α) : Flanger α → Prop
  | construct : Reachable L construct
  | reset (st : Flanger α) : Reachable L st → Reachable L (reset st)
  | setSampleRate (st : Flanger α) (sr : α) : Reachable L st → Reachable L (setSampleRate st sr)
  | setParams (st : Flanger α) (baseDelayMs depthMs rateHz feedback mix : α) :
      Reachable L st → Reachable L (setParams st baseDelayMs depthMs rateHz feedback mix)
  | processBlock (st : Flanger α) (data : Option (List Int)) (n : Int) :
      Reachable L st → Reachable L (processBlock L st data n).1

/-- The local `readIndex` of the loop after `while (readIndex < 0) readIndex += MAX`,
as a float32 (see `readDelayed`). -/
def readIndex (st : Flanger α) (delaySamp : α) : α :=
  let readIndex := Pedal.roundF32 ((st.w : α) - delaySamp)
  Pedal.addWhileNegF32 (MAX_DELAY_SAMPLES : α)
    (⌈-readIndex / (MAX_DELAY_SAMPLES : α)⌉).toNat readIndex

/-- The local `idx0` of the loop: `(int)readIndex`. -/
def idx0 (st : Flanger α) (delaySamp : α) : Int :=
  Pedal.truncToInt (readIndex st delaySamp)

/-- The local `idx1` of the loop: `idx0 + 1`, less `MAX_DELAY_SAMPLES` if it reaches it. -/
def idx1 (st : Flanger α) (delaySamp : α) : Int :=
  let idx1 := idx0 st delaySamp + 1
  if idx1 ≥ (MAX_DELAY_SAMPLES : Int) then idx1 - (MAX_DELAY_SAMPLES : Int) else idx1

end Flanger

namespace Tremolo

variable {α : Type} [LinearOrderedField α] [FloorRing α]

/-- The local `g` of the loop of `Tremolo::processBlock`: the gain for the current LFO
phase. -/
def gain (L : Pedal.Libm α) (st : Tremolo α) : α :=
  let lfo := 0.5 * (L.sinf st.phase + 1)
  (1 - st.depth) + st.depth * lfo

end Tremolo

end SimpleFX

/-! ## Ring buffers: the read position of the fractional read -/

namespace Pedal

variable {α : Type} [LinearOrderedField α] [FloorRing α]

/-- The read position `rp` after the two wrap loops, for the write index `w` and the
delay `d` in a ring of `cap` cells. -/
def ringPos (cap : Nat) (w : Nat) (d : α) : α :=
  wrapLoops (cap : α) ((w : α) - d)

/-- The index `i0 = (int)rp` of the fractional read. -/
def ringI0 (cap : Nat) (w : Nat) (d : α) : Int :=
  truncToInt (ringPos cap w d)

/-- The index `i1 = i0 + 1`, set to 0 if it reaches the capacity. -/
def ringI1 (cap : Nat) (w : Nat) (d : α) : Int :=
  if ringI0 cap w d + 1 ≥ (cap : Int) then 0 else ringI0 cap w d + 1

/-- The interpolation fraction `rp - (float)i0`. -/
def ringFrac (cap : Nat) (w : Nat) (d : α) : α :=
  ringPos cap w d - (ringI0 cap w d : α)

end Pedal

/-! ## Octave engine: a sampled sine as input -/

namespace OctaveEffect

variable {α : Type} [LinearOrderedField α] [FloorRing α]

end OctaveEffect

namespace LeslieEffect

variable {α : Type} [LinearOrderedField α] [FloorRing α]

/-- The state inside a `processWet` call after the first `k` samples of the block (the
rotor speeds are updated before the first sample). -/
def stateAfter (L : Pedal.Libm α) (st : State α) (left right : List Int) (fs : α)
    (pIn : Params α) (k : Nat) : State α :=
  let n := left.length
  let hz := rotorUpdate L st n fs pIn
  let st : State α := { st with hornHz := hz.1, drumHz := hz.2 }
  (Pedal.runBlock (sampleStep L (setup fs pIn hz.1 hz.2)) st
    ((List.zip left right).take k)).1

end LeslieEffect

namespace SimpleFX

namespace Flanger

variable {α : Type} [LinearOrderedField α] [FloorRing α]

/-- What every state of a processing history satisfies: the write index is inside the
buffer, every cell of the buffer (the indices below `MAX_DELAY_SAMPLES`) is in [-1, 1],
the two delay settings are in [0, 15] ms and the sample rate is above 8000 Hz. -/
def Wf (st : Flanger α) : Prop :=
  st.w < MAX_DELAY_SAMPLES ∧
    (∀ i : Nat, i < MAX_DELAY_SAMPLES → -1 ≤ st.buf i ∧ st.buf i ≤ 1) ∧
    (0 ≤ st.baseMs ∧ st.baseMs ≤ 15) ∧ (0 ≤ st.depthMs ∧ st.depthMs ≤ 15) ∧ 8000 < st.sr

end Flanger

end SimpleFX

/-! ## Write cursors of the ring buffers -/

namespace LeslieEffect

variable {α : Type} [LinearOrderedField α] [FloorRing α]

/-- Both write indices of the rotary engine are inside their buffers. -/
def State.CursorsOk (st : State α) : Prop :=
  st.idxHorn < BUF_LEN ∧ st.idxDrum < BUF_LEN

/-- From `st` to `st'` both write indices advanced by one, wrapping to 0 at `BUF_LEN`. -/
def State.CursorsStep (st st' : State α) : Prop :=
  st'.idxHorn = (st.idxHorn + 1) % BUF_LEN ∧ st'.idxDrum = (st.idxDrum + 1) % BUF_LEN

end LeslieEffect

namespace OrchestraEffect

variable {α : Type} [LinearOrderedField α] [FloorRing α]

/-- The index of a comb is inside its length, which is between 1 and `MAX`. -/
def Comb.CursorOk (c : Comb α) : Prop :=
  c.idx < c.len ∧ 1 ≤ c.len ∧ c.len ≤ Comb.MAX

/-- The index of an allpass is inside its length, which is between 1 and `MAX`. -/
def Allpass.CursorOk (a : Allpass α) : Prop :=
  a.idx < a.len ∧ 1 ≤ a.len ∧ a.len ≤ Allpass.MAX

/-- The write index of the pitch shifter and the indices of the combs and allpasses of
a shimmer stage are inside their buffers. -/
def ShimmerStage.CursorsOk (s : ShimmerStage α) : Prop :=
  s.ps.w < PitchShift.BUF ∧ s.c0.CursorOk ∧ s.c1.CursorOk ∧ s.c2.CursorOk ∧ s.c3.CursorOk ∧
    s.ap0.CursorOk ∧ s.ap1.CursorOk

/-- Every write index of the shimmer engine is inside its buffer. -/
def State.CursorsOk (st : State α) : Prop :=
  st.pre.w < DelayLine.MAX ∧ st.up.CursorsOk ∧ st.down.CursorsOk

/-- From `c` to `c'` the comb index advanced by one, wrapping to 0 at the length, which
is kept. -/
def Comb.CursorStep (c c' : Comb α) : Prop :=
  c'.len = c.len ∧ c'.idx = (c.idx + 1) % c.len

/-- From `a` to `a'` the allpass index advanced by one, wrapping to 0 at the length,
which is kept. -/
def Allpass.CursorStep (a a' : Allpass α) : Prop :=
  a'.len = a.len ∧ a'.idx = (a.idx + 1) % a.len

/-- From `s` to `s'` every index of the stage advanced by one and wrapped. -/
def ShimmerStage.CursorsStep (s s' : ShimmerStage α) : Prop :=
  s'.ps.w = (s.ps.w + 1) % PitchShift.BUF ∧ s.c0.CursorStep s'.c0 ∧ s.c1.CursorStep s'.c1 ∧
    s.c2.CursorStep s'.c2 ∧ s.c3.CursorStep s'.c3 ∧ s.ap0.CursorStep s'.ap0 ∧
    s.ap1.CursorStep s'.ap1

/-- From `st` to `st'` every write index of the engine advanced by one and wrapped. -/
def State.CursorsStep (st st' : State α) : Prop :=
  st'.pre.w = (st.pre.w + 1) % DelayLine.MAX ∧ st.up.CursorsStep st'.up ∧
    st.down.CursorsStep st'.down

end OrchestraEffect

/-! ## Octave engine: the two voices -/

namespace OctaveEffect

variable {α : Type} [LinearOrderedField α] [FloorRing α]

/-- The "OCTAVE UP" lines of the loop on the input `x`, from the states `_upLP` and
`_upDC`: the voice `up` after `(up - dc) * upGain`, the new `_upLP` and the new `_upDC`. -/
def upVoice (L : Pedal.Libm α) (c : Tuning α) (upLP0 upDC0 x : α) : α × α × α :=
  let up := |x|
  let upLP := onePoleLP up upLP0 c.upA
  let up := satAtan L (upLP * c.upDrive) 2.5
  let upDC := onePoleLP up upDC0 c.upDCA
  let dc := upDC
  let up := (up - dc) * c.upGain
  (up, upLP, upDC)

/-- The local `down` of the loop on the sample `s`: the filtered oscillator, which is the
new `_oscLP`, times the envelope gate for the updated envelope and lock flag. -/
def downVoice (L : Pedal.Libm α) (fs : α) (c : Tuning α) (st : State α) (s : Int) : α :=
  (sampleStep L fs c st s).1.oscLP *
    envGateOf c (sampleStep L fs c st s).1.env (sampleStep L fs c st s).1.trackingActive

end OctaveEffect

/-! ## Rotary engine: the inertia update -/

namespace LeslieEffect

variable {α : Type} [LinearOrderedField α] [FloorRing α]

/-- The local `hornTarget` of `processWet`. -/
def hornTarget (pIn : Params α) : α := lerp 0.8 6.0 (clamp01 pIn.speed)

/-- The local `drumTarget` of `processWet`. -/
def drumTarget (pIn : Params α) : α := lerp 0.6 4.5 (clamp01 pIn.speed)

/-- The local `hornA` of `processWet` for a block of `n` samples:
`1 - expf(-dt / hornTau)` with `dt = n / fs` and `hornTau = lerp(0.20, 1.20, ramp)`. -/
def hornA (L : Pedal.Libm α) (n : Nat) (fs : α) (pIn : Params α) : α :=
  let dt := (n : α) / fs
  let hornTau := lerp 0.20 1.20 (clamp01 pIn.ramp)
  1 - L.expf (-dt / hornTau)

/-- The local `drumA` of `processWet` for a block of `n` samples:
`1 - expf(-dt / drumTau)` with `dt = n / fs` and `drumTau = lerp(0.35, 1.80, ramp)`. -/
def drumA (L : Pedal.Libm α) (n : Nat) (fs : α) (pIn : Params α) : α :=
  let dt := (n : α) / fs
  let drumTau := lerp 0.35 1.80 (clamp01 pIn.ramp)
  1 - L.expf (-dt / drumTau)

/-- The rotor speeds are inside their slow-to-fast ranges. -/
def SpeedsOk (st : State α) : Prop :=
  (0.8 ≤ st.hornHz ∧ st.hornHz ≤ 6) ∧ (0.6 ≤ st.drumHz ∧ st.drumHz ≤ 4.5)

end LeslieEffect

/-! ## Shimmer engine: the duck gain and the grain phases -/

namespace OrchestraEffect

variable {α : Type} [LinearOrderedField α] [FloorRing α]

/-- The local `targetDuck` of the loop for the clamped swell knob and the updated
envelope: the floor `lerp(1, 0.22, swell)` while the envelope exceeds `openTh = 0.03`,
and 1 otherwise. -/
def targetDuck (swell env : α) : α :=
  let openTh : α := 0.030
  let playing : α := if env > openTh then 1 else 0
  let wetFloor := lerp 1.0 0.22 swell
  if playing ≠ 0 then wetFloor else 1

/-- The local `a` of the loop: the release rate when the target is above `_duck`, the
attack rate otherwise. -/
def duckRate (swell target duck : α) : α :=
  let duckAtk := lerp 0.05 0.12 swell
  let duckRel := lerp 0.0012 0.00018 swell
  if target > duck then duckRel else duckAtk

/-- The duck state is in [0.22, 1] and the smoothed squared gain in [0, 1]. -/
def State.DuckOk (st : State α) : Prop :=
  (0.22 ≤ st.duck ∧ st.duck ≤ 1) ∧ (0 ≤ st.swellLP ∧ st.swellLP ≤ 1)

namespace PitchShift

variable {α : Type} [LinearOrderedField α] [FloorRing α]

/-- The local `grain` of `PitchShift::process`: the grain length in samples, clamped to
`[256, BUF - 16]`. -/
def grainLen (fs grainMs : α) : α :=
  let grain := (grainMs / 1000) * fs
  let grain := if grain < 256 then 256 else grain
  if grain > ((BUF - 16 : Nat) : α) then ((BUF - 16 : Nat) : α) else grain

/-- The four grain phases are in [0, 1) and a quarter apart modulo 1. -/
def PhasesOk (p : PitchShift α) : Prop :=
  (0 ≤ p.ph0 ∧ p.ph0 < 1) ∧ p.ph1 = Int.fract (p.ph0 + 1 / 4) ∧
    p.ph2 = Int.fract (p.ph0 + 1 / 2) ∧ p.ph3 = Int.fract (p.ph0 + 3 / 4)

/-- A history of `process` calls on one pitch shifter: each call gives its input
sample, ratio, sample rate and grain length in ms; the result is the final state and
the returned values, in order. -/
def processSeq (L : Pedal.Libm α) (p : PitchShift α) (calls : List (α × α × α × α)) :
    PitchShift α × List α :=
  Pedal.runBlock (fun p c => p.process L c.1 c.2.1 c.2.2.1 c.2.2.2) p calls

end PitchShift

end OrchestraEffect

namespace Pedal

/-- The math library over the reals in which the cosine reads the literal 3.14159265 of
the sources as pi: `cosf x = cos (x * (pi / 3.14159265))`, so that
`cosf (2 * 3.14159265 * p) = cos (2 * pi * p)`. -/
noncomputable def piLiteralLibm : Libm ℝ :=
  { atanf := Real.arctan, sinf := Real.sin,
    cosf := fun x => Real.cos (x * (Real.pi / 3.14159265)),
    expf := Real.exp, tanhf := Real.tanh, M_PI := Real.pi }

end Pedal

/-! ## Distortion engine: the anti-alias state -/

namespace BigMuffEffect

variable {α : Type} [LinearOrderedField α] [FloorRing α]

/-- The anti-alias filter state is within the soft limit. -/
def State.AaOk (st : State α) : Prop := |st.osLP| ≤ 1.2

end BigMuffEffect

/-! ## Theorems -/

namespace Pedal

section CoreLemmas

variable {α : Type} [LinearOrderedField α] [FloorRing α]

theorem truncToInt_of_nonneg {x : α} (h : 0 ≤ x) : truncToInt x = ⌊x⌋ := by
  simp [truncToInt, h]

theorem truncToInt_of_neg {x : α} (h : x < 0) : truncToInt x = ⌈x⌉ := by
  simp [truncToInt, not_le.mpr h]

theorem truncToInt_zero : truncToInt (0 : α) = 0 := by
  simp [truncToInt]

theorem truncToInt_intCast (z : Int) : truncToInt (z : α) = z := by
  unfold truncToInt
  split <;> simp

/-- Truncation stays between 0 and its argument: lower bound form. -/
theorem truncToInt_bounds {x : α} {lo hi : Int} (hlo : (lo : α) ≤ x) (hhi : x ≤ (hi : α))
    (h0 : lo ≤ 0) (h1 : 0 ≤ hi) : lo ≤ truncToInt x ∧ truncToInt x ≤ hi := by
  unfold truncToInt
  split
  · rename_i h
    constructor
    · exact le_trans h0 (Int.floor_nonneg.mpr h)
    · have : (⌊x⌋ : α) ≤ hi := le_trans (Int.floor_le x) hhi
      exact_mod_cast this
  · rename_i h
    have hx : x < 0 := not_le.mp h
    constructor
    · have : (lo : α) ≤ ⌈x⌉ := le_trans hlo (Int.le_ceil x)
      exact_mod_cast this
    · have : ⌈x⌉ ≤ 0 := Int.ceil_le.mpr (by simpa using hx.le)
      exact le_trans this h1

end CoreLemmas

end Pedal

namespace SimpleFX

open Pedal

variable {α : Type} [LinearOrderedField α] [FloorRing α]

omit [FloorRing α] in
theorem clampf_mem (x lo hi : α) (h : lo ≤ hi) : lo ≤ clampf x lo hi ∧ clampf x lo hi ≤ hi := by
  unfold clampf
  split_ifs with h1 h2
  · exact ⟨le_refl _, h⟩
  · exact ⟨h, le_refl _⟩
  · exact ⟨not_lt.mp h1, not_lt.mp h2⟩

theorem floatToInt16_range (x : α) :
    -32768 ≤ floatToInt16 x ∧ floatToInt16 x ≤ 32767 := by
  have hc := clampf_mem x (-1 : α) 1 (by norm_num)
  simp only [floatToInt16]
  split_ifs with h
  · refine truncToInt_bounds ?_ ?_ (by norm_num) (by norm_num)
    · push_cast; nlinarith [hc.1, hc.2]
    · push_cast; nlinarith [hc.1, hc.2]
  · refine truncToInt_bounds ?_ ?_ (by norm_num) (by norm_num)
    · push_cast; nlinarith [hc.1, hc.2]
    · push_cast; nlinarith [hc.1, hc.2]

end SimpleFX

/-- C1: every engine's `clamp16` saturates (identity on [-32768, 32767], 32767 above,
-32768 below, identically in the distortion, rotary, octave and shimmer engines), and
`SimpleFX::floatToInt16` of any value lies in [-32768, 32767]. -/
theorem C1_clamp16_saturates {α : Type} [LinearOrderedField α] [FloorRing α] :
    (∀ x : Int,
      BigMuffEffect.clamp16 x = max (-32768) (min 32767 x) ∧
      LeslieEffect.clamp16 x = max (-32768) (min 32767 x) ∧
      OctaveEffect.clamp16 x = max (-32768) (min 32767 x) ∧
      OrchestraEffect.clamp16 x = max (-32768) (min 32767 x)) ∧
    (∀ x : α, -32768 ≤ SimpleFX.floatToInt16 x ∧ SimpleFX.floatToInt16 x ≤ 32767) := by
  refine ⟨fun x => ?_, SimpleFX.floatToInt16_range⟩
  simp only [BigMuffEffect.clamp16, LeslieEffect.clamp16, OctaveEffect.clamp16,
    OrchestraEffect.clamp16]
  refine ⟨?_, ?_, ?_, ?_⟩ <;> split_ifs <;> omega

/-! ### The wrap loops run to completion -/

namespace Pedal

variable {α : Type} [LinearOrderedField α] [FloorRing α]

omit [FloorRing α] in
/-- With enough iterations allowed, `while (r < 0) r += m` ends on a value that is not
negative; it is below `m` if the loop ran, and `r` itself if it did not. -/
theorem addWhileNeg_spec (m : α) :
    ∀ (k : Nat) (r : α), 0 ≤ r + (k : α) * m →
      0 ≤ addWhileNeg m k r ∧ (r < 0 → addWhileNeg m k r < m) ∧
        (0 ≤ r → addWhileNeg m k r = r) := by
  intro k
  induction k with
  | zero =>
    intro r h
    have hr : 0 ≤ r := by simpa using h
    exact ⟨hr, fun hneg => absurd hr (not_le.mpr hneg), fun _ => rfl⟩
  | succ k ih =>
    intro r h
    by_cases hneg : r < 0
    · have h' : 0 ≤ (r + m) + (k : α) * m := by
        have : ((k + 1 : Nat) : α) * m = (k : α) * m + m := by push_cast; ring
        rw [this] at h; linarith
      obtain ⟨i1, i2, i3⟩ := ih (r + m) h'
      simp only [addWhileNeg, hneg, if_true]
      refine ⟨i1, fun _ => ?_, fun h0 => absurd h0 (not_le.mpr hneg)⟩
      by_cases hrm : r + m < 0
      · exact i2 hrm
      · rw [i3 (not_lt.mp hrm)]; linarith
    · have hr : 0 ≤ r := not_lt.mp hneg
      have e : addWhileNeg m (k + 1) r = r := by simp only [addWhileNeg, hneg, if_false]
      rw [e]
      exact ⟨hr, fun h0 => absurd h0 hneg, fun _ => rfl⟩

omit [FloorRing α] in
/-- With enough iterations allowed, `while (r >= m) r -= m` on a non-negative value ends
in `[0, m)`. -/
theorem subWhileGe_spec (m : α) :
    ∀ (k : Nat) (r : α), 0 ≤ r → r - (k : α) * m < m →
      0 ≤ subWhileGe m k r ∧ subWhileGe m k r < m := by
  intro k
  induction k with
  | zero =>
    intro r h0 h
    exact ⟨h0, by simpa using h⟩
  | succ k ih =>
    intro r h0 h
    by_cases hge : r ≥ m
    · have h' : (r - m) - (k : α) * m < m := by
        have : ((k + 1 : Nat) : α) * m = (k : α) * m + m := by push_cast; ring
        rw [this] at h; linarith
      simp only [subWhileGe, hge, if_true]
      exact ih (r - m) (by linarith) h'
    · simp only [subWhileGe, hge, if_false]
      exact ⟨h0, not_le.mp hge⟩

/-- The two wrap loops, with the iteration bounds of `wrapLoops`, end in `[0, m)`. -/
theorem wrapLoops_mem (m r : α) (hm : 0 < m) :
    0 ≤ wrapLoops m r ∧ wrapLoops m r < m := by
  have h1 : 0 ≤ r + ((⌈-r / m⌉.toNat : Nat) : α) * m := by
    have a1 : -r / m ≤ (⌈-r / m⌉ : α) := Int.le_ceil _
    have a2 : (⌈-r / m⌉ : α) ≤ ((⌈-r / m⌉.toNat : Nat) : α) := by
      have : ⌈-r / m⌉ ≤ ((⌈-r / m⌉.toNat : Nat) : Int) := Int.self_le_toNat _
      exact_mod_cast this
    have a3 : -r / m ≤ ((⌈-r / m⌉.toNat : Nat) : α) := le_trans a1 a2
    have a4 : -r ≤ ((⌈-r / m⌉.toNat : Nat) : α) * m := (div_le_iff₀ hm).mp a3
    linarith
  obtain ⟨b1, _, _⟩ := addWhileNeg_spec m _ r h1
  unfold wrapLoops
  apply subWhileGe_spec m _ _ b1
  set r1 := addWhileNeg m (⌈-r / m⌉.toNat) r with hr1
  have c0 : 0 ≤ ⌊r1 / m⌋ := Int.floor_nonneg.mpr (div_nonneg b1 hm.le)
  have c1 : ((⌊r1 / m⌋.toNat : Nat) : α) = (⌊r1 / m⌋ : α) := by
    have : ((⌊r1 / m⌋.toNat : Nat) : Int) = ⌊r1 / m⌋ := Int.toNat_of_nonneg c0
    exact_mod_cast this
  have c2 : r1 / m < (⌊r1 / m⌋ : α) + 1 := Int.lt_floor_add_one _
  have c3 : r1 < ((⌊r1 / m⌋ : α) + 1) * m := (div_lt_iff₀ hm).mp c2
  rw [c1]
  linarith

end Pedal

/-! ### Distortion engine: silence -/

namespace BigMuffEffect

open Pedal

variable {α : Type} [LinearOrderedField α] [FloorRing α]

theorem runBlock_replicate_fixed {σ ι ο : Type} (step : σ → ι → σ × ο) (st : σ) (x : ι)
    (y : ο) (h : step st x = (st, y)) (n : Nat) :
    runBlock step st (List.replicate n x) = (st, List.replicate n y) := by
  induction n with
  | zero => rfl
  | succ k ih => simp [List.replicate_succ, runBlock, h, ih]

omit [FloorRing α] in
theorem clamp01_of_nonpos {x : α} (h : x ≤ 0) : clamp01 x = 0 := by
  unfold clamp01
  split_ifs with h1 h2
  · rfl
  · linarith
  · linarith

omit [FloorRing α] in
theorem coeffs_bias_of_shape_nonpos (fs : α) (p : Params α) (h : p.shape ≤ 0) :
    (coeffs fs p).bias = 0 := by
  simp only [coeffs, lerp, clamp01_of_nonpos h]
  norm_num

omit [FloorRing α] in
theorem osStep_silent (L : Libm α) (hL : L.atanf 0 = 0) (c : Coeffs α) (hb : c.bias = 0)
    (st : State α) : osStep L c (reset st) 0 = (reset st, 0) := by
  have h12 : ¬ ((1.2 : α) < 0) := by norm_num
  have h12n : ¬ ((0 : α) < -1.2) := by norm_num
  simp [osStep, reset, dcBlock, onePoleLP, onePoleHP_viaLP, satAtan, softLimit, hb, hL,
    h12, h12n]

theorem sampleStep_silent (L : Libm α) (hL : L.atanf 0 = 0) (c : Coeffs α) (hb : c.bias = 0)
    (st : State α) : sampleStep L c (reset st) 0 = (reset st, 0) := by
  have h := osStep_silent L hL c hb st
  have hx : (reset st).xPrev = 0 := rfl
  simp only [sampleStep, Int.cast_zero, zero_div, hx, add_zero, mul_zero, h, zero_mul,
    truncToInt_zero]
  simp [reset, clamp16]

end BigMuffEffect

/-! ### Distortion engine: the shape bias is audible on a silent block -/

namespace BigMuffEffect
open Pedal

/-- The coefficients `processMonoWet` derives at 44.1 kHz from drive = tone = shape = 1
and pres = 0. -/
theorem coeffs_example : coeffs (44100 : ℝ) ⟨1, 1, 1, 0⟩ =
    { tone := 1, g1 := 5.5, g2 := 6.5, g3 := 4.8, inPad := 0.22, k1 := 16.8, k2 := 18.48,
      k3 := 15.12, bias := 0.04, hpA1 := 0.012, hpA2 := 0.010, hpA3 := 0.009,
      preA := 900 / 88200, toneA := 650 / 88200, postA := 1600 / 88200,
      osA := 12000 / 88200, outScale := 0.55 } := by
  simp only [coeffs, clamp01, lerp, clampCoef]
  norm_num

theorem satAtan_bounds (L : Libm ℝ)
    (hL : ∀ x, 0.672 ≤ x → 0.3926 ≤ L.atanf x ∧ L.atanf x ≤ 1.5708) (x k : ℝ)
    (h : 0.672 ≤ k * x) : 0.2499 ≤ satAtan L x k ∧ satAtan L x k ≤ 1.0001 := by
  obtain ⟨h1, h2⟩ := hL (k * x) h
  unfold satAtan
  constructor
  · have : (0.2499 : ℝ) ≤ 2 / (13176795 / 4194304) * 0.3926 := by norm_num
    have h3 : (2 / (13176795 / 4194304) : ℝ) * 0.3926 ≤ 2 / (13176795 / 4194304) * L.atanf (k * x) :=
      mul_le_mul_of_nonneg_left h1 (by norm_num)
    linarith
  · have : (2 / (13176795 / 4194304) : ℝ) * 1.5708 ≤ 1.0001 := by norm_num
    have h3 : (2 / (13176795 / 4194304) : ℝ) * L.atanf (k * x) ≤ 2 / (13176795 / 4194304) * 1.5708 :=
      mul_le_mul_of_nonneg_left h2 (by norm_num)
    linarith

theorem hpStage_bounds (A lp a : ℝ) (hA : 0.2499 ≤ A ∧ A ≤ 1.0001)
    (hlp : 0 ≤ lp ∧ lp ≤ 0.05) (ha : 0 ≤ a ∧ a ≤ 0.012) :
    0.18 ≤ (onePoleHP_viaLP A lp a).1 ∧ (onePoleHP_viaLP A lp a).1 ≤ 1.0001 ∧
    0 ≤ (onePoleHP_viaLP A lp a).2 ∧ (onePoleHP_viaLP A lp a).2 ≤ lp + 0.02 := by
  obtain ⟨hA1, hA2⟩ := hA
  obtain ⟨hl1, hl2⟩ := hlp
  obtain ⟨ha1, ha2⟩ := ha
  simp only [onePoleHP_viaLP]
  have e : a * (A - lp) ≤ 0.012 * 1.0001 := by
    have h1 : a * (A - lp) ≤ 0.012 * (A - lp) :=
      mul_le_mul_of_nonneg_right ha2 (by linarith)
    linarith
  have e0 : 0 ≤ a * (A - lp) := mul_nonneg ha1 (by linarith)
  refine ⟨?_, ?_, ?_, ?_⟩ <;> linarith

theorem lpStage_bounds (x y a lo : ℝ) (hx : lo ≤ x ∧ x ≤ 1.0001) (hlo : 0.05 ≤ lo)
    (hy : 0 ≤ y ∧ y ≤ 0.05) (ha : 0 ≤ a ∧ a ≤ 0.019) :
    a * (lo - 0.05) ≤ onePoleLP x y a ∧ onePoleLP x y a ≤ y + 0.02 := by
  obtain ⟨hx1, hx2⟩ := hx
  obtain ⟨hy1, hy2⟩ := hy
  obtain ⟨ha1, ha2⟩ := ha
  simp only [onePoleLP]
  have e1 : a * (lo - 0.05) ≤ a * (x - y) := mul_le_mul_of_nonneg_left (by linarith) ha1
  have e2 : a * (x - y) ≤ 0.019 * (x - y) := mul_le_mul_of_nonneg_right ha2 (by linarith)
  constructor <;> linarith

theorem osStep_biased (L : Libm ℝ)
    (hL : ∀ x, 0.672 ≤ x → 0.3926 ≤ L.atanf x ∧ L.atanf x ≤ 1.5708) (c : Coeffs ℝ)
    (hc : c = coeffs 44100 ⟨1, 1, 1, 0⟩) (st : State ℝ)
    (h1 : st.dc_x1 = 0) (h2 : st.dc_y1 = 0) (h3 : st.preLP = 0)
    (hh1 : 0 ≤ st.hp1_lp ∧ st.hp1_lp ≤ 0.05) (hh2 : 0 ≤ st.hp2_lp ∧ st.hp2_lp ≤ 0.05)
    (hh3 : 0 ≤ st.hp3_lp ∧ st.hp3_lp ≤ 0.05) (ht : 0 ≤ st.toneLP ∧ st.toneLP ≤ 0.05)
    (hp : 0 ≤ st.postLP ∧ st.postLP ≤ 0.05) (ho : 0 ≤ st.osLP) :
    (osStep L c st 0).1.dc_x1 = 0 ∧ (osStep L c st 0).1.dc_y1 = 0 ∧
    (osStep L c st 0).1.preLP = 0 ∧
    0 ≤ (osStep L c st 0).1.hp1_lp ∧ (osStep L c st 0).1.hp1_lp ≤ st.hp1_lp + 0.02 ∧
    0 ≤ (osStep L c st 0).1.hp2_lp ∧ (osStep L c st 0).1.hp2_lp ≤ st.hp2_lp + 0.02 ∧
    0 ≤ (osStep L c st 0).1.hp3_lp ∧ (osStep L c st 0).1.hp3_lp ≤ st.hp3_lp + 0.02 ∧
    0 ≤ (osStep L c st 0).1.toneLP ∧ (osStep L c st 0).1.toneLP ≤ st.toneLP + 0.02 ∧
    0 ≤ (osStep L c st 0).1.postLP ∧ (osStep L c st 0).1.postLP ≤ st.postLP + 0.02 ∧
    0 ≤ (osStep L c st 0).1.osLP ∧ 0.0001 ≤ (osStep L c st 0).2 := by
  rw [coeffs_example] at hc
  have c_tone : c.tone = 1 := by rw [hc]
  have c_g1 : c.g1 = 5.5 := by rw [hc]
  have c_g2 : c.g2 = 6.5 := by rw [hc]
  have c_g3 : c.g3 = 4.8 := by rw [hc]
  have c_k1 : c.k1 = 16.8 := by rw [hc]
  have c_k2 : c.k2 = 18.48 := by rw [hc]
  have c_k3 : c.k3 = 15.12 := by rw [hc]
  have c_bias : c.bias = 0.04 := by rw [hc]
  have c_hpA1 : c.hpA1 = 0.012 := by rw [hc]
  have c_hpA2 : c.hpA2 = 0.010 := by rw [hc]
  have c_hpA3 : c.hpA3 = 0.009 := by rw [hc]
  have c_toneA : c.toneA = 650 / 88200 := by rw [hc]
  have c_postA : c.postA = 1600 / 88200 := by rw [hc]
  have c_osA : c.osA = 12000 / 88200 := by rw [hc]
  clear hc
  unfold osStep
  lift_lets
  intro x d x' preLP x'' s1 h1' y1 s2 h2' y2 s3 h3' y3 toneLP lp hp' yt postLP yt' osLP
  have dx : x = 0 * c.inPad := rfl
  have dd : d = dcBlock x st.dc_x1 st.dc_y1 0.995 := rfl
  have dx' : x' = d.1 := rfl
  have dpre : preLP = onePoleLP x' st.preLP c.preA := rfl
  have dx'' : x'' = preLP := rfl
  have ds1 : s1 = x'' * c.g1 + c.bias := rfl
  have dh1 : h1' = onePoleHP_viaLP (satAtan L s1 c.k1) st.hp1_lp c.hpA1 := rfl
  have dy1 : y1 = h1'.1 := rfl
  have ds2 : s2 = y1 * c.g2 := rfl
  have dh2 : h2' = onePoleHP_viaLP (satAtan L s2 c.k2) st.hp2_lp c.hpA2 := rfl
  have dy2 : y2 = h2'.1 := rfl
  have ds3 : s3 = y2 * c.g3 := rfl
  have dh3 : h3' = onePoleHP_viaLP (satAtan L s3 c.k3) st.hp3_lp c.hpA3 := rfl
  have dy3 : y3 = h3'.1 := rfl
  have dtone : toneLP = onePoleLP y3 st.toneLP c.toneA := rfl
  have dlp : lp = toneLP := rfl
  have dhp : hp' = y3 - lp := rfl
  have dyt : yt = (1 - c.tone) * lp + c.tone * hp' := rfl
  have dpost : postLP = onePoleLP yt st.postLP c.postA := rfl
  have dyt' : yt' = softLimit postLP := rfl
  have dos : osLP = onePoleLP yt' st.osLP c.osA := rfl
  clear_value x d x' preLP x'' s1 h1' y1 s2 h2' y2 s3 h3' y3 toneLP lp hp' yt postLP yt' osLP
  rw [c_g1, c_bias] at ds1
  rw [c_k1, c_hpA1] at dh1
  rw [c_g2] at ds2
  rw [c_k2, c_hpA2] at dh2
  rw [c_g3] at ds3
  rw [c_k3, c_hpA3] at dh3
  rw [c_toneA] at dtone
  rw [c_tone] at dyt
  rw [c_postA] at dpost
  rw [c_osA] at dos
  have ex : x = 0 := by rw [dx]; norm_num
  have ed : d = (0, 0, 0) := by simp only [dd, dcBlock, ex, h1, h2]; norm_num
  have epre : preLP = 0 := by simp [dpre, onePoleLP, dx', ed, h3]
  have es1 : s1 = 0.04 := by simp only [ds1, dx'', epre]; norm_num
  have hA := satAtan_bounds L hL s1 16.8 (by rw [es1]; norm_num)
  have b1 := hpStage_bounds _ _ 0.012 hA hh1 (by norm_num)
  rw [← dh1, ← dy1] at b1
  have hB := satAtan_bounds L hL s2 18.48 (by rw [ds2]; linarith only [b1.1])
  have b2 := hpStage_bounds _ _ 0.010 hB hh2 (by norm_num)
  rw [← dh2, ← dy2] at b2
  have hC := satAtan_bounds L hL s3 15.12 (by rw [ds3]; linarith only [b2.1])
  have b3 := hpStage_bounds _ _ 0.009 hC hh3 (by norm_num)
  rw [← dh3, ← dy3] at b3
  have bt := lpStage_bounds y3 st.toneLP (650 / 88200) 0.18 ⟨b3.1, b3.2.1⟩ (by norm_num) ht
    (by norm_num)
  rw [← dtone] at bt
  have eyt : yt = (1 - 650 / 88200) * (y3 - st.toneLP) := by
    rw [dyt, dhp, dlp, dtone, onePoleLP]; ring
  have hyt : 0.12 ≤ yt ∧ yt ≤ 1.0001 := by
    rw [eyt]; constructor <;> linarith only [ht.1, ht.2, b3.1, b3.2.1]
  have bp := lpStage_bounds yt st.postLP (1600 / 88200) 0.12 hyt (by norm_num) hp
    (by norm_num)
  rw [← dpost] at bp
  have hpost : 0.001 ≤ postLP := by linarith only [bp.1]
  have esoft : yt' = postLP := by
    have a1 : ¬ (postLP > 1.2) := by linarith only [bp.2, hp.2]
    have a2 : ¬ (postLP < -1.2) := by linarith only [hpost]
    simp only [dyt', softLimit, a1, a2, if_false]
  have eo : osLP = (1 - 12000 / 88200) * st.osLP + 12000 / 88200 * postLP := by
    rw [dos, onePoleLP, esoft]; ring
  have hos : 0.0001 ≤ osLP := by rw [eo]; linarith only [hpost, ho]
  dsimp only
  refine ⟨?_, ?_, ?_, b1.2.2.1, b1.2.2.2, b2.2.2.1, b2.2.2.2, b3.2.2.1, b3.2.2.2, ?_, bt.2,
    ?_, bp.2, ?_, hos⟩
  · simp [ed]
  · simp [ed]
  · exact epre
  · linarith only [bt.1]
  · linarith only [hpost]
  · linarith only [hos]

theorem realLibm_atanf_bounds (x : ℝ) (hx : 0.672 ≤ x) :
    0.3926 ≤ realLibm.atanf x ∧ realLibm.atanf x ≤ 1.5708 := by
  show 0.3926 ≤ Real.arctan x ∧ Real.arctan x ≤ 1.5708
  have hpi1 := Real.pi_gt_d6
  have hpi2 := Real.pi_lt_d6
  constructor
  · have h2 : 2 * Real.arctan 0.672 = Real.arctan (2 * 0.672 / (1 - 0.672 ^ 2)) :=
      Real.two_mul_arctan (by norm_num) (by norm_num)
    have h3 : Real.arctan 1 ≤ Real.arctan (2 * 0.672 / (1 - 0.672 ^ 2)) :=
      Real.arctan_strictMono.monotone (by norm_num)
    have h4 : Real.arctan 0.672 ≤ Real.arctan x := Real.arctan_strictMono.monotone hx
    rw [Real.arctan_one] at h3
    linarith
  · have := Real.arctan_lt_pi_div_two x
    linarith

theorem sampleStep_biased (L : Libm ℝ)
    (hL : ∀ x, 0.672 ≤ x → 0.3926 ≤ L.atanf x ∧ L.atanf x ≤ 1.5708) (st : State ℝ) :
    1 ≤ (sampleStep L (coeffs 44100 ⟨1, 1, 1, 0⟩) (reset st) 0).2 := by
  have hx : (0.5 : ℝ) * ((reset st).xPrev + 0) = 0 := by
    simp [reset]
  have hx1 : (((0 : Int) : ℝ) / 32768) = 0 := by simp
  have p0 := osStep_biased L hL _ rfl (reset st) rfl rfl rfl (by norm_num [reset])
    (by norm_num [reset]) (by norm_num [reset]) (by norm_num [reset]) (by norm_num [reset])
    (by norm_num [reset])
  obtain ⟨a1, a2, a3, a4, a5, a6, a7, a8, a9, a10, a11, a12, a13, a14, _⟩ := p0
  have z1 : (reset st).hp1_lp = 0 := rfl
  have z2 : (reset st).hp2_lp = 0 := rfl
  have z3 : (reset st).hp3_lp = 0 := rfl
  have z4 : (reset st).toneLP = 0 := rfl
  have z5 : (reset st).postLP = 0 := rfl
  rw [z1] at a5
  rw [z2] at a7
  rw [z3] at a9
  rw [z4] at a11
  rw [z5] at a13
  have p1 := osStep_biased L hL _ rfl _ a1 a2 a3 ⟨a4, by linarith only [a5]⟩
    ⟨a6, by linarith only [a7]⟩ ⟨a8, by linarith only [a9]⟩ ⟨a10, by linarith only [a11]⟩
    ⟨a12, by linarith only [a13]⟩ a14
  have hout := p1.2.2.2.2.2.2.2.2.2.2.2.2.2.2
  simp only [sampleStep, hx1, hx]
  have hc : (coeffs (44100 : ℝ) ⟨1, 1, 1, 0⟩).outScale = 0.55 := by rw [coeffs_example]
  rw [hc]
  generalize (osStep L (coeffs 44100 ⟨1, 1, 1, 0⟩)
    (osStep L (coeffs 44100 ⟨1, 1, 1, 0⟩) (reset st) 0).1 0).2 = v at hout ⊢
  have hv : (1 : ℝ) ≤ v * 0.55 * 32767 := by linarith only [hout]
  have ht : 1 ≤ truncToInt (v * 0.55 * 32767) := by
    rw [truncToInt_of_nonneg (by linarith only [hv])]
    exact Int.le_floor.mpr (by simpa using hv)
  unfold clamp16
  split_ifs <;> omega

end BigMuffEffect

/-- C2 (amended): distortion engine, with the shape knob at 0 or below (so that the
stage-1 bias `lerp(0, 0.04, shape)` is 0), any drive, tone and pres and any sample rate
fs > 0: `reset()` followed by `processMonoWet` on a block of all-zero samples leaves
every sample 0 (and the state as reset). It uses `atanf(0) = 0`. -/
theorem C2_silence_without_bias {α : Type} [LinearOrderedField α] [FloorRing α]
    (L : Pedal.Libm α) (hL : L.atanf 0 = 0) (st : BigMuffEffect.State α)
    (p : BigMuffEffect.Params α) (hshape : p.shape ≤ 0) (fs : α) (_hfs : 0 < fs) (n : Nat) :
    BigMuffEffect.processMonoWet L (BigMuffEffect.reset st) (List.replicate n 0) fs p =
      (BigMuffEffect.reset st, List.replicate n 0) :=
  BigMuffEffect.runBlock_replicate_fixed _ _ _ _
    (BigMuffEffect.sampleStep_silent L hL _
      (BigMuffEffect.coeffs_bias_of_shape_nonpos fs p hshape) st) n

/-- Witness of C2 (amended): the real math library at 44.1 kHz, drive = tone = pres = 1,
shape = 0, on a block of four zero samples. -/
theorem C2_silence_without_bias_witness :
    BigMuffEffect.processMonoWet Pedal.realLibm
        (BigMuffEffect.reset BigMuffEffect.construct) (List.replicate 4 0) (44100 : ℝ)
        ⟨1, 1, 0, 1⟩ =
      (BigMuffEffect.reset BigMuffEffect.construct, List.replicate 4 0) :=
  C2_silence_without_bias Pedal.realLibm Real.arctan_zero BigMuffEffect.construct
    ⟨1, 1, 0, 1⟩ (le_refl 0) 44100 (by norm_num) 4

/-- C2 (counterexample): with drive = tone = shape = 1, pres = 0 at 44.1 kHz, `reset()`
followed by `processMonoWet` on the one-sample silent block `[0]` does not give `[0]`:
the shape bias 0.04 passes the three saturation stages and reaches the output. -/
theorem C2_counterexample :
    (BigMuffEffect.processMonoWet Pedal.realLibm
      (BigMuffEffect.reset BigMuffEffect.construct) [0] (44100 : ℝ) ⟨1, 1, 1, 0⟩).2 ≠ [0] := by
  have h := BigMuffEffect.sampleStep_biased Pedal.realLibm
    BigMuffEffect.realLibm_atanf_bounds BigMuffEffect.construct
  simp only [BigMuffEffect.processMonoWet, Pedal.runBlock]
  intro hcontra
  have h0 := List.head_eq_of_cons_eq hcontra
  omega

/-! ### Octave engine: silence -/

namespace Pedal

theorem runBlock_replicate_inv {σ ι ο : Type} (step : σ → ι → σ × ο) (Inv : σ → Prop)
    (x : ι) (y : ο) (h : ∀ st, Inv st → (step st x).2 = y ∧ Inv (step st x).1) (n : Nat) :
    ∀ st, Inv st → (runBlock step st (List.replicate n x)).2 = List.replicate n y ∧
      Inv (runBlock step st (List.replicate n x)).1 := by
  induction n with
  | zero => intro st hst; exact ⟨rfl, hst⟩
  | succ k ih =>
    intro st hst
    obtain ⟨h1, h2⟩ := h st hst
    obtain ⟨h3, h4⟩ := ih _ h2
    simp only [List.replicate_succ, runBlock, h1, h3]
    exact ⟨trivial, h4⟩

end Pedal

namespace OctaveEffect

open Pedal

variable {α : Type} [LinearOrderedField α] [FloorRing α]

omit [FloorRing α] in
theorem clamp01_mem (x : α) : 0 ≤ clamp01 x ∧ clamp01 x ≤ 1 := by
  unfold clamp01
  split_ifs with h1 h2
  · exact ⟨le_refl _, zero_le_one⟩
  · exact ⟨zero_le_one, le_refl _⟩
  · exact ⟨not_lt.mp h1, not_lt.mp h2⟩

theorem tuning_gate_pos (fs : α) (p : Params α) :
    0 < (tuning fs p).gateOff ∧ (tuning fs p).gateOff < (tuning fs p).gateOn := by
  obtain ⟨h0, h1⟩ := clamp01_mem p.tracking
  simp only [tuning, lerp]
  constructor <;> norm_num <;> linarith

theorem sampleStep_silent_octave (L : Libm α) (hL : L.atanf 0 = 0) (fs : α) (c : Tuning α)
    (hoff : 0 < c.gateOff) (hon : c.gateOff < c.gateOn) (st : State α) (hs : Silent st) :
    (sampleStep L fs c st 0).2 = 0 ∧ Silent (sampleStep L fs c st 0).1 := by
  obtain ⟨env, ssc, freq, phase, sign, act, hang, preLP, upLP, upDC, oscLP, postLP⟩ := st
  simp only [Silent] at hs
  obtain ⟨rfl, rfl, rfl, rfl, rfl, rfl⟩ := hs
  have hon' : ¬ (c.gateOn < 0) := by linarith
  have hoff' : -(c.gateOff * 30) < 0 := by linarith
  have h01 : ¬ ((1 : α) < 0) := by norm_num
  simp [sampleStep, Silent, envFollow, gateStep, onePoleLP, satAtan, hL, envGateOf, hon',
    hoff', h01, truncToInt_zero, clamp16]

/-- On the first silent sample after `reset()` the unlocked tracker drifts from 200 Hz
to 199.2 Hz and the down-voice phase advances by 99.6 / fs: the oscillator keeps
running on silence. -/
theorem sampleStep_reset_phase (L : Libm α) (fs : α) (hfs : 99.6 < fs) (p : Params α)
    (st : State α) :
    (sampleStep L fs (tuning fs p) (reset st) 0).1.phase = 99.6 / fs ∧
    (sampleStep L fs (tuning fs p) (reset st) 0).1.freqSmoothed = 199.2 := by
  have hg := tuning_gate_pos fs p
  have hon : ¬ ((tuning fs p).gateOn < 0) := by linarith [hg.1, hg.2]
  have hfs0 : (0 : α) < fs := by linarith
  have hph : ¬ ((1 : α) ≤ 99.6 / fs) := by
    rw [not_le, div_lt_one hfs0]; exact hfs
  have e1 : (200 : α) + 0.01 * (120 - 200) = 199.2 := by norm_num
  have e2 : (0.5 : α) * 199.2 = 99.6 := by norm_num
  have e3 : ¬ ((99.6 : α) < 20) := by norm_num
  simp [sampleStep, reset, envFollow, gateStep, hon, e1, e2, e3, hph]

end OctaveEffect

/-- C3: octave engine, for every parameter set and every sample rate fs > 0: `reset()`
followed by `processMono` on a block of all-zero samples writes 0 to every output
sample, and leaves the envelope at 0, the tracker unlocked and the up-voice and post
filters at rest (the envelope gate and the up voice are exactly 0, whatever the
oscillator does). It uses `atanf(0) = 0`. -/
theorem C3_octave_silence {α : Type} [LinearOrderedField α] [FloorRing α]
    (L : Pedal.Libm α) (hL : L.atanf 0 = 0) (st : OctaveEffect.State α)
    (p : OctaveEffect.Params α) (fs : α) (_hfs : 0 < fs) (n : Nat) :
    (OctaveEffect.processMono L (OctaveEffect.reset st) (List.replicate n 0) fs p).2 =
      List.replicate n 0 ∧
    OctaveEffect.Silent
      (OctaveEffect.processMono L (OctaveEffect.reset st) (List.replicate n 0) fs p).1 := by
  have hg := OctaveEffect.tuning_gate_pos fs p
  exact Pedal.runBlock_replicate_inv _ OctaveEffect.Silent 0 0
    (OctaveEffect.sampleStep_silent_octave L hL fs _ hg.1 hg.2) n _
    ⟨rfl, rfl, rfl, rfl, rfl, rfl⟩

/-- Witness of C3: the real math library at 44.1 kHz with all four knobs at 1, on a
block of four zero samples. -/
theorem C3_octave_silence_witness :
    (OctaveEffect.processMono Pedal.realLibm (OctaveEffect.reset OctaveEffect.construct)
      (List.replicate 4 0) (44100 : ℝ) ⟨1, 1, 1, 1⟩).2 = List.replicate 4 0 ∧
    OctaveEffect.Silent
      (OctaveEffect.processMono Pedal.realLibm (OctaveEffect.reset OctaveEffect.construct)
        (List.replicate 4 0) (44100 : ℝ) ⟨1, 1, 1, 1⟩).1 :=
  C3_octave_silence Pedal.realLibm Real.arctan_zero OctaveEffect.construct ⟨1, 1, 1, 1⟩
    44100 (by norm_num) 4

/-! ### Shimmer-reverb engine: the dry path at mix = 0 -/

namespace Pedal

theorem runBlock_snd_map {σ ι ο : Type} (step : σ → ι → σ × ο) (g : ι → ο)
    (h : ∀ st x, (step st x).2 = g x) (xs : List ι) :
    ∀ st, (runBlock step st xs).2 = xs.map g := by
  induction xs with
  | nil => intro st; rfl
  | cons x xs ih => intro st; simp only [runBlock, List.map_cons, h, ih]

variable {α : Type} [LinearOrderedField α] [FloorRing α]

/-- The scaling `x / 32768` on the way in and `* 32767` on the way out, truncated:
an int16 sample moves one step toward 0 (and 0 stays). -/
theorem truncToInt_scale (s : Int) (h1 : -32768 ≤ s) (h2 : s ≤ 32767) :
    truncToInt ((s : α) / 32768 * 32767) = s - Int.sign s := by
  have e : (s : α) / 32768 * 32767 = (s : α) - (s : α) / 32768 := by ring
  rcases lt_trichotomy s 0 with hs | hs | hs
  · have hsα : (s : α) < 0 := by exact_mod_cast hs
    have hlo : (-32768 : α) ≤ (s : α) := by exact_mod_cast h1
    have hv : (s : α) / 32768 * 32767 < 0 := by rw [e]; linarith
    rw [truncToInt_of_neg hv, Int.sign_eq_neg_one_of_neg hs, Int.ceil_eq_iff, e]
    push_cast
    constructor <;> linarith
  · subst hs
    simp [truncToInt_zero]
  · have hsα : (0 : α) < (s : α) := by exact_mod_cast hs
    have hhi : (s : α) ≤ 32767 := by exact_mod_cast h2
    have hv : 0 ≤ (s : α) / 32768 * 32767 := by rw [e]; linarith
    rw [truncToInt_of_nonneg hv, Int.sign_eq_one_of_pos hs, Int.floor_eq_iff, e]
    push_cast
    constructor <;> linarith

end Pedal

namespace OrchestraEffect

open Pedal

variable {α : Type} [LinearOrderedField α] [FloorRing α]

omit [FloorRing α] in
theorem clamp01_zero : clamp01 (0 : α) = 0 := by
  simp [clamp01]

/-- With the mix knob at 0 the sample written is the truncated rescaled dry sample,
whatever the state and the other knobs. -/
theorem processMono_mix_zero (L : Libm α) (st : State α) (inMono : List Int) (fs : α)
    (p : Params α) (hmix : p.mix = 0) :
    (processMono L st inMono fs p).2 =
      inMono.map (fun s : Int => clamp16 (truncToInt ((s : α) / 32768 * 32767))) := by
  unfold processMono
  simp only [hmix, clamp01_zero]
  apply runBlock_snd_map
  intro st s
  simp [sampleStep]

end OrchestraEffect

/-- C4 (amended): shimmer-reverb engine with mix = 0, for every int16 input block, every
sample rate fs > 0, every engine state and every value of the other knobs:
`processMono` writes `outMono[i] = inMono[i] - sign(inMono[i])`, the dry sample one
step closer to 0 (divided by 32768 on the way in, multiplied by 32767 and truncated on
the way out), hence within one LSB of the input and equal to it only for 0. -/
theorem C4_mix_zero_dry {α : Type} [LinearOrderedField α] [FloorRing α]
    (L : Pedal.Libm α) (st : OrchestraEffect.State α) (inMono : List Int) (fs : α)
    (_hfs : 0 < fs) (p : OrchestraEffect.Params α) (hmix : p.mix = 0)
    (hin : ∀ s ∈ inMono, -32768 ≤ s ∧ s ≤ 32767) :
    (OrchestraEffect.processMono L st inMono fs p).2 =
      inMono.map (fun s : Int => s - Int.sign s) := by
  rw [OrchestraEffect.processMono_mix_zero L st inMono fs p hmix]
  apply List.map_congr_left
  intro s hs
  obtain ⟨h1, h2⟩ := hin s hs
  have h5 : 0 < s → Int.sign s = 1 := Int.sign_eq_one_of_pos
  have h6 : s < 0 → Int.sign s = -1 := Int.sign_eq_neg_one_of_neg
  have h7 : s = 0 → Int.sign s = 0 := fun h => by rw [h]; rfl
  simp only [Pedal.truncToInt_scale s h1 h2, OrchestraEffect.clamp16]
  split_ifs <;> omega

/-- Witness of C4 (amended): the real math library at 44.1 kHz from the constructed
state, mix = 0 and the other knobs at their defaults, on the block [1000, -1000, 0]. -/
theorem C4_mix_zero_dry_witness :
    (OrchestraEffect.processMono Pedal.realLibm OrchestraEffect.construct
      [1000, -1000, 0] (44100 : ℝ) ⟨0, 0.85, 0.70, 0.80, 0.65, 0.55⟩).2 =
      [1000, -1000, 0].map (fun s : Int => s - Int.sign s) :=
  C4_mix_zero_dry Pedal.realLibm OrchestraEffect.construct [1000, -1000, 0] 44100
    (by norm_num) ⟨0, 0.85, 0.70, 0.80, 0.65, 0.55⟩ rfl (by decide)

/-- C4 (counterexample): with mix = 0 at 44.1 kHz, from the constructed state, the
one-sample block [1] is not returned unchanged: `processMono` writes [0]. -/
theorem C4_counterexample :
    (OrchestraEffect.processMono Pedal.realLibm OrchestraEffect.construct
      [1] (44100 : ℝ) ⟨0, 0.85, 0.70, 0.80, 0.65, 0.55⟩).2 = [0] ∧
    (OrchestraEffect.processMono Pedal.realLibm OrchestraEffect.construct
      [1] (44100 : ℝ) ⟨0, 0.85, 0.70, 0.80, 0.65, 0.55⟩).2 ≠ [1] := by
  rw [OrchestraEffect.processMono_mix_zero _ _ _ _ _ rfl]
  have h : Pedal.truncToInt (((1 : Int) : ℝ) / 32768 * 32767) = 0 := by
    rw [Pedal.truncToInt_scale 1 (by norm_num) (by norm_num)]; rfl
  simp only [List.map, h]
  exact ⟨rfl, by decide⟩

/-! ### Rotary-speaker engine: the Doppler delay at depth = 0 -/

namespace LeslieEffect

open Pedal

variable {α : Type} [LinearOrderedField α] [FloorRing α]

omit [FloorRing α] in
theorem setup_depth_zero (fs : α) (p : Params α) (hdepth : p.depth = 0) (hornHz drumHz : α) :
    (setup fs p hornHz drumHz).baseHorn = 140 ∧ (setup fs p hornHz drumHz).dopHorn = 3 ∧
    (setup fs p hornHz drumHz).baseDrum = 200 ∧ (setup fs p hornHz drumHz).dopDrum = 2 := by
  simp only [setup, hdepth, clamp01, lerp]
  norm_num

omit [FloorRing α] in
theorem dopplerDelay_of_bounded (L : Libm α) (hcos : ∀ x, -1 ≤ L.cosf x ∧ L.cosf x ≤ 1)
    (base dop ph mic : α) (hdop : 0 ≤ dop) (hbase : 1 + dop ≤ base) :
    dopplerDelay L base dop ph mic = base + dop * L.cosf (2 * 3.14159265 * (ph + mic)) ∧
    |dopplerDelay L base dop ph mic - base| ≤ dop := by
  obtain ⟨h1, h2⟩ := hcos (2 * 3.14159265 * (ph + mic))
  have h3 : -dop ≤ dop * L.cosf (2 * 3.14159265 * (ph + mic)) := by nlinarith
  have h4 : dop * L.cosf (2 * 3.14159265 * (ph + mic)) ≤ dop := by nlinarith
  have h5 : ¬ (base + dop * L.cosf (2 * 3.14159265 * (ph + mic)) < 1) := by linarith
  simp only [dopplerDelay, h5, if_false, true_and]
  rw [abs_le]
  constructor <;> linarith

end LeslieEffect

/-- C5 (amended): rotary-speaker engine with depth = 0: the delay with which `processWet`
reads the horn buffer is `140 + 3 * cosf(2 * 3.14159265 * (phase + mic))` and the delay
with which it reads the drum buffer is `200 + 2 * cosf(...)`, for each virtual
microphone: the Doppler swing is at its minimum, 3 samples around 140 for the horn and
2 samples around 200 for the drum, and still follows the rotor phase. It uses
`-1 <= cosf <= 1`. -/
theorem C5_depth_zero_delay {α : Type} [LinearOrderedField α] [FloorRing α]
    (L : Pedal.Libm α) (hcos : ∀ x, -1 ≤ L.cosf x ∧ L.cosf x ≤ 1) (fs : α)
    (p : LeslieEffect.Params α) (hdepth : p.depth = 0) (hornHz drumHz ph mic : α) :
    (LeslieEffect.dopplerDelay L (LeslieEffect.setup fs p hornHz drumHz).baseHorn
        (LeslieEffect.setup fs p hornHz drumHz).dopHorn ph mic =
      140 + 3 * L.cosf (2 * 3.14159265 * (ph + mic)) ∧
     |LeslieEffect.dopplerDelay L (LeslieEffect.setup fs p hornHz drumHz).baseHorn
        (LeslieEffect.setup fs p hornHz drumHz).dopHorn ph mic - 140| ≤ 3) ∧
    (LeslieEffect.dopplerDelay L (LeslieEffect.setup fs p hornHz drumHz).baseDrum
        (LeslieEffect.setup fs p hornHz drumHz).dopDrum ph mic =
      200 + 2 * L.cosf (2 * 3.14159265 * (ph + mic)) ∧
     |LeslieEffect.dopplerDelay L (LeslieEffect.setup fs p hornHz drumHz).baseDrum
        (LeslieEffect.setup fs p hornHz drumHz).dopDrum ph mic - 200| ≤ 2) := by
  obtain ⟨e1, e2, e3, e4⟩ := LeslieEffect.setup_depth_zero fs p hdepth hornHz drumHz
  rw [e1, e2, e3, e4]
  exact ⟨LeslieEffect.dopplerDelay_of_bounded L hcos 140 3 ph mic (by norm_num) (by norm_num),
    LeslieEffect.dopplerDelay_of_bounded L hcos 200 2 ph mic (by norm_num) (by norm_num)⟩

/-- Witness of C5 (amended): the real cosine at 44.1 kHz, depth = 0, rotor phase 1/2 and
the left microphone. -/
theorem C5_depth_zero_delay_witness :
    (LeslieEffect.dopplerDelay Pedal.realLibm
        (LeslieEffect.setup (44100 : ℝ) ⟨1, 1, 0, 0, 0⟩ 0.8 0.6).baseHorn
        (LeslieEffect.setup (44100 : ℝ) ⟨1, 1, 0, 0, 0⟩ 0.8 0.6).dopHorn (1 / 2) 0 =
      140 + 3 * Pedal.realLibm.cosf (2 * 3.14159265 * (1 / 2 + 0)) ∧
     |LeslieEffect.dopplerDelay Pedal.realLibm
        (LeslieEffect.setup (44100 : ℝ) ⟨1, 1, 0, 0, 0⟩ 0.8 0.6).baseHorn
        (LeslieEffect.setup (44100 : ℝ) ⟨1, 1, 0, 0, 0⟩ 0.8 0.6).dopHorn (1 / 2) 0 - 140| ≤ 3) ∧
    (LeslieEffect.dopplerDelay Pedal.realLibm
        (LeslieEffect.setup (44100 : ℝ) ⟨1, 1, 0, 0, 0⟩ 0.8 0.6).baseDrum
        (LeslieEffect.setup (44100 : ℝ) ⟨1, 1, 0, 0, 0⟩ 0.8 0.6).dopDrum (1 / 2) 0 =
      200 + 2 * Pedal.realLibm.cosf (2 * 3.14159265 * (1 / 2 + 0)) ∧
     |LeslieEffect.dopplerDelay Pedal.realLibm
        (LeslieEffect.setup (44100 : ℝ) ⟨1, 1, 0, 0, 0⟩ 0.8 0.6).baseDrum
        (LeslieEffect.setup (44100 : ℝ) ⟨1, 1, 0, 0, 0⟩ 0.8 0.6).dopDrum (1 / 2) 0 - 200| ≤ 2) :=
  C5_depth_zero_delay Pedal.realLibm (fun x => ⟨Real.neg_one_le_cos x, Real.cos_le_one x⟩)
    44100 ⟨1, 1, 0, 0, 0⟩ rfl 0.8 0.6 (1 / 2) 0

/-- C5 (counterexample): with depth = 0 at 44.1 kHz the horn delay for the left
microphone is 143 samples at rotor phase 0 and less than 143 at rotor phase 1/2: the
delay is not the same for every rotor phase. -/
theorem C5_counterexample :
    LeslieEffect.dopplerDelay Pedal.realLibm
        (LeslieEffect.setup (44100 : ℝ) ⟨1, 1, 0, 0, 0⟩ 0.8 0.6).baseHorn
        (LeslieEffect.setup (44100 : ℝ) ⟨1, 1, 0, 0, 0⟩ 0.8 0.6).dopHorn 0
        (LeslieEffect.setup (44100 : ℝ) ⟨1, 1, 0, 0, 0⟩ 0.8 0.6).micL = 143 ∧
    LeslieEffect.dopplerDelay Pedal.realLibm
        (LeslieEffect.setup (44100 : ℝ) ⟨1, 1, 0, 0, 0⟩ 0.8 0.6).baseHorn
        (LeslieEffect.setup (44100 : ℝ) ⟨1, 1, 0, 0, 0⟩ 0.8 0.6).dopHorn (1 / 2)
        (LeslieEffect.setup (44100 : ℝ) ⟨1, 1, 0, 0, 0⟩ 0.8 0.6).micL < 143 := by
  have hc := fun x : ℝ => (⟨Real.neg_one_le_cos x, Real.cos_le_one x⟩ :
    -1 ≤ Pedal.realLibm.cosf x ∧ Pedal.realLibm.cosf x ≤ 1)
  obtain ⟨e1, e2, _, _⟩ :=
    LeslieEffect.setup_depth_zero (44100 : ℝ) ⟨1, 1, 0, 0, 0⟩ rfl 0.8 0.6
  have em : (LeslieEffect.setup (44100 : ℝ) ⟨1, 1, 0, 0, 0⟩ 0.8 0.6).micL = 0 := by
    simp only [LeslieEffect.setup]; norm_num
  rw [e1, e2, em]
  rw [(LeslieEffect.dopplerDelay_of_bounded Pedal.realLibm hc 140 3 0 0 (by norm_num)
      (by norm_num)).1,
    (LeslieEffect.dopplerDelay_of_bounded Pedal.realLibm hc 140 3 (1 / 2) 0 (by norm_num)
      (by norm_num)).1]
  have hpi := Real.pi_gt_d6
  constructor
  · show (140 : ℝ) + 3 * Real.cos (2 * 3.14159265 * (0 + 0)) = 143
    norm_num
  · show (140 : ℝ) + 3 * Real.cos (2 * 3.14159265 * (1 / 2 + 0)) < 143
    have hne : Real.cos (2 * 3.14159265 * (1 / 2 + 0)) ≠ 1 := by
      intro h
      have := (Real.cos_eq_one_iff_of_lt_of_lt (by norm_num; linarith)
        (by norm_num; linarith)).mp h
      norm_num at this
    have hle := Real.cos_le_one (2 * 3.14159265 * (1 / 2 + 0))
    have hlt : Real.cos (2 * 3.14159265 * (1 / 2 + 0)) < 1 := lt_of_le_of_ne hle hne
    linarith

/-! ### Bit reducer at 16 bits, no downsampling, fully wet -/

namespace SimpleFX

open Pedal

variable {α : Type} [LinearOrderedField α] [FloorRing α]

/-- At 65536 levels the quantiser maps the unit-float image of an int16 sample `s` to
`s / 32768`. -/
theorem quantize_int16 (s : Int) (h1 : -32768 ≤ s) (h2 : s ≤ 32767) :
    BitCrusher.quantize 65536 (int16ToFloat s : α) = (s : α) / 32768 := by
  have hq : truncToInt (0.5 * ((int16ToFloat s : α) + 1) * ((65536 : Int) : α)) = s + 32768 ∨
      (s = 32767 ∧
        truncToInt (0.5 * ((int16ToFloat s : α) + 1) * ((65536 : Int) : α)) = 65536) := by
    unfold int16ToFloat
    split_ifs with hs
    · rcases eq_or_lt_of_le h2 with h3 | h3
      · right
        refine ⟨h3, ?_⟩
        subst h3
        have e : (0.5 : α) * ((((32767 : Int) : α)) / 32767 + 1) * ((65536 : Int) : α) =
            ((65536 : Int) : α) := by push_cast; norm_num
        rw [e, truncToInt_intCast]
      · left
        have hsα : (0 : α) ≤ (s : α) := by exact_mod_cast hs
        have hs2 : (s : α) < 32767 := by exact_mod_cast h3
        have e : (0.5 : α) * ((s : α) / 32767 + 1) * ((65536 : Int) : α) =
            (s : α) + 32768 + (s : α) / 32767 := by push_cast; ring
        have hfrac0 : (0 : α) ≤ (s : α) / 32767 := div_nonneg hsα (by norm_num)
        have hfrac1 : (s : α) / 32767 < 1 := by
          rw [div_lt_one (by norm_num)]; exact hs2
        rw [e, truncToInt_of_nonneg (by linarith), Int.floor_eq_iff]
        push_cast
        constructor <;> linarith
    · left
      have e : (0.5 : α) * ((s : α) / 32768 + 1) * ((65536 : Int) : α) =
          ((s + 32768 : Int) : α) := by push_cast; ring
      rw [e, truncToInt_intCast]
  unfold BitCrusher.quantize
  rcases hq with hq | ⟨h3, hq⟩
  · have c1 : ¬ (s + 32768 < 0) := by omega
    have c2 : ¬ (s + 32768 > 65536 - 1) := by omega
    simp only [hq, c1, c2, if_false]
    push_cast
    ring
  · subst h3
    simp only [hq]
    norm_num

/-- The int16 image of `s / 32768`: a positive sample loses one step, the others are
reproduced. -/
theorem floatToInt16_div (s : Int) (h1 : -32768 ≤ s) (h2 : s ≤ 32767) :
    floatToInt16 ((s : α) / 32768) = if s > 0 then s - 1 else s := by
  have hlo : (-32768 : α) ≤ (s : α) := by exact_mod_cast h1
  have hhi : (s : α) ≤ 32767 := by exact_mod_cast h2
  have c1 : ¬ ((s : α) / 32768 < -1) := by
    rw [not_lt, le_div_iff₀ (by norm_num)]; linarith
  have c2 : ¬ ((s : α) / 32768 > 1) := by
    rw [gt_iff_lt, not_lt, div_le_iff₀ (by norm_num)]; linarith
  simp only [floatToInt16, clampf, c1, c2, if_false]
  split_ifs with h3 h4 h4
  · rw [truncToInt_scale s h1 h2, Int.sign_eq_one_of_pos h4]
  · have hs0 : s = 0 := by
      have : (0 : α) ≤ (s : α) := by
        have := (le_div_iff₀ (by norm_num : (0 : α) < 32768)).mp h3
        simpa using this
      have : (0 : Int) ≤ s := by exact_mod_cast this
      omega
    subst hs0
    simp [truncToInt_zero]
  · exfalso
    apply h3
    have : (0 : α) < (s : α) := by exact_mod_cast h4
    positivity
  · have e : (s : α) / 32768 * 32768 = (s : α) := by field_simp
    rw [e, truncToInt_intCast]

/-- One sample through the bit reducer at 16 bits, factor 1, mix 1, with no hold
pending: the sample is resampled at once, and the counter is back at 0. -/
theorem sampleStep_bits16 (st : BitCrusher α) (hb : st.bits = 16) (hd : st.down = 1)
    (hm : st.mix = 1) (hh : st.holdCount ≤ 0) (s : Int) (h1 : -32768 ≤ s) (h2 : s ≤ 32767) :
    BitCrusher.sampleStep st s =
      ({ st with holdCount := 0, held := int16ToFloat s }, if s > 0 then s - 1 else s) := by
  have e16 : (2 : Int) ^ (16 : Int).toNat = 65536 := by decide
  simp only [BitCrusher.sampleStep, hb, hd, hm, hh, decide_True, if_true, e16,
    quantize_int16 s h1 h2, sub_self, zero_mul, one_mul, zero_add,
    floatToInt16_div s h1 h2]

end SimpleFX

namespace Pedal

theorem runBlock_snd_map_inv {σ ι ο : Type} (step : σ → ι → σ × ο) (Inv : σ → Prop)
    (P : ι → Prop) (g : ι → ο)
    (h : ∀ st x, Inv st → P x → (step st x).2 = g x ∧ Inv (step st x).1) (xs : List ι) :
    ∀ st, Inv st → (∀ x ∈ xs, P x) →
      (runBlock step st xs).2 = xs.map g ∧ Inv (runBlock step st xs).1 := by
  induction xs with
  | nil => intro st hst _; exact ⟨rfl, hst⟩
  | cons x xs ih =>
    intro st hst hP
    obtain ⟨h1, h2⟩ := h st x hst (hP x (List.mem_cons_self x xs))
    obtain ⟨h3, h4⟩ := ih _ h2 (fun y hy => hP y (List.mem_cons_of_mem x hy))
    simp only [runBlock, List.map_cons, h1, h3]
    exact ⟨trivial, h4⟩

end Pedal

namespace SimpleFX

open Pedal

variable {α : Type} [LinearOrderedField α] [FloorRing α]

/-- A whole block (`n` the block length) through the guarded loop. -/
theorem guardedBlock_full {σ : Type} (step : σ → Int → σ × Int) (st : σ) (blk : List Int) :
    guardedBlock step st (some blk) (blk.length : Int) =
      ((runBlock step st blk).1, some (runBlock step st blk).2) := by
  unfold guardedBlock
  cases blk with
  | nil => simp [runBlock]
  | cons x xs =>
    have hn : ¬ (((x :: xs).length : Int) ≤ 0) := by simp
    simp only [hn, if_false, Int.toNat_ofNat, List.take_length, List.drop_length,
      List.append_nil]

theorem bitcrusher_bits16_block (st : BitCrusher α) (hh : st.holdCount ≤ 0) (blk : List Int)
    (hin : ∀ s ∈ blk, -32768 ≤ s ∧ s ≤ 32767) :
    (BitCrusher.processBlock (BitCrusher.setParams st 16 1 1) (some blk)
        (blk.length : Int)).2 =
      some (blk.map (fun s : Int => if s > 0 then s - 1 else s)) := by
  unfold BitCrusher.processBlock
  rw [guardedBlock_full]
  have hmix : clampf (1 : α) 0 1 = 1 := by simp [clampf]
  have key := runBlock_snd_map_inv (@BitCrusher.sampleStep α _ _)
    (fun st => st.bits = 16 ∧ st.down = 1 ∧ st.mix = 1 ∧ st.holdCount ≤ 0)
    (fun s => -32768 ≤ s ∧ s ≤ 32767) (fun s : Int => if s > 0 then s - 1 else s)
    (fun st s hst hs => by
      rw [sampleStep_bits16 st hst.1 hst.2.1 hst.2.2.1 hst.2.2.2 s hs.1 hs.2]
      exact ⟨rfl, hst.1, hst.2.1, hst.2.2.1, le_refl _⟩)
    blk (BitCrusher.setParams st 16 1 1) ⟨rfl, rfl, hmix, hh⟩ hin
  rw [key.1]

end SimpleFX

/-- C6: after `setParams(bits = 16, downsampleFactor = 1, mix = 1.0)` on a
bit reducer with no hold pending (`_holdCount <= 0`, as constructed and as after
`reset()`): `processBlock` replaces every int16 sample `s` of the block by a value
`out` with `|out - s| <= 1` (namely `s - 1` for `s > 0` and `s` otherwise). -/
theorem C6_bitcrusher_16bit_within_one {α : Type} [LinearOrderedField α] [FloorRing α]
    (st : SimpleFX.BitCrusher α) (hh : st.holdCount ≤ 0) (blk : List Int)
    (hin : ∀ s ∈ blk, -32768 ≤ s ∧ s ≤ 32767) :
    ∃ out : List Int,
      (SimpleFX.BitCrusher.processBlock (SimpleFX.BitCrusher.setParams st 16 1 1)
        (some blk) (blk.length : Int)).2 = some out ∧
      List.Forall₂ (fun s o : Int => |o - s| ≤ 1) blk out := by
  refine ⟨_, SimpleFX.bitcrusher_bits16_block st hh blk hin, ?_⟩
  rw [List.forall₂_map_right_iff]
  apply List.forall₂_same.mpr
  intro s _
  split_ifs <;> simp

/-- Witness of C6: the constructed bit reducer over the rationals on the block
[32767, 1, 0, -1, -32768]. -/
theorem C6_bitcrusher_16bit_within_one_witness :
    ∃ out : List Int,
      (SimpleFX.BitCrusher.processBlock
        (SimpleFX.BitCrusher.setParams (SimpleFX.BitCrusher.construct : SimpleFX.BitCrusher ℚ)
          16 1 1) (some [32767, 1, 0, -1, -32768])
        (([32767, 1, 0, -1, -32768] : List Int).length : Int)).2 = some out ∧
      List.Forall₂ (fun s o : Int => |o - s| ≤ 1) [32767, 1, 0, -1, -32768] out :=
  C6_bitcrusher_16bit_within_one SimpleFX.BitCrusher.construct (le_refl 0)
    [32767, 1, 0, -1, -32768] (by decide)

/-! ### Bit reducer: sample and hold -/

namespace Pedal

theorem runBlock_append {σ ι ο : Type} (step : σ → ι → σ × ο) (xs ys : List ι) :
    ∀ st, runBlock step st (xs ++ ys) =
      ((runBlock step (runBlock step st xs).1 ys).1,
        (runBlock step st xs).2 ++ (runBlock step (runBlock step st xs).1 ys).2) := by
  induction xs with
  | nil => intro st; rfl
  | cons x xs ih =>
    intro st
    have e := ih (step st x).1
    show runBlock step st (x :: (xs ++ ys)) = _
    simp only [runBlock, e, List.cons_append]

end Pedal

namespace SimpleFX

open Pedal

variable {α : Type} [LinearOrderedField α] [FloorRing α]

theorem sample_hold_general (d : Nat) (hd : 1 ≤ d) (xs : List Int) :
    ∀ (st : BitCrusher α) (h : Nat), st.down = (d : Int) → st.mix = 1 →
      st.holdCount = (h : Int) → ∀ i, i < xs.length →
      (runBlock BitCrusher.sampleStep st xs).2[i]? =
        some (floatToInt16 (BitCrusher.quantize (2 ^ st.bits.toNat)
          (if i < h then st.held
           else (int16ToFloat (xs.getD (h + d * ((i - h) / d)) 0) : α)))) := by
  induction xs with
  | nil => intro st h _ _ _ i hi; simp at hi
  | cons x xs ih =>
    intro st h hdown hmix hhold i hi
    have hstep2 : (BitCrusher.sampleStep st x).2 =
        floatToInt16 (BitCrusher.quantize (2 ^ st.bits.toNat)
          (if h = 0 then (int16ToFloat x : α) else st.held)) := by
      simp only [BitCrusher.sampleStep, hmix, sub_self, zero_mul, one_mul, zero_add, hhold]
      by_cases h0 : h = 0
      · subst h0; simp
      · have : ¬ ((h : Int) ≤ 0) := by omega
        simp [this, h0]
    have hbits : (BitCrusher.sampleStep st x).1.bits = st.bits := rfl
    have hdown' : (BitCrusher.sampleStep st x).1.down = (d : Int) := hdown
    have hmix' : (BitCrusher.sampleStep st x).1.mix = 1 := hmix
    cases i with
    | zero =>
      simp only [runBlock, List.getElem?_cons_zero, hstep2]
      by_cases h0 : h = 0
      · subst h0; simp
      · have : 0 < h := Nat.pos_of_ne_zero h0
        simp [h0, this]
    | succ j =>
      have hj : j < xs.length := by simpa using hi
      simp only [runBlock, List.getElem?_cons_succ]
      by_cases h0 : h = 0
      · subst h0
        have hheld : (BitCrusher.sampleStep st x).1.held = (int16ToFloat x : α) := by
          simp [BitCrusher.sampleStep, hhold]
        have hcount : (BitCrusher.sampleStep st x).1.holdCount = ((d - 1 : Nat) : Int) := by
          simp only [BitCrusher.sampleStep, hhold, hdown]
          simp
          omega
        rw [ih _ (d - 1) hdown' hmix' hcount j hj, hbits, hheld]
        congr 3
        by_cases hlt : j < d - 1
        · have hdiv : (j + 1) / d = 0 := Nat.div_eq_of_lt (by omega)
          simp [hlt, hdiv]
        · have hge : d ≤ j + 1 := by omega
          have hdiv : (j + 1) / d = (j + 1 - d) / d + 1 :=
            Nat.div_eq_sub_div (by omega) hge
          have e1 : j - (d - 1) = j + 1 - d := by omega
          have e2 : 0 + d * ((j + 1 - 0) / d) = (d - 1 + d * ((j + 1 - d) / d)) + 1 := by
            rw [Nat.sub_zero, hdiv, Nat.mul_add]; omega
          simp only [hlt, if_false, Nat.not_lt_zero, e1, e2, List.getD_cons_succ]
      · have hpos : 0 < h := Nat.pos_of_ne_zero h0
        have hheld : (BitCrusher.sampleStep st x).1.held = st.held := by
          have : ¬ ((h : Int) ≤ 0) := by omega
          simp [BitCrusher.sampleStep, hhold, this]
        have hcount : (BitCrusher.sampleStep st x).1.holdCount = ((h - 1 : Nat) : Int) := by
          have : ¬ ((h : Int) ≤ 0) := by omega
          simp only [BitCrusher.sampleStep, hhold, this, decide_False]
          simp
          omega
        rw [ih _ (h - 1) hdown' hmix' hcount j hj, hbits, hheld]
        congr 3
        by_cases hlt : j < h - 1
        · have : j + 1 < h := by omega
          simp [hlt, this]
        · have hnlt : ¬ (j + 1 < h) := by omega
          have e1 : j + 1 - h = j - (h - 1) := by omega
          have e2 : h + d * ((j - (h - 1)) / d) = (h - 1 + d * ((j - (h - 1)) / d)) + 1 := by
            omega
          simp only [hlt, hnlt, if_false, e1, e2, List.getD_cons_succ]

/-- The hold pattern of a whole block from a state with no hold pending. -/
theorem sample_hold_block (st : BitCrusher α) (d : Nat) (hd : 1 ≤ d)
    (hdown : st.down = (d : Int)) (hmix : st.mix = 1) (hhold : st.holdCount = 0)
    (blk : List Int) (i : Nat) (hi : i < blk.length) :
    ∃ out : List Int,
      (BitCrusher.processBlock st (some blk) (blk.length : Int)).2 = some out ∧
      out[i]? = some (floatToInt16 (BitCrusher.quantize (2 ^ st.bits.toNat)
        (int16ToFloat (blk.getD (d * (i / d)) 0) : α))) := by
  refine ⟨(runBlock BitCrusher.sampleStep st blk).2, ?_, ?_⟩
  · unfold BitCrusher.processBlock
    rw [guardedBlock_full]
  · have h := sample_hold_general d hd blk st 0 hdown hmix (by simpa using hhold) i hi
    simpa using h

end SimpleFX

/-- C7 (amended): bit reducer sample-and-hold, after `reset()` and
`setParams(bits, k, mix = 1)` with `1 <= k <= 128` (`setParams` stores the factor clamped
to 1..128): for every block and every index `i`, `out[i]` is the quantisation of the
input sample at index `k * floor(i / k)`; and processing two consecutive blocks gives
the same samples as processing their concatenation in one call (the hold counter
carries over). -/
theorem C7_sample_and_hold {α : Type} [LinearOrderedField α] [FloorRing α]
    (st : SimpleFX.BitCrusher α) (bits k : Int) (hk1 : 1 ≤ k) (hk2 : k ≤ 128) :
    (∀ (blk : List Int) (i : Nat), i < blk.length →
      ∃ out : List Int,
        (SimpleFX.BitCrusher.processBlock
          (SimpleFX.BitCrusher.setParams (SimpleFX.BitCrusher.reset st) bits k 1)
          (some blk) (blk.length : Int)).2 = some out ∧
        out[i]? = some (SimpleFX.floatToInt16 (SimpleFX.BitCrusher.quantize
          (2 ^ (SimpleFX.BitCrusher.setParams (SimpleFX.BitCrusher.reset st) bits k
            (1 : α)).bits.toNat)
          (SimpleFX.int16ToFloat (blk.getD (k.toNat * (i / k.toNat)) 0) : α)))) ∧
    (∀ (s : SimpleFX.BitCrusher α) (b1 b2 : List Int),
      (SimpleFX.BitCrusher.processBlock s (some (b1 ++ b2)) ((b1 ++ b2).length : Int)).2 =
        (SimpleFX.BitCrusher.processBlock s (some b1) (b1.length : Int)).2.bind
          (fun o1 => (SimpleFX.BitCrusher.processBlock
            (SimpleFX.BitCrusher.processBlock s (some b1) (b1.length : Int)).1
            (some b2) (b2.length : Int)).2.map (fun o2 => o1 ++ o2))) := by
  constructor
  · intro blk i hi
    have hmix : SimpleFX.clampf (1 : α) 0 1 = 1 := by simp [SimpleFX.clampf]
    have hdown : (SimpleFX.BitCrusher.setParams (SimpleFX.BitCrusher.reset st) bits k
        (1 : α)).down = ((k.toNat : Nat) : Int) := by
      have c1 : ¬ (k < 1) := by omega
      have c2 : ¬ (k > 128) := by omega
      simp only [SimpleFX.BitCrusher.setParams, c1, c2, if_false]
      omega
    exact SimpleFX.sample_hold_block _ k.toNat (by omega) hdown hmix rfl blk i hi
  · intro s b1 b2
    simp only [SimpleFX.BitCrusher.processBlock, SimpleFX.guardedBlock_full,
      Pedal.runBlock_append, Option.some_bind, Option.map_some']

/-- Witness of C7 (amended): the constructed bit reducer over the rationals, 8 bits and
factor 4. -/
theorem C7_sample_and_hold_witness :
    (∀ (blk : List Int) (i : Nat), i < blk.length →
      ∃ out : List Int,
        (SimpleFX.BitCrusher.processBlock
          (SimpleFX.BitCrusher.setParams
            (SimpleFX.BitCrusher.reset (SimpleFX.BitCrusher.construct : SimpleFX.BitCrusher ℚ))
            8 4 1)
          (some blk) (blk.length : Int)).2 = some out ∧
        out[i]? = some (SimpleFX.floatToInt16 (SimpleFX.BitCrusher.quantize
          (2 ^ (SimpleFX.BitCrusher.setParams
            (SimpleFX.BitCrusher.reset (SimpleFX.BitCrusher.construct : SimpleFX.BitCrusher ℚ))
            8 4 (1 : ℚ)).bits.toNat)
          (SimpleFX.int16ToFloat (blk.getD ((4 : Int).toNat * (i / (4 : Int).toNat)) 0) : ℚ)))) ∧
    (∀ (s : SimpleFX.BitCrusher ℚ) (b1 b2 : List Int),
      (SimpleFX.BitCrusher.processBlock s (some (b1 ++ b2)) ((b1 ++ b2).length : Int)).2 =
        (SimpleFX.BitCrusher.processBlock s (some b1) (b1.length : Int)).2.bind
          (fun o1 => (SimpleFX.BitCrusher.processBlock
            (SimpleFX.BitCrusher.processBlock s (some b1) (b1.length : Int)).1
            (some b2) (b2.length : Int)).2.map (fun o2 => o1 ++ o2))) :=
  C7_sample_and_hold SimpleFX.BitCrusher.construct 8 4 (by decide) (by decide)

/-- C7 (counterexample): after `reset()` and `setParams(16, 129, 1)` the stored factor is
128, not 129: on the block of 128 zeros followed by 1000, `out[128]` is the
quantisation 999 of the input at index 128, not the quantisation 0 of the input at
index `129 * floor(128 / 129) = 0`. -/
theorem C7_counterexample :
    ∃ out : List Int,
      (SimpleFX.BitCrusher.processBlock
        (SimpleFX.BitCrusher.setParams
          (SimpleFX.BitCrusher.reset (SimpleFX.BitCrusher.construct : SimpleFX.BitCrusher ℚ))
          16 129 1)
        (some (List.replicate 128 0 ++ [1000]))
        ((List.replicate 128 (0 : Int) ++ [1000]).length : Int)).2 = some out ∧
      out[128]? = some 999 ∧
      SimpleFX.floatToInt16 (SimpleFX.BitCrusher.quantize (2 ^ (16 : Int).toNat)
        (SimpleFX.int16ToFloat
          ((List.replicate 128 (0 : Int) ++ [1000]).getD (129 * (128 / 129)) 0) : ℚ)) = 0 := by
  have hmix : SimpleFX.clampf (1 : ℚ) 0 1 = 1 := by simp [SimpleFX.clampf]
  obtain ⟨out, h1, h2⟩ := SimpleFX.sample_hold_block
    (SimpleFX.BitCrusher.setParams
      (SimpleFX.BitCrusher.reset (SimpleFX.BitCrusher.construct : SimpleFX.BitCrusher ℚ))
      16 129 1) 128 (by norm_num) rfl hmix rfl
    (List.replicate 128 0 ++ [1000]) 128 (by simp)
  refine ⟨out, h1, ?_, ?_⟩
  · rw [h2]
    have hb : (SimpleFX.BitCrusher.setParams
      (SimpleFX.BitCrusher.reset (SimpleFX.BitCrusher.construct : SimpleFX.BitCrusher ℚ))
      16 129 (1 : ℚ)).bits = 16 := rfl
    have hg : (List.replicate 128 (0 : Int) ++ [1000]).getD (128 * (128 / 128)) 0 = 1000 := by
      decide
    have e16 : (2 : Int) ^ (16 : Int).toNat = 65536 := by decide
    rw [hb, hg, e16, SimpleFX.quantize_int16 1000 (by norm_num) (by norm_num),
      SimpleFX.floatToInt16_div 1000 (by norm_num) (by norm_num)]
    rfl
  · have hg : (List.replicate 128 (0 : Int) ++ [1000]).getD (129 * (128 / 129)) 0 = 0 := by
      decide
    have e16 : (2 : Int) ^ (16 : Int).toNat = 65536 := by decide
    rw [hg, e16, SimpleFX.quantize_int16 0 (by norm_num) (by norm_num),
      SimpleFX.floatToInt16_div 0 (by norm_num) (by norm_num)]
    rfl

/-! ### Small effects: the null / empty guard -/

namespace SimpleFX

theorem guardedBlock_noop {σ : Type} (step : σ → Int → σ × Int) (st : σ)
    (data : Option (List Int)) (n : Int) (h : data = none ∨ n ≤ 0) :
    guardedBlock step st data n = (st, data) := by
  unfold guardedBlock
  cases data with
  | none => rfl
  | some blk =>
    rcases h with h | h
    · cases h
    · simp only [h, if_true]

end SimpleFX

/-- C8: small-effects library: for each of BitCrusher, Tremolo, Flanger, SoftClip,
OnePoleLPF and OnePoleHPF, `processBlock` called with a null buffer or with `n <= 0`
returns with the buffer and every field of the instance state unchanged. -/
theorem C8_null_or_empty_noop {α : Type} [LinearOrderedField α] [FloorRing α]
    (L : Pedal.Libm α) (data : Option (List Int)) (n : Int) (h : data = none ∨ n ≤ 0) :
    (∀ st : SimpleFX.BitCrusher α, SimpleFX.BitCrusher.processBlock st data n = (st, data)) ∧
    (∀ st : SimpleFX.Tremolo α, SimpleFX.Tremolo.processBlock L st data n = (st, data)) ∧
    (∀ st : SimpleFX.Flanger α, SimpleFX.Flanger.processBlock L st data n = (st, data)) ∧
    (∀ st : SimpleFX.SoftClip α, SimpleFX.SoftClip.processBlock st data n = (st, data)) ∧
    (∀ st : SimpleFX.OnePoleLPF α, SimpleFX.OnePoleLPF.processBlock st data n = (st, data)) ∧
    (∀ st : SimpleFX.OnePoleHPF α, SimpleFX.OnePoleHPF.processBlock st data n = (st, data)) :=
  ⟨fun st => SimpleFX.guardedBlock_noop _ st data n h,
   fun st => SimpleFX.guardedBlock_noop _ st data n h,
   fun st => SimpleFX.guardedBlock_noop _ st data n h,
   fun st => SimpleFX.guardedBlock_noop _ st data n h,
   fun st => SimpleFX.guardedBlock_noop _ st data n h,
   fun st => SimpleFX.guardedBlock_noop _ st data n h⟩

/-- Witness of C8: a three-sample buffer passed with `n = 0`, over the reals. -/
theorem C8_null_or_empty_noop_witness :
    (∀ st : SimpleFX.BitCrusher ℝ,
      SimpleFX.BitCrusher.processBlock st (some [1, 2, 3]) 0 = (st, some [1, 2, 3])) ∧
    (∀ st : SimpleFX.Tremolo ℝ,
      SimpleFX.Tremolo.processBlock Pedal.realLibm st (some [1, 2, 3]) 0 =
        (st, some [1, 2, 3])) ∧
    (∀ st : SimpleFX.Flanger ℝ,
      SimpleFX.Flanger.processBlock Pedal.realLibm st (some [1, 2, 3]) 0 =
        (st, some [1, 2, 3])) ∧
    (∀ st : SimpleFX.SoftClip ℝ,
      SimpleFX.SoftClip.processBlock st (some [1, 2, 3]) 0 = (st, some [1, 2, 3])) ∧
    (∀ st : SimpleFX.OnePoleLPF ℝ,
      SimpleFX.OnePoleLPF.processBlock st (some [1, 2, 3]) 0 = (st, some [1, 2, 3])) ∧
    (∀ st : SimpleFX.OnePoleHPF ℝ,
      SimpleFX.OnePoleHPF.processBlock st (some [1, 2, 3]) 0 = (st, some [1, 2, 3])) :=
  C8_null_or_empty_noop Pedal.realLibm (some [1, 2, 3]) 0 (Or.inr (le_refl 0))

/-! ### Knob re-clamping -/

namespace BigMuffEffect

variable {α : Type} [LinearOrderedField α]

theorem clamp01_reclamp_muff (x : α) : clamp01 (min 1 (max 0 x)) = clamp01 x := by
  unfold clamp01
  rcases lt_trichotomy x 0 with h | h | h
  · have e : min 1 (max 0 x) = 0 := by
      rw [max_eq_left h.le]; exact min_eq_right zero_le_one
    simp [e, h]
  · subst h; simp
  · rcases le_or_lt x 1 with h1 | h1
    · have e : min 1 (max 0 x) = x := by
        rw [max_eq_right h.le]; exact min_eq_right h1
      rw [e]
    · have e : min 1 (max 0 x) = 1 := by
        rw [max_eq_right h.le]; exact min_eq_left h1.le
      have h0 : ¬ (x < 0) := not_lt.mpr h.le
      simp [e, h0, h1]

end BigMuffEffect

namespace LeslieEffect

variable {α : Type} [LinearOrderedField α]

theorem clamp01_reclamp_leslie (x : α) : clamp01 (min 1 (max 0 x)) = clamp01 x :=
  BigMuffEffect.clamp01_reclamp_muff x

end LeslieEffect

namespace OctaveEffect

variable {α : Type} [LinearOrderedField α]

theorem clamp01_reclamp_octave (x : α) : clamp01 (min 1 (max 0 x)) = clamp01 x :=
  BigMuffEffect.clamp01_reclamp_muff x

end OctaveEffect

namespace OrchestraEffect

variable {α : Type} [LinearOrderedField α]

theorem clamp01_reclamp_orchestra (x : α) : clamp01 (min 1 (max 0 x)) = clamp01 x :=
  BigMuffEffect.clamp01_reclamp_muff x

end OrchestraEffect

/-- C9: knob re-clamping: for each main engine (distortion `processMonoWet`, rotary
`processWet`, octave `processMono`, shimmer `processMono`), every state, block and sample
rate, processing with an arbitrary knob vector `p` yields the same output block and the
same next state as processing with every knob `k` of `p` replaced by
`min(1, max(0, k))`. -/
theorem C9_knob_reclamp {α : Type} [LinearOrderedField α] [FloorRing α] (L : Pedal.Libm α) :
    (∀ (st : BigMuffEffect.State α) (mono : List Int) (fs : α)
        (p : BigMuffEffect.Params α),
      BigMuffEffect.processMonoWet L st mono fs p =
        BigMuffEffect.processMonoWet L st mono fs
          ⟨min 1 (max 0 p.drive), min 1 (max 0 p.tone), min 1 (max 0 p.shape),
            min 1 (max 0 p.pres)⟩) ∧
    (∀ (st : LeslieEffect.State α) (left right : List Int) (fs : α)
        (p : LeslieEffect.Params α),
      LeslieEffect.processWet L st left right fs p =
        LeslieEffect.processWet L st left right fs
          ⟨min 1 (max 0 p.volume), min 1 (max 0 p.blend), min 1 (max 0 p.speed),
            min 1 (max 0 p.depth), min 1 (max 0 p.ramp)⟩) ∧
    (∀ (st : OctaveEffect.State α) (monoIn : List Int) (fs : α)
        (p : OctaveEffect.Params α),
      OctaveEffect.processMono L st monoIn fs p =
        OctaveEffect.processMono L st monoIn fs
          ⟨min 1 (max 0 p.blend), min 1 (max 0 p.mix), min 1 (max 0 p.tracking),
            min 1 (max 0 p.character)⟩) ∧
    (∀ (st : OrchestraEffect.State α) (inMono : List Int) (fs : α)
        (p : OrchestraEffect.Params α),
      OrchestraEffect.processMono L st inMono fs p =
        OrchestraEffect.processMono L st inMono fs
          ⟨min 1 (max 0 p.mix), min 1 (max 0 p.size), min 1 (max 0 p.swell),
            min 1 (max 0 p.up), min 1 (max 0 p.down), min 1 (max 0 p.tone)⟩) := by
  refine ⟨?_, ?_, ?_, ?_⟩
  · intro st mono fs p
    simp only [BigMuffEffect.processMonoWet, BigMuffEffect.coeffs,
      BigMuffEffect.clamp01_reclamp_muff]
  · intro st left right fs p
    simp only [LeslieEffect.processWet, LeslieEffect.rotorUpdate, LeslieEffect.setup,
      LeslieEffect.clamp01_reclamp_leslie]
  · intro st monoIn fs p
    simp only [OctaveEffect.processMono, OctaveEffect.tuning,
      OctaveEffect.clamp01_reclamp_octave]
  · intro st inMono fs p
    simp only [OrchestraEffect.processMono, OrchestraEffect.clamp01_reclamp_orchestra]

/-! ### `reset()` restores the constructed state -/

namespace OrchestraEffect

open Pedal

variable {α : Type} [LinearOrderedField α] [FloorRing α]

omit [FloorRing α] in
theorem zeroPrefix_of_tail_zero (len : Nat) (buf : Nat → α) (h : ∀ i, len ≤ i → buf i = 0) :
    zeroPrefix len buf = fun _ => 0 := by
  funext i
  unfold zeroPrefix
  split_ifs with hi
  · rfl
  · exact h i (not_lt.mp hi)

omit [FloorRing α] in
theorem comb_reset_of_wf (c : Comb α) (n : Nat) (h : c.Wf n) :
    c.reset = { buf := fun _ => 0, len := n, idx := 0, lp := 0 } := by
  obtain ⟨h1, _, h3⟩ := h
  simp only [Comb.reset, h1, zeroPrefix_of_tail_zero n c.buf h3]

omit [FloorRing α] in
theorem allpass_reset_of_wf (a : Allpass α) (n : Nat) (h : a.Wf n) :
    a.reset = { buf := fun _ => 0, len := n, idx := 0 } := by
  obtain ⟨h1, _, h3⟩ := h
  simp only [Allpass.reset, h1, zeroPrefix_of_tail_zero n a.buf h3]

omit [FloorRing α] in
theorem comb_reset_wf (c : Comb α) (n : Nat) (hn : 1 ≤ n) (h : c.Wf n) : c.reset.Wf n := by
  rw [comb_reset_of_wf c n h]
  exact ⟨rfl, hn, fun _ _ => rfl⟩

omit [FloorRing α] in
theorem allpass_reset_wf (a : Allpass α) (n : Nat) (hn : 1 ≤ n) (h : a.Wf n) :
    a.reset.Wf n := by
  rw [allpass_reset_of_wf a n h]
  exact ⟨rfl, hn, fun _ _ => rfl⟩

omit [FloorRing α] in
theorem comb_process_wf (c : Comb α) (n : Nat) (h : c.Wf n) (x fb damp : α) :
    (c.process x fb damp).1.Wf n := by
  obtain ⟨h1, h2, h3⟩ := h
  refine ⟨h1, ?_, ?_⟩
  · simp only [Comb.process, h1]
    split_ifs with hi
    · omega
    · omega
  · intro i hi
    simp only [Comb.process]
    rw [Function.update_noteq (by omega)]
    exact h3 i hi

omit [FloorRing α] in
theorem allpass_process_wf (a : Allpass α) (n : Nat) (h : a.Wf n) (x g : α) :
    (a.process x g).1.Wf n := by
  obtain ⟨h1, h2, h3⟩ := h
  refine ⟨h1, ?_, ?_⟩
  · simp only [Allpass.process, h1]
    split_ifs with hi
    · omega
    · omega
  · intro i hi
    simp only [Allpass.process]
    rw [Function.update_noteq (by omega)]
    exact h3 i hi

omit [FloorRing α] in
theorem comb_init_raw_wf (n : Nat) (h1 : 1 ≤ n) (h2 : n ≤ 4096) :
    ((Comb.raw : Comb α).init (n : Int)).Wf n := by
  have c1 : ¬ ((n : Int) < 1) := by omega
  have c2 : ¬ ((n : Int) > ((Comb.MAX : Nat) : Int)) := by
    simp only [Comb.MAX]; omega
  simp only [Comb.init, c1, c2, if_false, Comb.reset, Int.toNat_ofNat]
  exact ⟨rfl, h1, fun i hi => by simp [zeroPrefix, Comb.raw]⟩

omit [FloorRing α] in
theorem allpass_init_raw_wf (n : Nat) (h1 : 1 ≤ n) (h2 : n ≤ 2048) :
    ((Allpass.raw : Allpass α).init (n : Int)).Wf n := by
  have c1 : ¬ ((n : Int) < 1) := by omega
  have c2 : ¬ ((n : Int) > ((Allpass.MAX : Nat) : Int)) := by
    simp only [Allpass.MAX]; omega
  simp only [Allpass.init, c1, c2, if_false, Allpass.reset, Int.toNat_ofNat]
  exact ⟨rfl, h1, fun i hi => by simp [zeroPrefix, Allpass.raw]⟩

omit [FloorRing α] in
/-- The stage every well-formed stage is reset to. -/
theorem stage_reset_of_wf (s : ShimmerStage α) (h : s.Wf) :
    s.reset =
      { c0 := { buf := fun _ => 0, len := 1557, idx := 0, lp := 0 },
        c1 := { buf := fun _ => 0, len := 1617, idx := 0, lp := 0 },
        c2 := { buf := fun _ => 0, len := 1491, idx := 0, lp := 0 },
        c3 := { buf := fun _ => 0, len := 1422, idx := 0, lp := 0 },
        ap0 := { buf := fun _ => 0, len := 225, idx := 0 },
        ap1 := { buf := fun _ => 0, len := 556, idx := 0 },
        ps := { buf := fun _ => 0, w := 0, ph0 := 0.00, ph1 := 0.25, ph2 := 0.50,
                ph3 := 0.75 },
        fbLP := 0, wetLP := 0, dcLP := 0 } := by
  obtain ⟨h0, h1, h2, h3, h4, h5⟩ := h
  simp only [ShimmerStage.reset, comb_reset_of_wf _ _ h0, comb_reset_of_wf _ _ h1,
    comb_reset_of_wf _ _ h2, comb_reset_of_wf _ _ h3, allpass_reset_of_wf _ _ h4,
    allpass_reset_of_wf _ _ h5, PitchShift.reset]

omit [FloorRing α] in
theorem stage_reset_wf (s : ShimmerStage α) (h : s.Wf) : s.reset.Wf := by
  obtain ⟨h0, h1, h2, h3, h4, h5⟩ := h
  exact ⟨comb_reset_wf _ _ (by norm_num) h0, comb_reset_wf _ _ (by norm_num) h1,
    comb_reset_wf _ _ (by norm_num) h2, comb_reset_wf _ _ (by norm_num) h3,
    allpass_reset_wf _ _ (by norm_num) h4, allpass_reset_wf _ _ (by norm_num) h5⟩

omit [FloorRing α] in
theorem stage_init_raw_wf : ((ShimmerStage.raw : ShimmerStage α).init).Wf := by
  apply stage_reset_wf
  exact ⟨comb_init_raw_wf 1557 (by norm_num) (by norm_num),
    comb_init_raw_wf 1617 (by norm_num) (by norm_num),
    comb_init_raw_wf 1491 (by norm_num) (by norm_num),
    comb_init_raw_wf 1422 (by norm_num) (by norm_num),
    allpass_init_raw_wf 225 (by norm_num) (by norm_num),
    allpass_init_raw_wf 556 (by norm_num) (by norm_num)⟩

theorem stage_process_wf (L : Libm α) (s : ShimmerStage α) (h : s.Wf)
    (x fs size tone shimmerAmt ratio grainMs : α) :
    (s.process L x fs size tone shimmerAmt ratio grainMs).1.Wf := by
  obtain ⟨h0, h1, h2, h3, h4, h5⟩ := h
  exact ⟨comb_process_wf _ _ h0 _ _ _, comb_process_wf _ _ h1 _ _ _,
    comb_process_wf _ _ h2 _ _ _, comb_process_wf _ _ h3 _ _ _,
    allpass_process_wf _ _ h4 _ _, allpass_process_wf _ _ h5 _ _⟩

omit [FloorRing α] in
theorem construct_wf : (construct : State α).Wf :=
  ⟨stage_reset_wf _ stage_init_raw_wf,
    stage_reset_wf _ stage_init_raw_wf⟩

omit [FloorRing α] in
theorem state_reset_of_wf (st : State α) (h : st.Wf) : reset st = construct := by
  have e1 := stage_reset_of_wf st.up h.1
  have e2 := stage_reset_of_wf st.down h.2
  have e3 := stage_reset_of_wf ((ShimmerStage.raw : ShimmerStage α).init)
    stage_init_raw_wf
  simp only [reset, construct, e1, e2, e3, DelayLine.reset, raw]

theorem runBlock_wf (L : Libm α) (fs mix size swell upAmt dnAmt tone : α) (xs : List Int) :
    ∀ st : State α, st.Wf →
      (runBlock (sampleStep L fs mix size swell upAmt dnAmt tone) st xs).1.Wf := by
  induction xs with
  | nil => intro st h; exact h
  | cons x xs ih =>
    intro st h
    simp only [runBlock]
    apply ih
    exact ⟨stage_process_wf L _ h.1 _ _ _ _ _ _ _,
      stage_process_wf L _ h.2 _ _ _ _ _ _ _⟩

theorem reachable_wf (L : Libm α) (st : State α) (h : Reachable L st) : st.Wf := by
  induction h with
  | construct => exact construct_wf
  | processMono st inMono fs p _ ih => exact runBlock_wf L _ _ _ _ _ _ _ _ st ih
  | reset st _ ih => exact ⟨stage_reset_wf _ ih.1, stage_reset_wf _ ih.2⟩

end OrchestraEffect

/-- C10: `reset()` restores the constructed state: for the distortion, rotary and octave
engines `reset` of any state is the constructed state; for the shimmer engine `reset`
of any state reached by a history of `processMono` and `reset` calls is the constructed
state (the comb and allpass lengths set by `init` never change and the cells in use are
wiped); so the result of a later processing call does not depend on what was processed
before `reset()`. -/
theorem C10_reset_restores_construct {α : Type} [LinearOrderedField α] [FloorRing α]
    (L : Pedal.Libm α) :
    ((∀ s : BigMuffEffect.State α, BigMuffEffect.reset s = BigMuffEffect.construct) ∧
     (∀ s : LeslieEffect.State α, LeslieEffect.reset s = LeslieEffect.construct) ∧
     (∀ s : OctaveEffect.State α, OctaveEffect.reset s = OctaveEffect.construct) ∧
     (∀ s : OrchestraEffect.State α, OrchestraEffect.Reachable L s →
       OrchestraEffect.reset s = OrchestraEffect.construct)) ∧
    ((∀ (s1 s2 : BigMuffEffect.State α) (mono : List Int) (fs : α)
        (p : BigMuffEffect.Params α),
       BigMuffEffect.processMonoWet L (BigMuffEffect.reset s1) mono fs p =
         BigMuffEffect.processMonoWet L (BigMuffEffect.reset s2) mono fs p) ∧
     (∀ (s1 s2 : LeslieEffect.State α) (left right : List Int) (fs : α)
        (p : LeslieEffect.Params α),
       LeslieEffect.processWet L (LeslieEffect.reset s1) left right fs p =
         LeslieEffect.processWet L (LeslieEffect.reset s2) left right fs p) ∧
     (∀ (s1 s2 : OctaveEffect.State α) (monoIn : List Int) (fs : α)
        (p : OctaveEffect.Params α),
       OctaveEffect.processMono L (OctaveEffect.reset s1) monoIn fs p =
         OctaveEffect.processMono L (OctaveEffect.reset s2) monoIn fs p) ∧
     (∀ (s1 s2 : OrchestraEffect.State α) (inMono : List Int) (fs : α)
        (p : OrchestraEffect.Params α),
       OrchestraEffect.Reachable L s1 → OrchestraEffect.Reachable L s2 →
       OrchestraEffect.processMono L (OrchestraEffect.reset s1) inMono fs p =
         OrchestraEffect.processMono L (OrchestraEffect.reset s2) inMono fs p)) := by
  have h4 : ∀ s : OrchestraEffect.State α, OrchestraEffect.Reachable L s →
      OrchestraEffect.reset s = OrchestraEffect.construct :=
    fun s hs => OrchestraEffect.state_reset_of_wf s (OrchestraEffect.reachable_wf L s hs)
  refine ⟨⟨fun _ => rfl, fun _ => rfl, fun _ => rfl, h4⟩,
    fun _ _ _ _ _ => rfl, fun _ _ _ _ _ _ => rfl, fun _ _ _ _ _ => rfl, ?_⟩
  intro s1 s2 inMono fs p hs1 hs2
  rw [h4 s1 hs1, h4 s2 hs2]

/-! ### One-pole low-pass and DC blocker on a constant input -/

namespace Pedal

variable {α : Type} [LinearOrderedField α] [FloorRing α]

/-- A geometric sequence of ratio `r` in `[0, 1)` falls below every positive bound and
stays there. -/
theorem geometric_eventually_small (r m ε : α) (hr0 : 0 ≤ r) (hr1 : r < 1) (hm : 0 ≤ m)
    (hε : 0 < ε) : ∃ N : Nat, ∀ n, N ≤ n → r ^ n * m < ε := by
  rcases eq_or_lt_of_le hm with hm0 | hmpos
  · exact ⟨0, fun n _ => by rw [← hm0, mul_zero]; exact hε⟩
  · obtain ⟨N, hN⟩ := exists_pow_lt_of_lt_one (div_pos hε hmpos) hr1
    refine ⟨N, fun n hn => ?_⟩
    have h1 : r ^ n ≤ r ^ N := pow_le_pow_of_le_one hr0 hr1.le hn
    have h2 : r ^ n < ε / m := lt_of_le_of_lt h1 hN
    exact (lt_div_iff₀ hmpos).mp h2

end Pedal

namespace BigMuffEffect

variable {α : Type} [LinearOrderedField α]

theorem onePoleLP_iterate (a c y0 : α) (n : Nat) :
    (fun y => onePoleLP c y a)^[n] y0 = c + (1 - a) ^ n * (y0 - c) := by
  induction n with
  | zero => simp
  | succ k ih =>
    rw [Function.iterate_succ_apply', ih]
    simp only [onePoleLP]
    ring

theorem dcBlock_iterate (c R : α) (n : Nat) :
    (fun s : α × α => (dcBlock c s.1 s.2 R).2)^[n + 1] (0, 0) = (c, R ^ n * c) := by
  induction n with
  | zero => simp [dcBlock]
  | succ k ih =>
    rw [Function.iterate_succ_apply', ih]
    simp only [dcBlock]
    congr 1
    ring

theorem dcBlock_output (c R : α) (n : Nat) :
    (dcBlock c ((fun s : α × α => (dcBlock c s.1 s.2 R).2)^[n] (0, 0)).1
      ((fun s : α × α => (dcBlock c s.1 s.2 R).2)^[n] (0, 0)).2 R).1 = R ^ n * c := by
  cases n with
  | zero => simp [dcBlock]
  | succ k =>
    rw [dcBlock_iterate]
    simp only [dcBlock]
    ring

end BigMuffEffect

/-- C11: one-pole low-pass on a constant input `c` with coefficient `0 < a <= 1`, from
any initial state `y0`: the state after `n` applications of `onePoleLP` (distortion and
octave engines alike) is `c + (1 - a)^n * (y0 - c)`; the distance to `c` never
increases, the state stays on the side of `c` where `y0` is, and it tends to `c`. -/
theorem C11_onePoleLP_converges {α : Type} [LinearOrderedField α] [FloorRing α]
    (a c y0 : α) (ha0 : 0 < a) (ha1 : a ≤ 1) :
    (∀ n : Nat, (fun y => BigMuffEffect.onePoleLP c y a)^[n] y0 =
        c + (1 - a) ^ n * (y0 - c)) ∧
    (∀ n : Nat, (fun y => OctaveEffect.onePoleLP c y a)^[n] y0 =
        (fun y => BigMuffEffect.onePoleLP c y a)^[n] y0) ∧
    (∀ n : Nat, |(fun y => BigMuffEffect.onePoleLP c y a)^[n + 1] y0 - c| ≤
        |(fun y => BigMuffEffect.onePoleLP c y a)^[n] y0 - c|) ∧
    (∀ n : Nat, (y0 ≤ c → (fun y => BigMuffEffect.onePoleLP c y a)^[n] y0 ≤ c) ∧
        (c ≤ y0 → c ≤ (fun y => BigMuffEffect.onePoleLP c y a)^[n] y0)) ∧
    (∀ ε : α, 0 < ε → ∃ N : Nat, ∀ n : Nat, N ≤ n →
        |(fun y => BigMuffEffect.onePoleLP c y a)^[n] y0 - c| < ε) := by
  have hr0 : (0 : α) ≤ 1 - a := by linarith
  have hr1 : 1 - a < 1 := by linarith
  have habs : ∀ n : Nat, |(fun y => BigMuffEffect.onePoleLP c y a)^[n] y0 - c| =
      (1 - a) ^ n * |y0 - c| := by
    intro n
    rw [BigMuffEffect.onePoleLP_iterate, add_sub_cancel_left, abs_mul,
      abs_of_nonneg (pow_nonneg hr0 n)]
  refine ⟨BigMuffEffect.onePoleLP_iterate a c y0, fun n => rfl, ?_, ?_, ?_⟩
  · intro n
    rw [habs, habs, pow_succ]
    have h1 : (1 - a) ^ n * (1 - a) ≤ (1 - a) ^ n * 1 :=
      mul_le_mul_of_nonneg_left hr1.le (pow_nonneg hr0 n)
    rw [mul_one] at h1
    exact mul_le_mul_of_nonneg_right h1 (abs_nonneg _)
  · intro n
    rw [BigMuffEffect.onePoleLP_iterate]
    have hp : (0 : α) ≤ (1 - a) ^ n := pow_nonneg hr0 n
    constructor
    · intro h
      have : (1 - a) ^ n * (y0 - c) ≤ 0 := mul_nonpos_of_nonneg_of_nonpos hp (by linarith)
      linarith
    · intro h
      have : 0 ≤ (1 - a) ^ n * (y0 - c) := mul_nonneg hp (by linarith)
      linarith
  · intro ε hε
    obtain ⟨N, hN⟩ := Pedal.geometric_eventually_small (1 - a) |y0 - c| ε hr0 hr1
      (abs_nonneg _) hε
    exact ⟨N, fun n hn => by rw [habs]; exact hN n hn⟩

/-- Witness of C11: a = 1/4, c = 1 and y0 = 0 over the rationals. -/
theorem C11_onePoleLP_converges_witness :
    (∀ n : Nat, (fun y => BigMuffEffect.onePoleLP (1 : ℚ) y (1 / 4))^[n] 0 =
        1 + (1 - 1 / 4) ^ n * (0 - 1)) ∧
    (∀ n : Nat, (fun y => OctaveEffect.onePoleLP (1 : ℚ) y (1 / 4))^[n] 0 =
        (fun y => BigMuffEffect.onePoleLP (1 : ℚ) y (1 / 4))^[n] 0) ∧
    (∀ n : Nat, |(fun y => BigMuffEffect.onePoleLP (1 : ℚ) y (1 / 4))^[n + 1] 0 - 1| ≤
        |(fun y => BigMuffEffect.onePoleLP (1 : ℚ) y (1 / 4))^[n] 0 - 1|) ∧
    (∀ n : Nat, ((0 : ℚ) ≤ 1 → (fun y => BigMuffEffect.onePoleLP (1 : ℚ) y (1 / 4))^[n] 0 ≤ 1) ∧
        ((1 : ℚ) ≤ 0 → 1 ≤ (fun y => BigMuffEffect.onePoleLP (1 : ℚ) y (1 / 4))^[n] 0)) ∧
    (∀ ε : ℚ, 0 < ε → ∃ N : Nat, ∀ n : Nat, N ≤ n →
        |(fun y => BigMuffEffect.onePoleLP (1 : ℚ) y (1 / 4))^[n] 0 - 1| < ε) :=
  C11_onePoleLP_converges (1 / 4) 1 0 (by norm_num) (by norm_num)

/-- C12: DC blocker from the reset state (`x1 = 0`, `y1 = 0`) on the constant input `c`
with coefficient `R`: the `n`-th output (n = 0, 1, 2, ...) is `R^n * c`; for
`0 <= R < 1` its magnitude never increases and it tends to 0. -/
theorem C12_dcBlock_constant_input {α : Type} [LinearOrderedField α] [FloorRing α]
    (c R : α) :
    (∀ n : Nat,
      (BigMuffEffect.dcBlock c
        ((fun s : α × α => (BigMuffEffect.dcBlock c s.1 s.2 R).2)^[n] (0, 0)).1
        ((fun s : α × α => (BigMuffEffect.dcBlock c s.1 s.2 R).2)^[n] (0, 0)).2 R).1 =
      R ^ n * c) ∧
    (0 ≤ R → R < 1 →
      (∀ n : Nat, |R ^ (n + 1) * c| ≤ |R ^ n * c|) ∧
      (∀ ε : α, 0 < ε → ∃ N : Nat, ∀ n : Nat, N ≤ n →
        |(BigMuffEffect.dcBlock c
          ((fun s : α × α => (BigMuffEffect.dcBlock c s.1 s.2 R).2)^[n] (0, 0)).1
          ((fun s : α × α => (BigMuffEffect.dcBlock c s.1 s.2 R).2)^[n] (0, 0)).2 R).1| <
          ε)) := by
  refine ⟨BigMuffEffect.dcBlock_output c R, fun hR0 hR1 => ⟨?_, ?_⟩⟩
  · intro n
    rw [abs_mul, abs_mul, abs_of_nonneg (pow_nonneg hR0 _), abs_of_nonneg (pow_nonneg hR0 _),
      pow_succ]
    have h1 : R ^ n * R ≤ R ^ n * 1 := mul_le_mul_of_nonneg_left hR1.le (pow_nonneg hR0 n)
    rw [mul_one] at h1
    exact mul_le_mul_of_nonneg_right h1 (abs_nonneg _)
  · intro ε hε
    obtain ⟨N, hN⟩ := Pedal.geometric_eventually_small R |c| ε hR0 hR1 (abs_nonneg _) hε
    refine ⟨N, fun n hn => ?_⟩
    rw [BigMuffEffect.dcBlock_output, abs_mul, abs_of_nonneg (pow_nonneg hR0 _)]
    exact hN n hn

/-- Witness of C12: the coefficient 0.995 of `processMonoWet` and the constant input 1/2
over the rationals. -/
theorem C12_dcBlock_constant_input_witness :
    (∀ n : Nat, |(0.995 : ℚ) ^ (n + 1) * (1 / 2)| ≤ |(0.995 : ℚ) ^ n * (1 / 2)|) ∧
    (∀ ε : ℚ, 0 < ε → ∃ N : Nat, ∀ n : Nat, N ≤ n →
      |(BigMuffEffect.dcBlock (1 / 2 : ℚ)
        ((fun s : ℚ × ℚ => (BigMuffEffect.dcBlock (1 / 2) s.1 s.2 0.995).2)^[n] (0, 0)).1
        ((fun s : ℚ × ℚ => (BigMuffEffect.dcBlock (1 / 2) s.1 s.2 0.995).2)^[n] (0, 0)).2
        0.995).1| < ε) :=
  (C12_dcBlock_constant_input (1 / 2 : ℚ) 0.995).2 (by norm_num) (by norm_num)

/-! ### Distortion engine: headroom at tone = 0.5 -/

namespace Pedal

theorem runBlock_forall_inv {σ ι ο : Type} (step : σ → ι → σ × ο) (Inv : σ → Prop)
    (P : ι → Prop) (Q : ο → Prop)
    (h : ∀ st x, Inv st → P x → Q (step st x).2 ∧ Inv (step st x).1) (xs : List ι) :
    ∀ st, Inv st → (∀ x ∈ xs, P x) →
      (∀ y ∈ (runBlock step st xs).2, Q y) ∧ Inv (runBlock step st xs).1 := by
  induction xs with
  | nil => intro st hst _; exact ⟨fun y hy => by simp [runBlock] at hy, hst⟩
  | cons x xs ih =>
    intro st hst hP
    obtain ⟨h1, h2⟩ := h st x hst (hP x (List.mem_cons_self x xs))
    obtain ⟨h3, h4⟩ := ih _ h2 (fun y hy => hP y (List.mem_cons_of_mem x hy))
    refine ⟨fun y hy => ?_, h4⟩
    simp only [runBlock, List.mem_cons] at hy
    rcases hy with rfl | hy
    · exact h1
    · exact h3 y hy

end Pedal

namespace BigMuffEffect

open Pedal

variable {α : Type} [LinearOrderedField α] [FloorRing α]

omit [FloorRing α] in
theorem clamp01_mem_muff (x : α) : 0 ≤ clamp01 x ∧ clamp01 x ≤ 1 := by
  unfold clamp01
  split_ifs with h1 h2
  · exact ⟨le_refl _, zero_le_one⟩
  · exact ⟨zero_le_one, le_refl _⟩
  · exact ⟨not_lt.mp h1, not_lt.mp h2⟩

omit [FloorRing α] in
theorem clampCoef_mem_muff (a : α) : 0.001 ≤ clampCoef a ∧ clampCoef a ≤ 0.45 := by
  simp only [clampCoef]
  split_ifs with h1 h2 h3
  · norm_num at h2
  · exact ⟨le_refl _, by norm_num⟩
  · exact ⟨by norm_num, le_refl _⟩
  · exact ⟨not_lt.mp h1, not_lt.mp h3⟩

omit [FloorRing α] in
/-- A one-pole low-pass step with a coefficient in `[0, 1]` keeps a bound shared by the
state and the input. -/
theorem onePoleLP_abs_le (x y a B : α) (hx : |x| ≤ B) (hy : |y| ≤ B) (ha0 : 0 ≤ a)
    (ha1 : a ≤ 1) : |onePoleLP x y a| ≤ B := by
  have e : onePoleLP x y a = (1 - a) * y + a * x := by simp only [onePoleLP]; ring
  rw [e]
  rw [abs_le] at hx hy ⊢
  have h1 : (0 : α) ≤ 1 - a := by linarith
  constructor
  · nlinarith [mul_le_mul_of_nonneg_left hy.1 h1, mul_le_mul_of_nonneg_left hx.1 ha0]
  · nlinarith [mul_le_mul_of_nonneg_left hy.2 h1, mul_le_mul_of_nonneg_left hx.2 ha0]

omit [FloorRing α] in
/-- The coupling high-pass on a saturator output: the state keeps the saturator bound
and the output is within `2 * (1 - 0.0035)` times it. -/
theorem onePoleHP_viaLP_abs_le (v lp a : α) (hv : |v| ≤ 1.00001) (hlp : |lp| ≤ 1.00001)
    (ha0 : 0.0035 ≤ a) (ha1 : a ≤ 1) :
    |(onePoleHP_viaLP v lp a).2| ≤ 1.00001 ∧ |(onePoleHP_viaLP v lp a).1| ≤ 1.9931 := by
  constructor
  · exact onePoleLP_abs_le v lp a 1.00001 hv hlp (by linarith) ha1
  · have e : (onePoleHP_viaLP v lp a).1 = (1 - a) * (v - lp) := by
      simp only [onePoleHP_viaLP]; ring
    rw [e, abs_mul, abs_of_nonneg (by linarith : (0 : α) ≤ 1 - a)]
    have h1 : |v - lp| ≤ 2.00002 := by
      rw [abs_le] at hv hlp ⊢
      constructor <;> linarith [hv.1, hv.2, hlp.1, hlp.2]
    have h2 : (1 - a) * |v - lp| ≤ (1 - 0.0035) * 2.00002 :=
      mul_le_mul (by linarith) h1 (abs_nonneg _) (by norm_num)
    have h3 : ((1 : α) - 0.0035) * 2.00002 ≤ 1.9931 := by norm_num
    linarith

omit [FloorRing α] in
theorem satAtan_abs_le (L : Libm α) (hL : ∀ x, |L.atanf x| ≤ 1.5708) (x k : α) :
    |satAtan L x k| ≤ 1.00001 := by
  unfold satAtan
  rw [abs_mul, abs_of_nonneg (by norm_num : (0 : α) ≤ 2 / (13176795 / 4194304))]
  have h1 : (2 / (13176795 / 4194304) : α) * |L.atanf (k * x)| ≤ 2 / (13176795 / 4194304) * 1.5708 :=
    mul_le_mul_of_nonneg_left (hL _) (by norm_num)
  have h2 : (2 / (13176795 / 4194304) : α) * 1.5708 ≤ 1.00001 := by norm_num
  linarith

omit [FloorRing α] in
theorem softLimit_of_abs_le (v : α) (h : |v| ≤ 0.9966) : softLimit v = v := by
  rw [abs_le] at h
  have a1 : ¬ (v > 1.2) := by rw [gt_iff_lt, not_lt]; linarith [h.2]
  have a2 : ¬ (v < -1.2) := by rw [not_lt]; linarith [h.1]
  simp only [softLimit, a1, a2, if_false]

omit [FloorRing α] in
/-- One oversampling pass with the tone knob at 0.5 keeps the headroom bounds, and the
anti-aliased value is within 0.9966. -/
theorem osStep_headroom (L : Libm α) (hL : ∀ x, |L.atanf x| ≤ 1.5708) (c : Coeffs α)
    (htone : c.tone = 0.5) (h3a : 0.0035 ≤ c.hpA3 ∧ c.hpA3 ≤ 1)
    (hpa : 0 ≤ c.postA ∧ c.postA ≤ 1) (hoa : 0 ≤ c.osA ∧ c.osA ≤ 1) (st : State α)
    (hst : Headroom st) (x : α) :
    Headroom (osStep L c st x).1 ∧ |(osStep L c st x).2| ≤ 0.9966 := by
  obtain ⟨i1, i2, i3⟩ := hst
  unfold osStep
  lift_lets
  intro x0 d x1 preLP x2 s1 h1 y1 s2 h2 y2 s3 h3 y3 toneLP lp hp yt postLP yt1 osLP
  have dh3 : h3 = onePoleHP_viaLP (satAtan L s3 c.k3) st.hp3_lp c.hpA3 := rfl
  have dy3 : y3 = h3.1 := rfl
  have dlp : lp = toneLP := rfl
  have dhp : hp = y3 - lp := rfl
  have dyt : yt = (1 - c.tone) * lp + c.tone * hp := rfl
  have dpost : postLP = onePoleLP yt st.postLP c.postA := rfl
  have dyt1 : yt1 = softLimit postLP := rfl
  have dos : osLP = onePoleLP yt1 st.osLP c.osA := rfl
  clear_value x0 d x1 preLP x2 s1 h1 y1 s2 h2 y2 s3 h3 y3 toneLP lp hp yt postLP yt1 osLP
  have b3 := onePoleHP_viaLP_abs_le (satAtan L s3 c.k3) st.hp3_lp c.hpA3
    (satAtan_abs_le L hL s3 c.k3) i1 h3a.1 h3a.2
  rw [← dh3] at b3
  have eyt : yt = 0.5 * y3 := by rw [dyt, dhp, htone]; ring
  have hyt : |yt| ≤ 0.9966 := by
    rw [eyt, abs_mul, abs_of_nonneg (by norm_num : (0 : α) ≤ 0.5), dy3]
    linarith only [b3.2]
  have hpost : |postLP| ≤ 0.9966 := by
    rw [dpost]; exact onePoleLP_abs_le yt st.postLP c.postA 0.9966 hyt i2 hpa.1 hpa.2
  have hsoft : yt1 = postLP := by rw [dyt1]; exact softLimit_of_abs_le postLP hpost
  have hos : |osLP| ≤ 0.9966 := by
    rw [dos, hsoft]; exact onePoleLP_abs_le postLP st.osLP c.osA 0.9966 hpost i3 hoa.1 hoa.2
  exact ⟨⟨b3.1, hpost, hos⟩, hos⟩

end BigMuffEffect

namespace BigMuffEffect

open Pedal

variable {α : Type} [LinearOrderedField α] [FloorRing α]

omit [FloorRing α] in
theorem coeffs_headroom_facts (fs : α) (p : Params α) (htone : p.tone = 0.5) :
    (coeffs fs p).tone = 0.5 ∧ (0.0035 ≤ (coeffs fs p).hpA3 ∧ (coeffs fs p).hpA3 ≤ 1) ∧
    (0 ≤ (coeffs fs p).postA ∧ (coeffs fs p).postA ≤ 1) ∧
    (0 ≤ (coeffs fs p).osA ∧ (coeffs fs p).osA ≤ 1) ∧ (coeffs fs p).outScale = 0.55 := by
  obtain ⟨d0, d1⟩ := clamp01_mem_muff p.drive
  have hp := clampCoef_mem_muff (lerp 1600 4200 (clamp01 p.pres) / (fs * 2))
  have ho := clampCoef_mem_muff ((12000 : α) / (fs * 2))
  have ht : clamp01 (0.5 : α) = 0.5 := by
    unfold clamp01
    norm_num
  refine ⟨?_, ⟨?_, ?_⟩, ⟨?_, ?_⟩, ⟨?_, ?_⟩, rfl⟩
  · simp only [coeffs, htone, ht]
  · simp only [coeffs, lerp]; linarith
  · simp only [coeffs, lerp]; linarith
  · simp only [coeffs]; linarith [hp.1]
  · simp only [coeffs]; linarith [hp.2]
  · simp only [coeffs]; linarith [ho.1]
  · simp only [coeffs]; linarith [ho.2]

/-- One sample with the tone knob at 0.5 keeps the headroom bounds and writes a sample
of magnitude at most 18021. -/
theorem sampleStep_headroom (L : Libm α) (hL : ∀ x, |L.atanf x| ≤ 1.5708) (fs : α)
    (p : Params α) (htone : p.tone = 0.5) (st : State α) (hst : Headroom st) (s : Int) :
    |(sampleStep L (coeffs fs p) st s).2| ≤ 18021 ∧
      Headroom (sampleStep L (coeffs fs p) st s).1 := by
  obtain ⟨c1, c2, c3, c4, c5⟩ := coeffs_headroom_facts fs p htone
  have p0 := osStep_headroom L hL (coeffs fs p) c1 c2 c3 c4 st hst
    (0.5 * (st.xPrev + (s : α) / 32768))
  have p1 := osStep_headroom L hL (coeffs fs p) c1 c2 c3 c4 _ p0.1 ((s : α) / 32768)
  simp only [sampleStep, c5]
  refine ⟨?_, p1.1⟩
  have hv := p1.2
  generalize (osStep L (coeffs fs p)
    (osStep L (coeffs fs p) st (0.5 * (st.xPrev + (s : α) / 32768))).1
    ((s : α) / 32768)).2 = v at hv ⊢
  rw [abs_le] at hv
  have hb := @truncToInt_bounds α _ _ (v * 0.55 * 32767) (-18021) 18021
    (by push_cast; linarith [hv.1]) (by push_cast; linarith [hv.2]) (by norm_num)
    (by norm_num)
  rw [abs_le]
  unfold clamp16
  split_ifs <;> constructor <;> omega

end BigMuffEffect

namespace BigMuffEffect

theorem realLibm_atanf_abs_le (x : ℝ) : |Pedal.realLibm.atanf x| ≤ 1.5708 := by
  show |Real.arctan x| ≤ 1.5708
  have h1 := Real.arctan_lt_pi_div_two x
  have h2 := Real.neg_pi_div_two_lt_arctan x
  have h3 := Real.pi_lt_d6
  rw [abs_le]
  constructor <;> linarith

end BigMuffEffect

/-- C13: distortion headroom: starting from `reset()` and processing any sequence of
blocks with tone = 0.5 (any drive, shape and pres, any input samples, fs > 0), every
output sample satisfies `|out| <= 18021`, the integer part of `0.55 * 32767`. It uses
`|atanf| <= 1.5708`. -/
theorem C13_headroom_at_half_tone {α : Type} [LinearOrderedField α] [FloorRing α]
    (L : Pedal.Libm α) (hL : ∀ x, |L.atanf x| ≤ 1.5708) (st : BigMuffEffect.State α)
    (calls : List (List Int × α × BigMuffEffect.Params α))
    (hcalls : ∀ call ∈ calls, call.2.2.tone = 0.5 ∧ 0 < call.2.1) :
    ∀ blk ∈ (BigMuffEffect.processCalls L (BigMuffEffect.reset st) calls).2,
      ∀ o ∈ blk, |o| ≤ 18021 := by
  have hreset : BigMuffEffect.Headroom (BigMuffEffect.reset st) := by
    simp only [BigMuffEffect.Headroom, BigMuffEffect.reset, abs_zero]
    norm_num
  exact (Pedal.runBlock_forall_inv
    (fun st (call : List Int × α × BigMuffEffect.Params α) =>
      BigMuffEffect.processMonoWet L st call.1 call.2.1 call.2.2)
    BigMuffEffect.Headroom (fun call => call.2.2.tone = 0.5 ∧ 0 < call.2.1)
    (fun blk => ∀ o ∈ blk, |o| ≤ 18021)
    (fun s call hs hc =>
      Pedal.runBlock_forall_inv _ BigMuffEffect.Headroom (fun _ => True)
        (fun o : Int => |o| ≤ 18021)
        (fun s' x hs' _ => BigMuffEffect.sampleStep_headroom L hL call.2.1 call.2.2 hc.1 s' hs' x)
        call.1 s hs (fun _ _ => trivial))
    calls (BigMuffEffect.reset st) hreset hcalls).1

/-- Witness of C13: the real math library, two calls at 44.1 kHz with tone = 0.5 on
full-scale samples. -/
theorem C13_headroom_at_half_tone_witness :
    (∀ x : ℝ, |Pedal.realLibm.atanf x| ≤ 1.5708) ∧
    ∀ blk ∈ (BigMuffEffect.processCalls Pedal.realLibm
        (BigMuffEffect.reset BigMuffEffect.construct)
        [([32767, -32768, 32767], (44100 : ℝ), ⟨1, 0.5, 0.5, 0⟩),
         ([-32768, 32767], (44100 : ℝ), ⟨0.3, 0.5, 1, 1⟩)]).2,
      ∀ o ∈ blk, |o| ≤ 18021 :=
  ⟨BigMuffEffect.realLibm_atanf_abs_le,
   C13_headroom_at_half_tone Pedal.realLibm BigMuffEffect.realLibm_atanf_abs_le
    BigMuffEffect.construct _ (by
      intro call hc
      simp only [List.mem_cons, List.mem_singleton, List.not_mem_nil, or_false] at hc
      rcases hc with rfl | rfl <;> norm_num)⟩

/-! ### Octave engine: the pitch tracker update -/

namespace OctaveEffect

open Pedal

variable {α : Type} [LinearOrderedField α] [FloorRing α]

theorem tuning_tracker_facts (fs : α) (p : Params α) :
    (0.03 ≤ (tuning fs p).freqSmooth ∧ (tuning fs p).freqSmooth ≤ 0.22) ∧
    (0.18 ≤ (tuning fs p).maxJump ∧ (tuning fs p).maxJump ≤ 0.55) := by
  obtain ⟨h0, h1⟩ := clamp01_mem p.tracking
  simp only [tuning, lerp]
  refine ⟨⟨?_, ?_⟩, ⟨?_, ?_⟩⟩ <;> linarith

omit [FloorRing α] in
/-- A smoothing step moves the estimate part of the way to the candidate: it stays in
any interval that holds both. -/
theorem smooth_step_mem (F s x lo hi : α) (hs0 : 0 ≤ s) (hs1 : s ≤ 1) (hF : lo ≤ F ∧ F ≤ hi)
    (hx : lo ≤ x ∧ x ≤ hi) : lo ≤ F + s * (x - F) ∧ F + s * (x - F) ≤ hi := by
  have e : F + s * (x - F) = (1 - s) * F + s * x := by ring
  have h1 : (0 : α) ≤ 1 - s := by linarith
  rw [e]
  constructor
  · nlinarith [mul_le_mul_of_nonneg_left hF.1 h1, mul_le_mul_of_nonneg_left hx.1 hs0]
  · nlinarith [mul_le_mul_of_nonneg_left hF.2 h1, mul_le_mul_of_nonneg_left hx.2 hs0]

omit [FloorRing α] in
/-- The tracker update is the range test on the raw candidate followed by the octave
snap, the jump limit and the smoothing step. -/
theorem trackUpdate_eq (fs : α) (c : Tuning α) (F : α) (period : Int) :
    trackUpdate fs c F period =
      if fs / (period : α) ≥ fMin ∧ fs / (period : α) ≤ fMax then
        F + c.freqSmooth * (jumpLimit c F (octaveSnap F (fs / (period : α))) - F)
      else F := rfl

omit [FloorRing α] in
/-- A snapped candidate is within 10 % of the estimate; an unsnapped one is the raw
candidate. -/
theorem octaveSnap_cases (F f : α) (hF : 0 < F) :
    (((1.80 * F < f ∧ f < 2.20 * F) ∨ (0.45 * F < f ∧ f < 0.55 * F)) →
      0.9 * F < octaveSnap F f ∧ octaveSnap F f < 1.1 * F) ∧
    (¬ ((1.80 * F < f ∧ f < 2.20 * F) ∨ (0.45 * F < f ∧ f < 0.55 * F)) →
      octaveSnap F f = f) := by
  constructor
  · intro h
    rcases h with h | h
    · have c1 : f > 1.80 * F ∧ f < 2.20 * F := h
      have c2 : ¬ (f * 0.5 > 0.45 * F ∧ f * 0.5 < 0.55 * F) := by
        intro hc; linarith [hc.2, h.1]
      simp only [octaveSnap, c1, and_self, if_true, c2, if_false]
      constructor <;> linarith [h.1, h.2]
    · have c1 : ¬ (f > 1.80 * F ∧ f < 2.20 * F) := by
        intro hc; linarith [hc.1, h.2]
      have c2 : f > 0.45 * F ∧ f < 0.55 * F := h
      simp only [octaveSnap, c1, if_false, c2, and_self, if_true]
      constructor <;> linarith [h.1, h.2]
  · intro h
    rw [not_or] at h
    have c1 : ¬ (f > 1.80 * F ∧ f < 2.20 * F) := h.1
    have c2 : ¬ (f > 0.45 * F ∧ f < 0.55 * F) := h.2
    simp only [octaveSnap, c1, c2, if_false]

omit [FloorRing α] in
/-- The jump limit leaves the candidate between `F * (1 - maxJump)` and
`F * (1 + maxJump)`, and between the candidate it was given and `F`. -/
theorem jumpLimit_mem (c : Tuning α) (F g : α) (hF : 0 < F) (hmj : 0 ≤ c.maxJump) :
    (F * (1 - c.maxJump) ≤ jumpLimit c F g ∧ jumpLimit c F g ≤ F * (1 + c.maxJump)) ∧
    (min g F ≤ jumpLimit c F g ∧ jumpLimit c F g ≤ max g F) := by
  have hlo : F * (1 - c.maxJump) ≤ F := by nlinarith
  have hhi : F ≤ F * (1 + c.maxJump) := by nlinarith
  simp only [jumpLimit, le_max_iff, min_le_iff]
  split_ifs with h1 h2 h2
  · exact absurd h2 (by rw [gt_iff_lt, not_lt]; linarith)
  · exact ⟨⟨le_refl _, by linarith⟩, Or.inl (by linarith), Or.inr hlo⟩
  · exact ⟨⟨by linarith, le_refl _⟩, Or.inr hhi, Or.inl (by linarith)⟩
  · exact ⟨⟨not_lt.mp h1, not_lt.mp h2⟩, Or.inl (le_refl _), Or.inl (le_refl _)⟩

end OctaveEffect

namespace OctaveEffect

open Pedal

variable {α : Type} [LinearOrderedField α] [FloorRing α]

/-- What one sample does to the smoothed frequency `F`: on a detected crossing (the
sign becomes positive from a non-positive one) with the tracker locked and a period
above 10 it is the tracker update; with the tracker unlocked it is the idle drift
`F + 0.01 * (120 - F)`; otherwise it is unchanged. -/
theorem sampleStep_freq_cases (L : Libm α) (fs : α) (c : Tuning α) (st : State α) (s : Int) :
    ((sampleStep L fs c st s).1.trackingActive = true ∧
      (0 < (sampleStep L fs c st s).1.sign ∧ st.sign ≤ 0 ∧ 10 < st.samplesSinceCross + 1) ∧
      (sampleStep L fs c st s).1.freqSmoothed =
        trackUpdate fs c st.freqSmoothed (st.samplesSinceCross + 1)) ∨
    ((sampleStep L fs c st s).1.trackingActive = false ∧
      (sampleStep L fs c st s).1.freqSmoothed =
        st.freqSmoothed + 0.01 * (120 - st.freqSmoothed)) ∨
    ((sampleStep L fs c st s).1.trackingActive = true ∧
      ¬ (0 < (sampleStep L fs c st s).1.sign ∧ st.sign ≤ 0 ∧ 10 < st.samplesSinceCross + 1) ∧
      (sampleStep L fs c st s).1.freqSmoothed = st.freqSmoothed) := by
  simp only [sampleStep]
  generalize (gateStep c (envFollow st.env |(s : α) / 32768|) st.trackingActive
    st.hangSamples).1 = act
  generalize (if onePoleLP ((s : α) / 32768) st.preLP c.preA < -c.hyst then (-1 : Int)
    else if onePoleLP ((s : α) / 32768) st.preLP c.preA > c.hyst then 1 else st.sign) = ns
  cases act with
  | false =>
    right; left
    simp
  | true =>
    by_cases hc : 0 < ns ∧ st.sign ≤ 0 ∧ 10 < st.samplesSinceCross + 1
    · left
      obtain ⟨h1, h2, h3⟩ := hc
      simp [h1, h2, h3]
    · right; right
      refine ⟨rfl, hc, ?_⟩
      simp only [gt_iff_lt, decide_eq_true_eq, and_true, Bool.not_true, Bool.false_eq_true,
        if_false]
      rw [if_neg]
      intro hcontra
      exact hc ⟨hcontra.1.1, hcontra.1.2, hcontra.2.2⟩

end OctaveEffect

namespace OctaveEffect

open Pedal

variable {α : Type} [LinearOrderedField α] [FloorRing α]

omit [FloorRing α] in
/-- Smoothing toward a candidate within 10 % of an estimate in [55, 800] Hz, with a
smoothing factor of at most 0.22. -/
theorem snap_smooth_bounds (F s j : α) (hF : 55 ≤ F ∧ F ≤ 800) (hs : 0 ≤ s ∧ s ≤ 0.22)
    (hj : 0.9 * F ≤ j ∧ j ≤ 1.1 * F) :
    53.79 ≤ F + s * (j - F) ∧ F + s * (j - F) ≤ 817.6 := by
  have p1 : 0 ≤ s * (j - 0.9 * F) := mul_nonneg hs.1 (by linarith only [hj.1])
  have p2 : 0 ≤ s * (1.1 * F - j) := mul_nonneg hs.1 (by linarith only [hj.2])
  have p3 : 0 ≤ (0.22 - s) * F := mul_nonneg (by linarith only [hs.2]) (by linarith only [hF.1])
  constructor
  · linarith only [p1, p3, hF.1]
  · linarith only [p2, p3, hF.2]

omit [FloorRing α] in
/-- The tracker update keeps an estimate in [55, 800] Hz within [53.79, 817.6] Hz, and
within [55, 800] Hz when the candidate is not snapped. -/
theorem trackUpdate_range (fs : α) (c : Tuning α) (F : α) (period : Int)
    (hs : 0.03 ≤ c.freqSmooth ∧ c.freqSmooth ≤ 0.22) (hmj : 0.18 ≤ c.maxJump)
    (hF : 55 ≤ F ∧ F ≤ 800) :
    (53.79 ≤ trackUpdate fs c F period ∧ trackUpdate fs c F period ≤ 817.6) ∧
    (¬ ((1.80 * F < fs / (period : α) ∧ fs / (period : α) < 2.20 * F) ∨
        (0.45 * F < fs / (period : α) ∧ fs / (period : α) < 0.55 * F)) →
      55 ≤ trackUpdate fs c F period ∧ trackUpdate fs c F period ≤ 800) := by
  have hFpos : 0 < F := by linarith [hF.1]
  rw [trackUpdate_eq]
  split_ifs with hr
  · obtain ⟨hsnap, hraw⟩ := octaveSnap_cases F (fs / (period : α)) hFpos
    obtain ⟨_, hbetween⟩ := jumpLimit_mem c F (octaveSnap F (fs / (period : α))) hFpos
      (by linarith)
    have hr' : (55 : α) ≤ fs / (period : α) ∧ fs / (period : α) ≤ 800 := hr
    have key : ¬ ((1.80 * F < fs / (period : α) ∧ fs / (period : α) < 2.20 * F) ∨
        (0.45 * F < fs / (period : α) ∧ fs / (period : α) < 0.55 * F)) →
        55 ≤ F + c.freqSmooth * (jumpLimit c F (octaveSnap F (fs / (period : α))) - F) ∧
        F + c.freqSmooth * (jumpLimit c F (octaveSnap F (fs / (period : α))) - F) ≤ 800 := by
      intro hn
      rw [hraw hn] at hbetween ⊢
      apply smooth_step_mem F c.freqSmooth _ 55 800 (by linarith) (by linarith) hF
      constructor
      · exact le_trans (le_min hr'.1 hF.1) hbetween.1
      · exact le_trans hbetween.2 (max_le hr'.2 hF.2)
    refine ⟨?_, key⟩
    by_cases hn : (1.80 * F < fs / (period : α) ∧ fs / (period : α) < 2.20 * F) ∨
        (0.45 * F < fs / (period : α) ∧ fs / (period : α) < 0.55 * F)
    · obtain ⟨g1, g2⟩ := hsnap hn
      generalize octaveSnap F (fs / (period : α)) = g at g1 g2 hbetween
      generalize jumpLimit c F g = j at hbetween
      have j1 : 0.9 * F ≤ j :=
        le_trans (le_min g1.le (by linarith only [hFpos])) hbetween.1
      have j2 : j ≤ 1.1 * F :=
        le_trans hbetween.2 (max_le g2.le (by linarith only [hFpos]))
      exact snap_smooth_bounds F c.freqSmooth j hF ⟨by linarith only [hs.1], hs.2⟩ ⟨j1, j2⟩
    · obtain ⟨k1, k2⟩ := key hn
      constructor
      · linarith only [k1]
      · linarith only [k2]
  · exact ⟨⟨by linarith only [hF.1], by linarith only [hF.2]⟩, fun _ => hF⟩

omit [FloorRing α] in
/-- The tracker update moves the estimate `F > 0` by at most `freqSmooth * maxJump * F`. -/
theorem trackUpdate_jump (fs : α) (c : Tuning α) (F : α) (period : Int)
    (hs : 0 ≤ c.freqSmooth) (hmj : 0 ≤ c.maxJump) (hF : 0 < F) :
    |trackUpdate fs c F period - F| ≤ c.freqSmooth * c.maxJump * F := by
  rw [trackUpdate_eq]
  split_ifs with hr
  · obtain ⟨⟨h1, h2⟩, _⟩ := jumpLimit_mem c F (octaveSnap F (fs / (period : α))) hF hmj
    generalize jumpLimit c F (octaveSnap F (fs / (period : α))) = j at h1 h2
    have e : F + c.freqSmooth * (j - F) - F = c.freqSmooth * (j - F) := by ring
    rw [e, abs_mul, abs_of_nonneg hs, mul_assoc]
    apply mul_le_mul_of_nonneg_left _ hs
    rw [abs_le]
    constructor <;> linarith
  · rw [sub_self, abs_zero]
    exact mul_nonneg (mul_nonneg hs hmj) hF.le

end OctaveEffect

/-- C14 (amended): pitch-tracker range, for every tracking knob value, tracker state and
candidate period: if `_freqSmoothed` is in [55, 800] Hz before a sample is processed,
afterwards it is in [53.79, 817.6] Hz, and it is still in [55, 800] Hz whenever the
candidate `fs / period` of that sample is in neither octave-snap band (the rejection,
jump-limit, smoothing and idle-drift branches keep the range; a snapped candidate moves
the estimate by less than `0.1 * freqSmooth` of its value, possibly out of the range). -/
theorem C14_freq_range_step {α : Type} [LinearOrderedField α] [FloorRing α]
    (L : Pedal.Libm α) (fs : α) (p : OctaveEffect.Params α) (st : OctaveEffect.State α)
    (s : Int) (hF : 55 ≤ st.freqSmoothed ∧ st.freqSmoothed ≤ 800) :
    (53.79 ≤ (OctaveEffect.sampleStep L fs (OctaveEffect.tuning fs p) st s).1.freqSmoothed ∧
      (OctaveEffect.sampleStep L fs (OctaveEffect.tuning fs p) st s).1.freqSmoothed ≤ 817.6) ∧
    (¬ ((1.80 * st.freqSmoothed < fs / ((st.samplesSinceCross + 1 : Int) : α) ∧
          fs / ((st.samplesSinceCross + 1 : Int) : α) < 2.20 * st.freqSmoothed) ∨
        (0.45 * st.freqSmoothed < fs / ((st.samplesSinceCross + 1 : Int) : α) ∧
          fs / ((st.samplesSinceCross + 1 : Int) : α) < 0.55 * st.freqSmoothed)) →
      55 ≤ (OctaveEffect.sampleStep L fs (OctaveEffect.tuning fs p) st s).1.freqSmoothed ∧
      (OctaveEffect.sampleStep L fs (OctaveEffect.tuning fs p) st s).1.freqSmoothed ≤ 800) := by
  obtain ⟨hs, hmj⟩ := OctaveEffect.tuning_tracker_facts fs p
  have hup := OctaveEffect.trackUpdate_range fs (OctaveEffect.tuning fs p) st.freqSmoothed
    (st.samplesSinceCross + 1) hs hmj.1 hF
  have hdrift := OctaveEffect.smooth_step_mem st.freqSmoothed 0.01 120 55 800 (by norm_num)
    (by norm_num) hF (by norm_num)
  rcases OctaveEffect.sampleStep_freq_cases L fs (OctaveEffect.tuning fs p) st s with
    h | h | h
  · rw [h.2.2]; exact hup
  · rw [h.2]
    exact ⟨⟨by linarith [hdrift.1], by linarith [hdrift.2]⟩, fun _ => hdrift⟩
  · rw [h.2.2]
    exact ⟨⟨by linarith [hF.1], by linarith [hF.2]⟩, fun _ => hF⟩

/-- Witness of C14 (amended): the reset state (200 Hz) at 44.1 kHz on a full-scale
sample, with the real math library. -/
theorem C14_freq_range_step_witness :
    (53.79 ≤ (OctaveEffect.sampleStep Pedal.realLibm (44100 : ℝ)
        (OctaveEffect.tuning 44100 ⟨1, 1, 1, 1⟩) OctaveEffect.construct 32767).1.freqSmoothed ∧
      (OctaveEffect.sampleStep Pedal.realLibm (44100 : ℝ)
        (OctaveEffect.tuning 44100 ⟨1, 1, 1, 1⟩) OctaveEffect.construct 32767).1.freqSmoothed ≤
        817.6) ∧
    (¬ ((1.80 * (OctaveEffect.construct : OctaveEffect.State ℝ).freqSmoothed <
          44100 / (((OctaveEffect.construct : OctaveEffect.State ℝ).samplesSinceCross + 1 : Int) : ℝ) ∧
          44100 / (((OctaveEffect.construct : OctaveEffect.State ℝ).samplesSinceCross + 1 : Int) : ℝ) <
            2.20 * (OctaveEffect.construct : OctaveEffect.State ℝ).freqSmoothed) ∨
        (0.45 * (OctaveEffect.construct : OctaveEffect.State ℝ).freqSmoothed <
          44100 / (((OctaveEffect.construct : OctaveEffect.State ℝ).samplesSinceCross + 1 : Int) : ℝ) ∧
          44100 / (((OctaveEffect.construct : OctaveEffect.State ℝ).samplesSinceCross + 1 : Int) : ℝ) <
            0.55 * (OctaveEffect.construct : OctaveEffect.State ℝ).freqSmoothed)) →
      55 ≤ (OctaveEffect.sampleStep Pedal.realLibm (44100 : ℝ)
        (OctaveEffect.tuning 44100 ⟨1, 1, 1, 1⟩) OctaveEffect.construct 32767).1.freqSmoothed ∧
      (OctaveEffect.sampleStep Pedal.realLibm (44100 : ℝ)
        (OctaveEffect.tuning 44100 ⟨1, 1, 1, 1⟩) OctaveEffect.construct 32767).1.freqSmoothed ≤
        800) :=
  C14_freq_range_step Pedal.realLibm 44100 ⟨1, 1, 1, 1⟩ OctaveEffect.construct 32767
    (by simp only [OctaveEffect.construct, OctaveEffect.reset]; norm_num)

/-- C14 (counterexample): at 44.1 kHz with the tracking knob at 0, a locked tracker at
55 Hz that detects a crossing after a period of 441 samples (candidate 100 Hz, snapped
to 50 Hz) moves to 54.85 Hz, below the range. -/
theorem C14_counterexample :
    (OctaveEffect.sampleStep Pedal.realLibm (44100 : ℝ)
      (OctaveEffect.tuning 44100 ⟨0, 0, 0, 0⟩)
      { env := 0.5, samplesSinceCross := 440, freqSmoothed := 55, phase := 0, sign := -1,
        trackingActive := true, hangSamples := 0, preLP := 0.5, upLP := 0, upDC := 0,
        oscLP := 0, postLP := 0 } 16384).1.freqSmoothed = 54.85 ∧
    (54.85 : ℝ) < 55 := by
  refine ⟨?_, by norm_num⟩
  have hx : ((16384 : Int) : ℝ) / 32768 = 0.5 := by norm_num
  have hc : OctaveEffect.clamp01 (0 : ℝ) = 0 := by simp [OctaveEffect.clamp01]
  simp only [OctaveEffect.sampleStep, OctaveEffect.tuning, hx, hc, OctaveEffect.lerp,
    OctaveEffect.envFollow, OctaveEffect.gateStep, OctaveEffect.onePoleLP,
    OctaveEffect.trackUpdate, OctaveEffect.fMin, OctaveEffect.fMax]
  have habs : |(1 / 2 : ℝ)| = 1 / 2 := abs_of_pos (by norm_num)
  norm_num [habs]

/-- C15: pitch-tracker jump limit and rejection: on a sample where a crossing is
detected (the sign becomes positive from a non-positive one) while the tracker is
locked, `_freqSmoothed` is left unchanged if `period <= 10` or if the candidate
`fs / period` is outside [55, 800] Hz; and, with `F > 0` the previous value, the new
value `F'` satisfies `|F' - F| <= freqSmooth * maxJump * F`, where `freqSmooth` is in
[0.03, 0.22] and `maxJump` in [0.18, 0.55]; when `period > 10` the new value is the one
computed by the tracker update. -/
theorem C15_jump_limit_and_rejection {α : Type} [LinearOrderedField α] [FloorRing α]
    (L : Pedal.Libm α) (fs : α) (p : OctaveEffect.Params α) (st : OctaveEffect.State α)
    (s : Int)
    (hlock : (OctaveEffect.sampleStep L fs (OctaveEffect.tuning fs p) st s).1.trackingActive =
      true)
    (hcross : 0 < (OctaveEffect.sampleStep L fs (OctaveEffect.tuning fs p) st s).1.sign ∧
      st.sign ≤ 0) :
    ((st.samplesSinceCross + 1 ≤ 10 ∨
        fs / ((st.samplesSinceCross + 1 : Int) : α) < 55 ∨
        800 < fs / ((st.samplesSinceCross + 1 : Int) : α)) →
      (OctaveEffect.sampleStep L fs (OctaveEffect.tuning fs p) st s).1.freqSmoothed =
        st.freqSmoothed) ∧
    (0 < st.freqSmoothed →
      |(OctaveEffect.sampleStep L fs (OctaveEffect.tuning fs p) st s).1.freqSmoothed -
          st.freqSmoothed| ≤
        (OctaveEffect.tuning fs p).freqSmooth * (OctaveEffect.tuning fs p).maxJump *
          st.freqSmoothed) ∧
    (0.03 ≤ (OctaveEffect.tuning fs p).freqSmooth ∧
      (OctaveEffect.tuning fs p).freqSmooth ≤ 0.22) ∧
    (0.18 ≤ (OctaveEffect.tuning fs p).maxJump ∧
      (OctaveEffect.tuning fs p).maxJump ≤ 0.55) ∧
    (10 < st.samplesSinceCross + 1 →
      (OctaveEffect.sampleStep L fs (OctaveEffect.tuning fs p) st s).1.freqSmoothed =
        OctaveEffect.trackUpdate fs (OctaveEffect.tuning fs p) st.freqSmoothed
          (st.samplesSinceCross + 1)) := by
  obtain ⟨hs, hmj⟩ := OctaveEffect.tuning_tracker_facts fs p
  refine ⟨?_, ?_, hs, hmj, ?_⟩
  · intro hrej
    rcases OctaveEffect.sampleStep_freq_cases L fs (OctaveEffect.tuning fs p) st s with
      h | h | h
    · rw [h.2.2, OctaveEffect.trackUpdate_eq]
      rcases hrej with h1 | h1 | h1
      · exact absurd h.2.1.2.2 (by omega)
      · rw [if_neg]
        intro hc
        have : (55 : α) ≤ fs / ((st.samplesSinceCross + 1 : Int) : α) := hc.1
        linarith
      · rw [if_neg]
        intro hc
        have : fs / ((st.samplesSinceCross + 1 : Int) : α) ≤ (800 : α) := hc.2
        linarith
    · rw [h.1] at hlock
      exact absurd hlock (by decide)
    · exact h.2.2
  · intro hF
    rcases OctaveEffect.sampleStep_freq_cases L fs (OctaveEffect.tuning fs p) st s with
      h | h | h
    · rw [h.2.2]
      exact OctaveEffect.trackUpdate_jump fs _ _ _ (by linarith only [hs.1])
        (by linarith only [hmj.1]) hF
    · rw [h.1] at hlock
      exact absurd hlock (by decide)
    · rw [h.2.2, sub_self, abs_zero]
      exact mul_nonneg (mul_nonneg (by linarith only [hs.1]) (by linarith only [hmj.1])) hF.le
  · intro hper
    rcases OctaveEffect.sampleStep_freq_cases L fs (OctaveEffect.tuning fs p) st s with
      h | h | h
    · exact h.2.2
    · rw [h.1] at hlock
      exact absurd hlock (by decide)
    · exact absurd ⟨hcross.1, hcross.2, hper⟩ h.2.1

/-- Witness of C15: at 44.1 kHz with the tracking knob at 0, a locked tracker at 55 Hz
on a crossing after 441 samples, with the real math library. -/
theorem C15_jump_limit_and_rejection_witness :
    |(OctaveEffect.sampleStep Pedal.realLibm (44100 : ℝ)
        (OctaveEffect.tuning 44100 ⟨0, 0, 0, 0⟩)
        { env := 0.5, samplesSinceCross := 440, freqSmoothed := 55, phase := 0, sign := -1,
          trackingActive := true, hangSamples := 0, preLP := 0.5, upLP := 0, upDC := 0,
          oscLP := 0, postLP := 0 } 16384).1.freqSmoothed - 55| ≤
      (OctaveEffect.tuning (44100 : ℝ) ⟨0, 0, 0, 0⟩).freqSmooth *
        (OctaveEffect.tuning (44100 : ℝ) ⟨0, 0, 0, 0⟩).maxJump * 55 := by
  have hx : ((16384 : Int) : ℝ) / 32768 = 0.5 := by norm_num
  have hc : OctaveEffect.clamp01 (0 : ℝ) = 0 := by simp [OctaveEffect.clamp01]
  have habs : |(1 / 2 : ℝ)| = 1 / 2 := abs_of_pos (by norm_num)
  exact (C15_jump_limit_and_rejection Pedal.realLibm (44100 : ℝ) ⟨0, 0, 0, 0⟩
    { env := 0.5, samplesSinceCross := 440, freqSmoothed := 55, phase := 0, sign := -1,
      trackingActive := true, hangSamples := 0, preLP := 0.5, upLP := 0, upDC := 0,
      oscLP := 0, postLP := 0 } 16384
    (by
      simp only [OctaveEffect.sampleStep, OctaveEffect.tuning, hx, hc, OctaveEffect.lerp,
        OctaveEffect.envFollow, OctaveEffect.gateStep]
      norm_num [habs])
    (by
      simp only [OctaveEffect.sampleStep, OctaveEffect.tuning, hx, hc, OctaveEffect.lerp,
        OctaveEffect.onePoleLP]
      norm_num)).2.1 (by norm_num)


/-! ### Coefficient clamping -/

namespace OctaveEffect

variable {α : Type} [LinearOrderedField α] [FloorRing α]

end OctaveEffect

namespace OctaveEffect

variable {α : Type} [LinearOrderedField α] [FloorRing α]

/-- The voice weights for a mix knob in [0, 1]: `wDown = 1`, `wUp = 2 * mix` up to
one half, `wDown = 2 * (1 - mix)`, `wUp = 1` above. -/
theorem tuning_weights (fs : α) (p : Params α) (h0 : 0 ≤ p.mix) (h1 : p.mix ≤ 1) :
    (tuning fs p).wDown = (if p.mix ≤ 0.5 then 1 else 2 * (1 - p.mix)) ∧
    (tuning fs p).wUp = (if p.mix ≤ 0.5 then 2 * p.mix else 1) := by
  have hc : clamp01 p.mix = p.mix := by
    unfold clamp01
    rw [if_neg (not_lt.mpr h0), if_neg (not_lt.mpr h1)]
  simp only [tuning, hc]
  exact ⟨trivial, trivial⟩

end OctaveEffect

/-- C19 (amended): octave voice weights, for every mix knob value in [0, 1]: both
weights are in [0, 1]; for `0 < mix < 1` both the down-voice weight `wDown` and the
up-voice weight `wUp` are strictly positive; at `mix = 0` the up-voice weight is
exactly 0 and at `mix = 1` the down-voice weight is exactly 0 (`0 = down`, `1 = up`):
only the normaliser `wScale` has a floor, 0.5. -/
theorem C19_voice_weights {α : Type} [LinearOrderedField α] [FloorRing α]
    (fs : α) (p : OctaveEffect.Params α) (h0 : 0 ≤ p.mix) (h1 : p.mix ≤ 1) :
    (0 ≤ (OctaveEffect.tuning fs p).wDown ∧ (OctaveEffect.tuning fs p).wDown ≤ 1) ∧
    (0 ≤ (OctaveEffect.tuning fs p).wUp ∧ (OctaveEffect.tuning fs p).wUp ≤ 1) ∧
    (0 < p.mix → p.mix < 1 →
      0 < (OctaveEffect.tuning fs p).wDown ∧ 0 < (OctaveEffect.tuning fs p).wUp) ∧
    (p.mix = 0 → (OctaveEffect.tuning fs p).wUp = 0 ∧ (OctaveEffect.tuning fs p).wDown = 1) ∧
    (p.mix = 1 → (OctaveEffect.tuning fs p).wDown = 0 ∧ (OctaveEffect.tuning fs p).wUp = 1) ∧
    0.5 ≤ (OctaveEffect.tuning fs p).wScale := by
  obtain ⟨e1, e2⟩ := OctaveEffect.tuning_weights fs p h0 h1
  rw [e1, e2]
  refine ⟨?_, ?_, ?_, ?_, ?_, ?_⟩
  · split_ifs with h
    · exact ⟨zero_le_one, le_refl _⟩
    · constructor <;> linarith [not_le.mp h]
  · split_ifs with h
    · constructor <;> linarith
    · exact ⟨zero_le_one, le_refl _⟩
  · intro hp0 hp1
    split_ifs with h
    · exact ⟨zero_lt_one, by linarith⟩
    · exact ⟨by linarith, zero_lt_one⟩
  · intro hm
    rw [hm]
    norm_num
  · intro hm
    rw [hm]
    norm_num
  · simp only [OctaveEffect.tuning]
    split_ifs <;> first | exact le_refl _ | exact not_lt.mp ‹_›

/-- Witness of C19 (amended): mix = 1/4 at 44.1 kHz over the rationals. -/
theorem C19_voice_weights_witness :
    0 < (OctaveEffect.tuning (44100 : ℚ) ⟨1, 1 / 4, 1, 1⟩).wDown ∧
    0 < (OctaveEffect.tuning (44100 : ℚ) ⟨1, 1 / 4, 1, 1⟩).wUp :=
  (C19_voice_weights (44100 : ℚ) ⟨1, 1 / 4, 1, 1⟩ (by norm_num) (by norm_num)).2.2.1
    (by norm_num) (by norm_num)

/-- C19 (counterexample): at mix = 0 the up-voice weight computed by `processMono` is 0,
not strictly positive. -/
theorem C19_counterexample :
    (OctaveEffect.tuning (44100 : ℚ) ⟨1, 0, 1, 1⟩).wUp = 0 ∧
    ¬ (0 < (OctaveEffect.tuning (44100 : ℚ) ⟨1, 0, 1, 1⟩).wUp) := by
  have h : (OctaveEffect.tuning (44100 : ℚ) ⟨1, 0, 1, 1⟩).wUp = 0 := by
    rw [(OctaveEffect.tuning_weights (44100 : ℚ) ⟨1, 0, 1, 1⟩ (le_refl 0) zero_le_one).2]
    norm_num
  exact ⟨h, by rw [h]; exact lt_irrefl 0⟩


/-! ### The arctangent saturator -/

namespace BigMuffEffect

open Pedal

end BigMuffEffect

namespace OrchestraEffect

open Pedal

theorem real_tanh_lt_one (x : ℝ) : Real.tanh x < 1 := by
  rw [Real.tanh_eq_sinh_div_cosh, div_lt_one (Real.cosh_pos x)]
  exact Real.sinh_lt_cosh x

theorem real_tanh_strictMono {x y : ℝ} (h : x < y) : Real.tanh x < Real.tanh y := by
  rw [Real.tanh_eq_sinh_div_cosh, Real.tanh_eq_sinh_div_cosh,
    div_lt_div_iff₀ (Real.cosh_pos x) (Real.cosh_pos y)]
  have h1 : 0 < Real.sinh (y - x) := Real.sinh_pos_iff.mpr (by linarith)
  rw [Real.sinh_sub] at h1
  linarith

theorem real_tanh_mono {x y : ℝ} (h : x ≤ y) : Real.tanh x ≤ Real.tanh y := by
  rcases h.lt_or_eq with h | h
  · exact (real_tanh_strictMono h).le
  · rw [h]

theorem real_tanh_abs_lt_one (x : ℝ) : |Real.tanh x| < 1 := by
  rw [abs_lt]
  refine ⟨?_, real_tanh_lt_one x⟩
  have := real_tanh_lt_one (-x)
  rw [Real.tanh_neg] at this
  linarith

theorem real_tanh_pos {x : ℝ} (h : 0 < x) : 0 < Real.tanh x := by
  have := real_tanh_strictMono h
  rwa [Real.tanh_zero] at this

/-- The hyperbolic tangent of the engine's drive 0.78 is above 0.4, far from the
guard 1e-6. -/
theorem real_tanh_drive_gt : (0.4 : ℝ) < Real.tanh 0.78 := by
  have hs : Real.sinh 0.78 = (Real.exp 0.78 - Real.exp (-0.78)) / 2 := Real.sinh_eq _
  have hc : Real.cosh 0.78 = (Real.exp 0.78 + Real.exp (-0.78)) / 2 := Real.cosh_eq _
  have he : (1.78 : ℝ) ≤ Real.exp 0.78 := by
    have := Real.add_one_le_exp (0.78 : ℝ)
    linarith
  have hinv : Real.exp (-0.78) * Real.exp 0.78 = 1 := by
    rw [← Real.exp_add]
    norm_num
  have hpos : 0 < Real.exp (-0.78) := Real.exp_pos _
  have hlt : Real.exp (-0.78) ≤ 1 / 1.78 := by
    rw [le_div_iff₀ (by norm_num)]
    calc Real.exp (-0.78) * 1.78 ≤ Real.exp (-0.78) * Real.exp 0.78 :=
          mul_le_mul_of_nonneg_left he hpos.le
      _ = 1 := hinv
  rw [Real.tanh_eq_sinh_div_cosh, lt_div_iff₀ (Real.cosh_pos _), hs, hc]
  have h2 : (1 / 1.78 : ℝ) < 0.57 := by norm_num
  linarith

theorem softSat_real (x drive : ℝ) :
    softSat realLibm x drive =
      Real.tanh (x * drive) / (if Real.tanh drive > 1e-6 then Real.tanh drive else 1) := rfl

/-- The normalising divisor of `softSat` is positive. -/
theorem softSat_divisor_pos (drive : ℝ) :
    0 < (if Real.tanh drive > 1e-6 then Real.tanh drive else 1) := by
  split_ifs with h
  · exact lt_trans (by norm_num) h
  · exact one_pos

end OrchestraEffect

/-- C18 (amended): hyperbolic-tangent saturator with the real hyperbolic tangent, for
every drive > 0: `softSat(., drive)` is odd and strictly increasing; it maps the unit
interval `|x| <= 1` into [-1, 1]; for every real `x` the output stays strictly inside
(-1/tanh(drive), 1/tanh(drive)), a bound larger than 1 because the output is the
hyperbolic tangent divided by tanh(drive) < 1. -/
theorem C18_softSat_properties (drive : ℝ) (hd : 0 < drive) :
    (∀ x : ℝ, OrchestraEffect.softSat Pedal.realLibm (-x) drive =
      -OrchestraEffect.softSat Pedal.realLibm x drive) ∧
    (∀ x y : ℝ, x < y →
      OrchestraEffect.softSat Pedal.realLibm x drive <
        OrchestraEffect.softSat Pedal.realLibm y drive) ∧
    (∀ x : ℝ, |x| ≤ 1 → |OrchestraEffect.softSat Pedal.realLibm x drive| ≤ 1) ∧
    (∀ x : ℝ, |OrchestraEffect.softSat Pedal.realLibm x drive| *
      Pedal.realLibm.tanhf drive < 1) := by
  have hN := OrchestraEffect.softSat_divisor_pos drive
  have htd : 0 < Real.tanh drive := OrchestraEffect.real_tanh_pos hd
  refine ⟨?_, ?_, ?_, ?_⟩
  · intro x
    rw [OrchestraEffect.softSat_real, OrchestraEffect.softSat_real, neg_mul, Real.tanh_neg,
      neg_div]
  · intro x y hxy
    rw [OrchestraEffect.softSat_real, OrchestraEffect.softSat_real]
    exact div_lt_div_of_pos_right
      (OrchestraEffect.real_tanh_strictMono (mul_lt_mul_of_pos_right hxy hd)) hN
  · intro x hx
    rw [OrchestraEffect.softSat_real, abs_div, abs_of_pos hN, div_le_one hN]
    rw [abs_le] at hx
    split_ifs with h
    · rw [abs_le]
      constructor
      · have h1 : Real.tanh (-drive) ≤ Real.tanh (x * drive) :=
          OrchestraEffect.real_tanh_mono (by nlinarith [hx.1])
        rwa [Real.tanh_neg] at h1
      · exact OrchestraEffect.real_tanh_mono (by nlinarith [hx.2])
    · exact (OrchestraEffect.real_tanh_abs_lt_one _).le
  · intro x
    show |OrchestraEffect.softSat Pedal.realLibm x drive| * Real.tanh drive < 1
    rw [OrchestraEffect.softSat_real, abs_div, abs_of_pos hN]
    have hab := OrchestraEffect.real_tanh_abs_lt_one (x * drive)
    have hab0 : 0 ≤ |Real.tanh (x * drive)| := abs_nonneg _
    split_ifs with h
    · rw [div_mul_cancel₀ _ htd.ne.symm]
      exact hab
    · rw [div_one]
      have h1 : Real.tanh drive < 1 := OrchestraEffect.real_tanh_lt_one drive
      nlinarith

/-- Witness of C18 (amended): the drive 0.78 of the shimmer engine at the input 1/2. -/
theorem C18_softSat_properties_witness :
    (0 : ℝ) < 0.78 ∧
    OrchestraEffect.softSat Pedal.realLibm (-(1 / 2)) 0.78 =
      -OrchestraEffect.softSat Pedal.realLibm (1 / 2) 0.78 ∧
    |OrchestraEffect.softSat Pedal.realLibm (1 / 2) 0.78| ≤ 1 :=
  ⟨by norm_num, (C18_softSat_properties 0.78 (by norm_num)).1 (1 / 2),
   (C18_softSat_properties 0.78 (by norm_num)).2.2.1 (1 / 2) (by
     rw [abs_of_pos (by norm_num)]
     norm_num)⟩

/-- C18 (counterexample): at the engine's drive 0.78 the input 2 is mapped above 1:
the output is tanh(1.56) / tanh(0.78) and tanh(0.78) > 1e-6. -/
theorem C18_counterexample :
    1 < OrchestraEffect.softSat Pedal.realLibm 2 0.78 := by
  have hg := OrchestraEffect.real_tanh_drive_gt
  have h6 : Real.tanh 0.78 > 1e-6 := lt_trans (by norm_num) hg
  rw [OrchestraEffect.softSat_real, if_pos h6, one_lt_div (lt_trans (by norm_num) hg)]
  exact OrchestraEffect.real_tanh_strictMono (by norm_num)

/-! ### Distortion engine: the presence knob -/

namespace BigMuffEffect

variable {α : Type} [LinearOrderedField α] [FloorRing α]

omit [FloorRing α] in
/-- The pre, tone and post coefficients of `processMonoWet` are the clamped ratios of
the cutoffs to the oversampled rate. -/
theorem coeffs_cutoffs (fs : α) (p : Params α) :
    (coeffs fs p).preA = clampCoef (preHz (clamp01 p.drive) (clamp01 p.pres) / (fs * 2)) ∧
    (coeffs fs p).postA = clampCoef (postHz (clamp01 p.pres) / (fs * 2)) :=
  ⟨rfl, rfl⟩

omit [FloorRing α] in
theorem preHz_antitone (drive p1 p2 : α) (hd : 0 ≤ drive ∧ drive ≤ 1) (h : p1 ≤ p2) :
    preHz drive p2 ≤ preHz drive p1 ∧ (p1 < p2 → preHz drive p2 < preHz drive p1) := by
  have e : ∀ q : α, preHz drive q = (2600 - 1700 * drive) - (1900 - 1700 * drive) * q := by
    intro q
    simp only [preHz, lerp]
    ring
  have hb : (0 : α) < 1900 - 1700 * drive := by linarith [hd.2]
  rw [e p1, e p2]
  constructor
  · have := mul_le_mul_of_nonneg_left h hb.le
    linarith
  · intro hlt
    have := mul_lt_mul_of_pos_left hlt hb
    linarith

omit [FloorRing α] in
theorem postHz_monotone (p1 p2 : α) (h : p1 ≤ p2) :
    postHz p1 ≤ postHz p2 ∧ (p1 < p2 → postHz p1 < postHz p2) := by
  have e : ∀ q : α, postHz q = 1600 + 2600 * q := by
    intro q
    simp only [postHz, lerp]
    ring
  rw [e p1, e p2]
  constructor
  · linarith
  · intro hlt
    linarith

end BigMuffEffect

/-- C20 (amended): distortion presence control, for every drive in [0, 1] and presence
values `p1 <= p2` in [0, 1]: the pre-filter cutoff `preHz` computed by `processMonoWet`
is lower (not higher) at `p2` than at `p1`, while the post-filter cutoff
`postHz = lerp(1600, 4200, pres)` is higher (not lower) at `p2` than at `p1`; both
strictly when `p1 < p2`. -/
theorem C20_presence_cutoffs {α : Type} [LinearOrderedField α] [FloorRing α]
    (drive p1 p2 : α) (hd : 0 ≤ drive ∧ drive ≤ 1) (h1 : 0 ≤ p1) (h12 : p1 ≤ p2)
    (h2 : p2 ≤ 1) :
    (BigMuffEffect.preHz (BigMuffEffect.clamp01 drive) (BigMuffEffect.clamp01 p2) ≤
      BigMuffEffect.preHz (BigMuffEffect.clamp01 drive) (BigMuffEffect.clamp01 p1)) ∧
    (BigMuffEffect.postHz (BigMuffEffect.clamp01 p1) ≤
      BigMuffEffect.postHz (BigMuffEffect.clamp01 p2)) ∧
    (p1 < p2 →
      BigMuffEffect.preHz (BigMuffEffect.clamp01 drive) (BigMuffEffect.clamp01 p2) <
        BigMuffEffect.preHz (BigMuffEffect.clamp01 drive) (BigMuffEffect.clamp01 p1) ∧
      BigMuffEffect.postHz (BigMuffEffect.clamp01 p1) <
        BigMuffEffect.postHz (BigMuffEffect.clamp01 p2)) ∧
    (∀ (fs : α) (tone shape : α),
      (BigMuffEffect.coeffs fs ⟨drive, tone, shape, p1⟩).preA =
        BigMuffEffect.clampCoef (BigMuffEffect.preHz (BigMuffEffect.clamp01 drive)
          (BigMuffEffect.clamp01 p1) / (fs * 2)) ∧
      (BigMuffEffect.coeffs fs ⟨drive, tone, shape, p1⟩).postA =
        BigMuffEffect.clampCoef (BigMuffEffect.postHz (BigMuffEffect.clamp01 p1) /
          (fs * 2))) := by
  have c : ∀ q : α, 0 ≤ q → q ≤ 1 → BigMuffEffect.clamp01 q = q := by
    intro q hq0 hq1
    unfold BigMuffEffect.clamp01
    rw [if_neg (not_lt.mpr hq0), if_neg (not_lt.mpr hq1)]
  rw [c drive hd.1 hd.2, c p1 h1 (le_trans h12 h2), c p2 (le_trans h1 h12) h2]
  obtain ⟨a1, a2⟩ := BigMuffEffect.preHz_antitone drive p1 p2 hd h12
  obtain ⟨b1, b2⟩ := BigMuffEffect.postHz_monotone p1 p2 h12
  refine ⟨a1, b1, fun hlt => ⟨a2 hlt, b2 hlt⟩, fun fs tone shape => ?_⟩
  have := BigMuffEffect.coeffs_cutoffs fs ⟨drive, tone, shape, p1⟩
  simpa only [c drive hd.1 hd.2, c p1 h1 (le_trans h12 h2)] using this

/-- Witness of C20 (amended): drive = 1, presence 0 against presence 1, over the
rationals. -/
theorem C20_presence_cutoffs_witness :
    BigMuffEffect.preHz (BigMuffEffect.clamp01 (1 : ℚ)) (BigMuffEffect.clamp01 1) <
      BigMuffEffect.preHz (BigMuffEffect.clamp01 (1 : ℚ)) (BigMuffEffect.clamp01 0) ∧
    BigMuffEffect.postHz (BigMuffEffect.clamp01 (0 : ℚ)) <
      BigMuffEffect.postHz (BigMuffEffect.clamp01 1) :=
  (C20_presence_cutoffs (1 : ℚ) 0 1 ⟨zero_le_one, le_refl 1⟩ (le_refl 0) zero_le_one
    (le_refl 1)).2.2.1 zero_lt_one

/-- C20 (counterexample): the post-filter cutoff computed by `processMonoWet` is 1600 Hz
at presence 0 and 4200 Hz at presence 1: it is higher, not lower, at the higher
presence. -/
theorem C20_counterexample :
    BigMuffEffect.postHz (BigMuffEffect.clamp01 (0 : ℚ)) = 1600 ∧
    BigMuffEffect.postHz (BigMuffEffect.clamp01 (1 : ℚ)) = 4200 ∧
    ¬ (BigMuffEffect.postHz (BigMuffEffect.clamp01 (1 : ℚ)) ≤
      BigMuffEffect.postHz (BigMuffEffect.clamp01 (0 : ℚ))) := by
  have e0 : BigMuffEffect.postHz (BigMuffEffect.clamp01 (0 : ℚ)) = 1600 := by
    simp only [BigMuffEffect.postHz, BigMuffEffect.clamp01, BigMuffEffect.lerp]
    norm_num
  have e1 : BigMuffEffect.postHz (BigMuffEffect.clamp01 (1 : ℚ)) = 4200 := by
    simp only [BigMuffEffect.postHz, BigMuffEffect.clamp01, BigMuffEffect.lerp]
    norm_num
  refine ⟨e0, e1, ?_⟩
  rw [e0, e1]
  norm_num

/-! ### Rotary engine: the knobs that are not read -/

/-- C21: the rotary engine is wet-only: for every state, stereo block and sample rate,
`processWet` gives the same output blocks and the same next state for any two parameter
sets that agree on speed, depth and ramp, whatever their blend and volume fields. -/
theorem C21_leslie_wet_only {α : Type} [LinearOrderedField α] [FloorRing α]
    (L : Pedal.Libm α) (st : LeslieEffect.State α) (left right : List Int) (fs : α)
    (p q : LeslieEffect.Params α) (hs : p.speed = q.speed) (hd : p.depth = q.depth)
    (hr : p.ramp = q.ramp) :
    LeslieEffect.processWet L st left right fs p =
      LeslieEffect.processWet L st left right fs q := by
  unfold LeslieEffect.processWet LeslieEffect.rotorUpdate LeslieEffect.setup
  simp only [hs, hd, hr]

/-- Witness of C21: two parameter sets that differ in volume and
blend only, on a two-sample stereo block from the constructed state. -/
theorem C21_leslie_wet_only_witness :
    LeslieEffect.processWet Pedal.realLibm LeslieEffect.construct [1000, -2000] [3000, 4000]
        (44100 : ℝ) ⟨0, 0, 0.5, 0.25, 1⟩ =
      LeslieEffect.processWet Pedal.realLibm LeslieEffect.construct [1000, -2000] [3000, 4000]
        (44100 : ℝ) ⟨1, 0.75, 0.5, 0.25, 1⟩ :=
  C21_leslie_wet_only Pedal.realLibm LeslieEffect.construct [1000, -2000] [3000, 4000] 44100
    ⟨0, 0, 0.5, 0.25, 1⟩ ⟨1, 0.75, 0.5, 0.25, 1⟩ rfl rfl rfl

/-! ### Flanger: the buffer, the write index and the read position -/

namespace Pedal

variable {α : Type} [LinearOrderedField α] [FloorRing α]

/-- The loop `while (r < 0) r += m` with the iteration bound `⌈-r / m⌉`: the result is
not negative, it is `r` itself if `r` is not negative, and `r + m` if `-m <= r < 0`. -/
theorem addWhileNeg_ceil (m r : α) (hm : 0 < m) :
    0 ≤ addWhileNeg m (⌈-r / m⌉).toNat r ∧
    (r < 0 → addWhileNeg m (⌈-r / m⌉).toNat r < m) ∧
    (0 ≤ r → addWhileNeg m (⌈-r / m⌉).toNat r = r) ∧
    (r < 0 → -m ≤ r → addWhileNeg m (⌈-r / m⌉).toNat r = r + m) := by
  have h1 : 0 ≤ r + ((⌈-r / m⌉.toNat : Nat) : α) * m := by
    have a1 : -r / m ≤ (⌈-r / m⌉ : α) := Int.le_ceil _
    have a2 : (⌈-r / m⌉ : α) ≤ ((⌈-r / m⌉.toNat : Nat) : α) := by
      have : ⌈-r / m⌉ ≤ ((⌈-r / m⌉.toNat : Nat) : Int) := Int.self_le_toNat _
      exact_mod_cast this
    have a3 : -r / m ≤ ((⌈-r / m⌉.toNat : Nat) : α) := le_trans a1 a2
    have a4 : -r ≤ ((⌈-r / m⌉.toNat : Nat) : α) * m := (div_le_iff₀ hm).mp a3
    linarith
  obtain ⟨b1, b2, b3⟩ := addWhileNeg_spec m _ r h1
  refine ⟨b1, b2, b3, fun hneg hge => ?_⟩
  have hc : ⌈-r / m⌉ = 1 := by
    rw [Int.ceil_eq_iff]
    constructor
    · simp only [Int.cast_one, sub_self]
      exact div_pos (by linarith) hm
    · simp only [Int.cast_one]
      rw [div_le_one hm]
      linarith
  rw [hc]
  simp [addWhileNeg, hneg]

end Pedal

namespace SimpleFX

open Pedal

variable {α : Type} [LinearOrderedField α] [FloorRing α]

/-- The guarded loop keeps what each sample keeps. -/
theorem guardedBlock_inv {σ : Type} (step : σ → Int → σ × Int) (Inv : σ → Prop)
    (h : ∀ st x, Inv st → Inv (step st x).1) (st : σ) (hst : Inv st)
    (data : Option (List Int)) (n : Int) : Inv (guardedBlock step st data n).1 := by
  unfold guardedBlock
  cases data with
  | none => exact hst
  | some blk =>
    by_cases hn : n ≤ 0
    · simp only [hn, if_true]
      exact hst
    · simp only [hn, if_false]
      exact (runBlock_forall_inv step Inv (fun _ => True) (fun _ => True)
        (fun st x hs _ => ⟨trivial, h st x hs⟩) _ st hst (fun _ _ => trivial)).2

omit [FloorRing α] in
/-- The modulated delay is clamped to `[0, MAX_DELAY_SAMPLES - 2]`. -/
theorem flanger_delay_mem (L : Libm α) (st : Flanger α) :
    0 ≤ Flanger.delaySamples L st ∧ Flanger.delaySamples L st ≤ 2046 := by
  simp only [Flanger.delaySamples, Flanger.MAX_DELAY_SAMPLES]
  norm_num
  split_ifs <;> constructor <;> linarith

/-- One flanger sample: the write index advances by one and wraps to 0, the written
cell is clamped and the settings are kept. -/
theorem flanger_sample_wf (L : Libm α) (st : Flanger α) (h : st.Wf) (s : Int) :
    (Flanger.sampleStep L st s).1.Wf ∧
    (Flanger.sampleStep L st s).1.w = (st.w + 1) % 2048 := by
  obtain ⟨hw, hb, h1, h2, h3⟩ := h
  have ew : (Flanger.sampleStep L st s).1.w =
      (if st.w + 1 ≥ Flanger.MAX_DELAY_SAMPLES then 0 else st.w + 1) := rfl
  have eb : (Flanger.sampleStep L st s).1.buf =
      Function.update st.buf st.w
        (clampf (int16ToFloat s + Flanger.readDelayed st (Flanger.delaySamples L st) * st.fb)
          (-1) 1) := rfl
  simp only [Flanger.MAX_DELAY_SAMPLES] at hw ew
  refine ⟨⟨?_, ?_, h1, h2, h3⟩, ?_⟩
  · simp only [Flanger.MAX_DELAY_SAMPLES]
    rw [ew]
    split_ifs <;> omega
  · intro i hlt
    rw [eb]
    by_cases hi : i = st.w
    · rw [hi, Function.update_same]
      exact clampf_mem _ _ _ (by norm_num)
    · rw [Function.update_noteq hi]
      exact hb i hlt
  · rw [ew]
    split_ifs with hge
    · have : st.w + 1 = 2048 := by omega
      rw [this]
    · rw [Nat.mod_eq_of_lt (by omega)]

/-- Every state of a processing history is well formed. -/
theorem flanger_reachable_wf (L : Libm α) (st : Flanger α) (h : Flanger.Reachable L st) :
    st.Wf := by
  induction h with
  | construct =>
    refine ⟨by simp [Flanger.construct, Flanger.MAX_DELAY_SAMPLES], fun i _ => ?_, ?_, ?_, ?_⟩
    · simp [Flanger.construct]
    · simp only [Flanger.construct]; norm_num
    · simp only [Flanger.construct]; norm_num
    · simp only [Flanger.construct]; norm_num
  | reset st _ ih =>
    obtain ⟨_, _, h1, h2, h3⟩ := ih
    exact ⟨by simp [Flanger.reset, Flanger.MAX_DELAY_SAMPLES],
      fun i _ => by simp [Flanger.reset], h1, h2, h3⟩
  | setSampleRate st sr _ ih =>
    obtain ⟨h0, hb, h1, h2, h3⟩ := ih
    refine ⟨h0, hb, h1, h2, ?_⟩
    simp only [Flanger.setSampleRate]
    split_ifs with hs
    · norm_num
    · exact not_le.mp hs
  | setParams st a b c d e _ ih =>
    obtain ⟨h0, hb, _, _, h3⟩ := ih
    exact ⟨h0, hb, clampf_mem a 0 15 (by norm_num), clampf_mem b 0 15 (by norm_num), h3⟩
  | processBlock st data n _ ih =>
    exact guardedBlock_inv (Flanger.sampleStep L) Flanger.Wf
      (fun st x hs => (flanger_sample_wf L st hs x).1) st ih data n

end SimpleFX

/-! ### The write cursors stay inside the buffers -/

namespace Pedal

/-- A block keeps what each sample keeps. -/
theorem runBlock_state_inv {σ ι ο : Type} (step : σ → ι → σ × ο) (Inv : σ → Prop)
    (h : ∀ st x, Inv st → Inv (step st x).1) (xs : List ι) (st : σ) (hst : Inv st) :
    Inv (runBlock step st xs).1 :=
  (runBlock_forall_inv step Inv (fun _ => True) (fun _ => True)
    (fun st x hs _ => ⟨trivial, h st x hs⟩) xs st hst (fun _ _ => trivial)).2

/-- The update `i++; if (i >= cap) i = 0;` of an index inside `[0, cap)`. -/
theorem wrap_increment (cap i : Nat) (h : i < cap) :
    (if i + 1 ≥ cap then 0 else i + 1) = (i + 1) % cap ∧
    (if i + 1 ≥ cap then 0 else i + 1) < cap := by
  split_ifs with hge
  · have e : i + 1 = cap := by omega
    rw [e, Nat.mod_self]
    exact ⟨rfl, by omega⟩
  · rw [Nat.mod_eq_of_lt (by omega)]
    exact ⟨rfl, by omega⟩

end Pedal

namespace LeslieEffect

open Pedal

variable {α : Type} [LinearOrderedField α] [FloorRing α]

theorem leslie_sample_cursors (L : Libm α) (c : Setup α) (st : State α) (h : st.CursorsOk)
    (s : Int × Int) :
    (sampleStep L c st s).1.CursorsOk ∧ st.CursorsStep (sampleStep L c st s).1 := by
  obtain ⟨h1, h2⟩ := h
  obtain ⟨a1, a2⟩ := wrap_increment BUF_LEN st.idxHorn h1
  obtain ⟨b1, b2⟩ := wrap_increment BUF_LEN st.idxDrum h2
  exact ⟨⟨a2, b2⟩, ⟨a1, b1⟩⟩

theorem leslie_processWet_cursors (L : Libm α) (st : State α) (h : st.CursorsOk)
    (left right : List Int) (fs : α) (p : Params α) :
    (processWet L st left right fs p).1.CursorsOk :=
  runBlock_state_inv _ State.CursorsOk (fun st x hs => (leslie_sample_cursors L _ st hs x).1) _ _ h

theorem leslie_calls_cursors (L : Libm α) (st : State α) (h : st.CursorsOk)
    (calls : List (List Int × List Int × α × Params α)) :
    (processCalls L st calls).1.CursorsOk :=
  runBlock_state_inv _ State.CursorsOk
    (fun st _ hs => leslie_processWet_cursors L st hs _ _ _ _) calls st h

end LeslieEffect

namespace OrchestraEffect

open Pedal

variable {α : Type} [LinearOrderedField α] [FloorRing α]

omit [FloorRing α] in
theorem comb_process_cursor (c : Comb α) (h : c.CursorOk) (x fb damp : α) :
    (c.process x fb damp).1.CursorOk ∧ c.CursorStep (c.process x fb damp).1 := by
  obtain ⟨h1, h2, h3⟩ := h
  obtain ⟨a1, a2⟩ := wrap_increment c.len c.idx h1
  exact ⟨⟨a2, h2, h3⟩, ⟨rfl, a1⟩⟩

omit [FloorRing α] in
theorem allpass_process_cursor (a : Allpass α) (h : a.CursorOk) (x g : α) :
    (a.process x g).1.CursorOk ∧ a.CursorStep (a.process x g).1 := by
  obtain ⟨h1, h2, h3⟩ := h
  obtain ⟨a1, a2⟩ := wrap_increment a.len a.idx h1
  exact ⟨⟨a2, h2, h3⟩, ⟨rfl, a1⟩⟩

omit [FloorRing α] in
theorem comb_reset_cursor (c : Comb α) (h1 : 1 ≤ c.len) (h2 : c.len ≤ Comb.MAX) :
    c.reset.CursorOk :=
  ⟨h1, h1, h2⟩

omit [FloorRing α] in
theorem allpass_reset_cursor (a : Allpass α) (h1 : 1 ≤ a.len) (h2 : a.len ≤ Allpass.MAX) :
    a.reset.CursorOk :=
  ⟨h1, h1, h2⟩

omit [FloorRing α] in
theorem comb_init_cursor (c : Comb α) (delay : Int) : (c.init delay).CursorOk := by
  apply comb_reset_cursor
  · show 1 ≤ (if (if delay < 1 then 1 else delay) > (Comb.MAX : Int) then (Comb.MAX : Int)
      else (if delay < 1 then 1 else delay)).toNat
    simp only [Comb.MAX]
    split_ifs <;> omega
  · show (if (if delay < 1 then 1 else delay) > (Comb.MAX : Int) then (Comb.MAX : Int)
      else (if delay < 1 then 1 else delay)).toNat ≤ Comb.MAX
    simp only [Comb.MAX]
    split_ifs <;> omega

omit [FloorRing α] in
theorem allpass_init_cursor (a : Allpass α) (delay : Int) : (a.init delay).CursorOk := by
  apply allpass_reset_cursor
  · show 1 ≤ (if (if delay < 1 then 1 else delay) > (Allpass.MAX : Int) then (Allpass.MAX : Int)
      else (if delay < 1 then 1 else delay)).toNat
    simp only [Allpass.MAX]
    split_ifs <;> omega
  · show (if (if delay < 1 then 1 else delay) > (Allpass.MAX : Int) then (Allpass.MAX : Int)
      else (if delay < 1 then 1 else delay)).toNat ≤ Allpass.MAX
    simp only [Allpass.MAX]
    split_ifs <;> omega

omit [FloorRing α] in
theorem stage_reset_cursors (s : ShimmerStage α) (h : s.CursorsOk) : s.reset.CursorsOk := by
  obtain ⟨_, h0, h1, h2, h3, h4, h5⟩ := h
  exact ⟨by simp [ShimmerStage.reset, PitchShift.reset, PitchShift.BUF],
    comb_reset_cursor _ h0.2.1 h0.2.2, comb_reset_cursor _ h1.2.1 h1.2.2,
    comb_reset_cursor _ h2.2.1 h2.2.2, comb_reset_cursor _ h3.2.1 h3.2.2,
    allpass_reset_cursor _ h4.2.1 h4.2.2, allpass_reset_cursor _ h5.2.1 h5.2.2⟩

omit [FloorRing α] in
theorem stage_init_cursors (s : ShimmerStage α) (h : s.ps.w < PitchShift.BUF) :
    s.init.CursorsOk := by
  apply stage_reset_cursors
  exact ⟨h, comb_init_cursor _ _, comb_init_cursor _ _, comb_init_cursor _ _,
    comb_init_cursor _ _, allpass_init_cursor _ _, allpass_init_cursor _ _⟩

theorem stage_process_cursors (L : Libm α) (s : ShimmerStage α) (h : s.CursorsOk)
    (x fs size tone shimmerAmt ratio grainMs : α) :
    (s.process L x fs size tone shimmerAmt ratio grainMs).1.CursorsOk ∧
    s.CursorsStep (s.process L x fs size tone shimmerAmt ratio grainMs).1 := by
  obtain ⟨hw, h0, h1, h2, h3, h4, h5⟩ := h
  obtain ⟨w1, w2⟩ := wrap_increment PitchShift.BUF s.ps.w hw
  exact ⟨⟨w2, (comb_process_cursor _ h0 _ _ _).1, (comb_process_cursor _ h1 _ _ _).1,
      (comb_process_cursor _ h2 _ _ _).1, (comb_process_cursor _ h3 _ _ _).1,
      (allpass_process_cursor _ h4 _ _).1, (allpass_process_cursor _ h5 _ _).1⟩,
    ⟨w1, (comb_process_cursor _ h0 _ _ _).2, (comb_process_cursor _ h1 _ _ _).2,
      (comb_process_cursor _ h2 _ _ _).2, (comb_process_cursor _ h3 _ _ _).2,
      (allpass_process_cursor _ h4 _ _).2, (allpass_process_cursor _ h5 _ _).2⟩⟩

theorem orchestra_sample_cursors (L : Libm α) (fs mix size swell upAmt dnAmt tone : α)
    (st : State α) (h : st.CursorsOk) (s : Int) :
    (sampleStep L fs mix size swell upAmt dnAmt tone st s).1.CursorsOk ∧
    st.CursorsStep (sampleStep L fs mix size swell upAmt dnAmt tone st s).1 := by
  obtain ⟨hw, hu, hd⟩ := h
  obtain ⟨w1, w2⟩ := wrap_increment DelayLine.MAX st.pre.w hw
  exact ⟨⟨w2, (stage_process_cursors L _ hu _ _ _ _ _ _ _).1,
      (stage_process_cursors L _ hd _ _ _ _ _ _ _).1⟩,
    ⟨w1, (stage_process_cursors L _ hu _ _ _ _ _ _ _).2,
      (stage_process_cursors L _ hd _ _ _ _ _ _ _).2⟩⟩

omit [FloorRing α] in
theorem orchestra_construct_cursors : (construct : State α).CursorsOk := by
  have hr : (ShimmerStage.raw : ShimmerStage α).ps.w < PitchShift.BUF := by
    simp [ShimmerStage.raw, PitchShift.BUF]
  exact ⟨by simp [construct, reset, DelayLine.reset, DelayLine.MAX],
    stage_reset_cursors _ (stage_init_cursors _ hr),
    stage_reset_cursors _ (stage_init_cursors _ hr)⟩

theorem orchestra_reachable_cursors (L : Libm α) (st : State α) (h : Reachable L st) :
    st.CursorsOk := by
  induction h with
  | construct => exact orchestra_construct_cursors
  | processMono st inMono fs p _ ih =>
    exact runBlock_state_inv _ State.CursorsOk
      (fun st x hs => (orchestra_sample_cursors L _ _ _ _ _ _ _ st hs x).1) _ _ ih
  | reset st _ ih =>
    exact ⟨by simp [reset, DelayLine.reset, DelayLine.MAX],
      stage_reset_cursors _ ih.2.1, stage_reset_cursors _ ih.2.2⟩

end OrchestraEffect

/-- C22: write-cursor invariant. Rotary engine: after `reset()` and any sequence of
`processWet` calls `_idxHorn` and `_idxDrum` are in [0, 4096). Flanger: in every state
reached from the constructed instance by `reset`, `setSampleRate`, `setParams` and
`processBlock`, `_w` is in [0, 2048). Shimmer engine: in every state reached from the
constructed engine (whose constructor runs `init`) by `processMono` and `reset`, the
predelay and pitch-shifter `w` are in [0, 8192) and each comb and allpass `idx` is in
`[0, len)` with `1 <= len <= MAX`. In each engine one sample advances every index by
exactly one, wrapping to 0 at the capacity. -/
theorem C22_write_cursor_invariant {α : Type} [LinearOrderedField α] [FloorRing α]
    (L : Pedal.Libm α) :
    ((∀ (st0 : LeslieEffect.State α)
        (calls : List (List Int × List Int × α × LeslieEffect.Params α)),
        (LeslieEffect.processCalls L (LeslieEffect.reset st0) calls).1.idxHorn < 4096 ∧
        (LeslieEffect.processCalls L (LeslieEffect.reset st0) calls).1.idxDrum < 4096) ∧
      (∀ (c : LeslieEffect.Setup α) (st : LeslieEffect.State α) (s : Int × Int),
        st.CursorsOk → (LeslieEffect.sampleStep L c st s).1.CursorsOk ∧
          st.CursorsStep (LeslieEffect.sampleStep L c st s).1)) ∧
    ((∀ st : SimpleFX.Flanger α, SimpleFX.Flanger.Reachable L st → st.w < 2048) ∧
      (∀ (st : SimpleFX.Flanger α) (s : Int), SimpleFX.Flanger.Reachable L st →
        (SimpleFX.Flanger.sampleStep L st s).1.w = (st.w + 1) % 2048 ∧
        (SimpleFX.Flanger.sampleStep L st s).1.w < 2048)) ∧
    ((∀ st : OrchestraEffect.State α, OrchestraEffect.Reachable L st →
        st.CursorsOk ∧ st.pre.w < 8192 ∧ st.up.ps.w < 8192 ∧ st.down.ps.w < 8192) ∧
      (∀ (fs mix size swell upAmt dnAmt tone : α) (st : OrchestraEffect.State α) (s : Int),
        st.CursorsOk →
        (OrchestraEffect.sampleStep L fs mix size swell upAmt dnAmt tone st s).1.CursorsOk ∧
        st.CursorsStep
          (OrchestraEffect.sampleStep L fs mix size swell upAmt dnAmt tone st s).1)) := by
  refine ⟨⟨fun st0 calls => ?_, fun c st s h => LeslieEffect.leslie_sample_cursors L c st h s⟩,
    ⟨fun st h => (SimpleFX.flanger_reachable_wf L st h).1, fun st s h => ?_⟩,
    ⟨fun st h => ?_, fun fs mix size swell upAmt dnAmt tone st s h =>
      OrchestraEffect.orchestra_sample_cursors L fs mix size swell upAmt dnAmt tone st h s⟩⟩
  · exact LeslieEffect.leslie_calls_cursors L _
      ⟨by simp [LeslieEffect.reset, LeslieEffect.BUF_LEN],
       by simp [LeslieEffect.reset, LeslieEffect.BUF_LEN]⟩ calls
  · obtain ⟨h1, h2⟩ := SimpleFX.flanger_sample_wf L st (SimpleFX.flanger_reachable_wf L st h) s
    exact ⟨h2, h1.1⟩
  · have hc := OrchestraEffect.orchestra_reachable_cursors L st h
    exact ⟨hc, hc.1, hc.2.1.1, hc.2.2.1⟩

/-- Witness of C22: with the real math library, the rotary engine after `reset()` and a
call on a three-sample block, and the constructed shimmer engine after a call on a
two-sample block. -/
theorem C22_write_cursor_invariant_witness :
    ((LeslieEffect.processCalls Pedal.realLibm
        (LeslieEffect.reset (LeslieEffect.construct : LeslieEffect.State ℝ))
        [([1, 2, 3], [4, 5, 6], 44100, ⟨0, 0, 1, 1, 0⟩)]).1.idxHorn < 4096 ∧
      (LeslieEffect.processCalls Pedal.realLibm
        (LeslieEffect.reset (LeslieEffect.construct : LeslieEffect.State ℝ))
        [([1, 2, 3], [4, 5, 6], 44100, ⟨0, 0, 1, 1, 0⟩)]).1.idxDrum < 4096) ∧
    (OrchestraEffect.processMono Pedal.realLibm
      (OrchestraEffect.construct : OrchestraEffect.State ℝ) [100, -100] 44100
      ⟨1, 1, 1, 1, 1, 1⟩).1.CursorsOk :=
  ⟨(C22_write_cursor_invariant Pedal.realLibm).1.1 LeslieEffect.construct
      [([1, 2, 3], [4, 5, 6], 44100, ⟨0, 0, 1, 1, 0⟩)],
   ((C22_write_cursor_invariant Pedal.realLibm).2.2.1 _
      (OrchestraEffect.Reachable.processMono _ [100, -100] 44100 ⟨1, 1, 1, 1, 1, 1⟩
        OrchestraEffect.Reachable.construct)).1⟩

/-! ### Float32 rounding of the flanger read position -/

namespace Pedal

variable {α : Type} [LinearOrderedField α] [FloorRing α]

/-- Rounding half to even moves a value to one of its two neighbouring integers. -/
theorem roundHalfEven_cases (q : α) :
    (roundHalfEven q = ⌊q⌋ ∧ q - (⌊q⌋ : α) ≤ 1 / 2) ∨
    (roundHalfEven q = ⌊q⌋ + 1 ∧ 1 / 2 ≤ q - (⌊q⌋ : α)) := by
  unfold roundHalfEven
  simp only []
  split_ifs with h1 h2 h3
  · exact Or.inl ⟨rfl, h1.le⟩
  · exact Or.inr ⟨rfl, h2.le⟩
  · exact Or.inl ⟨rfl, not_lt.mp h2⟩
  · exact Or.inr ⟨rfl, not_lt.mp h1⟩

/-- Rounding half to even keeps an integer. -/
theorem roundHalfEven_intCast (n : Int) : roundHalfEven (n : α) = n := by
  unfold roundHalfEven
  simp only [Int.floor_intCast, sub_self]
  rw [if_pos (by norm_num)]

/-- Rounding half to even is monotone. -/
theorem roundHalfEven_mono {p q : α} (h : p ≤ q) : roundHalfEven p ≤ roundHalfEven q := by
  have hf : ⌊p⌋ ≤ ⌊q⌋ := Int.floor_le_floor h
  rcases lt_or_eq_of_le hf with hlt | heq
  · -- different floors
    have h1 : roundHalfEven p ≤ ⌊p⌋ + 1 := by
      rcases roundHalfEven_cases p with ⟨e, _⟩ | ⟨e, _⟩ <;> omega
    have h2 : ⌊q⌋ ≤ roundHalfEven q := by
      rcases roundHalfEven_cases q with ⟨e, _⟩ | ⟨e, _⟩ <;> omega
    omega
  · -- same floor: compare the fractions
    have hr : p - (⌊p⌋ : α) ≤ q - (⌊q⌋ : α) := by rw [heq]; linarith
    unfold roundHalfEven
    simp only []
    rw [heq]
    rw [heq] at hr
    split_ifs with a1 a2 a3 a4 a5 a6 a7 a8 a9 <;> first | omega | (exfalso; linarith)

/-- An integer below a value is below its rounding, and an integer above is above. -/
theorem roundHalfEven_bounds (q : α) (n : Int) :
    ((n : α) ≤ q → n ≤ roundHalfEven q) ∧ (q ≤ (n : α) → roundHalfEven q ≤ n) := by
  constructor
  · intro h
    have := roundHalfEven_mono h
    rwa [roundHalfEven_intCast] at this
  · intro h
    have := roundHalfEven_mono h
    rwa [roundHalfEven_intCast] at this

end Pedal
namespace Pedal

variable {α : Type} [LinearOrderedField α] [FloorRing α]

/-- The binade of a positive value. -/
theorem log_two_bounds {x : α} (hx : 0 < x) :
    (2 : α) ^ Int.log 2 x ≤ x ∧ x < (2 : α) ^ (Int.log 2 x + 1) := by
  have h1 := @Int.zpow_log_le_self α _ _ 2 x (by norm_num) hx
  have h2 := @Int.lt_zpow_succ_log_self α _ _ 2 (by norm_num) x
  simp only [Nat.cast_ofNat] at h1 h2
  exact ⟨h1, h2⟩

/-- The binade of a positive value is the only one that holds it. -/
theorem log_two_eq {x : α} {e : Int} (h1 : (2 : α) ^ e ≤ x) (h2 : x < (2 : α) ^ (e + 1)) :
    Int.log 2 x = e := by
  have hx : 0 < x := lt_of_lt_of_le (zpow_pos (by norm_num) e) h1
  have a1 := (@Int.zpow_le_iff_le_log α _ _ 2 (by norm_num) e x hx).mp
    (by simpa only [Nat.cast_ofNat] using h1)
  have a2 := (@Int.lt_zpow_iff_log_lt α _ _ 2 (by norm_num) (e + 1) x hx).mp
    (by simpa only [Nat.cast_ofNat] using h2)
  omega

/-- The float32 rounding of a positive value, by its binade. -/
theorem roundF32_of_pos {x : α} (hx : 0 < x) :
    roundF32 x =
      (roundHalfEven (x / 2 ^ (Int.log 2 x - 23)) : α) * 2 ^ (Int.log 2 x - 23) := by
  unfold roundF32
  simp only [abs_of_pos hx, hx.ne', if_false, hx, if_true]

/-- The float32 rounding is odd. -/
theorem roundF32_neg (x : α) : roundF32 (-x) = -roundF32 x := by
  rcases lt_trichotomy x 0 with h | h | h
  · have hn : 0 < -x := neg_pos.mpr h
    have e1 : roundF32 x =
        -((roundHalfEven (-x / 2 ^ (Int.log 2 (-x) - 23)) : α) * 2 ^ (Int.log 2 (-x) - 23)) := by
      unfold roundF32
      simp only [abs_of_neg h, h.ne, if_false, not_lt.mpr h.le]
    rw [e1, roundF32_of_pos hn, neg_neg]
  · rw [h, neg_zero]
    simp [roundF32]
  · have hn : -x < 0 := neg_neg_of_pos h
    have e1 : roundF32 (-x) =
        -((roundHalfEven (x / 2 ^ (Int.log 2 x - 23)) : α) * 2 ^ (Int.log 2 x - 23)) := by
      unfold roundF32
      simp only [abs_neg, abs_of_pos h, neg_eq_zero, h.ne', if_false, not_lt.mpr hn.le,
        neg_neg]
    rw [e1, roundF32_of_pos h]

/-- The float32 rounding of a positive value stays in the closure of its binade. -/
theorem roundF32_binade {x : α} (hx : 0 < x) :
    (2 : α) ^ Int.log 2 x ≤ roundF32 x ∧ roundF32 x ≤ (2 : α) ^ (Int.log 2 x + 1) := by
  obtain ⟨h1, h2⟩ := log_two_bounds hx
  rw [roundF32_of_pos hx]
  generalize Int.log 2 x = e at h1 h2
  have hu : (0 : α) < 2 ^ (e - 23) := zpow_pos (by norm_num) _
  have e1 : (2 : α) ^ e = ((8388608 : Int) : α) * 2 ^ (e - 23) := by
    rw [zpow_sub₀ (by norm_num : (2 : α) ≠ 0)]
    push_cast
    field_simp
    ring
  have e2 : (2 : α) ^ (e + 1) = ((16777216 : Int) : α) * 2 ^ (e - 23) := by
    rw [zpow_sub₀ (by norm_num : (2 : α) ≠ 0), zpow_add₀ (by norm_num : (2 : α) ≠ 0)]
    push_cast
    field_simp
    ring
  have q1 : ((8388608 : Int) : α) ≤ x / 2 ^ (e - 23) := by
    rw [le_div_iff₀ hu, ← e1]; exact h1
  have q2 : x / 2 ^ (e - 23) ≤ ((16777216 : Int) : α) := by
    rw [div_le_iff₀ hu, ← e2]; exact h2.le
  have r1 := (roundHalfEven_bounds (x / 2 ^ (e - 23)) 8388608).1 q1
  have r2 := (roundHalfEven_bounds (x / 2 ^ (e - 23)) 16777216).2 q2
  rw [e1, e2]
  constructor
  · exact mul_le_mul_of_nonneg_right (by exact_mod_cast r1) hu.le
  · exact mul_le_mul_of_nonneg_right (by exact_mod_cast r2) hu.le

theorem roundF32_pos {x : α} (hx : 0 < x) : 0 < roundF32 x :=
  lt_of_lt_of_le (zpow_pos (by norm_num) _) (roundF32_binade hx).1

theorem roundF32_zero : roundF32 (0 : α) = 0 := by simp [roundF32]

/-- The float32 rounding is monotone on positive values. -/
theorem roundF32_mono_pos {x y : α} (hx : 0 < x) (h : x ≤ y) : roundF32 x ≤ roundF32 y := by
  have hy : 0 < y := lt_of_lt_of_le hx h
  have hl : Int.log 2 x ≤ Int.log 2 y := Int.log_mono_right hx h
  rcases lt_or_eq_of_le hl with hlt | heq
  · have a := (roundF32_binade hx).2
    have b := (roundF32_binade hy).1
    have c : (2 : α) ^ (Int.log 2 x + 1) ≤ 2 ^ Int.log 2 y :=
      zpow_le_zpow_right₀ (by norm_num) (by omega)
    linarith
  · rw [roundF32_of_pos hx, roundF32_of_pos hy, heq]
    have hu : (0 : α) < 2 ^ (Int.log 2 y - 23) := zpow_pos (by norm_num) _
    have hq : x / 2 ^ (Int.log 2 y - 23) ≤ y / 2 ^ (Int.log 2 y - 23) :=
      div_le_div_of_nonneg_right h hu.le
    have := roundHalfEven_mono hq
    exact mul_le_mul_of_nonneg_right (by exact_mod_cast this) hu.le

/-- The float32 rounding is monotone. -/
theorem roundF32_mono {x y : α} (h : x ≤ y) : roundF32 x ≤ roundF32 y := by
  rcases lt_trichotomy x 0 with hx | hx | hx
  · rcases lt_trichotomy y 0 with hy | hy | hy
    · have := roundF32_mono_pos (neg_pos.mpr hy) (neg_le_neg h)
      rw [roundF32_neg, roundF32_neg] at this
      linarith
    · rw [hy, roundF32_zero]
      have := roundF32_pos (neg_pos.mpr hx)
      rw [roundF32_neg] at this
      linarith
    · have a := roundF32_pos (neg_pos.mpr hx)
      rw [roundF32_neg] at a
      have b := roundF32_pos hy
      linarith
  · rw [hx, roundF32_zero]
    rcases eq_or_lt_of_le (hx ▸ h) with hy | hy
    · rw [← hy, roundF32_zero]
    · exact (roundF32_pos hy).le
  · exact roundF32_mono_pos hx h

end Pedal
namespace Pedal

variable {α : Type} [LinearOrderedField α] [FloorRing α]

/-- The float32 rounding of a positive value whose binade is known. -/
theorem roundF32_of_binade {x : α} {e : Int} (h1 : (2 : α) ^ e ≤ x)
    (h2 : x < (2 : α) ^ (e + 1)) :
    roundF32 x = (roundHalfEven (x / 2 ^ (e - 23)) : α) * 2 ^ (e - 23) := by
  have hx : 0 < x := lt_of_lt_of_le (zpow_pos (by norm_num) e) h1
  rw [roundF32_of_pos hx, log_two_eq h1 h2]

/-- A positive value that is a whole number of units of its binade is a float32. -/
theorem roundF32_of_units {x : α} (hx : 0 < x) (m : Int)
    (hm : x / 2 ^ (Int.log 2 x - 23) = (m : α)) : roundF32 x = x := by
  rw [roundF32_of_pos hx, hm, roundHalfEven_intCast, ← hm]
  have hu : (2 : α) ^ (Int.log 2 x - 23) ≠ 0 := (zpow_pos (by norm_num) _).ne'
  field_simp

/-- Every integer of magnitude below 2^24 is a float32. -/
theorem roundF32_intCast (n : Int) (h1 : -16777216 < n) (h2 : n < 16777216) :
    roundF32 (n : α) = (n : α) := by
  have key : ∀ k : Int, 0 < k → k < 16777216 → roundF32 (k : α) = (k : α) := by
    intro k k0 k1
    have hx : (0 : α) < (k : α) := by exact_mod_cast k0
    have a0 : (0 : Int) ≤ Int.log 2 (k : α) := by
      apply (@Int.zpow_le_iff_le_log α _ _ 2 (by norm_num) 0 (k : α) hx).mp
      simp only [zpow_zero]
      exact_mod_cast k0
    have a1 : Int.log 2 (k : α) < 24 := by
      apply (@Int.lt_zpow_iff_log_lt α _ _ 2 (by norm_num) 24 (k : α) hx).mp
      simp only [Nat.cast_ofNat]
      have : ((2 : α) ^ (24 : Int)) = ((16777216 : Int) : α) := by norm_num
      rw [this]
      exact_mod_cast k1
    apply roundF32_of_units hx (k * 2 ^ (23 - Int.log 2 (k : α)).toNat)
    have e : Int.log 2 (k : α) - 23 = -(((23 - Int.log 2 (k : α)).toNat : Nat) : Int) := by
      omega
    rw [e, zpow_neg, zpow_natCast]
    push_cast
    field_simp
  rcases lt_trichotomy n 0 with h | h | h
  · have := key (-n) (by omega) (by omega)
    push_cast at this
    rw [roundF32_neg] at this
    linarith
  · rw [h]; simp [roundF32_zero]
  · exact key n h h2

/-- Float32 rounding keeps integer bounds of magnitude below 2^24. -/
theorem roundF32_int_bounds (x : α) (n : Int) (h1 : -16777216 < n) (h2 : n < 16777216) :
    ((n : α) ≤ x → (n : α) ≤ roundF32 x) ∧ (x ≤ (n : α) → roundF32 x ≤ (n : α)) := by
  constructor
  · intro h
    have := roundF32_mono h
    rwa [roundF32_intCast n h1 h2] at this
  · intro h
    have := roundF32_mono h
    rwa [roundF32_intCast n h1 h2] at this

end Pedal

/-! ### Flanger: the read position -/

namespace SimpleFX

open Pedal

variable {α : Type} [LinearOrderedField α] [FloorRing α]

/-- The read position as a float32, for a write index inside the buffer and a delay in
`[0, MAX_DELAY_SAMPLES - 2]`: the rounded difference `r` if it is not negative, and the
rounded sum `r + 2048` after one pass of the `while` loop otherwise; the loop has then
ended (the position is not negative), at a position that can be 2048 itself. -/
theorem flanger_readIndex (st : Flanger α) (hw : st.w < Flanger.MAX_DELAY_SAMPLES) (d : α)
    (hd0 : 0 ≤ d) (hd1 : d ≤ 2046) :
    (((st.w : α) - 2046 ≤ roundF32 ((st.w : α) - d)) ∧
      roundF32 ((st.w : α) - d) ≤ (st.w : α)) ∧
    (0 ≤ roundF32 ((st.w : α) - d) → Flanger.readIndex st d = roundF32 ((st.w : α) - d)) ∧
    (roundF32 ((st.w : α) - d) < 0 →
      Flanger.readIndex st d = roundF32 (roundF32 ((st.w : α) - d) + 2048)) ∧
    0 ≤ Flanger.readIndex st d ∧ Flanger.readIndex st d ≤ 2048 := by
  simp only [Flanger.MAX_DELAY_SAMPLES] at hw
  have hwα : (st.w : α) ≤ 2047 := by
    have : st.w ≤ 2047 := by omega
    exact_mod_cast this
  have hw0 : (0 : α) ≤ (st.w : α) := Nat.cast_nonneg _
  have b1 : (st.w : α) - 2046 ≤ roundF32 ((st.w : α) - d) := by
    have := (roundF32_int_bounds ((st.w : α) - d) ((st.w : Int) - 2046) (by omega)
      (by omega)).1 (by push_cast; linarith)
    push_cast at this
    exact this
  have b2 : roundF32 ((st.w : α) - d) ≤ (st.w : α) := by
    have := (roundF32_int_bounds ((st.w : α) - d) (st.w : Int) (by omega)
      (by omega)).2 (by push_cast; linarith)
    push_cast at this
    exact this
  have e : Flanger.readIndex st d =
      addWhileNegF32 (2048 : α) (⌈-roundF32 ((st.w : α) - d) / 2048⌉).toNat
        (roundF32 ((st.w : α) - d)) := by
    simp only [Flanger.readIndex, Flanger.MAX_DELAY_SAMPLES]
    norm_num
  generalize roundF32 ((st.w : α) - d) = r at b1 b2 e
  have c0 : 0 ≤ r → Flanger.readIndex st d = r := by
    intro h0
    have hc : ⌈-r / 2048⌉ ≤ 0 := by
      rw [Int.ceil_le]
      push_cast
      exact div_nonpos_of_nonpos_of_nonneg (by linarith) (by norm_num)
    rw [e, Int.toNat_of_nonpos hc]
    rfl
  have c1 : r < 0 → Flanger.readIndex st d = roundF32 (r + 2048) := by
    intro hneg
    have hc : ⌈-r / 2048⌉ = 1 := by
      rw [Int.ceil_eq_iff]
      push_cast
      constructor
      · have : 0 < -r / 2048 := div_pos (by linarith) (by norm_num)
        linarith
      · rw [div_le_iff₀ (by norm_num)]
        linarith
    rw [e, hc]
    show (if r < 0 then addWhileNegF32 (2048 : α) 0 (roundF32 (r + 2048)) else r) = _
    rw [if_pos hneg]
    rfl
  refine ⟨⟨b1, b2⟩, c0, c1, ?_, ?_⟩
  · rcases lt_or_le r 0 with hneg | h0
    · rw [c1 hneg]
      have := (roundF32_int_bounds (r + 2048) 0 (by norm_num) (by norm_num)).1
        (by push_cast; linarith)
      simpa using this
    · rw [c0 h0]; exact h0
  · rcases lt_or_le r 0 with hneg | h0
    · rw [c1 hneg]
      have := (roundF32_int_bounds (r + 2048) 2048 (by norm_num) (by norm_num)).2
        (by push_cast; linarith)
      simpa using this
    · rw [c0 h0]; linarith

theorem flanger_readDelayed_eq (st : Flanger α) (d : α) :
    Flanger.readDelayed st d =
      st.buf (Flanger.idx0 st d).toNat +
        (Flanger.readIndex st d - (Flanger.idx0 st d : α)) *
          (st.buf (Flanger.idx1 st d).toNat - st.buf (Flanger.idx0 st d).toNat) := rfl

/-- With a delay of at least one sample the cell `idx0` is not the cell at the write
index, and when `idx1` is that cell its weight is 0. -/
theorem flanger_read_avoids_write (st : Flanger α) (hw : st.w < Flanger.MAX_DELAY_SAMPLES)
    (d : α) (hd1 : 1 ≤ d) (hd2 : d ≤ 2046) :
    Flanger.idx0 st d ≠ (st.w : Int) ∧
    (Flanger.idx1 st d = (st.w : Int) →
      Flanger.readIndex st d - (Flanger.idx0 st d : α) = 0) := by
  obtain ⟨⟨b1, _⟩, c0, c1, r0, _⟩ := flanger_readIndex st hw d (by linarith) hd2
  simp only [Flanger.MAX_DELAY_SAMPLES] at hw
  have b3 : roundF32 ((st.w : α) - d) ≤ (st.w : α) - 1 := by
    have := (roundF32_int_bounds ((st.w : α) - d) ((st.w : Int) - 1) (by omega)
      (by omega)).2 (by push_cast; linarith)
    push_cast at this
    exact this
  have hi0 : Flanger.idx0 st d = ⌊Flanger.readIndex st d⌋ := by
    unfold Flanger.idx0
    rw [truncToInt_of_nonneg r0]
  have hi1 : Flanger.idx1 st d =
      (if Flanger.idx0 st d + 1 ≥ 2048 then Flanger.idx0 st d + 1 - 2048
        else Flanger.idx0 st d + 1) := by
    simp only [Flanger.idx1, Flanger.MAX_DELAY_SAMPLES]
    norm_num
  generalize roundF32 ((st.w : α) - d) = r at b1 b3 c0 c1
  rcases lt_or_le r 0 with hneg | h0
  · -- one pass of the loop
    have e := c1 hneg
    have lo : ((st.w : Int) : α) + 2 ≤ Flanger.readIndex st d := by
      rw [e]
      have := (roundF32_int_bounds (r + 2048) ((st.w : Int) + 2) (by omega) (by omega)).1
        (by push_cast; linarith)
      push_cast at this ⊢
      exact this
    have hi : Flanger.readIndex st d ≤ ((st.w : Int) : α) + 2047 := by
      rw [e]
      have := (roundF32_int_bounds (r + 2048) ((st.w : Int) + 2047) (by omega) (by omega)).2
        (by push_cast; linarith)
      push_cast at this ⊢
      exact this
    have k0 : (st.w : Int) + 2 ≤ Flanger.idx0 st d := by
      rw [hi0, Int.le_floor]
      push_cast at lo ⊢
      exact lo
    refine ⟨by omega, fun h1 => ?_⟩
    rw [hi1] at h1
    have k1 : Flanger.idx0 st d = (st.w : Int) + 2047 := by
      split_ifs at h1 <;> omega
    have k2 : ((st.w : Int) : α) + 2047 ≤ Flanger.readIndex st d := by
      have := Int.floor_le (Flanger.readIndex st d)
      rw [← hi0, k1] at this
      push_cast at this ⊢
      exact this
    rw [k1]
    push_cast at hi k2 ⊢
    linarith
  · -- no pass of the loop
    have e := c0 h0
    have hi : Flanger.readIndex st d ≤ ((st.w : Int) : α) - 1 := by
      rw [e]; push_cast; exact b3
    have k0 : Flanger.idx0 st d ≤ (st.w : Int) - 1 := by
      have h1 := Int.floor_le (Flanger.readIndex st d)
      rw [← hi0] at h1
      have h2 : ((Flanger.idx0 st d : Int) : α) ≤ (((st.w : Int) - 1 : Int) : α) := by
        push_cast at hi ⊢
        linarith
      exact_mod_cast h2
    refine ⟨by omega, fun h1 => ?_⟩
    rw [hi1] at h1
    have k1 : Flanger.idx0 st d = (st.w : Int) - 1 := by
      split_ifs at h1 <;> omega
    have k2 := Int.floor_le (Flanger.readIndex st d)
    rw [← hi0, k1] at k2
    rw [k1]
    push_cast at hi k2 ⊢
    linarith

/-- With a delay of 0 the read returns the cell at the write index. -/
theorem flanger_read_zero (st : Flanger α) (hw : st.w < Flanger.MAX_DELAY_SAMPLES) :
    Flanger.idx0 st 0 = (st.w : Int) ∧ Flanger.readDelayed st 0 = st.buf st.w := by
  simp only [Flanger.MAX_DELAY_SAMPLES] at hw
  have hr : roundF32 ((st.w : α) - 0) = (st.w : α) := by
    rw [sub_zero]
    have := @roundF32_intCast α _ _ (st.w : Int) (by omega) (by omega)
    push_cast at this
    exact this
  obtain ⟨_, c0, _, _, _⟩ := flanger_readIndex st (by simpa [Flanger.MAX_DELAY_SAMPLES] using hw)
    0 (le_refl 0) (by norm_num)
  have e : Flanger.readIndex st 0 = (st.w : α) := by
    rw [c0 (by rw [hr]; exact Nat.cast_nonneg _), hr]
  have hi0 : Flanger.idx0 st 0 = (st.w : Int) := by
    unfold Flanger.idx0
    rw [e]
    have := @truncToInt_intCast α _ _ (st.w : Int)
    simpa using this
  refine ⟨hi0, ?_⟩
  rw [flanger_readDelayed_eq, e, hi0]
  simp

end SimpleFX

namespace Pedal

variable {α : Type} [LinearOrderedField α] [FloorRing α]

/-- The value `-2^-16` is a float32. -/
theorem roundF32_neg_two_pow : roundF32 (-(1 / 65536) : α) = -(1 / 65536) := by
  rw [roundF32_neg]
  congr 1
  have h1 : ((2 : α) ^ (-16 : Int)) ≤ 1 / 65536 := by norm_num
  have h2 : (1 / 65536 : α) < (2 : α) ^ ((-16 : Int) + 1) := by norm_num
  have hx : (0 : α) < 1 / 65536 := by norm_num
  apply roundF32_of_units hx 8388608
  rw [log_two_eq h1 h2]
  norm_num

/-- The sum `2048 - 2^-16` rounds to the float32 2048: the float32 values just below
2048 are `2^-13` apart. -/
theorem roundF32_below_2048 : roundF32 (-(1 / 65536) + 2048 : α) = 2048 := by
  have h1 : ((2 : α) ^ (10 : Int)) ≤ -(1 / 65536) + 2048 := by norm_num
  have h2 : (-(1 / 65536) + 2048 : α) < (2 : α) ^ ((10 : Int) + 1) := by norm_num
  rw [roundF32_of_binade h1 h2]
  have e : (-(1 / 65536) + 2048 : α) / 2 ^ ((10 : Int) - 23) = ((16777215 : Int) : α) + 7 / 8 := by
    norm_num
  have hr : roundHalfEven (((16777215 : Int) : α) + 7 / 8) = 16777216 := by
    have hf : ⌊((16777215 : Int) : α) + 7 / 8⌋ = 16777215 := by
      rw [Int.floor_eq_iff]
      constructor <;> norm_num
    unfold roundHalfEven
    simp only [hf]
    rw [if_neg (by norm_num), if_pos (by norm_num)]
    norm_num
  rw [e, hr]
  norm_num

end Pedal

namespace SimpleFX

open Pedal

variable {α : Type} [LinearOrderedField α] [FloorRing α]

/-- A block that does not reach the end of the buffer advances the write index by its
length and keeps the sample rate and the two delay settings. -/
theorem flanger_run_settings (L : Libm α) (blk : List Int) :
    ∀ st : Flanger α, st.w + blk.length < Flanger.MAX_DELAY_SAMPLES →
      (runBlock (Flanger.sampleStep L) st blk).1.w = st.w + blk.length ∧
      (runBlock (Flanger.sampleStep L) st blk).1.sr = st.sr ∧
      (runBlock (Flanger.sampleStep L) st blk).1.baseMs = st.baseMs ∧
      (runBlock (Flanger.sampleStep L) st blk).1.depthMs = st.depthMs := by
  induction blk with
  | nil => intro st _; exact ⟨rfl, rfl, rfl, rfl⟩
  | cons s blk ih =>
    intro st h
    simp only [List.length_cons, Flanger.MAX_DELAY_SAMPLES] at h
    have ew : (Flanger.sampleStep L st s).1.w = st.w + 1 := by
      have : (Flanger.sampleStep L st s).1.w =
          (if st.w + 1 ≥ Flanger.MAX_DELAY_SAMPLES then 0 else st.w + 1) := rfl
      rw [this, if_neg (by simp only [Flanger.MAX_DELAY_SAMPLES]; omega)]
    have e1 : (Flanger.sampleStep L st s).1.sr = st.sr := rfl
    have e2 : (Flanger.sampleStep L st s).1.baseMs = st.baseMs := rfl
    have e3 : (Flanger.sampleStep L st s).1.depthMs = st.depthMs := rfl
    obtain ⟨a, b, c, d⟩ := ih (Flanger.sampleStep L st s).1
      (by simp only [Flanger.MAX_DELAY_SAMPLES]; rw [ew]; omega)
    simp only [runBlock, List.length_cons]
    refine ⟨?_, ?_, ?_, ?_⟩
    · rw [a, ew]; omega
    · rw [b, e1]
    · rw [c, e2]
    · rw [d, e3]

/-- The failing read: at 16 kHz with a base delay of `3 + 2^-20` ms and no depth, the
delay is `48 + 2^-16` samples; at the write index 48 the read position is the float32
2048 and `idx0` is 2048. -/
theorem flanger_read_at_capacity (L : Libm α) (st : Flanger α) (hw : st.w = 48)
    (hsr : st.sr = 16000) (hb : st.baseMs = 3 + 1 / 1048576) (hd : st.depthMs = 0) :
    Flanger.delaySamples L st = 48 + 1 / 65536 ∧
    Flanger.readIndex st (Flanger.delaySamples L st) = 2048 ∧
    Flanger.idx0 st (Flanger.delaySamples L st) = 2048 := by
  have hdel : Flanger.delaySamples L st = 48 + 1 / 65536 := by
    simp only [Flanger.delaySamples, hsr, hb, hd, Flanger.MAX_DELAY_SAMPLES]
    norm_num
  have hr : roundF32 ((st.w : α) - (48 + 1 / 65536)) = -(1 / 65536) := by
    rw [hw]
    have : ((48 : Nat) : α) - (48 + 1 / 65536) = -(1 / 65536) := by norm_num
    rw [this, roundF32_neg_two_pow]
  obtain ⟨_, _, c1, _, _⟩ := flanger_readIndex st
    (by simp only [Flanger.MAX_DELAY_SAMPLES]; omega) (48 + 1 / 65536) (by norm_num)
    (by norm_num)
  have hri : Flanger.readIndex st (48 + 1 / 65536) = 2048 := by
    rw [c1 (by rw [hr]; norm_num), hr, roundF32_below_2048]
  refine ⟨hdel, ?_, ?_⟩
  · rw [hdel, hri]
  · rw [hdel]
    unfold Flanger.idx0
    rw [hri]
    have := @truncToInt_intCast α _ _ 2048
    simpa using this

end SimpleFX

/-- C23 (the code at the failing input): in every state reached from the constructed
flanger by `reset`, `setSampleRate`, `setParams` and `processBlock`, every cell of the
delay buffer is in [-1, 1], and each sample writes the clamped value
`clampf(x + delayed * fb, -1, 1)` at the write index. The read can leave the buffer:
after `setSampleRate(16000)`, `setParams(3 + 2^-20, 0, 0.25, 0.2, 0.6)` and a block of
48 samples, the delay is `48 + 2^-16` samples, the float32 read position is 2048 and
`idx0` is 2048, which is `MAX_DELAY_SAMPLES`, one cell past the buffer: the delayed
value of the next sample is not read from the buffer. -/
theorem C23_flanger_read_past_buffer {α : Type} [LinearOrderedField α] [FloorRing α]
    (L : Pedal.Libm α) :
    (∀ st : SimpleFX.Flanger α, SimpleFX.Flanger.Reachable L st →
      (∀ i : Nat, i < SimpleFX.Flanger.MAX_DELAY_SAMPLES → -1 ≤ st.buf i ∧ st.buf i ≤ 1) ∧
      ∀ s : Int,
        (SimpleFX.Flanger.sampleStep L st s).1.buf st.w =
          SimpleFX.clampf
            (SimpleFX.int16ToFloat s +
              SimpleFX.Flanger.readDelayed st (SimpleFX.Flanger.delaySamples L st) * st.fb)
            (-1) 1) ∧
    (∀ (blk : List Int) (st : SimpleFX.Flanger α), blk.length = 48 →
      st = (SimpleFX.Flanger.processBlock L
        (SimpleFX.Flanger.setParams
          (SimpleFX.Flanger.setSampleRate SimpleFX.Flanger.construct 16000)
          (3 + 1 / 1048576) 0 0.25 0.2 0.6) (some blk) 48).1 →
      SimpleFX.Flanger.Reachable L st ∧ st.w = 48 ∧
      SimpleFX.Flanger.delaySamples L st = 48 + 1 / 65536 ∧
      SimpleFX.Flanger.readIndex st (SimpleFX.Flanger.delaySamples L st) = 2048 ∧
      SimpleFX.Flanger.idx0 st (SimpleFX.Flanger.delaySamples L st) = 2048 ∧
      (SimpleFX.Flanger.MAX_DELAY_SAMPLES : Int) ≤
        SimpleFX.Flanger.idx0 st (SimpleFX.Flanger.delaySamples L st)) := by
  constructor
  · intro st h
    obtain ⟨_, hb, _⟩ := SimpleFX.flanger_reachable_wf L st h
    refine ⟨hb, fun s => ?_⟩
    show Function.update st.buf st.w _ st.w = _
    rw [Function.update_same]
  · intro blk st hlen hst
    have hreach : SimpleFX.Flanger.Reachable L st := by
      rw [hst]
      exact SimpleFX.Flanger.Reachable.processBlock _ _ _
        (SimpleFX.Flanger.Reachable.setParams _ _ _ _ _ _
          (SimpleFX.Flanger.Reachable.setSampleRate _ _ SimpleFX.Flanger.Reachable.construct))
    have h48 : (48 : Int) = (blk.length : Int) := by rw [hlen]; rfl
    have hrun := SimpleFX.flanger_run_settings L blk
      (SimpleFX.Flanger.setParams
        (SimpleFX.Flanger.setSampleRate (SimpleFX.Flanger.construct : SimpleFX.Flanger α) 16000)
        (3 + 1 / 1048576) 0 0.25 0.2 0.6)
      (by
        show 0 + blk.length < 2048
        omega)
    have hst' : st = (Pedal.runBlock (SimpleFX.Flanger.sampleStep L)
        (SimpleFX.Flanger.setParams
          (SimpleFX.Flanger.setSampleRate (SimpleFX.Flanger.construct : SimpleFX.Flanger α)
            16000)
          (3 + 1 / 1048576) 0 0.25 0.2 0.6) blk).1 := by
      rw [hst, h48]
      unfold SimpleFX.Flanger.processBlock
      rw [SimpleFX.guardedBlock_full]
    rw [← hst'] at hrun
    obtain ⟨a, b, c, d⟩ := hrun
    have hw : st.w = 48 := by
      rw [a, hlen]
      show 0 + 48 = 48
      rfl
    have hsr : st.sr = 16000 := by
      rw [b]
      show (if (16000 : α) ≤ 8000 then 44100 else 16000) = 16000
      rw [if_neg (by norm_num)]
    have hbase : st.baseMs = 3 + 1 / 1048576 := by
      rw [c]
      show SimpleFX.clampf (3 + 1 / 1048576 : α) 0 15 = 3 + 1 / 1048576
      simp only [SimpleFX.clampf]
      rw [if_neg (by norm_num), if_neg (by norm_num)]
    have hdepth : st.depthMs = 0 := by
      rw [d]
      show SimpleFX.clampf (0 : α) 0 15 = 0
      simp [SimpleFX.clampf]
    obtain ⟨e1, e2, e3⟩ := SimpleFX.flanger_read_at_capacity L st hw hsr hbase hdepth
    refine ⟨hreach, hw, e1, e2, e3, ?_⟩
    rw [e3]
    show ((2048 : Nat) : Int) ≤ 2048
    norm_num

/-- C23 at a concrete input: with the real sine, a block of 48 silent samples after
`setSampleRate(16000)` and `setParams(3 + 2^-20, 0, 0.25, 0.2, 0.6)` leaves the flanger
in a state whose next read has `idx0 = 2048`. -/
theorem C23_flanger_read_past_buffer_witness :
    (List.replicate 48 (0 : Int)).length = 48 ∧
    SimpleFX.Flanger.idx0
      (SimpleFX.Flanger.processBlock Pedal.realLibm
        (SimpleFX.Flanger.setParams
          (SimpleFX.Flanger.setSampleRate
            (SimpleFX.Flanger.construct : SimpleFX.Flanger ℝ) 16000)
          (3 + 1 / 1048576) 0 0.25 0.2 0.6) (some (List.replicate 48 0)) 48).1
      (SimpleFX.Flanger.delaySamples Pedal.realLibm
        (SimpleFX.Flanger.processBlock Pedal.realLibm
          (SimpleFX.Flanger.setParams
            (SimpleFX.Flanger.setSampleRate
              (SimpleFX.Flanger.construct : SimpleFX.Flanger ℝ) 16000)
            (3 + 1 / 1048576) 0 0.25 0.2 0.6) (some (List.replicate 48 0)) 48).1) = 2048 :=
  ⟨rfl, ((C23_flanger_read_past_buffer Pedal.realLibm).2 (List.replicate 48 0) _ rfl
    rfl).2.2.2.2.1⟩

/-! ### Flanger: where the read lands -/

namespace SimpleFX

open Pedal

variable {α : Type} [LinearOrderedField α] [FloorRing α]

omit [FloorRing α] in
/-- The modulated delay is at least one sample when the base delay alone is. -/
theorem flanger_delay_ge_one (L : Libm α) (hsin : ∀ x, -1 ≤ L.sinf x ∧ L.sinf x ≤ 1)
    (st : Flanger α) (hd : 0 ≤ st.depthMs) (hsr : 0 < st.sr)
    (hb : 1000 ≤ st.baseMs * st.sr) : 1 ≤ Flanger.delaySamples L st := by
  obtain ⟨s1, _⟩ := hsin st.phase
  have h0 : 0 ≤ st.depthMs * (0.5 * (L.sinf st.phase + 1)) := mul_nonneg hd (by linarith)
  have h1 : 1 ≤ (st.baseMs + st.depthMs * (0.5 * (L.sinf st.phase + 1))) * (st.sr / 1000) := by
    have h2 : st.baseMs * (st.sr / 1000) ≤
        (st.baseMs + st.depthMs * (0.5 * (L.sinf st.phase + 1))) * (st.sr / 1000) :=
      mul_le_mul_of_nonneg_right (by linarith) (by positivity)
    have h3 : st.baseMs * (st.sr / 1000) = st.baseMs * st.sr / 1000 := by ring
    have h4 : (1 : α) ≤ st.baseMs * st.sr / 1000 := by
      rw [le_div_iff₀ (by norm_num)]
      linarith
    linarith
  simp only [Flanger.delaySamples, Flanger.MAX_DELAY_SAMPLES]
  generalize (st.baseMs + st.depthMs * (0.5 * (L.sinf st.phase + 1))) * (st.sr / 1000) = r at h1
  norm_num
  split_ifs <;> linarith

omit [FloorRing α] in
/-- The modulated delay is 0 when both delay settings are 0. -/
theorem flanger_delay_zero (L : Libm α) (st : Flanger α) (hb : st.baseMs = 0)
    (hd : st.depthMs = 0) : Flanger.delaySamples L st = 0 := by
  simp [Flanger.delaySamples, hb, hd, Flanger.MAX_DELAY_SAMPLES]

end SimpleFX

/-! ### Tremolo: the gain range -/

namespace Pedal

/-- A relation between each input and the output at the same index, through a block. -/
theorem runBlock_forall2_inv {σ ι ο : Type} (step : σ → ι → σ × ο) (Inv : σ → Prop)
    (R : ι → ο → Prop) (h : ∀ st x, Inv st → R x (step st x).2 ∧ Inv (step st x).1)
    (xs : List ι) :
    ∀ st, Inv st → List.Forall₂ R xs (runBlock step st xs).2 ∧ Inv (runBlock step st xs).1 := by
  induction xs with
  | nil => intro st hst; exact ⟨List.Forall₂.nil, hst⟩
  | cons x xs ih =>
    intro st hst
    obtain ⟨h1, h2⟩ := h st x hst
    obtain ⟨h3, h4⟩ := ih _ h2
    exact ⟨List.Forall₂.cons h1 h3, h4⟩

end Pedal

namespace SimpleFX

open Pedal

variable {α : Type} [LinearOrderedField α] [FloorRing α]

omit [FloorRing α] in
/-- The tremolo gain is between `1 - depth` and 1 when the depth is in [0, 1] and the
sine in [-1, 1]. -/
theorem tremolo_gain_mem (L : Libm α) (hsin : ∀ x, -1 ≤ L.sinf x ∧ L.sinf x ≤ 1)
    (st : Tremolo α) (hd : 0 ≤ st.depth ∧ st.depth ≤ 1) :
    1 - st.depth ≤ Tremolo.gain L st ∧ Tremolo.gain L st ≤ 1 := by
  obtain ⟨s1, s2⟩ := hsin st.phase
  simp only [Tremolo.gain]
  have h1 : 0 ≤ st.depth * (0.5 * (L.sinf st.phase + 1)) :=
    mul_nonneg hd.1 (by linarith)
  have h2 : st.depth * (0.5 * (L.sinf st.phase + 1)) ≤ st.depth * 1 :=
    mul_le_mul_of_nonneg_left (by linarith) hd.1
  constructor <;> linarith

/-- A sample scaled by a factor in [0, 1] converts to an integer no larger in magnitude
than the sample. -/
theorem floatToInt16_scaled (s : Int) (y : α)
    (hy : (0 ≤ s → 0 ≤ y ∧ y * 32767 ≤ (s : α)) ∧ (s < 0 → y ≤ 0 ∧ (s : α) ≤ y * 32768)) :
    |floatToInt16 y| ≤ |s| := by
  have hc := clampf_mem y (-1 : α) 1 (by norm_num)
  have hcl : (0 ≤ y → 0 ≤ clampf y (-1) 1 ∧ clampf y (-1) 1 ≤ y) ∧
      (y ≤ 0 → clampf y (-1) 1 ≤ 0 ∧ y ≤ clampf y (-1) 1) := by
    unfold clampf
    constructor
    · intro h0
      split_ifs with a b
      · linarith
      · exact ⟨by norm_num, b.le⟩
      · exact ⟨h0, le_refl _⟩
    · intro h0
      split_ifs with a b
      · exact ⟨by norm_num, a.le⟩
      · linarith
      · exact ⟨h0, le_refl _⟩
  simp only [floatToInt16]
  by_cases hs : 0 ≤ s
  · obtain ⟨y0, y1⟩ := hy.1 hs
    obtain ⟨c0, c1⟩ := hcl.1 y0
    rw [if_pos c0]
    have hb := @truncToInt_bounds α _ _ (clampf y (-1) 1 * 32767) 0 s
      (by push_cast; exact mul_nonneg c0 (by norm_num))
      (by nlinarith) (le_refl 0) hs
    rw [abs_of_nonneg hb.1, abs_of_nonneg hs]
    exact hb.2
  · have hs' : s < 0 := not_le.mp hs
    obtain ⟨y0, y1⟩ := hy.2 hs'
    obtain ⟨c0, c1⟩ := hcl.2 y0
    by_cases hz : clampf y (-1) 1 ≥ 0
    · rw [if_pos hz]
      have e : clampf y (-1) 1 = 0 := le_antisymm c0 hz
      rw [e, zero_mul, truncToInt_zero, abs_zero]
      exact abs_nonneg s
    · rw [if_neg hz]
      have hb := @truncToInt_bounds α _ _ (clampf y (-1) 1 * 32768) s 0
        (by nlinarith)
        (by push_cast; nlinarith) hs'.le (le_refl 0)
      rw [abs_of_nonpos hb.2, abs_of_neg hs']
      omega

/-- One tremolo sample: the output is the input scaled by the gain and the mix, and is
no larger in magnitude than the input. -/
theorem tremolo_sample_le (L : Libm α) (hsin : ∀ x, -1 ≤ L.sinf x ∧ L.sinf x ≤ 1)
    (st : Tremolo α) (hd : 0 ≤ st.depth ∧ st.depth ≤ 1) (hm : 0 ≤ st.mix ∧ st.mix ≤ 1)
    (s : Int) :
    |(Tremolo.sampleStep L st s).2| ≤ |s| := by
  obtain ⟨g0, g1⟩ := tremolo_gain_mem L hsin st hd
  have hg0 : 0 ≤ Tremolo.gain L st := by linarith [hd.2]
  have e : (Tremolo.sampleStep L st s).2 =
      floatToInt16 ((1 - st.mix) * int16ToFloat s +
        st.mix * (int16ToFloat s * Tremolo.gain L st)) := rfl
  rw [e]
  apply floatToInt16_scaled
  have hk : (1 - st.mix) * int16ToFloat s + st.mix * (int16ToFloat s * Tremolo.gain L st) =
      int16ToFloat s * ((1 - st.mix) + st.mix * Tremolo.gain L st) := by ring
  have k0 : 0 ≤ (1 - st.mix) + st.mix * Tremolo.gain L st := by
    have := mul_nonneg hm.1 hg0
    linarith [hm.2]
  have k1 : (1 - st.mix) + st.mix * Tremolo.gain L st ≤ 1 := by
    have := mul_le_mul_of_nonneg_left g1 hm.1
    linarith
  rw [hk]
  constructor
  · intro hs
    have hx : (int16ToFloat s : α) = (s : α) / 32767 := by simp [int16ToFloat, hs]
    have hs' : (0 : α) ≤ (s : α) := by exact_mod_cast hs
    rw [hx]
    constructor
    · exact mul_nonneg (div_nonneg hs' (by norm_num)) k0
    · have : (s : α) / 32767 * ((1 - st.mix) + st.mix * Tremolo.gain L st) * 32767 =
          (s : α) * ((1 - st.mix) + st.mix * Tremolo.gain L st) := by ring
      rw [this]
      have := mul_le_mul_of_nonneg_left k1 hs'
      linarith
  · intro hs
    have hx : (int16ToFloat s : α) = (s : α) / 32768 := by
      simp [int16ToFloat, not_le.mpr hs]
    have hs' : (s : α) ≤ 0 := by exact_mod_cast hs.le
    rw [hx]
    constructor
    · exact mul_nonpos_of_nonpos_of_nonneg (div_nonpos_of_nonpos_of_nonneg hs' (by norm_num)) k0
    · have : (s : α) / 32768 * ((1 - st.mix) + st.mix * Tremolo.gain L st) * 32768 =
          (s : α) * ((1 - st.mix) + st.mix * Tremolo.gain L st) := by ring
      rw [this]
      have := mul_le_mul_of_nonpos_left k1 hs'
      linarith

end SimpleFX

/-- C24: tremolo gain range, for a sine with values in [-1, 1]: after
`setParams(rateHz, depth, mix)` with any arguments (depth and mix are stored clamped to
[0, 1]), for every LFO phase the gain `g` computed by `processBlock` satisfies
`1 - depth <= g <= 1` for the stored depth; each output sample is the conversion of
`(1 - mix) * x + mix * x * g`; and no output sample of a block has larger magnitude
than the input sample at the same index. -/
theorem C24_tremolo_gain_range {α : Type} [LinearOrderedField α] [FloorRing α]
    (L : Pedal.Libm α) (hsin : ∀ x, -1 ≤ L.sinf x ∧ L.sinf x ≤ 1)
    (st0 : SimpleFX.Tremolo α) (rateHz depth mix : α) :
    ((0 ≤ (SimpleFX.Tremolo.setParams st0 rateHz depth mix).depth ∧
        (SimpleFX.Tremolo.setParams st0 rateHz depth mix).depth ≤ 1) ∧
      (0 ≤ depth → depth ≤ 1 →
        (SimpleFX.Tremolo.setParams st0 rateHz depth mix).depth = depth)) ∧
    (1 - (SimpleFX.Tremolo.setParams st0 rateHz depth mix).depth ≤
        SimpleFX.Tremolo.gain L (SimpleFX.Tremolo.setParams st0 rateHz depth mix) ∧
      SimpleFX.Tremolo.gain L (SimpleFX.Tremolo.setParams st0 rateHz depth mix) ≤ 1) ∧
    (∀ s : Int,
      (SimpleFX.Tremolo.sampleStep L (SimpleFX.Tremolo.setParams st0 rateHz depth mix) s).2 =
        SimpleFX.floatToInt16
          ((1 - (SimpleFX.Tremolo.setParams st0 rateHz depth mix).mix) *
              SimpleFX.int16ToFloat s +
            (SimpleFX.Tremolo.setParams st0 rateHz depth mix).mix *
              (SimpleFX.int16ToFloat s *
                SimpleFX.Tremolo.gain L (SimpleFX.Tremolo.setParams st0 rateHz depth mix)))) ∧
    (∀ blk : List Int, ∃ out : List Int,
      (SimpleFX.Tremolo.processBlock L (SimpleFX.Tremolo.setParams st0 rateHz depth mix)
        (some blk) (blk.length : Int)).2 = some out ∧
      List.Forall₂ (fun s o : Int => |o| ≤ |s|) blk out) := by
  have hd := SimpleFX.clampf_mem depth (0 : α) 1 zero_le_one
  have hm := SimpleFX.clampf_mem mix (0 : α) 1 zero_le_one
  refine ⟨⟨hd, fun h0 h1 => ?_⟩, ?_, fun _ => rfl, fun blk => ?_⟩
  · show SimpleFX.clampf depth 0 1 = depth
    unfold SimpleFX.clampf
    rw [if_neg (not_lt.mpr h0), if_neg (not_lt.mpr h1)]
  · exact SimpleFX.tremolo_gain_mem L hsin _ hd
  · refine ⟨(Pedal.runBlock (SimpleFX.Tremolo.sampleStep L)
      (SimpleFX.Tremolo.setParams st0 rateHz depth mix) blk).2, ?_, ?_⟩
    · unfold SimpleFX.Tremolo.processBlock
      rw [SimpleFX.guardedBlock_full]
    · exact (Pedal.runBlock_forall2_inv (SimpleFX.Tremolo.sampleStep L)
        (fun st => (0 ≤ st.depth ∧ st.depth ≤ 1) ∧ (0 ≤ st.mix ∧ st.mix ≤ 1))
        (fun s o : Int => |o| ≤ |s|)
        (fun st s hst =>
          ⟨SimpleFX.tremolo_sample_le L hsin st hst.1 hst.2 s, hst⟩)
        blk (SimpleFX.Tremolo.setParams st0 rateHz depth mix) ⟨hd, hm⟩).1

/-- Witness of C24: the real sine, depth 0.6 and mix 1 at the LFO phase of the
constructed instance, on the block [32767, -32768, 100]. -/
theorem C24_tremolo_gain_range_witness :
    (1 - (SimpleFX.Tremolo.setParams (SimpleFX.Tremolo.construct : SimpleFX.Tremolo ℝ)
          4 0.6 1).depth ≤
        SimpleFX.Tremolo.gain Pedal.realLibm
          (SimpleFX.Tremolo.setParams (SimpleFX.Tremolo.construct : SimpleFX.Tremolo ℝ)
            4 0.6 1) ∧
      SimpleFX.Tremolo.gain Pedal.realLibm
          (SimpleFX.Tremolo.setParams (SimpleFX.Tremolo.construct : SimpleFX.Tremolo ℝ)
            4 0.6 1) ≤ 1) ∧
    ∃ out : List Int,
      (SimpleFX.Tremolo.processBlock Pedal.realLibm
        (SimpleFX.Tremolo.setParams (SimpleFX.Tremolo.construct : SimpleFX.Tremolo ℝ) 4 0.6 1)
        (some [32767, -32768, 100]) (([32767, -32768, 100] : List Int).length : Int)).2 =
          some out ∧
      List.Forall₂ (fun s o : Int => |o| ≤ |s|) [32767, -32768, 100] out :=
  ⟨(C24_tremolo_gain_range Pedal.realLibm
      (fun x => ⟨Real.neg_one_le_sin x, Real.sin_le_one x⟩)
      SimpleFX.Tremolo.construct 4 0.6 1).2.1,
   (C24_tremolo_gain_range Pedal.realLibm
      (fun x => ⟨Real.neg_one_le_sin x, Real.sin_le_one x⟩)
      SimpleFX.Tremolo.construct 4 0.6 1).2.2.2 [32767, -32768, 100]⟩

/-! ### Rotary engine: the rotor phases -/

namespace LeslieEffect

open Pedal

variable {α : Type} [LinearOrderedField α] [FloorRing α]

/-- The single conditional wrap of `wrap01` on a value in [0, 2) is the fractional part. -/
theorem wrap01_fract (x : α) (h0 : 0 ≤ x) (h2 : x < 2) :
    wrap01 x = Int.fract x ∧ 0 ≤ wrap01 x ∧ wrap01 x < 1 := by
  have key : wrap01 x = (if x ≥ 1 then x - 1 else x) := by
    simp only [wrap01]
    split_ifs with a b b
    · linarith
    · rfl
    · linarith
    · rfl
  rw [key]
  by_cases h1 : x ≥ 1
  · rw [if_pos h1]
    refine ⟨?_, by linarith, by linarith⟩
    symm
    rw [Int.fract_eq_iff]
    exact ⟨by linarith, by linarith, 1, by push_cast; ring⟩
  · rw [if_neg h1]
    have h1' : x < 1 := not_le.mp h1
    refine ⟨?_, h0, h1'⟩
    symm
    rw [Int.fract_eq_iff]
    exact ⟨h0, h1', 0, by push_cast; ring⟩

omit [FloorRing α] in
theorem clamp01_mem_leslie (x : α) : 0 ≤ clamp01 x ∧ clamp01 x ≤ 1 := by
  unfold clamp01
  split_ifs with h1 h2
  · exact ⟨le_refl _, zero_le_one⟩
  · exact ⟨zero_le_one, le_refl _⟩
  · exact ⟨not_lt.mp h1, not_lt.mp h2⟩

omit [FloorRing α] in
theorem lerp_mem_leslie (a b t : α) (hab : a ≤ b) (h0 : 0 ≤ t) (h1 : t ≤ 1) :
    a ≤ lerp a b t ∧ lerp a b t ≤ b := by
  unfold lerp
  have k1 : 0 ≤ (b - a) * t := mul_nonneg (by linarith) h0
  have k2 : (b - a) * t ≤ (b - a) * 1 := mul_le_mul_of_nonneg_left h1 (by linarith)
  constructor <;> linarith

omit [FloorRing α] in
/-- A step of size `A` in [0, 1] from `hz` toward `t` stays between bounds that hold
both. -/
theorem inertia_mem (hz t A lo hi : α) (hA0 : 0 ≤ A) (hA1 : A ≤ 1) (h1 : lo ≤ hz)
    (h2 : hz ≤ hi) (t1 : lo ≤ t) (t2 : t ≤ hi) :
    lo ≤ hz + (t - hz) * A ∧ hz + (t - hz) * A ≤ hi := by
  have e : hz + (t - hz) * A = (1 - A) * hz + A * t := by ring
  rw [e]
  have a1 := mul_le_mul_of_nonneg_left h1 (by linarith : (0 : α) ≤ 1 - A)
  have a2 := mul_le_mul_of_nonneg_left h2 (by linarith : (0 : α) ≤ 1 - A)
  have a3 := mul_le_mul_of_nonneg_left t1 hA0
  have a4 := mul_le_mul_of_nonneg_left t2 hA0
  constructor <;> linarith

omit [FloorRing α] in
/-- The rotor speeds stay inside their slow-to-fast ranges through the inertia update. -/
theorem rotorUpdate_mem (L : Libm α) (hexp : ∀ x : α, x ≤ 0 → 0 ≤ L.expf x ∧ L.expf x ≤ 1)
    (st : State α) (n : Nat) (fs : α) (hfs : 0 < fs) (p : Params α)
    (hh : 0.8 ≤ st.hornHz ∧ st.hornHz ≤ 6) (hd : 0.6 ≤ st.drumHz ∧ st.drumHz ≤ 4.5) :
    (0.8 ≤ (rotorUpdate L st n fs p).1 ∧ (rotorUpdate L st n fs p).1 ≤ 6) ∧
    (0.6 ≤ (rotorUpdate L st n fs p).2 ∧ (rotorUpdate L st n fs p).2 ≤ 4.5) := by
  obtain ⟨s0, s1⟩ := clamp01_mem_leslie p.speed
  obtain ⟨r0, r1⟩ := clamp01_mem_leslie p.ramp
  have hdt : 0 ≤ (n : α) / fs := div_nonneg (Nat.cast_nonneg n) hfs.le
  have htau1 : 0 < lerp 0.20 1.20 (clamp01 p.ramp) :=
    lt_of_lt_of_le (by norm_num) (lerp_mem_leslie 0.20 1.20 _ (by norm_num) r0 r1).1
  have htau2 : 0 < lerp 0.35 1.80 (clamp01 p.ramp) :=
    lt_of_lt_of_le (by norm_num) (lerp_mem_leslie 0.35 1.80 _ (by norm_num) r0 r1).1
  have e1 := hexp (-((n : α) / fs) / lerp 0.20 1.20 (clamp01 p.ramp))
    (div_nonpos_of_nonpos_of_nonneg (by linarith) htau1.le)
  have e2 := hexp (-((n : α) / fs) / lerp 0.35 1.80 (clamp01 p.ramp))
    (div_nonpos_of_nonpos_of_nonneg (by linarith) htau2.le)
  have t1 : 0.8 ≤ lerp 0.8 6.0 (clamp01 p.speed) ∧ lerp 0.8 6.0 (clamp01 p.speed) ≤ 6 := by
    have := lerp_mem_leslie 0.8 6.0 (clamp01 p.speed) (by norm_num) s0 s1
    exact ⟨this.1, by linarith [this.2]⟩
  have t2 : 0.6 ≤ lerp 0.6 4.5 (clamp01 p.speed) ∧ lerp 0.6 4.5 (clamp01 p.speed) ≤ 4.5 :=
    lerp_mem_leslie 0.6 4.5 (clamp01 p.speed) (by norm_num) s0 s1
  have A1 : 0 ≤ 1 - L.expf (-((n : α) / fs) / lerp 0.20 1.20 (clamp01 p.ramp)) ∧
      1 - L.expf (-((n : α) / fs) / lerp 0.20 1.20 (clamp01 p.ramp)) ≤ 1 :=
    ⟨by linarith [e1.2], by linarith [e1.1]⟩
  have A2 : 0 ≤ 1 - L.expf (-((n : α) / fs) / lerp 0.35 1.80 (clamp01 p.ramp)) ∧
      1 - L.expf (-((n : α) / fs) / lerp 0.35 1.80 (clamp01 p.ramp)) ≤ 1 :=
    ⟨by linarith [e2.2], by linarith [e2.1]⟩
  have r1 := inertia_mem st.hornHz (lerp 0.8 6.0 (clamp01 p.speed))
    (1 - L.expf (-((n : α) / fs) / lerp 0.20 1.20 (clamp01 p.ramp))) 0.8 6 A1.1 A1.2
    hh.1 hh.2 t1.1 t1.2
  have r2 := inertia_mem st.drumHz (lerp 0.6 4.5 (clamp01 p.speed))
    (1 - L.expf (-((n : α) / fs) / lerp 0.35 1.80 (clamp01 p.ramp))) 0.6 4.5 A2.1 A2.2
    hd.1 hd.2 t2.1 t2.2
  exact ⟨r1, r2⟩

/-- One sample: each phase advances by the rotor speed over the sample rate and wraps;
the rotor speeds are kept. -/
theorem leslie_sample_rotor (L : Libm α) (fs : α) (hfs : 8000 ≤ fs) (p : Params α)
    (st : State α) (h : RotorOk st) (s : Int × Int) :
    RotorOk (sampleStep L (setup fs p st.hornHz st.drumHz) st s).1 ∧
    (sampleStep L (setup fs p st.hornHz st.drumHz) st s).1.phHorn =
      Int.fract (st.phHorn + st.hornHz / fs) ∧
    (sampleStep L (setup fs p st.hornHz st.drumHz) st s).1.phDrum =
      Int.fract (st.phDrum + st.drumHz / fs) ∧
    (sampleStep L (setup fs p st.hornHz st.drumHz) st s).1.hornHz = st.hornHz ∧
    (sampleStep L (setup fs p st.hornHz st.drumHz) st s).1.drumHz = st.drumHz := by
  obtain ⟨⟨a0, a1⟩, ⟨b0, b1⟩, ⟨c0, c1⟩, ⟨d0, d1⟩⟩ := h
  have hfs0 : (0 : α) < fs := by linarith
  have q1 : 0 ≤ st.hornHz / fs ∧ st.hornHz / fs ≤ 1 := by
    constructor
    · exact div_nonneg (by linarith) hfs0.le
    · rw [div_le_one hfs0]; linarith
  have q2 : 0 ≤ st.drumHz / fs ∧ st.drumHz / fs ≤ 1 := by
    constructor
    · exact div_nonneg (by linarith) hfs0.le
    · rw [div_le_one hfs0]; linarith
  have eH : (sampleStep L (setup fs p st.hornHz st.drumHz) st s).1.phHorn =
      wrap01 (st.phHorn + st.hornHz / fs) := rfl
  have eD : (sampleStep L (setup fs p st.hornHz st.drumHz) st s).1.phDrum =
      wrap01 (st.phDrum + st.drumHz / fs) := rfl
  obtain ⟨w1, w2, w3⟩ := wrap01_fract (st.phHorn + st.hornHz / fs) (by linarith) (by linarith)
  obtain ⟨v1, v2, v3⟩ := wrap01_fract (st.phDrum + st.drumHz / fs) (by linarith) (by linarith)
  refine ⟨⟨⟨?_, ?_⟩, ⟨?_, ?_⟩, ⟨c0, c1⟩, ⟨d0, d1⟩⟩, ?_, ?_, rfl, rfl⟩
  · rw [eH]; exact w2
  · rw [eH]; exact w3
  · rw [eD]; exact v2
  · rw [eD]; exact v3
  · rw [eH]; exact w1
  · rw [eD]; exact v1

/-- Inside a call at a rate of at least 8000 Hz the rotor invariant holds after every
sample. -/
theorem leslie_stateAfter_rotor (L : Libm α)
    (hexp : ∀ x : α, x ≤ 0 → 0 ≤ L.expf x ∧ L.expf x ≤ 1) (st : State α) (h : RotorOk st)
    (left right : List Int) (fs : α) (hfs : 8000 ≤ fs) (p : Params α) (k : Nat) :
    RotorOk (stateAfter L st left right fs p k) := by
  obtain ⟨hp1, hp2, hh, hd⟩ := h
  obtain ⟨u1, u2⟩ := rotorUpdate_mem L hexp st left.length fs (by linarith) p hh hd
  generalize hhz : rotorUpdate L st left.length fs p = hz at u1 u2
  have h0 : RotorOk ({ st with hornHz := hz.1, drumHz := hz.2 } : State α) :=
    ⟨hp1, hp2, u1, u2⟩
  have key := runBlock_state_inv (sampleStep L (setup fs p hz.1 hz.2))
    (fun s : State α => RotorOk s ∧ s.hornHz = hz.1 ∧ s.drumHz = hz.2)
    (fun s x hs => by
      obtain ⟨i1, i2, i3⟩ := hs
      have := leslie_sample_rotor L fs hfs p s i1 x
      rw [i2, i3] at this
      exact ⟨this.1, this.2.2.2.1, this.2.2.2.2⟩)
    ((List.zip left right).take k) _ ⟨h0, rfl, rfl⟩
  unfold stateAfter
  simp only [hhz]
  exact key.1

theorem stateAfter_length (L : Libm α) (st : State α) (left right : List Int) (fs : α)
    (p : Params α) :
    stateAfter L st left right fs p left.length = (processWet L st left right fs p).1 := by
  unfold stateAfter processWet
  have : (List.zip left right).take left.length = List.zip left right := by
    apply List.take_of_length_le
    simp [List.length_zip]
  simp only [this]

theorem leslie_calls_rotor (L : Libm α)
    (hexp : ∀ x : α, x ≤ 0 → 0 ≤ L.expf x ∧ L.expf x ≤ 1) (st : State α) (h : RotorOk st)
    (calls : List (List Int × List Int × α × Params α))
    (hcalls : ∀ call ∈ calls, 8000 ≤ call.2.2.1) :
    RotorOk (processCalls L st calls).1 :=
  (runBlock_forall_inv
    (fun st (call : List Int × List Int × α × Params α) =>
      processWet L st call.1 call.2.1 call.2.2.1 call.2.2.2)
    RotorOk (fun call => 8000 ≤ call.2.2.1) (fun _ => True)
    (fun s call hs hc => by
      refine ⟨trivial, ?_⟩
      have := leslie_stateAfter_rotor L hexp s hs call.1 call.2.1 call.2.2.1 hc call.2.2.2
        call.1.length
      rw [stateAfter_length] at this
      exact this)
    calls st h hcalls).2

end LeslieEffect

/-- C25: rotor phase invariant, for an exponential with values in [0, 1] on arguments
`<= 0`: starting from `reset()`, after every sequence of `processWet` calls with any
block length, sample rate `fs >= 8000` Hz and any knob values, and after every sample
inside a further such call, the phase accumulators `_phHorn` and `_phDrum` are in
[0, 1) (and the rotor speeds in [0.8, 6] Hz and [0.6, 4.5] Hz); on each sample each
phase becomes the fractional part of the phase plus the current rotor speed over `fs`. -/
theorem C25_rotor_phase_invariant {α : Type} [LinearOrderedField α] [FloorRing α]
    (L : Pedal.Libm α) (hexp : ∀ x : α, x ≤ 0 → 0 ≤ L.expf x ∧ L.expf x ≤ 1)
    (st0 : LeslieEffect.State α)
    (calls : List (List Int × List Int × α × LeslieEffect.Params α))
    (hcalls : ∀ call ∈ calls, 8000 ≤ call.2.2.1) :
    LeslieEffect.RotorOk (LeslieEffect.processCalls L (LeslieEffect.reset st0) calls).1 ∧
    (∀ (left right : List Int) (fs : α) (p : LeslieEffect.Params α), 8000 ≤ fs →
      (∀ k : Nat, LeslieEffect.RotorOk
        (LeslieEffect.stateAfter L
          (LeslieEffect.processCalls L (LeslieEffect.reset st0) calls).1 left right fs p k)) ∧
      LeslieEffect.stateAfter L
          (LeslieEffect.processCalls L (LeslieEffect.reset st0) calls).1 left right fs p
          left.length =
        (LeslieEffect.processWet L
          (LeslieEffect.processCalls L (LeslieEffect.reset st0) calls).1 left right fs p).1) ∧
    (∀ (fs : α) (p : LeslieEffect.Params α) (st : LeslieEffect.State α) (s : Int × Int),
      8000 ≤ fs → LeslieEffect.RotorOk st →
      (LeslieEffect.sampleStep L (LeslieEffect.setup fs p st.hornHz st.drumHz) st s).1.phHorn =
        Int.fract (st.phHorn + st.hornHz / fs) ∧
      (LeslieEffect.sampleStep L (LeslieEffect.setup fs p st.hornHz st.drumHz) st s).1.phDrum =
        Int.fract (st.phDrum + st.drumHz / fs)) := by
  have hreset : LeslieEffect.RotorOk (LeslieEffect.reset st0) := by
    simp only [LeslieEffect.RotorOk, LeslieEffect.reset]
    norm_num
  have hfin := LeslieEffect.leslie_calls_rotor L hexp _ hreset calls hcalls
  refine ⟨hfin, fun left right fs p hfs => ⟨fun k => ?_, ?_⟩, fun fs p st s hfs h => ?_⟩
  · exact LeslieEffect.leslie_stateAfter_rotor L hexp _ hfin left right fs hfs p k
  · exact LeslieEffect.stateAfter_length L _ left right fs p
  · obtain ⟨_, e1, e2, _⟩ := LeslieEffect.leslie_sample_rotor L fs hfs p st h s
    exact ⟨e1, e2⟩

/-- Witness of C25: with the real exponential, after `reset()` and two calls at 44.1 kHz
and 8 kHz with the speed knob at 1 and at 0. -/
theorem C25_rotor_phase_invariant_witness :
    LeslieEffect.RotorOk
      (LeslieEffect.processCalls Pedal.realLibm
        (LeslieEffect.reset (LeslieEffect.construct : LeslieEffect.State ℝ))
        [([1, 2, 3], [4, 5, 6], 44100, ⟨0, 0, 1, 1, 0⟩),
         ([], [], 8000, ⟨0, 0, 0, 0.5, 1⟩)]).1 ∧
    (8000 : ℝ) ≤ 44100 :=
  ⟨(C25_rotor_phase_invariant Pedal.realLibm
      (fun x hx => ⟨(Real.exp_pos x).le, Real.exp_le_one_iff.mpr hx⟩)
      (LeslieEffect.construct : LeslieEffect.State ℝ)
      [([1, 2, 3], [4, 5, 6], 44100, ⟨0, 0, 1, 1, 0⟩), ([], [], 8000, ⟨0, 0, 0, 0.5, 1⟩)]
      (by
        intro call hc
        simp only [List.mem_cons, List.mem_singleton, List.not_mem_nil, or_false] at hc
        rcases hc with rfl | rfl <;> norm_num)).1,
   by norm_num⟩

/-! ### Bit reducer: the quantisation levels -/

namespace Pedal

variable {α : Type} [LinearOrderedField α] [FloorRing α]

/-- Truncation toward zero is monotone. -/
theorem truncToInt_mono {x y : α} (h : x ≤ y) : truncToInt x ≤ truncToInt y := by
  unfold truncToInt
  split_ifs with hx hy hy
  · exact Int.floor_le_floor h
  · exact absurd (le_trans hx h) hy
  · have h1 : ⌈x⌉ ≤ 0 := Int.ceil_le.mpr (by simpa using (not_le.mp hx).le)
    exact le_trans h1 (Int.floor_nonneg.mpr hy)
  · exact Int.ceil_le_ceil h

end Pedal

namespace SimpleFX

open Pedal

variable {α : Type} [LinearOrderedField α] [FloorRing α]

omit [FloorRing α] in
theorem clampf_mono (lo hi : α) (hlh : lo ≤ hi) {x y : α} (h : x ≤ y) :
    clampf x lo hi ≤ clampf y lo hi := by
  unfold clampf
  split_ifs <;> linarith

/-- The conversion to int16 is monotone. -/
theorem floatToInt16_mono {x y : α} (h : x ≤ y) : floatToInt16 x ≤ floatToInt16 y := by
  have hc := clampf_mono (-1 : α) 1 (by norm_num) h
  simp only [floatToInt16]
  split_ifs with hx hy hy
  · exact truncToInt_mono (by nlinarith)
  · exact absurd (le_trans hx hc) hy
  · have hx' : clampf x (-1) 1 < 0 := not_le.mp hx
    have h1 := @truncToInt_bounds α _ _ (clampf x (-1) 1 * 32768) (-32768) 0
      (by push_cast; nlinarith [(clampf_mem x (-1 : α) 1 (by norm_num)).1])
      (by push_cast; nlinarith) (by norm_num) (le_refl 0)
    have h2 := @truncToInt_bounds α _ _ (clampf y (-1) 1 * 32767) 0 32767
      (by push_cast; nlinarith)
      (by push_cast; nlinarith [(clampf_mem y (-1 : α) 1 (by norm_num)).2]) (le_refl 0)
      (by norm_num)
    exact le_trans h1.2 h2.1
  · exact truncToInt_mono (by nlinarith)

/-- The quantiser returns `2 * q / levels - 1` for a bucket `q` in `[0, levels - 1]`. -/
theorem quantize_mem (levels : Int) (hl : 1 ≤ levels) (crushed : α) :
    ∃ q : Int, 0 ≤ q ∧ q ≤ levels - 1 ∧
      BitCrusher.quantize levels crushed = 2 * (q : α) / (levels : α) - 1 := by
  simp only [BitCrusher.quantize]
  split_ifs with h1 h2
  · exact ⟨0, le_refl 0, by omega, by ring⟩
  · exact ⟨levels - 1, by omega, le_refl _, by ring⟩
  · exact ⟨_, not_lt.mp h1, not_lt.mp h2, by ring⟩

/-- The quantiser is monotone. -/
theorem quantize_mono (levels : Int) (hl : 1 ≤ levels) {h1 h2 : α} (h : h1 ≤ h2) :
    BitCrusher.quantize levels h1 ≤ BitCrusher.quantize levels h2 := by
  have hL : (0 : α) < (levels : α) := by exact_mod_cast (by omega : (0 : Int) < levels)
  have ht : truncToInt (0.5 * (h1 + 1) * (levels : α)) ≤
      truncToInt (0.5 * (h2 + 1) * (levels : α)) :=
    truncToInt_mono (by nlinarith)
  have hq : (if truncToInt (0.5 * (h1 + 1) * (levels : α)) < 0 then (0 : Int)
      else if truncToInt (0.5 * (h1 + 1) * (levels : α)) > levels - 1 then levels - 1
      else truncToInt (0.5 * (h1 + 1) * (levels : α))) ≤
      (if truncToInt (0.5 * (h2 + 1) * (levels : α)) < 0 then (0 : Int)
      else if truncToInt (0.5 * (h2 + 1) * (levels : α)) > levels - 1 then levels - 1
      else truncToInt (0.5 * (h2 + 1) * (levels : α))) := by
    split_ifs <;> omega
  simp only [BitCrusher.quantize]
  have hq' : ((if truncToInt (0.5 * (h1 + 1) * (levels : α)) < 0 then (0 : Int)
      else if truncToInt (0.5 * (h1 + 1) * (levels : α)) > levels - 1 then levels - 1
      else truncToInt (0.5 * (h1 + 1) * (levels : α)) : Int) : α) ≤
      ((if truncToInt (0.5 * (h2 + 1) * (levels : α)) < 0 then (0 : Int)
      else if truncToInt (0.5 * (h2 + 1) * (levels : α)) > levels - 1 then levels - 1
      else truncToInt (0.5 * (h2 + 1) * (levels : α)) : Int) : α) := by
    exact_mod_cast hq
  have hinv : (0 : α) ≤ 1 / (levels : α) := by positivity
  have := mul_le_mul_of_nonneg_right hq' hinv
  linarith

/-- One bit-reducer sample at mix = 1: the output is the conversion of the quantised
held value. -/
theorem bitcrusher_sample_mix_one (st : BitCrusher α) (hm : st.mix = 1) (s : Int) :
    (BitCrusher.sampleStep st s).2 =
      floatToInt16 (BitCrusher.quantize (2 ^ st.bits.toNat)
        (if st.holdCount ≤ 0 then int16ToFloat s else st.held)) ∧
    (BitCrusher.sampleStep st s).1.mix = st.mix ∧
    (BitCrusher.sampleStep st s).1.bits = st.bits := by
  refine ⟨?_, rfl, rfl⟩
  simp only [BitCrusher.sampleStep, hm, sub_self, zero_mul, zero_add, one_mul]
  by_cases h : st.holdCount ≤ 0 <;> simp [h]

end SimpleFX

/-- C26: bit-depth quantisation: after `setParams(bits, down, mix = 1)` with any integer
`bits` (stored clamped to 1..16, `b` below), for any earlier state of the instance,
every output sample of `processBlock` is `floatToInt16(2 * q / 2^b - 1)` for an integer
`q` with `0 <= q <= 2^b - 1`; at most `2^b` distinct output values occur in a block;
and the quantiser, alone and followed by the conversion to int16, is monotonically
non-decreasing in the held input sample. -/
theorem C26_bitcrusher_levels {α : Type} [LinearOrderedField α] [FloorRing α]
    (st0 : SimpleFX.BitCrusher α) (bits down : Int) :
    (1 ≤ (SimpleFX.BitCrusher.setParams st0 bits down 1).bits ∧
      (SimpleFX.BitCrusher.setParams st0 bits down 1).bits ≤ 16 ∧
      (1 ≤ bits → bits ≤ 16 → (SimpleFX.BitCrusher.setParams st0 bits down 1).bits = bits)) ∧
    (∀ blk : List Int, ∃ out : List Int,
      (SimpleFX.BitCrusher.processBlock (SimpleFX.BitCrusher.setParams st0 bits down 1)
        (some blk) (blk.length : Int)).2 = some out ∧
      (∀ o ∈ out, ∃ q : Int, 0 ≤ q ∧
        q ≤ 2 ^ (SimpleFX.BitCrusher.setParams st0 bits down 1).bits.toNat - 1 ∧
        o = SimpleFX.floatToInt16
          (2 * (q : α) /
            (2 : α) ^ (SimpleFX.BitCrusher.setParams st0 bits down 1).bits.toNat - 1)) ∧
      out.toFinset.card ≤ 2 ^ (SimpleFX.BitCrusher.setParams st0 bits down 1).bits.toNat) ∧
    (∀ h1 h2 : α, h1 ≤ h2 →
      SimpleFX.BitCrusher.quantize
          (2 ^ (SimpleFX.BitCrusher.setParams st0 bits down 1).bits.toNat) h1 ≤
        SimpleFX.BitCrusher.quantize
          (2 ^ (SimpleFX.BitCrusher.setParams st0 bits down 1).bits.toNat) h2 ∧
      SimpleFX.floatToInt16 (SimpleFX.BitCrusher.quantize
          (2 ^ (SimpleFX.BitCrusher.setParams st0 bits down 1).bits.toNat) h1) ≤
        SimpleFX.floatToInt16 (SimpleFX.BitCrusher.quantize
          (2 ^ (SimpleFX.BitCrusher.setParams st0 bits down 1).bits.toNat) h2)) := by
  have hmix : (SimpleFX.BitCrusher.setParams st0 bits down 1).mix = 1 := by
    show SimpleFX.clampf (1 : α) 0 1 = 1
    simp [SimpleFX.clampf]
  have hbits : (SimpleFX.BitCrusher.setParams st0 bits down 1).bits =
      (if bits < 1 then 1 else (if bits > 16 then 16 else bits)) := rfl
  generalize hB : (SimpleFX.BitCrusher.setParams st0 bits down 1).bits = B at *
  have hlev : (1 : Int) ≤ 2 ^ B.toNat := one_le_pow₀ (by norm_num)
  have hcast : (((2 : Int) ^ B.toNat : Int) : α) = (2 : α) ^ B.toNat := by push_cast; rfl
  have hset : ∀ o : Int,
      (∃ h : α, o = SimpleFX.floatToInt16 (SimpleFX.BitCrusher.quantize (2 ^ B.toNat) h)) →
      ∃ q : Int, 0 ≤ q ∧ q ≤ 2 ^ B.toNat - 1 ∧
        o = SimpleFX.floatToInt16 (2 * (q : α) / (2 : α) ^ B.toNat - 1) := by
    rintro o ⟨h, rfl⟩
    obtain ⟨q, q0, q1, e⟩ := SimpleFX.quantize_mem (2 ^ B.toNat) hlev h
    exact ⟨q, q0, q1, by rw [e, hcast]⟩
  refine ⟨?_, fun blk => ?_, fun h1 h2 h =>
    ⟨SimpleFX.quantize_mono _ hlev h,
     SimpleFX.floatToInt16_mono (SimpleFX.quantize_mono _ hlev h)⟩⟩
  · rw [hbits]
    refine ⟨?_, ?_, fun a b => ?_⟩ <;> split_ifs <;> omega
  · refine ⟨(Pedal.runBlock SimpleFX.BitCrusher.sampleStep
      (SimpleFX.BitCrusher.setParams st0 bits down 1) blk).2, ?_, ?_⟩
    · unfold SimpleFX.BitCrusher.processBlock
      rw [SimpleFX.guardedBlock_full]
    · have key := (Pedal.runBlock_forall_inv (@SimpleFX.BitCrusher.sampleStep α _ _)
        (fun st => st.mix = 1 ∧ st.bits = B) (fun _ => True)
        (fun o : Int => ∃ h : α,
          o = SimpleFX.floatToInt16 (SimpleFX.BitCrusher.quantize (2 ^ B.toNat) h))
        (fun st s hst _ => by
          obtain ⟨e1, e2, e3⟩ := SimpleFX.bitcrusher_sample_mix_one st hst.1 s
          have hb : st.bits = B := hst.2
          have hm : st.mix = 1 := hst.1
          exact ⟨⟨_, by rw [e1, hb]⟩, by rw [e2]; exact hm, by rw [e3]; exact hb⟩)
        blk (SimpleFX.BitCrusher.setParams st0 bits down 1) ⟨hmix, hB⟩
        (fun _ _ => trivial)).1
      refine ⟨fun o ho => hset o (key o ho), ?_⟩
      have hsub : (Pedal.runBlock SimpleFX.BitCrusher.sampleStep
          (SimpleFX.BitCrusher.setParams st0 bits down 1) blk).2.toFinset ⊆
          (Finset.Icc (0 : Int) (2 ^ B.toNat - 1)).image
            (fun q : Int => SimpleFX.floatToInt16 (2 * (q : α) / (2 : α) ^ B.toNat - 1)) := by
        intro o ho
        rw [List.mem_toFinset] at ho
        obtain ⟨q, q0, q1, e⟩ := hset o (key o ho)
        rw [Finset.mem_image]
        exact ⟨q, Finset.mem_Icc.mpr ⟨q0, q1⟩, e.symm⟩
      refine le_trans (Finset.card_le_card hsub) (le_trans Finset.card_image_le ?_)
      rw [Int.card_Icc]
      have : ((2 : Int) ^ B.toNat - 1 + 1 - 0).toNat = 2 ^ B.toNat := by
        have : ((2 : Int) ^ B.toNat - 1 + 1 - 0) = ((2 ^ B.toNat : Nat) : Int) := by
          push_cast; ring
        rw [this, Int.toNat_natCast]
      rw [this]

/-- Witness of C26: the constructed bit reducer over the rationals set to 3 bits, on
the block [32767, 0, -32768]. -/
theorem C26_bitcrusher_levels_witness :
    ∃ out : List Int,
      (SimpleFX.BitCrusher.processBlock
        (SimpleFX.BitCrusher.setParams (SimpleFX.BitCrusher.construct : SimpleFX.BitCrusher ℚ)
          3 1 1) (some [32767, 0, -32768]) (([32767, 0, -32768] : List Int).length : Int)).2 =
          some out ∧
      (∀ o ∈ out, ∃ q : Int, 0 ≤ q ∧
        q ≤ 2 ^ (SimpleFX.BitCrusher.setParams
          (SimpleFX.BitCrusher.construct : SimpleFX.BitCrusher ℚ) 3 1 1).bits.toNat - 1 ∧
        o = SimpleFX.floatToInt16
          (2 * (q : ℚ) /
            (2 : ℚ) ^ (SimpleFX.BitCrusher.setParams
              (SimpleFX.BitCrusher.construct : SimpleFX.BitCrusher ℚ) 3 1 1).bits.toNat - 1)) ∧
      out.toFinset.card ≤ 2 ^ (SimpleFX.BitCrusher.setParams
        (SimpleFX.BitCrusher.construct : SimpleFX.BitCrusher ℚ) 3 1 1).bits.toNat :=
  (C26_bitcrusher_levels (SimpleFX.BitCrusher.construct : SimpleFX.BitCrusher ℚ) 3 1).2.1
    [32767, 0, -32768]

/-- C27 (amended): flanger read position, for a sine with values in [-1, 1] and every
state reached from the constructed instance by `reset`, `setSampleRate`, `setParams`
and `processBlock`: the modulated delay is in `[0, MAX_DELAY_SAMPLES - 2]` (the clamp
`if (delaySamp < 0) delaySamp = 0` lets it reach 0, which it does when
`baseMs = depthMs = 0`), and it is at least one sample when `baseMs * sr >= 1000`. With
a delay of at least one sample `idx0` is not the cell at the write index, and `idx1`
is not either unless its weight is 0; with a delay of 0 the read returns the cell at
the write index, which is about to be overwritten. -/
theorem C27_flanger_read_position {α : Type} [LinearOrderedField α] [FloorRing α]
    (L : Pedal.Libm α) (hsin : ∀ x, -1 ≤ L.sinf x ∧ L.sinf x ≤ 1)
    (st : SimpleFX.Flanger α) (h : SimpleFX.Flanger.Reachable L st) :
    (0 ≤ SimpleFX.Flanger.delaySamples L st ∧ SimpleFX.Flanger.delaySamples L st ≤ 2046) ∧
    (1000 ≤ st.baseMs * st.sr → 1 ≤ SimpleFX.Flanger.delaySamples L st) ∧
    (st.baseMs = 0 → st.depthMs = 0 → SimpleFX.Flanger.delaySamples L st = 0) ∧
    SimpleFX.Flanger.readDelayed st (SimpleFX.Flanger.delaySamples L st) =
      st.buf (SimpleFX.Flanger.idx0 st (SimpleFX.Flanger.delaySamples L st)).toNat +
        (SimpleFX.Flanger.readIndex st (SimpleFX.Flanger.delaySamples L st) -
          (SimpleFX.Flanger.idx0 st (SimpleFX.Flanger.delaySamples L st) : α)) *
        (st.buf (SimpleFX.Flanger.idx1 st (SimpleFX.Flanger.delaySamples L st)).toNat -
          st.buf (SimpleFX.Flanger.idx0 st (SimpleFX.Flanger.delaySamples L st)).toNat) ∧
    (1 ≤ SimpleFX.Flanger.delaySamples L st →
      SimpleFX.Flanger.idx0 st (SimpleFX.Flanger.delaySamples L st) ≠ (st.w : Int) ∧
      (SimpleFX.Flanger.idx1 st (SimpleFX.Flanger.delaySamples L st) ≠ (st.w : Int) ∨
        SimpleFX.Flanger.readIndex st (SimpleFX.Flanger.delaySamples L st) -
          (SimpleFX.Flanger.idx0 st (SimpleFX.Flanger.delaySamples L st) : α) = 0)) ∧
    (SimpleFX.Flanger.delaySamples L st = 0 →
      SimpleFX.Flanger.idx0 st (SimpleFX.Flanger.delaySamples L st) = (st.w : Int) ∧
      SimpleFX.Flanger.readDelayed st (SimpleFX.Flanger.delaySamples L st) = st.buf st.w) := by
  obtain ⟨hw, _, hb, hd, hsr⟩ := SimpleFX.flanger_reachable_wf L st h
  obtain ⟨d0, d1⟩ := SimpleFX.flanger_delay_mem L st
  refine ⟨⟨d0, d1⟩, fun hbase => ?_, SimpleFX.flanger_delay_zero L st,
    SimpleFX.flanger_readDelayed_eq st _, fun h1 => ?_, fun h0 => ?_⟩
  · exact SimpleFX.flanger_delay_ge_one L hsin st hd.1 (by linarith) hbase
  · obtain ⟨a, b⟩ := SimpleFX.flanger_read_avoids_write st hw _ h1 d1
    refine ⟨a, ?_⟩
    by_cases hc : SimpleFX.Flanger.idx1 st (SimpleFX.Flanger.delaySamples L st) = (st.w : Int)
    · exact Or.inr (b hc)
    · exact Or.inl hc
  · rw [h0]
    exact SimpleFX.flanger_read_zero st hw

/-- Witness of C27 (amended): with the real sine, the constructed flanger (base delay
2 ms at 44.1 kHz): the modulated delay is at least one sample and the first blended
cell is not the cell at the write index. -/
theorem C27_flanger_read_position_witness :
    1 ≤ SimpleFX.Flanger.delaySamples Pedal.realLibm
      (SimpleFX.Flanger.construct : SimpleFX.Flanger ℝ) ∧
    SimpleFX.Flanger.idx0 (SimpleFX.Flanger.construct : SimpleFX.Flanger ℝ)
      (SimpleFX.Flanger.delaySamples Pedal.realLibm
        (SimpleFX.Flanger.construct : SimpleFX.Flanger ℝ)) ≠
      (((SimpleFX.Flanger.construct : SimpleFX.Flanger ℝ).w : Nat) : Int) :=
  have key := C27_flanger_read_position Pedal.realLibm
    (fun x => ⟨Real.neg_one_le_sin x, Real.sin_le_one x⟩)
    (SimpleFX.Flanger.construct : SimpleFX.Flanger ℝ) SimpleFX.Flanger.Reachable.construct
  have h1 : 1 ≤ SimpleFX.Flanger.delaySamples Pedal.realLibm
      (SimpleFX.Flanger.construct : SimpleFX.Flanger ℝ) :=
    key.2.1 (by simp only [SimpleFX.Flanger.construct]; norm_num)
  ⟨h1, (key.2.2.2.2.1 h1).1⟩

/-- C27 (counterexample): after `setParams(0, 0, 0.25, 0.2, 0.6)` on the constructed
flanger the modulated delay is 0, not at least one sample, and the first blended cell
is the cell at the write index. -/
theorem C27_counterexample :
    SimpleFX.Flanger.delaySamples Pedal.realLibm
      (SimpleFX.Flanger.setParams (SimpleFX.Flanger.construct : SimpleFX.Flanger ℝ)
        0 0 0.25 0.2 0.6) = 0 ∧
    ¬ (1 ≤ SimpleFX.Flanger.delaySamples Pedal.realLibm
      (SimpleFX.Flanger.setParams (SimpleFX.Flanger.construct : SimpleFX.Flanger ℝ)
        0 0 0.25 0.2 0.6)) ∧
    SimpleFX.Flanger.idx0
      (SimpleFX.Flanger.setParams (SimpleFX.Flanger.construct : SimpleFX.Flanger ℝ)
        0 0 0.25 0.2 0.6) 0 =
      (((SimpleFX.Flanger.setParams (SimpleFX.Flanger.construct : SimpleFX.Flanger ℝ)
        0 0 0.25 0.2 0.6).w : Nat) : Int) := by
  have h0 : SimpleFX.Flanger.delaySamples Pedal.realLibm
      (SimpleFX.Flanger.setParams (SimpleFX.Flanger.construct : SimpleFX.Flanger ℝ)
        0 0 0.25 0.2 0.6) = 0 :=
    SimpleFX.flanger_delay_zero _ _ (by simp [SimpleFX.Flanger.setParams, SimpleFX.clampf])
      (by simp [SimpleFX.Flanger.setParams, SimpleFX.clampf])
  refine ⟨h0, ?_, (SimpleFX.flanger_read_zero _ ?_).1⟩
  · rw [h0]
    norm_num
  · show 0 < 2048
    norm_num

/-! ### Octave engine: the gate on the envelope -/

namespace OctaveEffect

open Pedal

variable {α : Type} [LinearOrderedField α] [FloorRing α]

/-- The envelope, lock flag and hang counter after one sample: the envelope follower
runs on the rectified sample and the gate on the updated envelope. -/
theorem sampleStep_gate (L : Libm α) (fs : α) (c : Tuning α) (st : State α) (s : Int) :
    (sampleStep L fs c st s).1.env = envFollow st.env |(s : α) / 32768| ∧
    (sampleStep L fs c st s).1.trackingActive =
      (gateStep c (sampleStep L fs c st s).1.env st.trackingActive st.hangSamples).1 ∧
    (sampleStep L fs c st s).1.hangSamples =
      (gateStep c (sampleStep L fs c st s).1.env st.trackingActive st.hangSamples).2 :=
  ⟨rfl, rfl, rfl⟩

omit [FloorRing α] in
/-- The gate from the unlocked state: it locks, loading the hang counter, exactly when
the envelope exceeds `gateOn`. -/
theorem gateStep_inactive (c : Tuning α) (env : α) (h : Int) :
    ((gateStep c env false h).1 = true ↔ c.gateOn < env) ∧
    (c.gateOn < env → (gateStep c env false h).2 = c.hangMax) ∧
    (¬ c.gateOn < env → (gateStep c env false h).2 = h) := by
  unfold gateStep
  by_cases hg : env > c.gateOn
  · simp [hg]
  · simp [hg]

omit [FloorRing α] in
/-- The gate from the locked state. -/
theorem gateStep_active (c : Tuning α) (env : α) (h : Int) :
    (c.gateOff ≤ env → gateStep c env true h = (true, c.hangMax)) ∧
    (env < c.gateOff → 0 < h → gateStep c env true h = (true, h - 1)) ∧
    (env < c.gateOff → h ≤ 0 → gateStep c env true h = (false, h)) := by
  unfold gateStep
  refine ⟨fun h1 => ?_, fun h1 h2 => ?_, fun h1 h2 => ?_⟩
  · simp [not_lt.mpr h1]
  · simp [h1, h2]
  · simp [h1, not_lt.mpr h2]

end OctaveEffect

/-! ### Octave engine: lock and convergence of the tracker -/

namespace OctaveEffect

open Pedal

variable {α : Type} [LinearOrderedField α] [FloorRing α]

end OctaveEffect

namespace OctaveEffect

open Pedal

variable {α : Type} [LinearOrderedField α] [FloorRing α]

omit [FloorRing α] in
/-- A tracker update with a candidate within 18 % of the estimate: no snap, no jump
limit, the distance to the candidate shrinks by `1 - freqSmooth` and the candidate is
again within 18 % of the new estimate. -/
theorem trackUpdate_near (fs : α) (c : Tuning α) (F : α) (P : Int)
    (hs : 0.03 ≤ c.freqSmooth ∧ c.freqSmooth ≤ 0.22) (hmj : 0.18 ≤ c.maxJump)
    (hc : 55 ≤ fs / (P : α) ∧ fs / (P : α) ≤ 800) (hF : 0 < F)
    (hn : 0.82 * F ≤ fs / (P : α) ∧ fs / (P : α) ≤ 1.18 * F) :
    trackUpdate fs c F P - fs / (P : α) = (1 - c.freqSmooth) * (F - fs / (P : α)) ∧
    0 < trackUpdate fs c F P ∧
    (0.82 * trackUpdate fs c F P ≤ fs / (P : α) ∧
      fs / (P : α) ≤ 1.18 * trackUpdate fs c F P) := by
  rw [trackUpdate_eq fs c F P]
  generalize fs / (P : α) = c0 at hc hn ⊢
  have hcond : c0 ≥ fMin ∧ c0 ≤ fMax := by
    simp only [fMin, fMax]; exact ⟨hc.1, hc.2⟩
  have hsnap : octaveSnap F c0 = c0 := by
    apply (octaveSnap_cases F c0 hF).2
    intro h
    rcases h with h | h
    · linarith [h.1, hn.2]
    · linarith [h.2, hn.1]
  have hmF' : 0.18 * F ≤ c.maxJump * F := mul_le_mul_of_nonneg_right hmj hF.le
  have hjump : jumpLimit c F c0 = c0 := by
    have c1 : ¬ (c0 < F * (1 - c.maxJump)) := by
      rw [not_lt]
      have : F * (1 - c.maxJump) = F - c.maxJump * F := by ring
      rw [this]; linarith [hn.1]
    have c2 : ¬ (c0 > F * (1 + c.maxJump)) := by
      rw [gt_iff_lt, not_lt]
      have : F * (1 + c.maxJump) = F + c.maxJump * F := by ring
      rw [this]; linarith [hn.2]
    simp only [jumpLimit, c1, c2, if_false]
  rw [if_pos hcond, hsnap, hjump]
  have e : F + c.freqSmooth * (c0 - F) = (1 - c.freqSmooth) * F + c.freqSmooth * c0 := by ring
  have k1 : (0 : α) < 1 - c.freqSmooth := by linarith [hs.2]
  have k0 : (0 : α) ≤ c.freqSmooth := by linarith [hs.1]
  have hc0 : (0 : α) < c0 := by linarith [hc.1]
  have m1 := mul_pos k1 hF
  have m2 := mul_nonneg k0 hc0.le
  have m3 := mul_le_mul_of_nonneg_left hn.1 k1.le
  have m4 := mul_le_mul_of_nonneg_left hn.2 k1.le
  refine ⟨by ring, by rw [e]; linarith, ?_, ?_⟩
  · rw [e]
    have : 0.82 * ((1 - c.freqSmooth) * F + c.freqSmooth * c0) =
        (1 - c.freqSmooth) * (0.82 * F) + 0.82 * (c.freqSmooth * c0) := by ring
    rw [this]
    linarith
  · rw [e]
    have : 1.18 * ((1 - c.freqSmooth) * F + c.freqSmooth * c0) =
        (1 - c.freqSmooth) * (1.18 * F) + 1.18 * (c.freqSmooth * c0) := by ring
    rw [this]
    linarith

omit [FloorRing α] in
/-- A tracker update with a candidate in the upper octave-snap band of the estimate:
the candidate is halved, the distance to half the candidate shrinks by
`1 - freqSmooth` and the candidate is again in the snap band of the new estimate. -/
theorem trackUpdate_snap (fs : α) (c : Tuning α) (F : α) (P : Int)
    (hs : 0.03 ≤ c.freqSmooth ∧ c.freqSmooth ≤ 0.22) (hmj : 0.18 ≤ c.maxJump)
    (hc : 55 ≤ fs / (P : α) ∧ fs / (P : α) ≤ 800) (hF : 0 < F)
    (hn : 1.8 * F < fs / (P : α) ∧ fs / (P : α) < 2.2 * F) :
    trackUpdate fs c F P - fs / (P : α) / 2 =
      (1 - c.freqSmooth) * (F - fs / (P : α) / 2) ∧
    0 < trackUpdate fs c F P ∧
    (1.8 * trackUpdate fs c F P < fs / (P : α) ∧
      fs / (P : α) < 2.2 * trackUpdate fs c F P) := by
  rw [trackUpdate_eq fs c F P]
  generalize fs / (P : α) = c0 at hc hn ⊢
  have hcond : c0 ≥ fMin ∧ c0 ≤ fMax := by
    simp only [fMin, fMax]; exact ⟨hc.1, hc.2⟩
  have hsnap : octaveSnap F c0 = c0 * 0.5 := by
    have c1 : c0 > 1.80 * F ∧ c0 < 2.20 * F := ⟨by linarith [hn.1], by linarith [hn.2]⟩
    have c2 : ¬ (c0 * 0.5 > 0.45 * F ∧ c0 * 0.5 < 0.55 * F) := by
      intro h; linarith [h.2, hn.1]
    simp only [octaveSnap, c1, and_self, if_true, c2, if_false]
  have hmF' : 0.18 * F ≤ c.maxJump * F := mul_le_mul_of_nonneg_right hmj hF.le
  have hjump : jumpLimit c F (c0 * 0.5) = c0 * 0.5 := by
    have c1 : ¬ (c0 * 0.5 < F * (1 - c.maxJump)) := by
      rw [not_lt]
      have : F * (1 - c.maxJump) = F - c.maxJump * F := by ring
      rw [this]; linarith [hn.1]
    have c2 : ¬ (c0 * 0.5 > F * (1 + c.maxJump)) := by
      rw [gt_iff_lt, not_lt]
      have : F * (1 + c.maxJump) = F + c.maxJump * F := by ring
      rw [this]; linarith [hn.2]
    simp only [jumpLimit, c1, c2, if_false]
  rw [if_pos hcond, hsnap, hjump]
  have e : F + c.freqSmooth * (c0 * 0.5 - F) =
      (1 - c.freqSmooth) * F + c.freqSmooth * (c0 * 0.5) := by ring
  have k1 : (0 : α) < 1 - c.freqSmooth := by linarith [hs.2]
  have k0 : (0 : α) < c.freqSmooth := by linarith [hs.1]
  have hc0 : (0 : α) < c0 := by linarith [hc.1]
  have m1 := mul_pos k1 hF
  have m2 := mul_pos k0 hc0
  have m3 := mul_lt_mul_of_pos_left hn.1 k1
  have m4 := mul_lt_mul_of_pos_left hn.2 k1
  refine ⟨by ring, by rw [e]; linarith, ?_, ?_⟩
  · rw [e]
    have : 1.8 * ((1 - c.freqSmooth) * F + c.freqSmooth * (c0 * 0.5)) =
        (1 - c.freqSmooth) * (1.8 * F) + 0.9 * (c.freqSmooth * c0) := by ring
    rw [this]
    linarith
  · rw [e]
    have : 2.2 * ((1 - c.freqSmooth) * F + c.freqSmooth * (c0 * 0.5)) =
        (1 - c.freqSmooth) * (2.2 * F) + 1.1 * (c.freqSmooth * c0) := by ring
    rw [this]
    linarith

omit [FloorRing α] in
/-- Under a steady detected period, from a candidate within 18 % of the estimate. -/
theorem trackUpdate_iterate_near (fs : α) (c : Tuning α) (F0 : α) (P : Int)
    (hs : 0.03 ≤ c.freqSmooth ∧ c.freqSmooth ≤ 0.22) (hmj : 0.18 ≤ c.maxJump)
    (hc : 55 ≤ fs / (P : α) ∧ fs / (P : α) ≤ 800) (hF : 0 < F0)
    (hn : 0.82 * F0 ≤ fs / (P : α) ∧ fs / (P : α) ≤ 1.18 * F0) (k : Nat) :
    (fun F => trackUpdate fs c F P)^[k] F0 - fs / (P : α) =
        (1 - c.freqSmooth) ^ k * (F0 - fs / (P : α)) ∧
    0 < (fun F => trackUpdate fs c F P)^[k] F0 ∧
    (0.82 * (fun F => trackUpdate fs c F P)^[k] F0 ≤ fs / (P : α) ∧
      fs / (P : α) ≤ 1.18 * (fun F => trackUpdate fs c F P)^[k] F0) := by
  induction k with
  | zero => simp only [Function.iterate_zero, id_eq, pow_zero, one_mul]; exact ⟨trivial, hF, hn⟩
  | succ k ih =>
    obtain ⟨i1, i2, i3⟩ := ih
    obtain ⟨j1, j2, j3⟩ := trackUpdate_near fs c _ P hs hmj hc i2 i3
    rw [Function.iterate_succ_apply']
    refine ⟨?_, j2, j3⟩
    rw [j1, i1, pow_succ]
    ring

omit [FloorRing α] in
/-- Under a steady detected period, from a candidate in the upper snap band. -/
theorem trackUpdate_iterate_snap (fs : α) (c : Tuning α) (F0 : α) (P : Int)
    (hs : 0.03 ≤ c.freqSmooth ∧ c.freqSmooth ≤ 0.22) (hmj : 0.18 ≤ c.maxJump)
    (hc : 55 ≤ fs / (P : α) ∧ fs / (P : α) ≤ 800) (hF : 0 < F0)
    (hn : 1.8 * F0 < fs / (P : α) ∧ fs / (P : α) < 2.2 * F0) (k : Nat) :
    (fun F => trackUpdate fs c F P)^[k] F0 - fs / (P : α) / 2 =
        (1 - c.freqSmooth) ^ k * (F0 - fs / (P : α) / 2) ∧
    0 < (fun F => trackUpdate fs c F P)^[k] F0 ∧
    (1.8 * (fun F => trackUpdate fs c F P)^[k] F0 < fs / (P : α) ∧
      fs / (P : α) < 2.2 * (fun F => trackUpdate fs c F P)^[k] F0) := by
  induction k with
  | zero => simp only [Function.iterate_zero, id_eq, pow_zero, one_mul]; exact ⟨trivial, hF, hn⟩
  | succ k ih =>
    obtain ⟨i1, i2, i3⟩ := ih
    obtain ⟨j1, j2, j3⟩ := trackUpdate_snap fs c _ P hs hmj hc i2 i3
    rw [Function.iterate_succ_apply']
    refine ⟨?_, j2, j3⟩
    rw [j1, i1, pow_succ]
    ring

end OctaveEffect

/-! ### Octave engine: a sine tracked end to end -/

namespace OctaveEffect

open Pedal

variable {α : Type} [LinearOrderedField α] [FloorRing α]

end OctaveEffect

namespace OctaveEffect

open Pedal

variable {α : Type} [LinearOrderedField α] [FloorRing α]

end OctaveEffect

namespace Pedal

end Pedal

namespace Pedal

end Pedal

namespace OctaveEffect

open Pedal

section Zones

variable {L : Libm ℝ} {fs : ℝ} {c : Tuning ℝ} {S : Nat → State ℝ} {q : Nat → Int}
  {ω φ G T b δ : ℝ}

end Zones

end OctaveEffect

namespace OctaveEffect

open Pedal

section Zones

variable {L : Libm ℝ} {fs : ℝ} {c : Tuning ℝ} {S : Nat → State ℝ} {q : Nat → Int}
  {ω φ G T b δ : ℝ}

end Zones

end OctaveEffect

namespace OctaveEffect

open Pedal

section Zones

variable {L : Libm ℝ} {fs : ℝ} {c : Tuning ℝ} {S : Nat → State ℝ} {q : Nat → Int}
  {ω φ G T b δ : ℝ}

end Zones

end OctaveEffect

namespace OctaveEffect

open Pedal

variable {α : Type} [LinearOrderedField α] [FloorRing α]

end OctaveEffect

namespace OctaveEffect

open Pedal

section Bookkeeping

variable {L : Libm ℝ} {fs : ℝ} {c : Tuning ℝ} {S : Nat → State ℝ} {q : Nat → Int}
  {ω φ G T b δ : ℝ}

end Bookkeeping

end OctaveEffect

namespace OctaveEffect

open Pedal

section Bookkeeping

variable {L : Libm ℝ} {fs : ℝ} {c : Tuning ℝ} {S : Nat → State ℝ} {q : Nat → Int}
  {ω φ G T b δ : ℝ}

end Bookkeeping

end OctaveEffect

namespace OctaveEffect

open Pedal

section Bookkeeping

variable {L : Libm ℝ} {fs : ℝ} {c : Tuning ℝ} {S : Nat → State ℝ} {q : Nat → Int}
  {ω φ G T b δ : ℝ}

end Bookkeeping

end OctaveEffect

namespace Pedal

end Pedal

namespace OctaveEffect

open Pedal

end OctaveEffect

namespace Pedal

end Pedal

namespace OctaveEffect

open Pedal

end OctaveEffect

namespace Pedal

end Pedal

namespace OctaveEffect

open Pedal

end OctaveEffect

namespace Pedal

end Pedal

namespace OctaveEffect

open Pedal

end OctaveEffect

namespace Pedal

variable {α : Type} [LinearOrderedField α] [FloorRing α]

/-- The read position and the two cell indices of the fractional read are inside the
ring and the fraction is in [0, 1). -/
theorem ring_read_indices (cap : Nat) (hcap : 0 < cap) (w : Nat) (d : α) :
    (0 ≤ ringPos cap w d ∧ ringPos cap w d < (cap : α)) ∧
    ringI0 cap w d = ⌊ringPos cap w d⌋ ∧
    (0 ≤ ringI0 cap w d ∧ ringI0 cap w d ≤ (cap : Int) - 1) ∧
    ringI1 cap w d = (ringI0 cap w d + 1) % (cap : Int) ∧
    (0 ≤ ringI1 cap w d ∧ ringI1 cap w d ≤ (cap : Int) - 1) ∧
    (0 ≤ ringFrac cap w d ∧ ringFrac cap w d < 1) := by
  have hm : (0 : α) < (cap : α) := by exact_mod_cast hcap
  obtain ⟨h0, h1⟩ := wrapLoops_mem (cap : α) ((w : α) - d) hm
  have hpos : ringPos cap w d = wrapLoops (cap : α) ((w : α) - d) := rfl
  have hi0 : ringI0 cap w d = ⌊ringPos cap w d⌋ := by
    unfold ringI0
    rw [truncToInt_of_nonneg (by rw [hpos]; exact h0)]
  have hi0nn : 0 ≤ ringI0 cap w d := by
    rw [hi0]
    exact Int.floor_nonneg.mpr (by rw [hpos]; exact h0)
  have hi0lt : ringI0 cap w d < (cap : Int) := by
    rw [hi0, Int.floor_lt]
    rw [hpos]
    exact_mod_cast h1
  have hcapI : (0 : Int) < (cap : Int) := by exact_mod_cast hcap
  have hi1 : ringI1 cap w d = (ringI0 cap w d + 1) % (cap : Int) := by
    unfold ringI1
    split_ifs with h
    · have e : ringI0 cap w d + 1 = (cap : Int) := by omega
      rw [e, Int.emod_self]
    · rw [Int.emod_eq_of_lt (by omega) (by omega)]
  refine ⟨⟨by rw [hpos]; exact h0, by rw [hpos]; exact h1⟩, hi0, ⟨hi0nn, by omega⟩, hi1, ?_, ?_⟩
  · rw [hi1]
    have := Int.emod_nonneg (ringI0 cap w d + 1) hcapI.ne.symm
    have := Int.emod_lt_of_pos (ringI0 cap w d + 1) hcapI
    constructor <;> omega
  · unfold ringFrac
    rw [hi0]
    constructor
    · linarith [Int.floor_le (ringPos cap w d)]
    · linarith [Int.lt_floor_add_one (ringPos cap w d)]

end Pedal

/-- C29: fractional-read index safety, in exact arithmetic: for every ring capacity
`N >= 1`, every write index `w` and every delay `d` (negative, zero or larger than `N`
included), the two wrap loops run to completion with a read position `rp` in `[0, N)`;
`i0 = floor(rp)` is in `[0, N - 1]`, `i1 = (i0 + 1) mod N` is in `[0, N - 1]`, the
interpolation fraction is in `[0, 1)`; and the rotary `fracDelayRead`, the predelay
`DelayLine::readFrac` and `PitchShift::readFrac` read exactly the cells `i0` and `i1`. -/
theorem C29_fractional_read_index_safety {α : Type} [LinearOrderedField α] [FloorRing α]
    (N : Nat) (hN : 0 < N) (w : Nat) (d : α) :
    ((0 ≤ Pedal.ringPos N w d ∧ Pedal.ringPos N w d < (N : α)) ∧
      Pedal.ringI0 N w d = ⌊Pedal.ringPos N w d⌋ ∧
      (0 ≤ Pedal.ringI0 N w d ∧ Pedal.ringI0 N w d ≤ (N : Int) - 1) ∧
      Pedal.ringI1 N w d = (Pedal.ringI0 N w d + 1) % (N : Int) ∧
      (0 ≤ Pedal.ringI1 N w d ∧ Pedal.ringI1 N w d ≤ (N : Int) - 1) ∧
      (0 ≤ Pedal.ringFrac N w d ∧ Pedal.ringFrac N w d < 1)) ∧
    (∀ buf : Nat → Int, LeslieEffect.fracDelayRead buf N w d =
      (1 - Pedal.ringFrac N w d) * ((buf (Pedal.ringI0 N w d).toNat : Int) : α) +
        Pedal.ringFrac N w d * ((buf (Pedal.ringI1 N w d).toNat : Int) : α)) ∧
    (∀ dl : OrchestraEffect.DelayLine α, dl.readFrac d =
      dl.buf (Pedal.ringI0 OrchestraEffect.DelayLine.MAX dl.w d).toNat +
        Pedal.ringFrac OrchestraEffect.DelayLine.MAX dl.w d *
          (dl.buf (Pedal.ringI1 OrchestraEffect.DelayLine.MAX dl.w d).toNat -
            dl.buf (Pedal.ringI0 OrchestraEffect.DelayLine.MAX dl.w d).toNat)) ∧
    (∀ ps : OrchestraEffect.PitchShift α, ps.readFrac d =
      ps.buf (Pedal.ringI0 OrchestraEffect.PitchShift.BUF ps.w d).toNat +
        Pedal.ringFrac OrchestraEffect.PitchShift.BUF ps.w d *
          (ps.buf (Pedal.ringI1 OrchestraEffect.PitchShift.BUF ps.w d).toNat -
            ps.buf (Pedal.ringI0 OrchestraEffect.PitchShift.BUF ps.w d).toNat)) :=
  ⟨Pedal.ring_read_indices N hN w d, fun _ => rfl, fun _ => rfl, fun _ => rfl⟩

/-- Witness of C29: the rotary ring of 4096 cells, write index 5, and the delay 10000.5
over the rationals: the read position is 2293.5. -/
theorem C29_fractional_read_index_safety_witness :
    (0 ≤ Pedal.ringI0 4096 5 (10000.5 : ℚ) ∧ Pedal.ringI0 4096 5 (10000.5 : ℚ) ≤ 4095) ∧
    (0 ≤ Pedal.ringI1 4096 5 (10000.5 : ℚ) ∧ Pedal.ringI1 4096 5 (10000.5 : ℚ) ≤ 4095) ∧
    (0 ≤ Pedal.ringFrac 4096 5 (10000.5 : ℚ) ∧ Pedal.ringFrac 4096 5 (10000.5 : ℚ) < 1) :=
  ⟨(C29_fractional_read_index_safety 4096 (by norm_num) 5 (10000.5 : ℚ)).1.2.2.1,
   (C29_fractional_read_index_safety 4096 (by norm_num) 5 (10000.5 : ℚ)).1.2.2.2.2.1,
   (C29_fractional_read_index_safety 4096 (by norm_num) 5 (10000.5 : ℚ)).1.2.2.2.2.2⟩

/-! ### Octave engine: the gate with hysteresis and hang -/

namespace OctaveEffect

open Pedal

variable {α : Type} [LinearOrderedField α] [FloorRing α]

/-- The hang countdown: locked with counter `h >= 0`, and the envelope below `gateOff`
after each of the following samples. -/
theorem gate_countdown (L : Libm α) (fs : α) (c : Tuning α) :
    ∀ (xs : List Int) (st : State α) (h : Int), st.trackingActive = true →
      st.hangSamples = h → 0 ≤ h →
      (∀ k : Nat, k < xs.length →
        (runBlock (sampleStep L fs c) st (xs.take (k + 1))).1.env < c.gateOff) →
      ∀ k : Nat, k ≤ xs.length →
        (((k : Int) ≤ h →
          (runBlock (sampleStep L fs c) st (xs.take k)).1.trackingActive = true ∧
          (runBlock (sampleStep L fs c) st (xs.take k)).1.hangSamples = h - k) ∧
        ((k : Int) = h + 1 →
          (runBlock (sampleStep L fs c) st (xs.take k)).1.trackingActive = false)) := by
  intro xs
  induction xs with
  | nil =>
    intro st h ha hh h0 _ k hk
    have hk0 : k = 0 := by simpa using hk
    subst hk0
    simp only [List.take_nil, runBlock]
    exact ⟨fun _ => ⟨ha, by simp [hh]⟩, fun hc => by simp at hc; omega⟩
  | cons x xs ih =>
    intro st h ha hh h0 henv k hk
    cases k with
    | zero =>
      simp only [List.take_zero, runBlock]
      exact ⟨fun _ => ⟨ha, by simp [hh]⟩, fun hc => by simp at hc; omega⟩
    | succ k =>
      have hk' : k ≤ xs.length := by simpa using hk
      have e : ∀ j : Nat, runBlock (sampleStep L fs c) st ((x :: xs).take (j + 1)) =
          (let r := sampleStep L fs c st x
           let rest := runBlock (sampleStep L fs c) r.1 (xs.take j)
           (rest.1, r.2 :: rest.2)) := fun j => rfl
      have henv0 := henv 0 (by simp)
      rw [e 0] at henv0
      simp only [List.take_zero, runBlock] at henv0
      obtain ⟨_, g1, g2⟩ := sampleStep_gate L fs c st x
      rw [ha, hh] at g1 g2
      have henv' : ∀ j : Nat, j < xs.length →
          (runBlock (sampleStep L fs c) (sampleStep L fs c st x).1 (xs.take (j + 1))).1.env <
            c.gateOff := by
        intro j hj
        have := henv (j + 1) (by simpa using hj)
        rw [e (j + 1)] at this
        exact this
      rw [e k]
      simp only []
      obtain ⟨_, a2, a3⟩ := gateStep_active c (sampleStep L fs c st x).1.env h
      by_cases hpos : 0 < h
      · rw [a2 henv0 hpos] at g1 g2
        have := ih (sampleStep L fs c st x).1 (h - 1) g1 g2 (by omega) henv' k hk'
        refine ⟨fun hle => ?_, fun heq => ?_⟩
        · obtain ⟨b1, b2⟩ := this.1 (by push_cast at hle; omega)
          exact ⟨b1, by rw [b2]; push_cast; ring⟩
        · exact this.2 (by push_cast at heq; omega)
      · have h0' : h = 0 := by omega
        rw [a3 henv0 (by omega)] at g1 g2
        refine ⟨fun hle => ?_, fun heq => ?_⟩
        · push_cast at hle; omega
        · have hk0 : k = 0 := by push_cast at heq; omega
          subst hk0
          simp only [List.take_zero, runBlock]
          exact g1

end OctaveEffect

/-- C30: octave gate with hysteresis and hang, for every sample rate and knob vector:
`gateOn > gateOff > 0`; the lock flag and the hang counter after a sample are the gate
applied to the envelope as updated on that sample; from the unlocked state the tracker
locks exactly on a sample whose envelope exceeds `gateOn`, loading the hang counter with
`hangMax`; when locked, a sample with envelope `>= gateOff` keeps the lock and reloads
the counter to `hangMax`; and if the tracker is locked with hang counter `h >= 0` and
the envelope is below `gateOff` after each of the following samples, the tracker is
still locked after `k` samples for every `k <= h` (with counter `h - k`) and is unlocked
after sample `h + 1`. -/
theorem C30_gate_hysteresis_hang {α : Type} [LinearOrderedField α] [FloorRing α]
    (L : Pedal.Libm α) (fs : α) (p : OctaveEffect.Params α) :
    (0 < (OctaveEffect.tuning fs p).gateOff ∧
      (OctaveEffect.tuning fs p).gateOff < (OctaveEffect.tuning fs p).gateOn) ∧
    (∀ (st : OctaveEffect.State α) (s : Int), st.trackingActive = false →
      ((OctaveEffect.sampleStep L fs (OctaveEffect.tuning fs p) st s).1.trackingActive = true ↔
        (OctaveEffect.tuning fs p).gateOn <
          (OctaveEffect.sampleStep L fs (OctaveEffect.tuning fs p) st s).1.env) ∧
      ((OctaveEffect.tuning fs p).gateOn <
          (OctaveEffect.sampleStep L fs (OctaveEffect.tuning fs p) st s).1.env →
        (OctaveEffect.sampleStep L fs (OctaveEffect.tuning fs p) st s).1.hangSamples =
          (OctaveEffect.tuning fs p).hangMax)) ∧
    (∀ (st : OctaveEffect.State α) (s : Int), st.trackingActive = true →
      (OctaveEffect.tuning fs p).gateOff ≤
          (OctaveEffect.sampleStep L fs (OctaveEffect.tuning fs p) st s).1.env →
      (OctaveEffect.sampleStep L fs (OctaveEffect.tuning fs p) st s).1.trackingActive = true ∧
      (OctaveEffect.sampleStep L fs (OctaveEffect.tuning fs p) st s).1.hangSamples =
        (OctaveEffect.tuning fs p).hangMax) ∧
    (∀ (st : OctaveEffect.State α) (xs : List Int) (h : Int), st.trackingActive = true →
      st.hangSamples = h → 0 ≤ h →
      (∀ k : Nat, k < xs.length →
        (OctaveEffect.processMono L st (xs.take (k + 1)) fs p).1.env <
          (OctaveEffect.tuning fs p).gateOff) →
      ∀ k : Nat, k ≤ xs.length →
        (((k : Int) ≤ h →
          (OctaveEffect.processMono L st (xs.take k) fs p).1.trackingActive = true ∧
          (OctaveEffect.processMono L st (xs.take k) fs p).1.hangSamples = h - k) ∧
        ((k : Int) = h + 1 →
          (OctaveEffect.processMono L st (xs.take k) fs p).1.trackingActive = false))) := by
  refine ⟨OctaveEffect.tuning_gate_pos fs p, ?_, ?_, ?_⟩
  · intro st s ha
    obtain ⟨_, g1, g2⟩ := OctaveEffect.sampleStep_gate L fs (OctaveEffect.tuning fs p) st s
    rw [ha] at g1 g2
    obtain ⟨i1, i2, _⟩ := OctaveEffect.gateStep_inactive (OctaveEffect.tuning fs p)
      (OctaveEffect.sampleStep L fs (OctaveEffect.tuning fs p) st s).1.env st.hangSamples
    rw [g1, g2]
    exact ⟨i1, i2⟩
  · intro st s ha henv
    obtain ⟨_, g1, g2⟩ := OctaveEffect.sampleStep_gate L fs (OctaveEffect.tuning fs p) st s
    rw [ha] at g1 g2
    obtain ⟨a1, _, _⟩ := OctaveEffect.gateStep_active (OctaveEffect.tuning fs p)
      (OctaveEffect.sampleStep L fs (OctaveEffect.tuning fs p) st s).1.env st.hangSamples
    rw [a1 henv] at g1 g2
    exact ⟨g1, g2⟩
  · intro st xs h ha hh h0 henv
    exact OctaveEffect.gate_countdown L fs (OctaveEffect.tuning fs p) xs st h ha hh h0 henv

namespace OctaveEffect

open Pedal

variable {α : Type} [LinearOrderedField α] [FloorRing α]

/-- On zero samples an envelope at 0 stays at 0. -/
theorem runBlock_env_zero (L : Libm α) (fs : α) (c : Tuning α) (xs : List Int)
    (hxs : ∀ x ∈ xs, x = 0) (st : State α) (h : st.env = 0) :
    (runBlock (sampleStep L fs c) st xs).1.env = 0 :=
  (runBlock_forall_inv (sampleStep L fs c) (fun st => st.env = 0) (fun x => x = 0)
    (fun _ => True)
    (fun st x hst hx => by
      refine ⟨trivial, ?_⟩
      have hst' : st.env = 0 := hst
      have hx' : x = 0 := hx
      show (sampleStep L fs c st x).1.env = 0
      rw [(sampleStep_gate L fs c st x).1, hst', hx']
      simp [envFollow])
    xs st h hxs).2

end OctaveEffect

/-- Witness of C30: at 44.1 kHz with all knobs at 1, a locked tracker with hang counter
2 and envelope 0 on three silent samples: still locked after two samples, unlocked
after the third. -/
theorem C30_gate_hysteresis_hang_witness :
    (OctaveEffect.processMono Pedal.realLibm
        { (OctaveEffect.construct : OctaveEffect.State ℝ) with
          trackingActive := true, hangSamples := 2 }
        (([0, 0, 0] : List Int).take 2) 44100 ⟨1, 1, 1, 1⟩).1.trackingActive = true ∧
    (OctaveEffect.processMono Pedal.realLibm
        { (OctaveEffect.construct : OctaveEffect.State ℝ) with
          trackingActive := true, hangSamples := 2 }
        (([0, 0, 0] : List Int).take 3) 44100 ⟨1, 1, 1, 1⟩).1.trackingActive = false :=
  have key := (C30_gate_hysteresis_hang Pedal.realLibm (44100 : ℝ) ⟨1, 1, 1, 1⟩).2.2.2
    { (OctaveEffect.construct : OctaveEffect.State ℝ) with
      trackingActive := true, hangSamples := 2 }
    [0, 0, 0] 2 rfl rfl (by norm_num)
    (fun k _ => by
      have h0 := OctaveEffect.runBlock_env_zero Pedal.realLibm (44100 : ℝ)
        (OctaveEffect.tuning 44100 ⟨1, 1, 1, 1⟩) (([0, 0, 0] : List Int).take (k + 1))
        (fun x hx => by
          have := List.mem_of_mem_take hx
          simp at this
          exact this)
        { (OctaveEffect.construct : OctaveEffect.State ℝ) with
          trackingActive := true, hangSamples := 2 } rfl
      unfold OctaveEffect.processMono
      rw [h0]
      exact (OctaveEffect.tuning_gate_pos (44100 : ℝ) ⟨1, 1, 1, 1⟩).1)
  ⟨((key 2 (by simp)).1 (by norm_num)).1, (key 3 (by simp)).2 (by norm_num)⟩

/-! ### Octave engine: the down-voice gate and the up voice -/

namespace Pedal

/-- Two runs of a loop over the same block, with bodies that give equal outputs and
related states from related states, give equal output blocks and related states. -/
theorem runBlock_two_runs {σ τ ι ο : Type} (step1 : σ → ι → σ × ο) (step2 : τ → ι → τ × ο)
    (R : σ → τ → Prop)
    (h : ∀ a b x, R a b → (step1 a x).2 = (step2 b x).2 ∧ R (step1 a x).1 (step2 b x).1)
    (xs : List ι) :
    ∀ a b, R a b → (runBlock step1 a xs).2 = (runBlock step2 b xs).2 ∧
      R (runBlock step1 a xs).1 (runBlock step2 b xs).1 := by
  induction xs with
  | nil => intro a b hab; exact ⟨rfl, hab⟩
  | cons x xs ih =>
    intro a b hab
    obtain ⟨h1, h2⟩ := h a b x hab
    obtain ⟨h3, h4⟩ := ih _ _ h2
    simp only [runBlock, h1, h3]
    exact ⟨trivial, h4⟩

end Pedal

namespace OctaveEffect

open Pedal

variable {α : Type} [LinearOrderedField α] [FloorRing α]

omit [FloorRing α] in
/-- The envelope gate is in [0, 1], at most 0.25 when the tracker is not locked, and 0
when the envelope is at or below `gateOff`. -/
theorem envGateOf_facts (c : Tuning α) (env : α) (act : Bool) :
    (0 ≤ envGateOf c env act ∧ envGateOf c env act ≤ 1) ∧
    (act = false → envGateOf c env act ≤ 0.25) ∧
    (env ≤ c.gateOff → envGateOf c env act = 0) := by
  have hg : ∀ g : α, (0 ≤ (if (if g < 0 then 0 else g) > 1 then 1 else (if g < 0 then 0 else g)) ∧
      (if (if g < 0 then 0 else g) > 1 then 1 else (if g < 0 then 0 else g)) ≤ 1) ∧
      (g ≤ 0 → (if (if g < 0 then 0 else g) > 1 then 1 else (if g < 0 then 0 else g)) = 0) := by
    intro g
    constructor
    · split_ifs with h1 h2 h2
      · exact ⟨zero_le_one, le_refl _⟩
      · exact ⟨le_refl _, zero_le_one⟩
      · exact ⟨zero_le_one, le_refl _⟩
      · exact ⟨not_lt.mp h1, not_lt.mp h2⟩
    · intro h0
      split_ifs with h1 h2 h2
      · exact absurd h2 (by norm_num)
      · rfl
      · exact absurd h2 (not_lt.mpr (h0.trans zero_le_one))
      · exact le_antisymm h0 (not_lt.mp h1)
  obtain ⟨⟨g0, g1⟩, gz⟩ := hg ((env - c.gateOff) * 30)
  have hz : env ≤ c.gateOff → (env - c.gateOff) * 30 ≤ 0 := fun h =>
    mul_nonpos_of_nonpos_of_nonneg (by linarith) (by norm_num)
  cases act with
  | false =>
    simp only [envGateOf, Bool.not_false, if_true]
    refine ⟨⟨by linarith, by linarith⟩, fun _ => by linarith, fun h => ?_⟩
    rw [gz (hz h)]; norm_num
  | true =>
    simp only [envGateOf, Bool.not_true, Bool.false_eq_true, if_false]
    exact ⟨⟨g0, g1⟩, fun h => absurd h (by decide), fun h => gz (hz h)⟩

/-- The two voices meet in the post filter: the new `_postLP` is the filtered
`(wDown * down + wUp * up) / wScale`. -/
theorem sampleStep_voices (L : Libm α) (fs : α) (c : Tuning α) (st : State α) (s : Int) :
    (sampleStep L fs c st s).1.postLP =
      onePoleLP ((c.wDown * downVoice L fs c st s +
        c.wUp * (upVoice L c st.upLP st.upDC ((s : α) / 32768)).1) / c.wScale)
        st.postLP c.postA ∧
    (sampleStep L fs c st s).1.upLP = (upVoice L c st.upLP st.upDC ((s : α) / 32768)).2.1 ∧
    (sampleStep L fs c st s).1.upDC = (upVoice L c st.upLP st.upDC ((s : α) / 32768)).2.2 ∧
    (sampleStep L fs c st s).2 =
      clamp16 (truncToInt (((1 - c.blend) * ((s : α) / 32768) +
        c.blend * (sampleStep L fs c st s).1.postLP) * 32767)) :=
  ⟨rfl, rfl, rfl, rfl⟩

omit [FloorRing α] in
/-- The up voice reads only four of the per-block values. -/
theorem upVoice_congr (L : Libm α) (c1 c2 : Tuning α) (h1 : c1.upA = c2.upA)
    (h2 : c1.upDrive = c2.upDrive) (h3 : c1.upDCA = c2.upDCA) (h4 : c1.upGain = c2.upGain)
    (a b x : α) : upVoice L c1 a b x = upVoice L c2 a b x := by
  simp only [upVoice, h1, h2, h3, h4]

/-- The per-block values at mix 1: the down weight is 0, the up weight 1 and the
normaliser 0.5. -/
theorem tuning_mix_one (fs : α) (p : Params α) (h : p.mix = 1) :
    (tuning fs p).wDown = 0 ∧ (tuning fs p).wUp = 1 ∧ (tuning fs p).wScale = 0.5 := by
  have hc : clamp01 p.mix = 1 := by rw [h]; norm_num [clamp01]
  have e1 : (tuning fs p).wDown = (if clamp01 p.mix ≤ 0.5 then 1 else 2 * (1 - clamp01 p.mix)) :=
    rfl
  have e2 : (tuning fs p).wUp = (if clamp01 p.mix ≤ 0.5 then 2 * clamp01 p.mix else 1) := rfl
  have e3 : (tuning fs p).wScale =
      (if 0.5 * ((tuning fs p).wDown + (tuning fs p).wUp) < 0.5 then 0.5
        else 0.5 * ((tuning fs p).wDown + (tuning fs p).wUp)) := rfl
  have d : (tuning fs p).wDown = 0 := by rw [e1, hc]; norm_num
  have u : (tuning fs p).wUp = 1 := by rw [e2, hc]; norm_num
  refine ⟨d, u, ?_⟩
  rw [e3, d, u]; norm_num

/-- The per-block values the up voice, the post filter and the blend read depend on
the blend and character knobs only. -/
theorem tuning_up_congr (fs : α) (p1 p2 : Params α) (hb : p1.blend = p2.blend)
    (hc : p1.character = p2.character) :
    (tuning fs p1).blend = (tuning fs p2).blend ∧ (tuning fs p1).upA = (tuning fs p2).upA ∧
    (tuning fs p1).upDrive = (tuning fs p2).upDrive ∧
    (tuning fs p1).upDCA = (tuning fs p2).upDCA ∧
    (tuning fs p1).upGain = (tuning fs p2).upGain ∧
    (tuning fs p1).postA = (tuning fs p2).postA := by
  simp only [tuning, hb, hc]
  exact ⟨trivial, trivial, trivial, trivial, trivial, trivial⟩

/-- The states of two runs agree on the up-voice filters and the post filter. -/
theorem sampleStep_up_only (L : Libm α) (fs : α) (p1 p2 : Params α)
    (hb : p1.blend = p2.blend) (hc : p1.character = p2.character) (hm1 : p1.mix = 1)
    (hm2 : p2.mix = 1) (st1 st2 : State α) (s : Int)
    (h : st1.upLP = st2.upLP ∧ st1.upDC = st2.upDC ∧ st1.postLP = st2.postLP) :
    (sampleStep L fs (tuning fs p1) st1 s).2 = (sampleStep L fs (tuning fs p2) st2 s).2 ∧
    ((sampleStep L fs (tuning fs p1) st1 s).1.upLP =
        (sampleStep L fs (tuning fs p2) st2 s).1.upLP ∧
      (sampleStep L fs (tuning fs p1) st1 s).1.upDC =
        (sampleStep L fs (tuning fs p2) st2 s).1.upDC ∧
      (sampleStep L fs (tuning fs p1) st1 s).1.postLP =
        (sampleStep L fs (tuning fs p2) st2 s).1.postLP) := by
  obtain ⟨a1, a2, a3, a4⟩ := sampleStep_voices L fs (tuning fs p1) st1 s
  obtain ⟨b1, b2, b3, b4⟩ := sampleStep_voices L fs (tuning fs p2) st2 s
  obtain ⟨d1, u1, w1⟩ := tuning_mix_one fs p1 hm1
  obtain ⟨d2, u2, w2⟩ := tuning_mix_one fs p2 hm2
  obtain ⟨t1, t2, t3, t4, t5, t6⟩ := tuning_up_congr fs p1 p2 hb hc
  have hv := upVoice_congr L (tuning fs p1) (tuning fs p2) t2 t3 t4 t5 st1.upLP st1.upDC
    ((s : α) / 32768)
  have hpost : (sampleStep L fs (tuning fs p1) st1 s).1.postLP =
      (sampleStep L fs (tuning fs p2) st2 s).1.postLP := by
    rw [a1, b1, d1, d2, u1, u2, w1, w2, zero_mul, zero_mul, hv, h.1, h.2.1, h.2.2, t6]
  refine ⟨?_, ?_, ?_, hpost⟩
  · rw [a4, b4, hpost, t1]
  · rw [a2, b2, hv, h.1, h.2.1]
  · rw [a3, b3, hv, h.1, h.2.1]

end OctaveEffect

section

open Pedal OctaveEffect

variable {α : Type} [LinearOrderedField α] [FloorRing α]

/-- C31: on every sample, the down voice that enters the post filter is the filtered
oscillator times a gate in [0, 1], at most 0.25 while the tracker is not locked; when
the envelope, as updated on that sample, is at or below `gateOff`, the down voice is
exactly 0 whatever the oscillator state. -/
theorem C31_down_voice_gate (L : Libm α) (fs : α) (c : Tuning α) (st : State α) (s : Int) :
    ((sampleStep L fs c st s).1.env ≤ c.gateOff → downVoice L fs c st s = 0) ∧
    (0 ≤ envGateOf c (sampleStep L fs c st s).1.env (sampleStep L fs c st s).1.trackingActive ∧
      envGateOf c (sampleStep L fs c st s).1.env (sampleStep L fs c st s).1.trackingActive
        ≤ 1) ∧
    ((sampleStep L fs c st s).1.trackingActive = false →
      envGateOf c (sampleStep L fs c st s).1.env (sampleStep L fs c st s).1.trackingActive
        ≤ 0.25) ∧
    downVoice L fs c st s = (sampleStep L fs c st s).1.oscLP *
      envGateOf c (sampleStep L fs c st s).1.env (sampleStep L fs c st s).1.trackingActive ∧
    (sampleStep L fs c st s).1.postLP =
      onePoleLP ((c.wDown * downVoice L fs c st s +
        c.wUp * (upVoice L c st.upLP st.upDC ((s : α) / 32768)).1) / c.wScale)
        st.postLP c.postA := by
  obtain ⟨h1, h2, h3⟩ := envGateOf_facts c (sampleStep L fs c st s).1.env
    (sampleStep L fs c st s).1.trackingActive
  refine ⟨fun h => ?_, h1, h2, rfl, rfl⟩
  unfold downVoice
  rw [h3 h, mul_zero]

/-- C31 at a concrete input: a silent sample from the reset state at 44.1 kHz leaves
the envelope at 0, below `gateOff`, and the down voice is 0. -/
theorem C31_down_voice_gate_witness :
    (sampleStep realLibm 44100 (tuning 44100 ⟨0.5, 0.5, 0.5, 0.5⟩)
        (reset (construct : State ℝ)) 0).1.env ≤
      (tuning (44100 : ℝ) ⟨0.5, 0.5, 0.5, 0.5⟩).gateOff ∧
    downVoice realLibm 44100 (tuning 44100 ⟨0.5, 0.5, 0.5, 0.5⟩)
      (reset (construct : State ℝ)) 0 = 0 :=
  have he : (sampleStep realLibm 44100 (tuning 44100 ⟨0.5, 0.5, 0.5, 0.5⟩)
        (reset (construct : State ℝ)) 0).1.env ≤
      (tuning (44100 : ℝ) ⟨0.5, 0.5, 0.5, 0.5⟩).gateOff := by
    have e1 : (sampleStep realLibm 44100 (tuning 44100 ⟨0.5, 0.5, 0.5, 0.5⟩)
        (reset (construct : State ℝ)) 0).1.env = envFollow 0 |(((0 : Int) : ℝ) / 32768)| := rfl
    have e2 : (tuning (44100 : ℝ) ⟨0.5, 0.5, 0.5, 0.5⟩).gateOff =
        lerp 0.030 0.006 (clamp01 0.5) * 0.75 := rfl
    rw [e1, e2]
    norm_num [envFollow, lerp, clamp01]
  ⟨he, (C31_down_voice_gate realLibm 44100 (tuning 44100 ⟨0.5, 0.5, 0.5, 0.5⟩)
    (reset (construct : State ℝ)) 0).1 he⟩

end

section

open Pedal OctaveEffect

variable {α : Type} [LinearOrderedField α] [FloorRing α]

/-- C32: with the mix knob at 1, for every input block, sample rate, blend and
character, two runs of `processMono` whose states agree on `_upLP`, `_upDC` and
`_postLP`, and differ arbitrarily in the tracking knob and in every other state field,
write identical output blocks (and still agree on the three fields afterwards). -/
theorem C32_up_voice_independent (L : Libm α) (fs : α) (p1 p2 : Params α)
    (hb : p1.blend = p2.blend) (hc : p1.character = p2.character) (hm1 : p1.mix = 1)
    (hm2 : p2.mix = 1) (st1 st2 : State α) (hup : st1.upLP = st2.upLP)
    (hdc : st1.upDC = st2.upDC) (hpost : st1.postLP = st2.postLP) (blk : List Int) :
    (processMono L st1 blk fs p1).2 = (processMono L st2 blk fs p2).2 ∧
    (processMono L st1 blk fs p1).1.upLP = (processMono L st2 blk fs p2).1.upLP ∧
    (processMono L st1 blk fs p1).1.upDC = (processMono L st2 blk fs p2).1.upDC ∧
    (processMono L st1 blk fs p1).1.postLP = (processMono L st2 blk fs p2).1.postLP :=
  runBlock_two_runs (sampleStep L fs (tuning fs p1)) (sampleStep L fs (tuning fs p2))
    (fun a b => a.upLP = b.upLP ∧ a.upDC = b.upDC ∧ a.postLP = b.postLP)
    (fun a b x hab => sampleStep_up_only L fs p1 p2 hb hc hm1 hm2 a b x hab)
    blk st1 st2 ⟨hup, hdc, hpost⟩


/-- C32 at a concrete input: at 44.1 kHz with mix 1, a run from the reset state with
the tracking knob at 0 and a run with the tracking knob at 1 from a state with a locked
tracker, a raised envelope and other oscillator values write the same block. -/
theorem C32_up_voice_independent_witness :
    (processMono Pedal.realLibm (reset (construct : State ℝ)) [1000, -2000, 30000] 44100
        ⟨0.5, 1, 0, 0.5⟩).2 =
      (processMono Pedal.realLibm
        { env := 0.5, samplesSinceCross := 7, freqSmoothed := 440, phase := 0.3, sign := 1,
          trackingActive := true, hangSamples := 100, preLP := 0.1, upLP := 0, upDC := 0,
          oscLP := -0.4, postLP := 0 }
        [1000, -2000, 30000] 44100 ⟨0.5, 1, 1, 0.5⟩).2 :=
  (C32_up_voice_independent Pedal.realLibm 44100 ⟨0.5, 1, 0, 0.5⟩ ⟨0.5, 1, 1, 0.5⟩ rfl rfl rfl
    rfl (reset (construct : State ℝ))
    { env := 0.5, samplesSinceCross := 7, freqSmoothed := 440, phase := 0.3, sign := 1,
      trackingActive := true, hangSamples := 100, preLP := 0.1, upLP := 0, upDC := 0,
      oscLP := -0.4, postLP := 0 }
    rfl rfl rfl [1000, -2000, 30000]).1

end

/-! ### Rotary engine: rotor inertia -/

namespace LeslieEffect

open Pedal

variable {α : Type} [LinearOrderedField α] [FloorRing α]

omit [FloorRing α] in
/-- A smoothing factor `1 - expf(-dt / tau)` with `dt >= 0` and `tau > 0` is in [0, 1)
when the exponential is in (0, 1] on arguments `<= 0`. -/
theorem smoothing_factor_mem (L : Libm α)
    (hexp : ∀ x : α, x ≤ 0 → 0 < L.expf x ∧ L.expf x ≤ 1) (dt tau : α) (hdt : 0 ≤ dt)
    (htau : 0 < tau) : 0 ≤ 1 - L.expf (-dt / tau) ∧ 1 - L.expf (-dt / tau) < 1 := by
  have e := hexp (-dt / tau) (div_nonpos_of_nonpos_of_nonneg (by linarith) htau.le)
  exact ⟨by linarith [e.2], by linarith [e.1]⟩

omit [FloorRing α] in
theorem rotor_factors_mem (L : Libm α)
    (hexp : ∀ x : α, x ≤ 0 → 0 < L.expf x ∧ L.expf x ≤ 1) (n : Nat) (fs : α) (hfs : 0 < fs)
    (p : Params α) :
    (0 ≤ hornA L n fs p ∧ hornA L n fs p < 1) ∧ (0 ≤ drumA L n fs p ∧ drumA L n fs p < 1) := by
  obtain ⟨r0, r1⟩ := clamp01_mem_leslie p.ramp
  have hdt : 0 ≤ (n : α) / fs := div_nonneg (Nat.cast_nonneg n) hfs.le
  have htau1 : 0 < lerp 0.20 1.20 (clamp01 p.ramp) :=
    lt_of_lt_of_le (by norm_num) (lerp_mem_leslie 0.20 1.20 _ (by norm_num) r0 r1).1
  have htau2 : 0 < lerp 0.35 1.80 (clamp01 p.ramp) :=
    lt_of_lt_of_le (by norm_num) (lerp_mem_leslie 0.35 1.80 _ (by norm_num) r0 r1).1
  exact ⟨smoothing_factor_mem L hexp _ _ hdt htau1, smoothing_factor_mem L hexp _ _ hdt htau2⟩

omit [FloorRing α] in
/-- A step of size `A` in [0, 1] from `hz` toward `t` lands between the two and no
farther from `t`. -/
theorem inertia_between (hz t A : α) (hA0 : 0 ≤ A) (hA1 : A ≤ 1) :
    (min hz t ≤ hz + (t - hz) * A ∧ hz + (t - hz) * A ≤ max hz t) ∧
    |hz + (t - hz) * A - t| ≤ |hz - t| := by
  refine ⟨inertia_mem hz t A (min hz t) (max hz t) hA0 hA1 (min_le_left _ _)
    (le_max_left _ _) (min_le_right _ _) (le_max_right _ _), ?_⟩
  have e : hz + (t - hz) * A - t = (1 - A) * (hz - t) := by ring
  rw [e, abs_mul, abs_of_nonneg (by linarith : (0 : α) ≤ 1 - A)]
  have := abs_nonneg (hz - t)
  nlinarith

/-- The sample loop does not write the rotor speeds. -/
theorem runBlock_speeds (L : Libm α) (su : Setup α) (xs : List (Int × Int)) (st : State α) :
    (runBlock (sampleStep L su) st xs).1.hornHz = st.hornHz ∧
    (runBlock (sampleStep L su) st xs).1.drumHz = st.drumHz :=
  runBlock_state_inv (sampleStep L su)
    (fun s => s.hornHz = st.hornHz ∧ s.drumHz = st.drumHz)
    (fun _ _ h => h) xs st ⟨rfl, rfl⟩

/-- The rotor speeds after a `processWet` call are those of the inertia update. -/
theorem processWet_speeds (L : Libm α) (st : State α) (left right : List Int) (fs : α)
    (p : Params α) :
    (processWet L st left right fs p).1.hornHz =
      st.hornHz + (hornTarget p - st.hornHz) * hornA L left.length fs p ∧
    (processWet L st left right fs p).1.drumHz =
      st.drumHz + (drumTarget p - st.drumHz) * drumA L left.length fs p := by
  have h := runBlock_speeds L
    (setup fs p (rotorUpdate L st left.length fs p).1 (rotorUpdate L st left.length fs p).2)
    (List.zip left right)
    { st with hornHz := (rotorUpdate L st left.length fs p).1,
              drumHz := (rotorUpdate L st left.length fs p).2 }
  exact h

omit [FloorRing α] in
theorem rotor_targets_mem (p : Params α) :
    (0.8 ≤ hornTarget p ∧ hornTarget p ≤ 6) ∧ (0.6 ≤ drumTarget p ∧ drumTarget p ≤ 4.5) := by
  obtain ⟨s0, s1⟩ := clamp01_mem_leslie p.speed
  have t1 : 0.8 ≤ hornTarget p ∧ hornTarget p ≤ 6.0 :=
    lerp_mem_leslie 0.8 6.0 (clamp01 p.speed) (by norm_num) s0 s1
  have t2 : 0.6 ≤ drumTarget p ∧ drumTarget p ≤ 4.5 :=
    lerp_mem_leslie 0.6 4.5 (clamp01 p.speed) (by norm_num) s0 s1
  exact ⟨⟨t1.1, by linarith [t1.2]⟩, t2⟩

theorem processWet_speeds_ok (L : Libm α)
    (hexp : ∀ x : α, x ≤ 0 → 0 < L.expf x ∧ L.expf x ≤ 1) (st : State α) (h : SpeedsOk st)
    (left right : List Int) (fs : α) (hfs : 0 < fs) (p : Params α) :
    SpeedsOk (processWet L st left right fs p).1 := by
  obtain ⟨e1, e2⟩ := processWet_speeds L st left right fs p
  obtain ⟨a1, a2⟩ := rotor_factors_mem L hexp left.length fs hfs p
  obtain ⟨t1, t2⟩ := rotor_targets_mem p
  unfold SpeedsOk
  rw [e1, e2]
  exact ⟨inertia_mem _ _ _ 0.8 6 a1.1 a1.2.le h.1.1 h.1.2 t1.1 t1.2,
    inertia_mem _ _ _ 0.6 4.5 a2.1 a2.2.le h.2.1 h.2.2 t2.1 t2.2⟩

end LeslieEffect

section

open Pedal LeslieEffect

variable {α : Type} [LinearOrderedField α] [FloorRing α]

/-- C33: for an exponential with values in (0, 1] on arguments `<= 0`, in every
`processWet` call on a block of `n >= 0` samples at `fs > 0` the two smoothing factors
`1 - expf(-(n / fs) / tau)` are in [0, 1); each rotor speed after the call is its
previous value moved toward its target by that factor, so it lies between the two and
its distance to the target does not increase; and from `reset()`, after every history
of such calls, the horn speed is in [0.8, 6.0] Hz and the drum speed in [0.6, 4.5] Hz. -/
theorem C33_rotor_inertia (L : Libm α)
    (hexp : ∀ x : α, x ≤ 0 → 0 < L.expf x ∧ L.expf x ≤ 1) :
    (∀ (n : Nat) (fs : α) (p : Params α), 0 < fs →
      (0 ≤ hornA L n fs p ∧ hornA L n fs p < 1) ∧ (0 ≤ drumA L n fs p ∧ drumA L n fs p < 1)) ∧
    (∀ (st : State α) (left right : List Int) (fs : α) (p : Params α), 0 < fs →
      ((processWet L st left right fs p).1.hornHz =
          st.hornHz + (hornTarget p - st.hornHz) * hornA L left.length fs p ∧
        (processWet L st left right fs p).1.drumHz =
          st.drumHz + (drumTarget p - st.drumHz) * drumA L left.length fs p) ∧
      (min st.hornHz (hornTarget p) ≤ (processWet L st left right fs p).1.hornHz ∧
        (processWet L st left right fs p).1.hornHz ≤ max st.hornHz (hornTarget p)) ∧
      (min st.drumHz (drumTarget p) ≤ (processWet L st left right fs p).1.drumHz ∧
        (processWet L st left right fs p).1.drumHz ≤ max st.drumHz (drumTarget p)) ∧
      |(processWet L st left right fs p).1.hornHz - hornTarget p| ≤
        |st.hornHz - hornTarget p| ∧
      |(processWet L st left right fs p).1.drumHz - drumTarget p| ≤
        |st.drumHz - drumTarget p|) ∧
    (∀ (st0 : State α) (calls : List (List Int × List Int × α × Params α)),
      (∀ call ∈ calls, 0 < call.2.2.1) → SpeedsOk (processCalls L (reset st0) calls).1) := by
  refine ⟨fun n fs p hfs => rotor_factors_mem L hexp n fs hfs p, ?_, ?_⟩
  · intro st left right fs p hfs
    obtain ⟨e1, e2⟩ := processWet_speeds L st left right fs p
    obtain ⟨a1, a2⟩ := rotor_factors_mem L hexp left.length fs hfs p
    have b1 := inertia_between st.hornHz (hornTarget p) (hornA L left.length fs p) a1.1 a1.2.le
    have b2 := inertia_between st.drumHz (drumTarget p) (drumA L left.length fs p) a2.1 a2.2.le
    rw [← e1] at b1
    rw [← e2] at b2
    exact ⟨⟨e1, e2⟩, b1.1, b2.1, b1.2, b2.2⟩
  · intro st0 calls hcalls
    have hr : SpeedsOk (reset st0) := by
      show ((0.8 : α) ≤ 0.8 ∧ (0.8 : α) ≤ 6) ∧ ((0.6 : α) ≤ 0.6 ∧ (0.6 : α) ≤ 4.5)
      norm_num
    exact (runBlock_forall_inv
      (fun st (call : List Int × List Int × α × Params α) =>
        processWet L st call.1 call.2.1 call.2.2.1 call.2.2.2)
      SpeedsOk (fun call => 0 < call.2.2.1) (fun _ => True)
      (fun s call hs hc =>
        ⟨trivial, processWet_speeds_ok L hexp s hs call.1 call.2.1 call.2.2.1 hc call.2.2.2⟩)
      calls (reset st0) hr hcalls).2

/-- C33 at a concrete input: with the real exponential, after a block of 3 samples at
44.1 kHz and an empty block at 8 kHz from `reset()`, the rotor speeds are in range; and
the horn factor of a 3-sample block at 44.1 kHz is in [0, 1). -/
theorem C33_rotor_inertia_witness :
    (0 : ℝ) < 44100 ∧
    (0 ≤ hornA realLibm 3 (44100 : ℝ) ⟨0, 0, 1, 1, 0⟩ ∧
      hornA realLibm 3 (44100 : ℝ) ⟨0, 0, 1, 1, 0⟩ < 1) ∧
    SpeedsOk (processCalls realLibm (reset (construct : State ℝ))
      [([1, 2, 3], [4, 5, 6], 44100, ⟨0, 0, 1, 1, 0⟩), ([], [], 8000, ⟨0, 0, 0, 0.5, 1⟩)]).1 :=
  ⟨by norm_num,
    ((C33_rotor_inertia realLibm
      (fun x hx => ⟨Real.exp_pos x, Real.exp_le_one_iff.mpr hx⟩)).1 3 44100 ⟨0, 0, 1, 1, 0⟩
      (by norm_num)).1,
    (C33_rotor_inertia realLibm
      (fun x hx => ⟨Real.exp_pos x, Real.exp_le_one_iff.mpr hx⟩)).2.2
      (construct : State ℝ)
      [([1, 2, 3], [4, 5, 6], 44100, ⟨0, 0, 1, 1, 0⟩), ([], [], 8000, ⟨0, 0, 0, 0.5, 1⟩)]
      (by
        intro call hc
        simp only [List.mem_cons, List.mem_singleton, List.not_mem_nil, or_false] at hc
        rcases hc with rfl | rfl <;> norm_num)⟩

end

/-! ### Shimmer engine: the swell gain -/

namespace OrchestraEffect

open Pedal

variable {α : Type} [LinearOrderedField α] [FloorRing α]

omit [FloorRing α] in
/-- The duck target is the floor `lerp(1, 0.22, swell)` while the envelope exceeds 0.03
and 1 otherwise; for a swell in [0, 1] it is in [0.22, 1], and for swell 0 it is 1. -/
theorem targetDuck_facts (swell env : α) :
    (env > 0.03 → targetDuck swell env = lerp 1 0.22 swell) ∧
    (¬ env > 0.03 → targetDuck swell env = 1) ∧
    (0 ≤ swell → swell ≤ 1 → 0.22 ≤ targetDuck swell env ∧ targetDuck swell env ≤ 1) ∧
    (swell = 0 → targetDuck swell env = 1) := by
  have k1 : (0.030 : α) = 0.03 := by norm_num
  have k2 : (1.0 : α) = 1 := by norm_num
  have e1 : env > 0.03 → targetDuck swell env = lerp 1 0.22 swell := by
    intro h
    simp only [targetDuck, k1, k2, h, if_true]
    rw [if_pos one_ne_zero]
  have e2 : ¬ env > 0.03 → targetDuck swell env = 1 := by
    intro h
    simp only [targetDuck, k1, k2, h, if_false]
    rw [if_neg (not_not.mpr rfl)]
  have hl : lerp (1 : α) 0.22 swell = 1 - 0.78 * swell := by
    simp only [lerp]; ring
  refine ⟨e1, e2, fun h0 h1 => ?_, fun h0 => ?_⟩
  · by_cases h : env > 0.03
    · rw [e1 h, hl]; constructor <;> linarith
    · rw [e2 h]; constructor <;> norm_num
  · by_cases h : env > 0.03
    · rw [e1 h, hl, h0]; norm_num
    · exact e2 h

omit [FloorRing α] in
/-- The duck rate is in [0, 1] for a swell in [0, 1]. -/
theorem duckRate_mem (swell target duck : α) (h0 : 0 ≤ swell) (h1 : swell ≤ 1) :
    0 ≤ duckRate swell target duck ∧ duckRate swell target duck ≤ 1 := by
  have ha : lerp (0.05 : α) 0.12 swell = 0.05 + 0.07 * swell := by
    simp only [lerp]; ring
  have hr : lerp (0.0012 : α) 0.00018 swell = 0.0012 - 0.00102 * swell := by
    simp only [lerp]; ring
  simp only [duckRate, ha, hr]
  split_ifs <;> constructor <;> linarith

omit [FloorRing α] in
/-- A step of size `a` in [0, 1] from `y` toward `t`, in the form `y + a * (t - y)`,
stays between bounds that hold both. -/
theorem toward_mem (y t a lo hi : α) (ha0 : 0 ≤ a) (ha1 : a ≤ 1) (h1 : lo ≤ y) (h2 : y ≤ hi)
    (t1 : lo ≤ t) (t2 : t ≤ hi) : lo ≤ y + a * (t - y) ∧ y + a * (t - y) ≤ hi := by
  have e : y + a * (t - y) = (1 - a) * y + a * t := by ring
  rw [e]
  have a1 := mul_le_mul_of_nonneg_left h1 (by linarith : (0 : α) ≤ 1 - a)
  have a2 := mul_le_mul_of_nonneg_left h2 (by linarith : (0 : α) ≤ 1 - a)
  have a3 := mul_le_mul_of_nonneg_left t1 ha0
  have a4 := mul_le_mul_of_nonneg_left t2 ha0
  constructor <;> linarith

/-- The duck lines of one sample, read off the new state. -/
theorem sampleStep_duck (L : Libm α) (fs mix size swell upAmt dnAmt tone : α)
    (st : State α) (s : Int) :
    (sampleStep L fs mix size swell upAmt dnAmt tone st s).1.duck =
      st.duck +
        duckRate swell
          (targetDuck swell (sampleStep L fs mix size swell upAmt dnAmt tone st s).1.env)
          st.duck *
        (targetDuck swell (sampleStep L fs mix size swell upAmt dnAmt tone st s).1.env -
          st.duck) ∧
    (sampleStep L fs mix size swell upAmt dnAmt tone st s).1.swellLP =
      onePoleLP
        ((sampleStep L fs mix size swell upAmt dnAmt tone st s).1.duck *
          (sampleStep L fs mix size swell upAmt dnAmt tone st s).1.duck)
        st.swellLP 0.02 :=
  ⟨rfl, rfl⟩

/-- One sample with a swell in [0, 1] keeps the duck state in [0.22, 1], between its
previous value and the target, and the smoothed squared gain in [0, 1]. -/
theorem sampleStep_duck_ok (L : Libm α) (fs mix size swell upAmt dnAmt tone : α)
    (h0 : 0 ≤ swell) (h1 : swell ≤ 1) (st : State α) (h : st.DuckOk) (s : Int) :
    (sampleStep L fs mix size swell upAmt dnAmt tone st s).1.DuckOk ∧
    (min st.duck
        (targetDuck swell (sampleStep L fs mix size swell upAmt dnAmt tone st s).1.env) ≤
      (sampleStep L fs mix size swell upAmt dnAmt tone st s).1.duck ∧
     (sampleStep L fs mix size swell upAmt dnAmt tone st s).1.duck ≤
      max st.duck
        (targetDuck swell (sampleStep L fs mix size swell upAmt dnAmt tone st s).1.env)) := by
  obtain ⟨e1, e2⟩ := sampleStep_duck L fs mix size swell upAmt dnAmt tone st s
  generalize hT :
    targetDuck swell (sampleStep L fs mix size swell upAmt dnAmt tone st s).1.env = T at e1 ⊢
  have hTm : 0.22 ≤ T ∧ T ≤ 1 := by
    rw [← hT]; exact (targetDuck_facts swell _).2.2.1 h0 h1
  obtain ⟨r0, r1⟩ := duckRate_mem swell T st.duck h0 h1
  have d1 := toward_mem st.duck T (duckRate swell T st.duck) 0.22 1 r0 r1 h.1.1 h.1.2
    hTm.1 hTm.2
  have d2 := toward_mem st.duck T (duckRate swell T st.duck) (min st.duck T) (max st.duck T)
    r0 r1 (min_le_left _ _) (le_max_left _ _) (min_le_right _ _) (le_max_right _ _)
  rw [← e1] at d1 d2
  refine ⟨⟨d1, ?_⟩, d2⟩
  rw [e2]
  generalize (sampleStep L fs mix size swell upAmt dnAmt tone st s).1.duck = D at d1 ⊢
  have hD0 : 0 ≤ D * D := mul_self_nonneg D
  have hD1 : D * D ≤ 1 := by nlinarith [d1.1, d1.2]
  exact toward_mem st.swellLP (D * D) 0.02 0 1 (by norm_num) (by norm_num) h.2.1 h.2.2
    hD0 hD1

/-- With swell 0 a duck state of 1 stays 1. -/
theorem sampleStep_duck_one (L : Libm α) (fs mix size upAmt dnAmt tone : α)
    (st : State α) (h : st.duck = 1) (s : Int) :
    (sampleStep L fs mix size 0 upAmt dnAmt tone st s).1.duck = 1 := by
  rw [(sampleStep_duck L fs mix size 0 upAmt dnAmt tone st s).1,
    (targetDuck_facts (0 : α) _).2.2.2 rfl, h, sub_self, mul_zero, add_zero]

omit [FloorRing α] in
theorem clamp01_mem_orchestra (x : α) : 0 ≤ clamp01 x ∧ clamp01 x ≤ 1 := by
  unfold clamp01
  split_ifs with h1 h2
  · exact ⟨le_refl _, zero_le_one⟩
  · exact ⟨zero_le_one, le_refl _⟩
  · exact ⟨not_lt.mp h1, not_lt.mp h2⟩

theorem processMono_duck_ok (L : Libm α) (st : State α) (h : st.DuckOk) (inMono : List Int)
    (fs : α) (p : Params α) : (processMono L st inMono fs p).1.DuckOk :=
  runBlock_state_inv _ State.DuckOk
    (fun st x hs =>
      (sampleStep_duck_ok L fs _ _ (clamp01 p.swell) _ _ _ (clamp01_mem_orchestra _).1
        (clamp01_mem_orchestra _).2 st hs x).1) _ _ h

theorem reachable_duck_ok (L : Libm α) (st : State α) (h : Reachable L st) : st.DuckOk := by
  have hr : ∀ s : State α, (reset s).DuckOk := by
    intro s
    show ((0.22 : α) ≤ 1 ∧ (1 : α) ≤ 1) ∧ ((0 : α) ≤ 0 ∧ (0 : α) ≤ 1)
    norm_num
  induction h with
  | construct => exact hr _
  | processMono st inMono fs p _ ih => exact processMono_duck_ok L st ih inMono fs p
  | reset st _ _ => exact hr _

theorem processMono_duck_one (L : Libm α) (st : State α) (h : st.duck = 1)
    (inMono : List Int) (fs : α) (p : Params α) (hs : p.swell = 0) :
    (processMono L st inMono fs p).1.duck = 1 := by
  have hc : clamp01 p.swell = 0 := by rw [hs]; simp [clamp01]
  unfold processMono
  simp only [hc]
  exact runBlock_state_inv _ (fun s : State α => s.duck = 1)
    (fun st x hs => sampleStep_duck_one L fs _ _ _ _ _ st hs x) _ _ h

end OrchestraEffect

section

open Pedal OrchestraEffect

variable {α : Type} [LinearOrderedField α] [FloorRing α]

/-- C34: in every state reached from the constructed engine by `processMono` and
`reset` (so from `reset()`, for every input and every swell knob), `_duck` is in
[0.22, 1] and the smoothed squared gain `_swellLP` in [0, 1]. On each sample with the
clamped swell in [0, 1], `_duck` moves from its previous value toward the target, which
is the floor `lerp(1, 0.22, swell)` while the updated envelope exceeds 0.03 and 1
otherwise, and ends between the two; the smoothed gain is the one-pole filter of the
squared duck. With swell 0 a duck state of 1 remains exactly 1 through every block. -/
theorem C34_swell_gain_bounds (L : Libm α) :
    (∀ st : State α, Reachable L st → st.DuckOk) ∧
    (∀ (fs mix size swell upAmt dnAmt tone : α) (st : State α) (s : Int),
      0 ≤ swell → swell ≤ 1 → st.DuckOk →
      (sampleStep L fs mix size swell upAmt dnAmt tone st s).1.DuckOk ∧
      (sampleStep L fs mix size swell upAmt dnAmt tone st s).1.duck =
        st.duck +
          duckRate swell
            (targetDuck swell (sampleStep L fs mix size swell upAmt dnAmt tone st s).1.env)
            st.duck *
          (targetDuck swell (sampleStep L fs mix size swell upAmt dnAmt tone st s).1.env -
            st.duck) ∧
      ((sampleStep L fs mix size swell upAmt dnAmt tone st s).1.env > 0.03 →
        targetDuck swell (sampleStep L fs mix size swell upAmt dnAmt tone st s).1.env =
          lerp 1 0.22 swell) ∧
      (¬ (sampleStep L fs mix size swell upAmt dnAmt tone st s).1.env > 0.03 →
        targetDuck swell (sampleStep L fs mix size swell upAmt dnAmt tone st s).1.env = 1) ∧
      (min st.duck
          (targetDuck swell (sampleStep L fs mix size swell upAmt dnAmt tone st s).1.env) ≤
        (sampleStep L fs mix size swell upAmt dnAmt tone st s).1.duck ∧
       (sampleStep L fs mix size swell upAmt dnAmt tone st s).1.duck ≤
        max st.duck
          (targetDuck swell (sampleStep L fs mix size swell upAmt dnAmt tone st s).1.env)) ∧
      (sampleStep L fs mix size swell upAmt dnAmt tone st s).1.swellLP =
        onePoleLP
          ((sampleStep L fs mix size swell upAmt dnAmt tone st s).1.duck *
            (sampleStep L fs mix size swell upAmt dnAmt tone st s).1.duck)
          st.swellLP 0.02) ∧
    (∀ (st : State α) (inMono : List Int) (fs : α) (p : Params α),
      p.swell = 0 → st.duck = 1 → (processMono L st inMono fs p).1.duck = 1) := by
  refine ⟨reachable_duck_ok L, ?_, fun st inMono fs p hs h =>
    processMono_duck_one L st h inMono fs p hs⟩
  intro fs mix size swell upAmt dnAmt tone st s h0 h1 h
  obtain ⟨a1, a2⟩ := sampleStep_duck_ok L fs mix size swell upAmt dnAmt tone h0 h1 st h s
  obtain ⟨e1, e2⟩ := sampleStep_duck L fs mix size swell upAmt dnAmt tone st s
  obtain ⟨t1, t2, _, _⟩ := targetDuck_facts swell
    (sampleStep L fs mix size swell upAmt dnAmt tone st s).1.env
  exact ⟨a1, e1, t1, t2, a2, e2⟩

/-- C34 at a concrete input: the constructed engine, after a block at 48 kHz with every
knob at 0.5, has its duck state and smoothed gain in range; and with swell 0 the duck
state of the constructed engine is still 1 after a block. -/
theorem C34_swell_gain_bounds_witness :
    Reachable realLibm (processMono realLibm (construct : State ℝ) [1000, -20000] 48000
      ⟨0.5, 0.5, 0.5, 0.5, 0.5, 0.5⟩).1 ∧
    (processMono realLibm (construct : State ℝ) [1000, -20000] 48000
      ⟨0.5, 0.5, 0.5, 0.5, 0.5, 0.5⟩).1.DuckOk ∧
    (processMono realLibm (construct : State ℝ) [1000, -20000] 48000
      ⟨0.5, 0.5, 0, 0.5, 0.5, 0.5⟩).1.duck = 1 :=
  ⟨Reachable.processMono _ _ _ _ Reachable.construct,
    (C34_swell_gain_bounds realLibm).1 _ (Reachable.processMono _ _ _ _ Reachable.construct),
    (C34_swell_gain_bounds realLibm).2.2 (construct : State ℝ) [1000, -20000] 48000
      ⟨0.5, 0.5, 0, 0.5, 0.5, 0.5⟩ rfl rfl⟩

end

/-! ### Shimmer engine: the grain windows -/

namespace Pedal

variable {α : Type} [LinearOrderedField α] [FloorRing α]

omit [FloorRing α] in
/-- The loop `while (r < 0) r += m` adds a whole number of `m`. -/
theorem addWhileNeg_shift (m : α) : ∀ (k : Nat) (r : α), ∃ j : Nat,
    addWhileNeg m k r = r + (j : α) * m := by
  intro k
  induction k with
  | zero => intro r; exact ⟨0, by simp [addWhileNeg]⟩
  | succ k ih =>
    intro r
    by_cases h : r < 0
    · obtain ⟨j, hj⟩ := ih (r + m)
      refine ⟨j + 1, ?_⟩
      simp only [addWhileNeg, h, if_true, hj]
      push_cast; ring
    · exact ⟨0, by simp [addWhileNeg, h]⟩

omit [FloorRing α] in
/-- The loop `while (r >= m) r -= m` subtracts a whole number of `m`. -/
theorem subWhileGe_shift (m : α) : ∀ (k : Nat) (r : α), ∃ j : Nat,
    subWhileGe m k r = r - (j : α) * m := by
  intro k
  induction k with
  | zero => intro r; exact ⟨0, by simp [subWhileGe]⟩
  | succ k ih =>
    intro r
    by_cases h : r ≥ m
    · obtain ⟨j, hj⟩ := ih (r - m)
      refine ⟨j + 1, ?_⟩
      simp only [subWhileGe, h, if_true, hj]
      push_cast; ring
    · exact ⟨0, by simp [subWhileGe, h]⟩

/-- The two wrap loops with modulus 1 return the fractional part. -/
theorem wrapLoops_one_fract (r : α) : wrapLoops 1 r = Int.fract r := by
  obtain ⟨h0, h1⟩ := wrapLoops_mem (1 : α) r zero_lt_one
  obtain ⟨j, hj⟩ := addWhileNeg_shift (1 : α) (⌈-r / 1⌉).toNat r
  obtain ⟨i, hi⟩ := subWhileGe_shift (1 : α)
    (⌊addWhileNeg (1 : α) (⌈-r / 1⌉).toNat r / 1⌋).toNat
    (addWhileNeg (1 : α) (⌈-r / 1⌉).toNat r)
  have e : wrapLoops 1 r = r + (j : α) - (i : α) := by
    have : wrapLoops 1 r = subWhileGe (1 : α)
        (⌊addWhileNeg (1 : α) (⌈-r / 1⌉).toNat r / 1⌋).toNat
        (addWhileNeg (1 : α) (⌈-r / 1⌉).toNat r) := rfl
    rw [this, hi, hj]; ring
  symm
  rw [Int.fract_eq_iff]
  refine ⟨h0, h1, (i : Int) - (j : Int), ?_⟩
  rw [e]; push_cast; ring

/-- The fractional part of a sum does not change when a summand is replaced by its
fractional part. -/
theorem fract_fract_add (a b : α) : Int.fract (Int.fract a + b) = Int.fract (a + b) := by
  have e : Int.fract a + b = a + b - ((⌊a⌋ : Int) : α) := by
    rw [Int.fract]; ring
  rw [e, Int.fract_sub_int]

omit [FloorRing α] in
/-- A linear interpolation with a fraction in [0, 1] keeps a bound shared by the two
cells. -/
theorem interp_abs_le (u v f B : α) (hu : |u| ≤ B) (hv : |v| ≤ B) (hf0 : 0 ≤ f)
    (hf1 : f ≤ 1) : |u + f * (v - u)| ≤ B := by
  have e : u + f * (v - u) = (1 - f) * u + f * v := by ring
  rw [e]
  rw [abs_le] at hu hv ⊢
  have h1 : (0 : α) ≤ 1 - f := by linarith
  have a1 := mul_le_mul_of_nonneg_left hu.1 h1
  have a2 := mul_le_mul_of_nonneg_left hu.2 h1
  have a3 := mul_le_mul_of_nonneg_left hv.1 hf0
  have a4 := mul_le_mul_of_nonneg_left hv.2 hf0
  constructor <;> linarith

end Pedal

namespace OrchestraEffect

namespace PitchShift

open Pedal

variable {α : Type} [LinearOrderedField α] [FloorRing α]

/-- The phase update is the fractional part of the advanced phase. -/
theorem advance_fract (ph step : α) : advance ph step = Int.fract (ph + step) :=
  wrapLoops_one_fract _

theorem reset_phases (p0 : PitchShift α) : PhasesOk (reset p0) := by
  have h0 : (reset p0).ph0 = 0 := by show (0.00 : α) = 0; norm_num
  have h1 : (reset p0).ph1 = 1 / 4 := by show (0.25 : α) = 1 / 4; norm_num
  have h2 : (reset p0).ph2 = 1 / 2 := by show (0.50 : α) = 1 / 2; norm_num
  have h3 : (reset p0).ph3 = 3 / 4 := by show (0.75 : α) = 3 / 4; norm_num
  unfold PhasesOk
  rw [h0, h1, h2, h3, zero_add, zero_add, zero_add]
  refine ⟨⟨le_refl _, zero_lt_one⟩, ?_, ?_, ?_⟩
  · symm; rw [Int.fract_eq_iff]; exact ⟨by norm_num, by norm_num, 0, by norm_num⟩
  · symm; rw [Int.fract_eq_iff]; exact ⟨by norm_num, by norm_num, 0, by norm_num⟩
  · symm; rw [Int.fract_eq_iff]; exact ⟨by norm_num, by norm_num, 0, by norm_num⟩

/-- The state and the value of one `process` call, read off its pieces. -/
theorem process_pieces (L : Libm α) (p : PitchShift α) (x ratio fs grainMs : α) :
    (process L p x ratio fs grainMs).1.ph0 =
        advance p.ph0 ((1 - ratio) / grainLen fs grainMs) ∧
    (process L p x ratio fs grainMs).1.ph1 =
        advance p.ph1 ((1 - ratio) / grainLen fs grainMs) ∧
    (process L p x ratio fs grainMs).1.ph2 =
        advance p.ph2 ((1 - ratio) / grainLen fs grainMs) ∧
    (process L p x ratio fs grainMs).1.ph3 =
        advance p.ph3 ((1 - ratio) / grainLen fs grainMs) ∧
    (process L p x ratio fs grainMs).1.buf = Function.update p.buf p.w x ∧
    (process L p x ratio fs grainMs).2 =
      (if 0 + hann L (process L p x ratio fs grainMs).1.ph0 +
            hann L (process L p x ratio fs grainMs).1.ph1 +
            hann L (process L p x ratio fs grainMs).1.ph2 +
            hann L (process L p x ratio fs grainMs).1.ph3 > 1e-6 then
        (0 + readFrac (process L p x ratio fs grainMs).1
              ((process L p x ratio fs grainMs).1.ph0 * grainLen fs grainMs) *
              hann L (process L p x ratio fs grainMs).1.ph0 +
            readFrac (process L p x ratio fs grainMs).1
              ((process L p x ratio fs grainMs).1.ph1 * grainLen fs grainMs) *
              hann L (process L p x ratio fs grainMs).1.ph1 +
            readFrac (process L p x ratio fs grainMs).1
              ((process L p x ratio fs grainMs).1.ph2 * grainLen fs grainMs) *
              hann L (process L p x ratio fs grainMs).1.ph2 +
            readFrac (process L p x ratio fs grainMs).1
              ((process L p x ratio fs grainMs).1.ph3 * grainLen fs grainMs) *
              hann L (process L p x ratio fs grainMs).1.ph3) /
          (0 + hann L (process L p x ratio fs grainMs).1.ph0 +
            hann L (process L p x ratio fs grainMs).1.ph1 +
            hann L (process L p x ratio fs grainMs).1.ph2 +
            hann L (process L p x ratio fs grainMs).1.ph3)
      else
        (0 + readFrac (process L p x ratio fs grainMs).1
              ((process L p x ratio fs grainMs).1.ph0 * grainLen fs grainMs) *
              hann L (process L p x ratio fs grainMs).1.ph0 +
            readFrac (process L p x ratio fs grainMs).1
              ((process L p x ratio fs grainMs).1.ph1 * grainLen fs grainMs) *
              hann L (process L p x ratio fs grainMs).1.ph1 +
            readFrac (process L p x ratio fs grainMs).1
              ((process L p x ratio fs grainMs).1.ph2 * grainLen fs grainMs) *
              hann L (process L p x ratio fs grainMs).1.ph2 +
            readFrac (process L p x ratio fs grainMs).1
              ((process L p x ratio fs grainMs).1.ph3 * grainLen fs grainMs) *
              hann L (process L p x ratio fs grainMs).1.ph3)) :=
  ⟨rfl, rfl, rfl, rfl, rfl, rfl⟩

/-- One `process` call keeps the phases in [0, 1) and a quarter apart. -/
theorem process_phases (L : Libm α) (p : PitchShift α) (x ratio fs grainMs : α)
    (h : PhasesOk p) : PhasesOk (process L p x ratio fs grainMs).1 := by
  obtain ⟨e0, e1, e2, e3, _, _⟩ := process_pieces L p x ratio fs grainMs
  obtain ⟨_, h1, h2, h3⟩ := h
  generalize (1 - ratio) / grainLen fs grainMs = step at e0 e1 e2 e3
  unfold PhasesOk
  rw [e0, e1, e2, e3, h1, h2, h3]
  simp only [advance_fract]
  refine ⟨⟨Int.fract_nonneg _, Int.fract_lt_one _⟩, ?_, ?_, ?_⟩
  · rw [fract_fract_add, fract_fract_add]; congr 1; ring
  · rw [fract_fract_add, fract_fract_add]; congr 1; ring
  · rw [fract_fract_add, fract_fract_add]; congr 1; ring

/-- A fractional read returns a value within any bound on the cells of the ring. -/
theorem readFrac_abs_le (p : PitchShift α) (d M : α) (hM : ∀ i, i < BUF → |p.buf i| ≤ M) :
    |p.readFrac d| ≤ M := by
  obtain ⟨_, _, i0, _, i1, f⟩ := ring_read_indices BUF (by decide) p.w d
  have e : p.readFrac d = p.buf (ringI0 BUF p.w d).toNat +
      ringFrac BUF p.w d * (p.buf (ringI1 BUF p.w d).toNat - p.buf (ringI0 BUF p.w d).toNat) :=
    rfl
  rw [e]
  have b0 : (ringI0 BUF p.w d).toNat < BUF := by
    have : ((BUF : Nat) : Int) = 8192 := rfl
    omega
  have b1 : (@ringI1 α _ _ BUF p.w d).toNat < BUF := by
    have : ((BUF : Nat) : Int) = 8192 := rfl
    omega
  exact interp_abs_le _ _ _ M (hM _ b0) (hM _ b1) f.1 f.2.le

end PitchShift

end OrchestraEffect
namespace OrchestraEffect

namespace PitchShift

open Pedal

/-- The Hann weight at a fractional part, when the cosine reads the literal as pi. -/
theorem hann_fract (L : Libm ℝ)
    (hcos : ∀ p : ℝ, L.cosf (2 * 3.14159265 * p) = Real.cos (2 * Real.pi * p)) (a : ℝ) :
    hann L (Int.fract a) = 0.5 - 0.5 * Real.cos (2 * Real.pi * a) := by
  unfold hann
  rw [hcos]
  have e : 2 * Real.pi * Int.fract a = 2 * Real.pi * a - (⌊a⌋ : ℝ) * (2 * Real.pi) := by
    rw [Int.fract]; ring
  rw [e, Real.cos_sub_int_mul_two_pi]

/-- A Hann weight is in [0, 1] when the cosine reads the literal as pi. -/
theorem hann_mem (L : Libm ℝ)
    (hcos : ∀ p : ℝ, L.cosf (2 * 3.14159265 * p) = Real.cos (2 * Real.pi * p)) (q : ℝ) :
    0 ≤ hann L q ∧ hann L q ≤ 1 := by
  unfold hann
  rw [hcos]
  have h1 := Real.cos_le_one (2 * Real.pi * q)
  have h2 := Real.neg_one_le_cos (2 * Real.pi * q)
  constructor <;> linarith

/-- Four Hann weights at phases a quarter apart sum to 2. -/
theorem hann_sum (L : Libm ℝ)
    (hcos : ∀ p : ℝ, L.cosf (2 * 3.14159265 * p) = Real.cos (2 * Real.pi * p))
    (p : PitchShift ℝ) (h : PhasesOk p) :
    hann L p.ph0 + hann L p.ph1 + hann L p.ph2 + hann L p.ph3 = 2 := by
  obtain ⟨h0, h1, h2, h3⟩ := h
  have e0 : hann L p.ph0 = 0.5 - 0.5 * Real.cos (2 * Real.pi * p.ph0) := by
    unfold hann; rw [hcos]
  rw [e0, h1, h2, h3, hann_fract L hcos, hann_fract L hcos, hann_fract L hcos]
  have c1 : Real.cos (2 * Real.pi * (p.ph0 + 1 / 4)) = -Real.sin (2 * Real.pi * p.ph0) := by
    rw [← Real.cos_add_pi_div_two]; congr 1; ring
  have c2 : Real.cos (2 * Real.pi * (p.ph0 + 1 / 2)) = -Real.cos (2 * Real.pi * p.ph0) := by
    rw [← Real.cos_add_pi]; congr 1; ring
  have c3 : Real.cos (2 * Real.pi * (p.ph0 + 3 / 4)) = Real.sin (2 * Real.pi * p.ph0) := by
    have : 2 * Real.pi * (p.ph0 + 3 / 4) = 2 * Real.pi * p.ph0 + Real.pi / 2 + Real.pi := by
      ring
    rw [this, Real.cos_add_pi, Real.cos_add_pi_div_two, neg_neg]
  rw [c1, c2, c3]
  ring

/-- A sum of four values within `M`, weighted by non-negative weights of sum 2 and
halved, is within `M`. -/
theorem weighted_half_abs_le (r0 r1 r2 r3 w0 w1 w2 w3 M : ℝ) (a0 : |r0| ≤ M) (a1 : |r1| ≤ M)
    (a2 : |r2| ≤ M) (a3 : |r3| ≤ M) (b0 : 0 ≤ w0) (b1 : 0 ≤ w1) (b2 : 0 ≤ w2) (b3 : 0 ≤ w3)
    (hs : w0 + w1 + w2 + w3 = 2) : |(r0 * w0 + r1 * w1 + r2 * w2 + r3 * w3) / 2| ≤ M := by
  rw [abs_le] at a0 a1 a2 a3 ⊢
  have l0 := mul_le_mul_of_nonneg_right a0.1 b0
  have l1 := mul_le_mul_of_nonneg_right a1.1 b1
  have l2 := mul_le_mul_of_nonneg_right a2.1 b2
  have l3 := mul_le_mul_of_nonneg_right a3.1 b3
  have u0 := mul_le_mul_of_nonneg_right a0.2 b0
  have u1 := mul_le_mul_of_nonneg_right a1.2 b1
  have u2 := mul_le_mul_of_nonneg_right a2.2 b2
  have u3 := mul_le_mul_of_nonneg_right a3.2 b3
  have hM : M * (w0 + w1 + w2 + w3) = 2 * M := by rw [hs]; ring
  constructor
  · rw [le_div_iff₀ (by norm_num)]; nlinarith
  · rw [div_le_iff₀ (by norm_num)]; nlinarith

theorem piLiteral_cos (p : ℝ) :
    piLiteralLibm.cosf (2 * 3.14159265 * p) = Real.cos (2 * Real.pi * p) := by
  show Real.cos (2 * 3.14159265 * p * (Real.pi / 3.14159265)) = Real.cos (2 * Real.pi * p)
  congr 1
  field_simp
  ring

end PitchShift

end OrchestraEffect

section

open Pedal OrchestraEffect

/-- C35: when the cosine reads the literal 3.14159265 as pi, after
`PitchShift::reset()` and every sequence of `process` calls (any input, ratio, sample
rate and grain length) the four grain phases are in [0, 1) and a quarter apart modulo 1;
a `process` call from such a state keeps this, its four Hann weights are non-negative
and sum to exactly 2, so that the guard `wsum > 1e-6` is taken and the returned value
is the sum of weight times sample over 2, bounded in magnitude by any bound on the cells
of the buffer. -/
theorem C35_grain_window_normalisation (L : Libm ℝ)
    (hcos : ∀ p : ℝ, L.cosf (2 * 3.14159265 * p) = Real.cos (2 * Real.pi * p)) :
    (∀ (p0 : PitchShift ℝ) (calls : List (ℝ × ℝ × ℝ × ℝ)),
      PitchShift.PhasesOk (PitchShift.processSeq L (PitchShift.reset p0) calls).1) ∧
    (∀ (p : PitchShift ℝ) (x ratio fs grainMs : ℝ), PitchShift.PhasesOk p →
      PitchShift.PhasesOk (p.process L x ratio fs grainMs).1 ∧
      (0 ≤ PitchShift.hann L (p.process L x ratio fs grainMs).1.ph0 ∧
        0 ≤ PitchShift.hann L (p.process L x ratio fs grainMs).1.ph1 ∧
        0 ≤ PitchShift.hann L (p.process L x ratio fs grainMs).1.ph2 ∧
        0 ≤ PitchShift.hann L (p.process L x ratio fs grainMs).1.ph3) ∧
      PitchShift.hann L (p.process L x ratio fs grainMs).1.ph0 +
          PitchShift.hann L (p.process L x ratio fs grainMs).1.ph1 +
          PitchShift.hann L (p.process L x ratio fs grainMs).1.ph2 +
          PitchShift.hann L (p.process L x ratio fs grainMs).1.ph3 = 2 ∧
      (p.process L x ratio fs grainMs).2 =
        (PitchShift.readFrac (p.process L x ratio fs grainMs).1
              ((p.process L x ratio fs grainMs).1.ph0 * PitchShift.grainLen fs grainMs) *
              PitchShift.hann L (p.process L x ratio fs grainMs).1.ph0 +
            PitchShift.readFrac (p.process L x ratio fs grainMs).1
              ((p.process L x ratio fs grainMs).1.ph1 * PitchShift.grainLen fs grainMs) *
              PitchShift.hann L (p.process L x ratio fs grainMs).1.ph1 +
            PitchShift.readFrac (p.process L x ratio fs grainMs).1
              ((p.process L x ratio fs grainMs).1.ph2 * PitchShift.grainLen fs grainMs) *
              PitchShift.hann L (p.process L x ratio fs grainMs).1.ph2 +
            PitchShift.readFrac (p.process L x ratio fs grainMs).1
              ((p.process L x ratio fs grainMs).1.ph3 * PitchShift.grainLen fs grainMs) *
              PitchShift.hann L (p.process L x ratio fs grainMs).1.ph3) / 2 ∧
      (∀ M : ℝ,
        (∀ i, i < PitchShift.BUF → |(p.process L x ratio fs grainMs).1.buf i| ≤ M) →
        |(p.process L x ratio fs grainMs).2| ≤ M)) := by
  constructor
  · intro p0 calls
    exact runBlock_state_inv
      (fun (p : PitchShift ℝ) (c : ℝ × ℝ × ℝ × ℝ) => p.process L c.1 c.2.1 c.2.2.1 c.2.2.2)
      PitchShift.PhasesOk
      (fun p c hp => PitchShift.process_phases L p c.1 c.2.1 c.2.2.1 c.2.2.2 hp) calls
      (PitchShift.reset p0) (PitchShift.reset_phases p0)
  · intro p x ratio fs grainMs hp
    have hp' := PitchShift.process_phases L p x ratio fs grainMs hp
    have hs := PitchShift.hann_sum L hcos _ hp'
    have hy := (PitchShift.process_pieces L p x ratio fs grainMs).2.2.2.2.2
    have hs0 : 0 + PitchShift.hann L (p.process L x ratio fs grainMs).1.ph0 +
        PitchShift.hann L (p.process L x ratio fs grainMs).1.ph1 +
        PitchShift.hann L (p.process L x ratio fs grainMs).1.ph2 +
        PitchShift.hann L (p.process L x ratio fs grainMs).1.ph3 = 2 := by rw [zero_add]; exact hs
    rw [hs0, if_pos (by norm_num), zero_add] at hy
    refine ⟨hp', ⟨(PitchShift.hann_mem L hcos _).1, (PitchShift.hann_mem L hcos _).1,
      (PitchShift.hann_mem L hcos _).1, (PitchShift.hann_mem L hcos _).1⟩, hs, hy, ?_⟩
    intro M hM
    rw [hy]
    exact PitchShift.weighted_half_abs_le _ _ _ _ _ _ _ _ M
      (PitchShift.readFrac_abs_le _ _ M hM) (PitchShift.readFrac_abs_le _ _ M hM)
      (PitchShift.readFrac_abs_le _ _ M hM) (PitchShift.readFrac_abs_le _ _ M hM)
      (PitchShift.hann_mem L hcos _).1 (PitchShift.hann_mem L hcos _).1
      (PitchShift.hann_mem L hcos _).1 (PitchShift.hann_mem L hcos _).1 hs


/-- C35 at a concrete input: with the cosine that reads the literal as pi, after
`reset()` and two `process` calls (an octave up and an octave down at 48 kHz) the phases
are a quarter apart; and the first call after `reset()`, on the input 0.5, returns a
value within 0.5. -/
theorem C35_grain_window_normalisation_witness :
    PitchShift.PhasesOk (PitchShift.processSeq piLiteralLibm
      (PitchShift.reset (ShimmerStage.raw : ShimmerStage ℝ).ps)
      [(0.5, 2, 48000, 50), (-0.25, 0.5, 48000, 96)]).1 ∧
    |(PitchShift.process piLiteralLibm
        (PitchShift.reset (ShimmerStage.raw : ShimmerStage ℝ).ps) 0.5 2 48000 50).2| ≤ 0.5 :=
  ⟨(C35_grain_window_normalisation piLiteralLibm PitchShift.piLiteral_cos).1
      (ShimmerStage.raw : ShimmerStage ℝ).ps _,
    ((C35_grain_window_normalisation piLiteralLibm PitchShift.piLiteral_cos).2
      (PitchShift.reset (ShimmerStage.raw : ShimmerStage ℝ).ps) 0.5 2 48000 50
      ((C35_grain_window_normalisation piLiteralLibm PitchShift.piLiteral_cos).1
        (ShimmerStage.raw : ShimmerStage ℝ).ps [])).2.2.2.2
      0.5 (by
        intro i _
        show |Function.update (fun _ : Nat => (0 : ℝ)) 0 0.5 i| ≤ 0.5
        by_cases h : i = 0
        · rw [h, Function.update_same, abs_of_nonneg (by norm_num)]
        · rw [Function.update_noteq h, abs_zero]; norm_num)⟩

end

/-! ### Distortion engine: the output below the clamp -/

namespace Pedal

variable {α : Type} [LinearOrderedField α] [FloorRing α]

/-- A cast toward zero of a value strictly inside `(-(n + 1), n + 1)` lands in
`[-n, n]`. -/
theorem truncToInt_abs_le {x : α} {n : Int} (h1 : -((n : α) + 1) < x)
    (h2 : x < (n : α) + 1) : -n ≤ truncToInt x ∧ truncToInt x ≤ n := by
  by_cases h0 : 0 ≤ x
  · rw [truncToInt_of_nonneg h0]
    have hf : ⌊x⌋ < n + 1 := by rw [Int.floor_lt]; push_cast; exact h2
    have hg : 0 ≤ ⌊x⌋ := Int.floor_nonneg.mpr h0
    constructor <;> omega
  · have hx : x < 0 := not_le.mp h0
    rw [truncToInt_of_neg hx]
    have hf : -(n + 1) < ⌈x⌉ := by rw [Int.lt_ceil]; push_cast; exact h1
    have hg : ⌈x⌉ ≤ 0 := by rw [Int.ceil_le]; simpa using hx.le
    constructor <;> omega

end Pedal

namespace BigMuffEffect

open Pedal

variable {α : Type} [LinearOrderedField α] [FloorRing α]

omit [FloorRing α] in
/-- The soft limiter returns a value in `[-1.2, 1.2]`. -/
theorem softLimit_abs_le (v : α) : |softLimit v| ≤ 1.2 := by
  unfold softLimit
  simp only []
  rw [abs_le]
  split_ifs with h1 h2 h2
  · constructor <;> norm_num
  · constructor <;> norm_num
  · constructor <;> norm_num
  · constructor
    · linarith [not_lt.mp h2]
    · exact not_lt.mp h1

omit [FloorRing α] in
/-- One oversampling pass keeps the anti-alias state within the soft limit, and the
value it returns is that state. -/
theorem osStep_aa (L : Libm α) (c : Coeffs α) (st : State α) (x : α) (h : |st.osLP| ≤ 1.2)
    (ha0 : 0 ≤ c.osA) (ha1 : c.osA ≤ 1) :
    |(osStep L c st x).1.osLP| ≤ 1.2 ∧ (osStep L c st x).2 = (osStep L c st x).1.osLP :=
  ⟨onePoleLP_abs_le _ _ _ _ (softLimit_abs_le _) h ha0 ha1, rfl⟩

/-- One sample of the loop from a state within the soft limit: the state stays within
it, the value cast to an integer is within 21626, and `clamp16` returns it unchanged. -/
theorem sampleStep_aa (L : Libm α) (c : Coeffs α) (st : State α) (s : Int) (h : st.AaOk)
    (ha0 : 0 ≤ c.osA) (ha1 : c.osA ≤ 1) (hsc : c.outScale = 0.55) :
    (sampleStep L c st s).1.AaOk ∧
    (sampleStep L c st s).2 =
      truncToInt ((sampleStep L c st s).1.osLP * c.outScale * 32767) ∧
    (-21626 ≤ (sampleStep L c st s).2 ∧ (sampleStep L c st s).2 ≤ 21626) := by
  have h0 := osStep_aa L c st (0.5 * (st.xPrev + (s : α) / 32768)) h ha0 ha1
  have h1 := osStep_aa L c (osStep L c st (0.5 * (st.xPrev + (s : α) / 32768))).1
    ((s : α) / 32768) h0.1 ha0 ha1
  have e1 : (sampleStep L c st s).1.osLP =
      (osStep L c (osStep L c st (0.5 * (st.xPrev + (s : α) / 32768))).1
        ((s : α) / 32768)).1.osLP := rfl
  have e2 : (sampleStep L c st s).2 =
      clamp16 (truncToInt ((sampleStep L c st s).1.osLP * c.outScale * 32767)) := rfl
  have hb : |(sampleStep L c st s).1.osLP| ≤ 1.2 := by rw [e1]; exact h1.1
  have ht : -21626 ≤ truncToInt ((sampleStep L c st s).1.osLP * c.outScale * 32767) ∧
      truncToInt ((sampleStep L c st s).1.osLP * c.outScale * 32767) ≤ 21626 := by
    rw [hsc]
    rw [abs_le] at hb
    apply truncToInt_abs_le
    · push_cast; linarith [hb.1]
    · push_cast; linarith [hb.2]
  have hc : clamp16 (truncToInt ((sampleStep L c st s).1.osLP * c.outScale * 32767)) =
      truncToInt ((sampleStep L c st s).1.osLP * c.outScale * 32767) := by
    unfold clamp16
    have c1 : ¬ (truncToInt ((sampleStep L c st s).1.osLP * c.outScale * 32767) > 32767) := by
      omega
    have c2 : ¬ (truncToInt ((sampleStep L c st s).1.osLP * c.outScale * 32767) < -32768) := by
      omega
    simp only [c1, c2, if_false]
  refine ⟨hb, e2.trans hc, ?_⟩
  rw [e2, hc]
  exact ht

omit [FloorRing α] in
theorem coeffs_aa_facts (fs : α) (p : Params α) :
    0 ≤ (coeffs fs p).osA ∧ (coeffs fs p).osA ≤ 1 ∧ (coeffs fs p).outScale = 0.55 := by
  have h := clampCoef_mem_muff (12000 / (fs * 2))
  have e : (coeffs fs p).osA = clampCoef (12000 / (fs * 2)) := rfl
  refine ⟨?_, ?_, rfl⟩
  · rw [e]; linarith [h.1]
  · rw [e]; linarith [h.2]

theorem processMonoWet_aa (L : Libm α) (st : State α) (mono : List Int) (fs : α)
    (p : Params α) (h : st.AaOk) :
    (∀ o ∈ (processMonoWet L st mono fs p).2, -21626 ≤ o ∧ o ≤ 21626) ∧
    (processMonoWet L st mono fs p).1.AaOk := by
  obtain ⟨a0, a1, a2⟩ := coeffs_aa_facts fs p
  exact runBlock_forall_inv (sampleStep L (coeffs fs p)) State.AaOk (fun _ => True)
    (fun o => -21626 ≤ o ∧ o ≤ 21626)
    (fun st s hst _ =>
      ⟨(sampleStep_aa L (coeffs fs p) st s hst a0 a1 a2).2.2,
        (sampleStep_aa L (coeffs fs p) st s hst a0 a1 a2).1⟩)
    mono st h (fun _ _ => trivial)

end BigMuffEffect

section

open Pedal BigMuffEffect

variable {α : Type} [LinearOrderedField α] [FloorRing α]

/-- C36: from `reset()`, for every history of `processMonoWet` calls (every block, knob
vector and sample rate), the anti-alias filter state stays in `[-1.2, 1.2]` and every
sample written is within 21626 in magnitude; on every sample from such a state the
value cast to an integer is within 21626, so that `clamp16` returns it unchanged. The
anti-alias coefficient is in [0.001, 0.45], the output scale is 0.55, and 21626 is the
cast of `1.2 * 0.55 * 32767`. -/
theorem C36_output_below_clamp (L : Libm α) (st0 : State α)
    (calls : List (List Int × α × Params α)) :
    (processCalls L (reset st0) calls).1.AaOk ∧
    (∀ blk ∈ (processCalls L (reset st0) calls).2, ∀ o ∈ blk, -21626 ≤ o ∧ o ≤ 21626) ∧
    (∀ (st : State α) (fs : α) (p : Params α) (s : Int), st.AaOk →
      (sampleStep L (coeffs fs p) st s).1.AaOk ∧
      (sampleStep L (coeffs fs p) st s).2 =
        truncToInt ((sampleStep L (coeffs fs p) st s).1.osLP * (coeffs fs p).outScale
          * 32767) ∧
      (-21626 ≤ (sampleStep L (coeffs fs p) st s).2 ∧
        (sampleStep L (coeffs fs p) st s).2 ≤ 21626)) ∧
    (∀ (fs : α) (p : Params α), 0.001 ≤ (coeffs fs p).osA ∧ (coeffs fs p).osA ≤ 0.45 ∧
      (coeffs fs p).outScale = 0.55) ∧
    truncToInt ((1.2 : α) * 0.55 * 32767) = 21626 := by
  have hr : (reset st0).AaOk := by
    show |(0 : α)| ≤ 1.2
    rw [abs_zero]; norm_num
  have hc := runBlock_forall_inv
    (fun (st : State α) (call : List Int × α × Params α) =>
      processMonoWet L st call.1 call.2.1 call.2.2)
    State.AaOk (fun _ => True) (fun blk => ∀ o ∈ blk, -21626 ≤ o ∧ o ≤ 21626)
    (fun st call hst _ => processMonoWet_aa L st call.1 call.2.1 call.2.2 hst)
    calls (reset st0) hr (fun _ _ => trivial)
  refine ⟨hc.2, hc.1, ?_, fun fs p => ⟨(clampCoef_mem_muff _).1, (clampCoef_mem_muff _).2, rfl⟩,
    ?_⟩
  · intro st fs p s hst
    obtain ⟨a0, a1, a2⟩ := coeffs_aa_facts fs p
    exact sampleStep_aa L (coeffs fs p) st s hst a0 a1 a2
  · rw [truncToInt_of_nonneg (by norm_num), Int.floor_eq_iff]
    constructor <;> norm_num

/-- C36 at a concrete input: the state after reset is within the soft limit, and the
first sample 32767 at 48 kHz with every knob at 1 is written back within 21626. -/
theorem C36_output_below_clamp_witness :
    (reset (construct : State ℝ)).AaOk ∧
    (-21626 ≤ (sampleStep realLibm (coeffs 48000 ⟨1, 1, 1, 1⟩)
        (reset (construct : State ℝ)) 32767).2 ∧
      (sampleStep realLibm (coeffs 48000 ⟨1, 1, 1, 1⟩)
        (reset (construct : State ℝ)) 32767).2 ≤ 21626) :=
  ⟨(C36_output_below_clamp realLibm (construct : State ℝ) []).1,
    ((C36_output_below_clamp realLibm (construct : State ℝ) []).2.2.1 _ 48000 ⟨1, 1, 1, 1⟩ 32767
      (C36_output_below_clamp realLibm (construct : State ℝ) []).1).2.2⟩

end

/-! ### Small effects: the dry path -/

namespace SimpleFX

open Pedal

variable {α : Type} [LinearOrderedField α] [FloorRing α]

/-- The two conversion helpers compose to the identity on int16 samples. -/
theorem floatToInt16_int16ToFloat (s : Int) (h1 : -32768 ≤ s) (h2 : s ≤ 32767) :
    floatToInt16 (int16ToFloat s : α) = s := by
  have hlo : (-32768 : α) ≤ (s : α) := by exact_mod_cast h1
  have hhi : (s : α) ≤ 32767 := by exact_mod_cast h2
  unfold int16ToFloat
  split_ifs with hs
  · have hsα : (0 : α) ≤ (s : α) := by exact_mod_cast hs
    have c1 : ¬ ((s : α) / 32767 < -1) := by
      rw [not_lt, le_div_iff₀ (by norm_num)]; linarith
    have c2 : ¬ ((s : α) / 32767 > 1) := by
      rw [gt_iff_lt, not_lt, div_le_iff₀ (by norm_num)]; linarith
    have c3 : (s : α) / 32767 ≥ 0 := div_nonneg hsα (by norm_num)
    have e : (s : α) / 32767 * 32767 = (s : α) := by field_simp
    simp only [floatToInt16, clampf, c1, c2, c3, if_false, if_true, e, truncToInt_intCast]
  · have hsα : (s : α) < 0 := by
      have : s < 0 := by omega
      exact_mod_cast this
    have c1 : ¬ ((s : α) / 32768 < -1) := by
      rw [not_lt, le_div_iff₀ (by norm_num)]; linarith
    have c2 : ¬ ((s : α) / 32768 > 1) := by
      rw [gt_iff_lt, not_lt, div_le_iff₀ (by norm_num)]; linarith
    have c3 : ¬ ((s : α) / 32768 ≥ 0) := by
      rw [ge_iff_le, not_le]
      exact div_neg_of_neg_of_pos hsα (by norm_num)
    have e : (s : α) / 32768 * 32768 = (s : α) := by field_simp
    simp only [floatToInt16, clampf, c1, c2, c3, if_false, e, truncToInt_intCast]

omit [FloorRing α] in
/-- The dry/wet line at mix 0 is the dry sample. -/
theorem dry_wet_zero (x wet : α) : (1 - 0) * x + 0 * wet = x := by ring

/-- A guarded sample loop whose body writes back each int16 sample unchanged, under an
invariant of the state, leaves the whole buffer unchanged for every count `n`. -/
theorem guardedBlock_unchanged {σ : Type} (step : σ → Int → σ × Int) (Inv : σ → Prop)
    (h : ∀ st s, Inv st → (-32768 ≤ s ∧ s ≤ 32767) → (step st s).2 = s ∧ Inv (step st s).1)
    (st : σ) (hst : Inv st) (blk : List Int) (hin : ∀ s ∈ blk, -32768 ≤ s ∧ s ≤ 32767)
    (n : Int) : (guardedBlock step st (some blk) n).2 = some blk := by
  unfold guardedBlock
  split_ifs with hn
  · rfl
  · have hr := (runBlock_snd_map_inv step Inv (fun s => -32768 ≤ s ∧ s ≤ 32767) id h
      (blk.take n.toNat) st hst (fun s hs => hin s (List.mem_of_mem_take hs))).1
    simp only [hr, List.map_id, List.take_append_drop]

theorem bitcrusher_dry (st : BitCrusher α) (hm : st.mix = 0) (s : Int)
    (hs : -32768 ≤ s ∧ s ≤ 32767) :
    (BitCrusher.sampleStep st s).2 = s ∧ (BitCrusher.sampleStep st s).1.mix = 0 := by
  refine ⟨?_, hm⟩
  simp only [BitCrusher.sampleStep, hm, dry_wet_zero]
  exact floatToInt16_int16ToFloat s hs.1 hs.2

theorem tremolo_dry (L : Libm α) (st : Tremolo α) (hm : st.mix = 0) (s : Int)
    (hs : -32768 ≤ s ∧ s ≤ 32767) :
    (Tremolo.sampleStep L st s).2 = s ∧ (Tremolo.sampleStep L st s).1.mix = 0 := by
  refine ⟨?_, hm⟩
  simp only [Tremolo.sampleStep, hm, dry_wet_zero]
  exact floatToInt16_int16ToFloat s hs.1 hs.2

theorem flanger_dry (L : Libm α) (st : Flanger α) (hm : st.mix = 0) (s : Int)
    (hs : -32768 ≤ s ∧ s ≤ 32767) :
    (Flanger.sampleStep L st s).2 = s ∧ (Flanger.sampleStep L st s).1.mix = 0 := by
  refine ⟨?_, hm⟩
  simp only [Flanger.sampleStep, hm, dry_wet_zero]
  exact floatToInt16_int16ToFloat s hs.1 hs.2

theorem softclip_dry (st : SoftClip α) (hm : st.mix = 0) (s : Int)
    (hs : -32768 ≤ s ∧ s ≤ 32767) :
    (SoftClip.sampleStep st s).2 = s ∧ (SoftClip.sampleStep st s).1.mix = 0 := by
  refine ⟨?_, hm⟩
  simp only [SoftClip.sampleStep, hm, dry_wet_zero]
  exact floatToInt16_int16ToFloat s hs.1 hs.2

omit [FloorRing α] in
theorem clampf_zero_unit : clampf (0 : α) 0 1 = 0 := by
  simp [clampf]

end SimpleFX

section

open Pedal SimpleFX

variable {α : Type} [LinearOrderedField α] [FloorRing α]

/-- C37: in exact arithmetic `floatToInt16 (int16ToFloat s) = s` for every int16 sample
`s`; hence the bit reducer, the tremolo, the flanger and the soft clipper with mix 0
(which is what `setParams` stores for the mix argument 0) leave every sample of a
buffer of int16 samples unchanged, for every state, every other parameter value and
every count `n`. -/
theorem C37_dry_path_exact (L : Libm α) :
    (∀ s : Int, -32768 ≤ s → s ≤ 32767 → floatToInt16 (int16ToFloat s : α) = s) ∧
    (∀ (blk : List Int) (n : Int), (∀ s ∈ blk, -32768 ≤ s ∧ s ≤ 32767) →
      (∀ st : BitCrusher α, st.mix = 0 →
        (BitCrusher.processBlock st (some blk) n).2 = some blk) ∧
      (∀ st : Tremolo α, st.mix = 0 →
        (Tremolo.processBlock L st (some blk) n).2 = some blk) ∧
      (∀ st : Flanger α, st.mix = 0 →
        (Flanger.processBlock L st (some blk) n).2 = some blk) ∧
      (∀ st : SoftClip α, st.mix = 0 →
        (SoftClip.processBlock st (some blk) n).2 = some blk)) ∧
    (∀ (st : BitCrusher α) (bits down : Int), (BitCrusher.setParams st bits down 0).mix = 0) ∧
    (∀ (st : Tremolo α) (rate depth : α), (Tremolo.setParams st rate depth 0).mix = 0) ∧
    (∀ (st : Flanger α) (base depth rate fb : α),
      (Flanger.setParams st base depth rate fb 0).mix = 0) ∧
    (∀ (st : SoftClip α) (drive : α), (SoftClip.setParams st drive 0).mix = 0) := by
  refine ⟨floatToInt16_int16ToFloat, ?_, fun _ _ _ => clampf_zero_unit,
    fun _ _ _ => clampf_zero_unit, fun _ _ _ _ _ => clampf_zero_unit,
    fun _ _ => clampf_zero_unit⟩
  intro blk n hin
  refine ⟨fun st hm => ?_, fun st hm => ?_, fun st hm => ?_, fun st hm => ?_⟩
  · exact guardedBlock_unchanged BitCrusher.sampleStep (fun st => st.mix = 0)
      (fun st s h hs => bitcrusher_dry st h s hs) st hm blk hin n
  · exact guardedBlock_unchanged (Tremolo.sampleStep L) (fun st => st.mix = 0)
      (fun st s h hs => tremolo_dry L st h s hs) st hm blk hin n
  · exact guardedBlock_unchanged (Flanger.sampleStep L) (fun st => st.mix = 0)
      (fun st s h hs => flanger_dry L st h s hs) st hm blk hin n
  · exact guardedBlock_unchanged SoftClip.sampleStep (fun st => st.mix = 0)
      (fun st s h hs => softclip_dry st h s hs) st hm blk hin n

/-- C37 at a concrete input: the soft clipper set to drive 20 and mix 0 returns the
block `[1, -2, 32767, -32768]` unchanged. -/
theorem C37_dry_path_exact_witness :
    (∀ s ∈ [(1 : Int), -2, 32767, -32768], -32768 ≤ s ∧ s ≤ 32767) ∧
    (SoftClip.setParams (SoftClip.construct : SoftClip ℝ) 20 0).mix = 0 ∧
    (SoftClip.processBlock (SoftClip.setParams (SoftClip.construct : SoftClip ℝ) 20 0)
      (some [1, -2, 32767, -32768]) 4).2 = some [1, -2, 32767, -32768] :=
  ⟨by decide, (C37_dry_path_exact realLibm).2.2.2.2.2 _ 20,
    ((C37_dry_path_exact realLibm).2.1 [1, -2, 32767, -32768] 4 (by decide)).2.2.2 _
      ((C37_dry_path_exact realLibm).2.2.2.2.2 _ 20)⟩

end
